import Mathlib

/-!
The DIE-to-JSON engine of dwarfSymbols as a shallow embedding.

The development follows `include/dwarf2json/dawrfInfoUtils.hpp`,
`include/dwarf2json/dwarf2json.hpp` and `include/dwarfng/*.hpp`.

* A `std::string` is a list of characters (`Str`).
* A computation that the C++ program cannot complete normally (undefined
  behaviour such as an out-of-range vector access or a null dereference, or an
  exception that reaches a `noexcept` boundary or `main`) is `Res.fault`.
* Loops and recursions whose termination depends on the input carry a fuel
  argument; running out of fuel is `Res.timeout`.
-/

set_option autoImplicit false

namespace DwarfSymbols

/-- A `std::string` / `std::string_view`: a sequence of characters. -/
abbrev Str := List Char

/-! ## Result of a computation -/

/-- Outcome of running a piece of the program. -/
inductive Res (α : Type) where
  /-- normal completion -/
  | ok (a : α)
  /-- undefined behaviour, or an exception that nobody catches -/
  | fault
  /-- the fuel of the model ran out -/
  | timeout
  deriving DecidableEq

namespace Res

/-- Sequencing: the first abnormal outcome wins. -/
def bind {α β : Type} (x : Res α) (f : α → Res β) : Res β :=
  match x with
  | ok a => f a
  | fault => fault
  | timeout => timeout

instance : Monad Res where
  pure := Res.ok
  bind := Res.bind

/-- Left fold with an effectful step, the shape of a range-based `for` loop. -/
def foldl {α β : Type} (f : β → α → Res β) : β → List α → Res β
  | b, [] => ok b
  | b, a :: as => Res.bind (f b a) (fun b1 => foldl f b1 as)

/-- Whether the computation completed normally. -/
def isOk {α : Type} : Res α → Bool
  | ok _ => true
  | _ => false

end Res

/-! ## Strings and formatting -/

/-- Lexicographic comparison of `std::string` (`operator<`), character by character. -/
def strLt : Str → Str → Bool
  | [], [] => false
  | [], _ :: _ => true
  | _ :: _, [] => false
  | a :: as, b :: bs =>
    if a.toNat < b.toNat then true
    else if b.toNat < a.toNat then false
    else strLt as bs

/-- Model of `std::string_view::starts_with`. -/
def startsWith (s pre : Str) : Bool := pre.isPrefixOf s

/-- Decimal rendering of an unsigned integer, `std::format("{}", n)`. -/
def fmtU (n : Nat) : Str := Nat.toDigits 10 n

/-- Decimal rendering of a signed integer, `std::format("{}", i)`. -/
def fmtI (i : Int) : Str :=
  if i < 0 then '-' :: Nat.toDigits 10 i.natAbs else Nat.toDigits 10 i.natAbs

/-- Zero padded rendering `std::format("{:05}", n)`: at least five characters wide. -/
def fmt05 (n : Nat) : Str :=
  List.replicate (5 - (fmtU n).length) '0' ++ fmtU n

/-! ## Path normalizer (`dwarfUtils::simplifyPath`) -/

/-- One call of `std::getline(iss, component, '/')` on the unread part of the stream.
`none` when nothing can be extracted (the stream is exhausted, so the `while`
condition is false); otherwise the component and the rest of the stream. -/
def getline (iss : Str) : Option (Str × Str) :=
  if iss = [] then none
  else some (iss.takeWhile (fun c => c != '/'), (iss.dropWhile (fun c => c != '/')).tail)

/-- The body of the splitting loop of `simplifyPath`: the component stack after
one component has been read. -/
def pathStep (components : List Str) (component : Str) : List Str :=
  if component = [] ∨ component = ['.'] then components
  else if component = ['.', '.'] ∧ components ≠ [] then components.dropLast
  else components ++ [component]

/-- The `while (std::getline(...))` loop of `simplifyPath` with its component stack. -/
def splitLoop : Nat → Str → List Str → List Str
  | 0, _, components => components
  | fuel + 1, iss, components =>
    match getline iss with
    | none => components
    | some (component, rest) => splitLoop fuel rest (pathStep components component)

/-- The joining loop: `simplified_path += (simplified_path.empty() ? "" : "/") + comp`. -/
def joinComponents (components : List Str) : Str :=
  components.foldl (fun acc comp => acc ++ ((if acc = [] then [] else ['/']) ++ comp)) []

/-- The component stack left by the splitting loop of `simplifyPath`; every
iteration consumes at least one character, so `path.length + 1` rounds suffice. -/
def pathComponents (path : Str) : List Str :=
  splitLoop (path.length + 1) path []

/-- Model of `dwarfUtils::simplifyPath`. -/
def simplifyPath (path : Str) : Str :=
  if path = [] then path
  else
    let simplified_path := joinComponents (pathComponents path)
    if simplified_path = [] then ['/']
    else if path.head? = some '/' then '/' :: simplified_path
    else simplified_path

/-! ## DWARF constants (values of `libdwarf/dwarf.h`, fixed by the DWARF standard) -/

abbrev DW_TAG_array_type : Nat := 0x01
abbrev DW_TAG_class_type : Nat := 0x02
abbrev DW_TAG_enumeration_type : Nat := 0x04
abbrev DW_TAG_formal_parameter : Nat := 0x05
abbrev DW_TAG_lexical_block : Nat := 0x0b
abbrev DW_TAG_member : Nat := 0x0d
abbrev DW_TAG_pointer_type : Nat := 0x0f
abbrev DW_TAG_reference_type : Nat := 0x10
abbrev DW_TAG_compile_unit : Nat := 0x11
abbrev DW_TAG_structure_type : Nat := 0x13
abbrev DW_TAG_subroutine_type : Nat := 0x15
abbrev DW_TAG_typedef : Nat := 0x16
abbrev DW_TAG_union_type : Nat := 0x17
abbrev DW_TAG_unspecified_parameters : Nat := 0x18
abbrev DW_TAG_inheritance : Nat := 0x1c
abbrev DW_TAG_ptr_to_member_type : Nat := 0x1f
abbrev DW_TAG_subrange_type : Nat := 0x21
abbrev DW_TAG_base_type : Nat := 0x24
abbrev DW_TAG_const_type : Nat := 0x26
abbrev DW_TAG_enumerator : Nat := 0x28
abbrev DW_TAG_subprogram : Nat := 0x2e
abbrev DW_TAG_template_type_param : Nat := 0x2f
abbrev DW_TAG_template_value_param : Nat := 0x30
abbrev DW_TAG_variable : Nat := 0x34
abbrev DW_TAG_volatile_type : Nat := 0x35
abbrev DW_TAG_restrict_type : Nat := 0x37
abbrev DW_TAG_namespace : Nat := 0x39
abbrev DW_TAG_rvalue_reference_type : Nat := 0x42
abbrev DW_TAG_GNU_template_parameter_pack : Nat := 0x4107
abbrev DW_TAG_GNU_formal_parameter_pack : Nat := 0x4108

abbrev DW_AT_location : Nat := 0x02
abbrev DW_AT_name : Nat := 0x03
abbrev DW_AT_byte_size : Nat := 0x0b
abbrev DW_AT_bit_offset : Nat := 0x0c
abbrev DW_AT_bit_size : Nat := 0x0d
abbrev DW_AT_const_value : Nat := 0x1c
abbrev DW_AT_containing_type : Nat := 0x1d
abbrev DW_AT_inline : Nat := 0x20
abbrev DW_AT_upper_bound : Nat := 0x2f
abbrev DW_AT_accessibility : Nat := 0x32
abbrev DW_AT_artificial : Nat := 0x34
abbrev DW_AT_count : Nat := 0x37
abbrev DW_AT_data_member_location : Nat := 0x38
abbrev DW_AT_decl_column : Nat := 0x39
abbrev DW_AT_decl_file : Nat := 0x3a
abbrev DW_AT_decl_line : Nat := 0x3b
abbrev DW_AT_declaration : Nat := 0x3c
abbrev DW_AT_external : Nat := 0x3f
abbrev DW_AT_specification : Nat := 0x47
abbrev DW_AT_type : Nat := 0x49
abbrev DW_AT_virtuality : Nat := 0x4c
abbrev DW_AT_vtable_elem_location : Nat := 0x4d
abbrev DW_AT_enum_class : Nat := 0x6d
abbrev DW_AT_linkage_name : Nat := 0x6e
abbrev DW_AT_reference : Nat := 0x77
abbrev DW_AT_rvalue_reference : Nat := 0x78
abbrev DW_AT_deleted : Nat := 0x8a
abbrev DW_AT_defaulted : Nat := 0x8b

/-! ## Attributes (`dw::attr`, `dw::LocationOp`) -/

/-- Two to the sixty-fourth, the modulus of `uint64_t` arithmetic. -/
abbrev U64 : Nat := 2 ^ 64

/-- Model of `dw::LocationOp`. -/
structure LocationOp where
  op : Nat
  opd1 : Nat
  opd2 : Nat
  opd3 : Nat
  deriving DecidableEq

/-- Model of `dw::attr::value`, a `std::variant` whose alternatives have the
indices 0 (string), 1 (`uint64_t`), 2 (`uint32_t`), 3 (`int64_t`), 4 (`int32_t`)
and 5 (`dw::LocList`). -/
inductive AttrValue where
  | str (s : Str)
  | u64 (n : Nat)
  | u32 (n : Nat)
  | i64 (i : Int)
  | i32 (i : Int)
  | loc (l : List LocationOp)
  deriving DecidableEq

/-- Model of `std::variant::index`. -/
def AttrValue.index : AttrValue → Nat
  | .str _ => 0
  | .u64 _ => 1
  | .u32 _ => 2
  | .i64 _ => 3
  | .i32 _ => 4
  | .loc _ => 5

/-- Model of `dw::attr`. -/
structure Attr where
  mOffset : Nat
  mType : Nat
  mForm : Nat
  mValue : AttrValue
  deriving DecidableEq

/-- Model of `attr.get<uint64_t>()`: `std::get` throws inside a `noexcept` function when the
variant holds another alternative, which terminates the program. -/
def Attr.getU64 (a : Attr) : Res Nat :=
  match a.mValue with
  | .u64 n => .ok n
  | _ => .fault

/-- Model of `attr.get<int64_t>()`. -/
def Attr.getI64 (a : Attr) : Res Int :=
  match a.mValue with
  | .i64 i => .ok i
  | _ => .fault

/-- Model of `attr.get<std::string_view>()`. -/
def Attr.getStr (a : Attr) : Res Str :=
  match a.mValue with
  | .str s => .ok s
  | _ => .fault

/-- Model of `attr.get<dw::LocList>()[0]`: the first location operation; indexing an empty
vector is undefined. -/
def Attr.getLoc0 (a : Attr) : Res LocationOp :=
  match a.mValue with
  | .loc (op :: _) => .ok op
  | _ => .fault

/-- Model of `attr.getValueAsInt<uint64_t>()`: integers are converted to `uint64_t`, any
other alternative yields `UINT64_MAX`. -/
def Attr.getValueAsU64 (a : Attr) : Nat :=
  match a.mValue with
  | .u64 n => n
  | .u32 n => n
  | .i64 i => (i % (U64 : Int)).toNat
  | .i32 i => (i % (U64 : Int)).toNat
  | _ => U64 - 1

/-- Model of `attr.getValueAsInt<int64_t>()`: the value converted to `int64_t`; the
fallback `UINT64_MAX` converts to `-1`. -/
def Attr.getValueAsI64 (a : Attr) : Int :=
  match a.mValue with
  | .u64 n => if n % U64 < 2 ^ 63 then ((n % U64 : Nat) : Int) else ((n % U64 : Nat) : Int) - (U64 : Int)
  | .u32 n => n
  | .i64 i => i
  | .i32 i => i
  | _ => -1

/-- Model of `(int64_t)v` for an unsigned 64-bit `v`. -/
def asI64 (v : Nat) : Int :=
  if v % U64 < 2 ^ 63 then ((v % U64 : Nat) : Int) else ((v % U64 : Nat) : Int) - (U64 : Int)

/-- Model of `dw::LocationOp::toString`; `opName` stands for libdwarf's `dwarf_get_OP_name`. -/
def LocationOp.toString (opName : Nat → Option Str) (l : LocationOp) : Str :=
  match opName l.op with
  | some name =>
    let s1 := if l.opd1 ≠ 0 then name ++ (' ' :: fmtI (asI64 l.opd1)) else name
    let s2 := if l.opd2 ≠ 0 then s1 ++ (' ' :: fmtI (asI64 l.opd2)) else s1
    if l.opd3 ≠ 0 then s2 ++ (' ' :: fmtI (asI64 l.opd3)) else s2
  | none => []

/-! ## Debugging information entries (`dw::die`, `dw::CU`, `dw::file`) -/

/-- Model of `dw::die`: offset, tag, attributes and the (materialized) children.
The parent pointer is kept beside the node, see `DieRef`. -/
inductive Die where
  | mk (mOffset : Nat) (mTAG : Nat) (mAttrs : List Attr) (mChildren : List Die)

/-- Model of `die.getOffset()`. -/
def Die.getOffset : Die → Nat
  | .mk o _ _ _ => o

/-- Model of `die.getTAG()`. -/
def Die.getTAG : Die → Nat
  | .mk _ t _ _ => t

/-- Model of `die.getAttrs()`. -/
def Die.getAttrs : Die → List Attr
  | .mk _ _ a _ => a

/-- Model of `die.getChildren(file)`. -/
def Die.getChildren : Die → List Die
  | .mk _ _ _ c => c

/-- Model of `die.findAttrByType(type)`: the first attribute of that type, if any. -/
def Die.findAttrByType (d : Die) (type : Nat) : Option Attr :=
  d.getAttrs.find? (fun a => a.mType == type)

/-- Model of `die.findAttrByOffset(off)`: the first attribute stored at that offset, if any. -/
def Die.findAttrByOffset (d : Die) (off : Nat) : Option Attr :=
  d.getAttrs.find? (fun a => a.mOffset == off)

/-- Model of `die.getName(whenNull)`. -/
def Die.getName (d : Die) (whenNull : Str) : Res Str :=
  match d.findAttrByType DW_AT_name with
  | some a => a.getStr
  | none => .ok whenNull

/-- A pointer to a DIE inside the forest: the node together with its chain of
`mParent` pointers, innermost parent first. The chain of a CU is empty. -/
structure DieRef where
  die : Die
  parents : List Die

/-- Model of `die.getParentDIE()`. -/
def DieRef.getParentDIE (r : DieRef) : Option DieRef :=
  match r.parents with
  | [] => none
  | p :: ps => some ⟨p, ps⟩

/-- The pointer to a child `c` of the DIE behind `r`. -/
def DieRef.child (r : DieRef) (c : Die) : DieRef := ⟨c, r.die :: r.parents⟩

/-- Model of `dw::CU`: a DIE that owns a source-file table. -/
structure CU where
  die : Die
  mSrcfiles : List Str

/-- Model of `dw::file`. -/
structure File where
  mCompileUnits : List CU

/-- Model of `std::upper_bound(v.begin(), v.end(), offset, a < b.getOffset())` as an index:
the position of the first element whose offset is greater than `offset` (the
range is required to be partitioned with respect to that test). -/
def upperBound : List Die → Nat → Nat
  | [], _ => 0
  | d :: ds, offset => if offset < d.getOffset then 0 else upperBound ds offset + 1

mutual
/-- Model of `dw::die::_findChildByOffset`. `none` stands for the iterator
`this->mChildren.end()`; decrementing `begin()` is undefined. -/
def Die.findChildByOffset : Die → List Die → Nat → Res (Option DieRef)
  | .mk o t a children, parents, offset =>
    Die.findChildAt children (upperBound children offset) (Die.mk o t a children :: parents) offset
/-- The element `*--it` of the child list, where `it` is at index `i`, and the
search below that element. -/
def Die.findChildAt : List Die → Nat → List Die → Nat → Res (Option DieRef)
  | _, 0, _, _ => .fault
  | [], _ + 1, _, _ => .fault
  | c :: _, 1, parents, offset =>
    if c.getOffset = offset then .ok (some ⟨c, parents⟩)
    else Die.findChildByOffset c parents offset
  | _ :: cs, i + 2, parents, offset => Die.findChildAt cs (i + 1) parents offset
end

/-- Model of `dw::file::findDIEbyOffset`; `none` is the null pointer. -/
def File.findDIEbyOffset (f : File) (offset : Nat) : Res (Option DieRef) :=
  let cus := f.mCompileUnits.map CU.die
  match upperBound cus offset with
  | 0 => .fault
  | i + 1 =>
    match cus.get? i with
    | none => .fault
    | some it =>
      if it.getOffset = offset then .ok (some ⟨it, []⟩)
      else Die.findChildByOffset it [] offset

/-! ## The output document (`nlohmann::json`) -/

/-- Model of `nlohmann::json`: objects are `std::map`s, kept as association lists
in key order. -/
inductive Json where
  | null
  | uint (n : Nat)
  | int (i : Int)
  | str (s : Str)
  | arr (l : List Json)
  | obj (kvs : List (Str × Json))

/-- Model of `std::map::find`. -/
def mapFind : List (Str × Json) → Str → Option Json
  | [], _ => none
  | (k, v) :: rest, key => if k = key then some v else mapFind rest key

/-- Whether a key is already present in the map. -/
def mapHas (kvs : List (Str × Json)) (key : Str) : Bool := (mapFind kvs key).isSome

/-- Replace the value stored under a key that is present. -/
def mapReplace : List (Str × Json) → Str → Json → List (Str × Json)
  | [], _, _ => []
  | (k, v) :: rest, key, val =>
    if k = key then (k, val) :: rest else (k, v) :: mapReplace rest key val

/-- Insert a new key at its place in key order. -/
def mapInsert : List (Str × Json) → Str → Json → List (Str × Json)
  | [], key, val => [(key, val)]
  | (k, v) :: rest, key, val =>
    if strLt key k then (key, val) :: (k, v) :: rest else (k, v) :: mapInsert rest key val

/-- The effect of `f(j[key])` on `j`: `operator[]` turns `null` into an object,
default-constructs a missing entry as `null`, and throws on any other kind of
value; `f` gives the new content of the entry. -/
def Json.modifyKey (j : Json) (key : Str) (f : Json → Res Json) : Res Json :=
  match j with
  | .null => Res.bind (f .null) (fun v => .ok (.obj [(key, v)]))
  | .obj kvs =>
    match mapFind kvs key with
    | some old => Res.bind (f old) (fun v => .ok (.obj (mapReplace kvs key v)))
    | none => Res.bind (f .null) (fun v => .ok (.obj (mapInsert kvs key v)))
  | _ => .fault

/-- The assignment `j[key] = val`. -/
def Json.setKey (j : Json) (key : Str) (val : Json) : Res Json :=
  j.modifyKey key (fun _ => .ok val)

/-- The call `j.emplace(key, val)`: inserts only when the key is absent; `null`
becomes an object; any other kind of value throws. -/
def Json.emplace (j : Json) (key : Str) (val : Json) : Res Json :=
  match j with
  | .null => .ok (.obj [(key, val)])
  | .obj kvs => if mapHas kvs key then .ok (.obj kvs) else .ok (.obj (mapInsert kvs key val))
  | _ => .fault

/-- The test `j.find(key) != j.end()`; `find` on a value that is not an object
returns `end()`. -/
def Json.hasKey (j : Json) (key : Str) : Bool :=
  match j with
  | .obj kvs => mapHas kvs key
  | _ => false

/-- Read access to the entry under a key, if the value is an object holding it. -/
def Json.getKey (j : Json) (key : Str) : Option Json :=
  match j with
  | .obj kvs => mapFind kvs key
  | _ => none

/-- The assignment `j[idx] = val` on an array: `null` becomes an array, the array
is filled with `null` up to `idx`, any other kind of value throws. -/
def Json.setIdx (j : Json) (idx : Nat) (val : Json) : Res Json :=
  match j with
  | .null => .ok (.arr (List.replicate idx .null ++ [val]))
  | .arr l =>
    if idx < l.length then .ok (.arr (l.set idx val))
    else .ok (.arr (l ++ List.replicate (idx - l.length) .null ++ [val]))
  | _ => .fault

/-- The predicate `j.empty()`. -/
def Json.empty (j : Json) : Bool :=
  match j with
  | .null => true
  | .arr l => l.isEmpty
  | .obj kvs => kvs.isEmpty
  | _ => false

/-- A `std::vector<std::string>` converted to a JSON array of strings. -/
def Json.ofStrs (l : List Str) : Json := .arr (l.map Json.str)

/-- The pointer walk `out = &(*out)[it]` along `path` from `j`, followed by the
update `f` of the value reached. Missing entries are created on the way. -/
def Json.modifyAt : List Str → (Json → Res Json) → Json → Res Json
  | [], f, j => f j
  | key :: rest, f, j => j.modifyKey key (Json.modifyAt rest f)

/-- The walk along `path` alone, as in `for (it : path) out = &(*out)[it];`. -/
def Json.touch (path : List Str) (j : Json) : Res Json :=
  Json.modifyAt path Res.ok j

/-- The value a walk along `path` reaches, when every step finds its key. -/
def Json.getAt : List Str → Json → Option Json
  | [], j => some j
  | key :: rest, j =>
    match j.getKey key with
    | some v => Json.getAt rest v
    | none => none

/-! ## Scope resolver (`dwarf2json::findWhereToStore`) -/

/-- The members of `dwarf2json` that the parsers read, with libdwarf's table of
operation names (`dwarf_get_OP_name`). -/
structure Env where
  mDbg : File
  mDeclFileFilter : Str
  opName : Nat → Option Str

/-- The vector access `declFiles[declFileIdx - 1]` with `uint64_t` arithmetic;
an index outside the vector is undefined behaviour. -/
def srcfileAt (declFiles : List Str) (declFileIdx : Nat) : Res Str :=
  match declFiles.get? ((declFileIdx + (U64 - 1)) % U64) with
  | some f => .ok f
  | none => .fault

/-- The value `decl_line ? decl_line->get<uint64_t>() : 0` for a DIE. -/
def declLineOf (d : Die) : Res Nat :=
  match d.findAttrByType DW_AT_decl_line with
  | some a => a.getU64
  | none => .ok 0

/-- The ancestor loop of `findWhereToStore`, started at `parentDIE` with the
keys emitted so far in `ret`; the loop ends when the parent pointer is null. -/
def findWhereToStoreLoop (env : Env) (declFiles : List Str) :
    Nat → List Die → Nat → Str → List Str → Res (List Str)
  | _, [], _, declFile, ret => .ok (ret ++ [declFile]).reverse
  | 0, _ :: _, _, _, _ => .timeout
  | fuel + 1, parentDIE :: up, declFileIdx, declFile, ret =>
    let tag := parentDIE.getTAG
    Res.bind (parentDIE.getName "`anonymous`".toList) fun name =>
    if tag = DW_TAG_namespace then
      findWhereToStoreLoop env declFiles fuel up declFileIdx declFile
        (ret ++ ["namespace: ".toList ++ name])
    else if tag = DW_TAG_class_type then
      findWhereToStoreLoop env declFiles fuel up declFileIdx declFile
        (ret ++ ["class: ".toList ++ name])
    else if tag = DW_TAG_structure_type then
      findWhereToStoreLoop env declFiles fuel up declFileIdx declFile
        (ret ++ ["struct: ".toList ++ name])
    else if tag = DW_TAG_union_type then
      findWhereToStoreLoop env declFiles fuel up declFileIdx declFile
        (ret ++ ["content".toList] ++ ["union: ".toList ++ name])
    else if tag = DW_TAG_subprogram then
      match parentDIE.findAttrByType DW_AT_specification with
      | some specificationAttr =>
        Res.bind specificationAttr.getU64 fun specificationOffset =>
        Res.bind (env.mDbg.findDIEbyOffset specificationOffset) fun found =>
        match found with
        | none => findWhereToStoreLoop env declFiles fuel up declFileIdx declFile ret
        | some specification =>
          Res.bind (declLineOf specification.die) fun line =>
          Res.bind (specification.die.getName []) fun specName =>
          let ret1 := ret ++ ["local_info".toList] ++ [fmt05 line ++ "-func: ".toList ++ specName]
          let idx1 :=
            match specification.die.findAttrByType DW_AT_decl_file with
            | some a => a.getValueAsU64
            | none => declFileIdx
          Res.bind (srcfileAt declFiles idx1) fun file =>
          findWhereToStoreLoop env declFiles fuel specification.parents idx1 (simplifyPath file) ret1
      | none =>
        Res.bind (declLineOf parentDIE) fun line =>
        Res.bind (parentDIE.getName []) fun funcName =>
        findWhereToStoreLoop env declFiles fuel up declFileIdx declFile
          (ret ++ ["local_info".toList] ++ [fmt05 line ++ "-func: ".toList ++ funcName])
    else if tag = DW_TAG_lexical_block then
      findWhereToStoreLoop env declFiles fuel up declFileIdx declFile
        (ret ++ [fmtU parentDIE.getOffset ++ "-lexical_block".toList])
    else
      findWhereToStoreLoop env declFiles fuel up declFileIdx declFile ret

/-- Model of `dwarf2json::findWhereToStore`; the empty list means "do not store". -/
def findWhereToStore (fuel : Nat) (env : Env) (compileUnit : CU) (DIE : DieRef) :
    Res (List Str) :=
  match DIE.die.findAttrByType DW_AT_decl_file with
  | none => .ok []
  | some attr =>
    let declFileIdx := attr.getValueAsU64
    let declFiles := compileUnit.mSrcfiles
    if declFileIdx > declFiles.length then .ok []
    else
      Res.bind (srcfileAt declFiles declFileIdx) fun file =>
      let declFile := simplifyPath file
      if !(startsWith declFile env.mDeclFileFilter) then .ok []
      else findWhereToStoreLoop env declFiles fuel DIE.parents declFileIdx declFile []

/-! ## Name qualifier (`dwarf2json::completeNameScope`) -/

/-- The ancestor loop of `completeNameScope`; `dieName` is the name returned
when the chain of parents ends without a compile unit. -/
def completeNameScopeLoop (dieName : Str) : List Die → Str → Res Str
  | [], _ => .ok dieName
  | iterDie :: up, nameStr =>
    let tagId := iterDie.getTAG
    Res.bind (iterDie.getName []) fun name =>
    let off := fmtU iterDie.getOffset
    if tagId = DW_TAG_compile_unit then .ok nameStr
    else
      let anon (kind : String) : Str :=
        if nameStr = [] then kind.toList ++ off ++ "`::".toList ++ nameStr else nameStr
      let nameStr1 :=
        if tagId = DW_TAG_namespace then anon "`anon_nmsp_"
        else if tagId = DW_TAG_class_type then anon "`anon_class_"
        else if tagId = DW_TAG_structure_type then anon "`anon_struct_"
        else if tagId = DW_TAG_union_type then anon "`anon_union_"
        else if tagId = DW_TAG_enumeration_type then anon "`anon_enum_"
        else nameStr
      completeNameScopeLoop dieName up (name ++ "::".toList ++ nameStr1)

/-- Model of `dwarf2json::completeNameScope`. -/
def completeNameScope (die : DieRef) : Res Str :=
  Res.bind (die.die.getName []) fun dieName =>
  completeNameScopeLoop dieName die.parents dieName

/-! ## Type reconstructor (`dwarf2json::getTypeInfo`) -/

/-- Model of `dwarf2json::parsePtrToMemberType`: the new value of `typeName`. -/
def parsePtrToMemberType (env : Env) (ptrToMembDie : DieRef) (typeName : Str) : Res Str :=
  match ptrToMembDie.die.findAttrByType DW_AT_containing_type with
  | none => .ok ("`err_type`::*".toList ++ typeName)
  | some containingType =>
    Res.bind containingType.getU64 fun ctTypeOffset =>
    Res.bind (env.mDbg.findDIEbyOffset ctTypeOffset) fun found =>
    match found with
    | none => .ok ("`err_type_".toList ++ fmtU ctTypeOffset ++ "`::*".toList ++ typeName)
    | some ctTypeDie =>
      Res.bind (completeNameScope ctTypeDie) fun scope =>
      .ok (scope ++ "::*".toList ++ typeName)

/-- The subrange loop of the array case: one bracket per `DW_TAG_subrange_type` child. -/
def arraySuffix : List Die → Str → Res Str
  | [], typeName => .ok typeName
  | child :: rest, typeName =>
    if child.getTAG = DW_TAG_subrange_type then
      match child.findAttrByType DW_AT_count, child.findAttrByType DW_AT_upper_bound with
      | some countAttr, _ =>
        Res.bind countAttr.getU64 fun n =>
        arraySuffix rest (typeName ++ "[".toList ++ fmtU n ++ "]".toList)
      | none, some countAttr2 =>
        Res.bind countAttr2.getU64 fun n =>
        arraySuffix rest (typeName ++ "[".toList ++ fmtU ((n + 1) % U64) ++ "]".toList)
      | none, none => arraySuffix rest (typeName ++ "[no_range]".toList)
    else arraySuffix rest typeName

/-- State of the loop of `getTypeInfo`. -/
structure TypeState where
  typeName : Str
  readDirection : Int
  isConst : Bool
  isVolatile : Bool

/-- The dispatch on the tag of an unnamed type DIE inside the loop of `getTypeInfo`: the new
state and the flag `noVoidType`. `subroutine` is the call of `parseSubroutineType` on this DIE. -/
def typeStep (env : Env) (typeDIE : DieRef) (st : TypeState) (subroutine : Str → Res Str) :
    Res (TypeState × Bool) :=
  let tagId := typeDIE.die.getTAG
  let paren (t : Str) : Str := if st.readDirection = -1 then "(".toList ++ t ++ ")".toList else t
  let anony (kind : String) : Str :=
    kind.toList ++ fmtU typeDIE.die.getOffset ++ "` ".toList ++ st.typeName
  if tagId = DW_TAG_const_type then .ok ({ st with isConst := true }, false)
  else if tagId = DW_TAG_volatile_type then .ok ({ st with isVolatile := true }, false)
  else if tagId = DW_TAG_pointer_type then
    .ok ({ st with typeName := "*".toList ++ st.typeName, readDirection := -1 }, false)
  else if tagId = DW_TAG_reference_type then
    .ok ({ st with typeName := "&".toList ++ st.typeName, readDirection := -1 }, false)
  else if tagId = DW_TAG_rvalue_reference_type then
    .ok ({ st with typeName := "&&".toList ++ st.typeName, readDirection := -1 }, false)
  else if tagId = DW_TAG_restrict_type then
    .ok ({ st with typeName := "__restrict ".toList ++ st.typeName, readDirection := -1 }, false)
  else if tagId = DW_TAG_array_type then
    Res.bind (arraySuffix typeDIE.die.getChildren (paren st.typeName)) fun t =>
    .ok ({ st with typeName := t, readDirection := 1 }, false)
  else if tagId = DW_TAG_ptr_to_member_type then
    Res.bind (parsePtrToMemberType env typeDIE st.typeName) fun t =>
    .ok ({ st with typeName := t, readDirection := -1 }, false)
  else if tagId = DW_TAG_subroutine_type then
    Res.bind (subroutine (paren st.typeName)) fun t =>
    .ok ({ st with typeName := t, readDirection := 1 }, false)
  else if tagId = DW_TAG_union_type then
    .ok ({ st with typeName := anony "`anony_union_" }, true)
  else if tagId = DW_TAG_class_type then
    .ok ({ st with typeName := anony "`anony_class_" }, true)
  else if tagId = DW_TAG_structure_type then
    .ok ({ st with typeName := anony "`anony_struct_" }, true)
  else if tagId = DW_TAG_enumeration_type then
    .ok ({ st with typeName := anony "`anony_enum_" }, true)
  else .ok (st, false)

mutual
/-- Model of `dwarf2json::getTypeInfo`: the formatted string and the value
written through `constOrVolatile` (`0` when nothing is written). -/
def getTypeInfo : Nat → Env → DieRef → Str → Res (Str × Nat)
  | 0, _, _, _ => .timeout
  | fuel + 1, env, die, varName =>
    match die.die.findAttrByType DW_AT_type with
    | none => .ok ("void ".toList ++ varName, 0)
    | some typeAttr =>
      Res.bind typeAttr.getU64 fun typeDIEoffset =>
      Res.bind (env.mDbg.findDIEbyOffset typeDIEoffset) fun typeDIE =>
      Res.bind (getTypeInfoLoop fuel env typeDIE ⟨varName, 1, false, false⟩) fun st =>
      .ok ((if st.isVolatile then "volatile ".toList else []) ++
           ((if st.isConst then "const ".toList else []) ++ st.typeName),
           (if st.isVolatile then 2 else 0) + (if st.isConst then 1 else 0))
/-- The `for (typeDIE = ...; typeDIE;)` loop of `getTypeInfo`. -/
def getTypeInfoLoop : Nat → Env → Option DieRef → TypeState → Res TypeState
  | _, _, none, st => .ok st
  | 0, _, some _, _ => .timeout
  | fuel + 1, env, some typeDIE, st =>
    Res.bind (typeDIE.die.getName []) fun name =>
    if name ≠ [] then
      Res.bind (completeNameScope typeDIE) fun scope =>
      .ok { st with typeName := scope ++ " ".toList ++ st.typeName }
    else
      let step := typeStep env typeDIE st (parseSubroutineType fuel env typeDIE)
      Res.bind step fun (st1, noVoidType) =>
      match typeDIE.die.findAttrByType DW_AT_type with
      | none =>
        if noVoidType then .ok st1
        else .ok { st1 with typeName := "void ".toList ++ st1.typeName }
      | some nextTypeAttr =>
        Res.bind nextTypeAttr.getU64 fun off =>
        Res.bind (env.mDbg.findDIEbyOffset off) fun next =>
        getTypeInfoLoop fuel env next st1
/-- Model of `dwarf2json::parseSubroutineType`: the new value of `typeName`. -/
def parseSubroutineType : Nat → Env → DieRef → Str → Res Str
  | 0, _, _, _ => .timeout
  | fuel + 1, env, subroutineDie, typeName =>
    let body : Res (Str × Bool) :=
      Res.foldl
        (fun (acc : Str × Bool) (child : Die) =>
          if child.getTAG = DW_TAG_formal_parameter then
            if (child.findAttrByOffset DW_AT_artificial).isSome then
              Res.bind (getTypeInfo fuel env (subroutineDie.child child) "this".toList) fun r =>
              .ok (acc.1, r.2 % 2 = 1)
            else
              Res.bind (getTypeInfo fuel env (subroutineDie.child child) []) fun r =>
              .ok (acc.1 ++ r.1 ++ ", ".toList, acc.2)
          else if child.getTAG = DW_TAG_unspecified_parameters then
            .ok (acc.1 ++ "..., ".toList, acc.2)
          else .ok acc)
        (typeName ++ "(".toList, false) subroutineDie.die.getChildren
    Res.bind body fun (t, isConstFunction) =>
    if t.length < 2 then .fault
    else
      let erased := t.take (t.length - 2)
      let isRef := (subroutineDie.die.findAttrByOffset DW_AT_reference).isSome
      let isRvalueRef := (subroutineDie.die.findAttrByOffset DW_AT_rvalue_reference).isSome
      .ok (erased ++ ")".toList ++ (if isConstFunction then " const".toList else []) ++
           (if isRef then " &".toList else if isRvalueRef then " &&".toList else []))
end

/-! ## Entity parsers -/

/-- The integer literal `1` stored in a JSON field. -/
abbrev Json.one : Json := .int 1

/-- The assignment `info["0-decl_pos"][idx] = val`. -/
def setDeclPos (info : Json) (idx : Nat) (val : Nat) : Res Json :=
  info.modifyKey "0-decl_pos".toList (fun p => p.setIdx idx (.uint val))

/-- The storage key `std::format("{:05}-<kind>: {}", line, name)`. -/
def storeKeyOf (line : Nat) (kind : String) (name : Str) : Str :=
  fmt05 line ++ ("-".toList ++ kind.toList ++ ": ".toList) ++ name

/-- One round of the attribute loop of `parseFunction` (declaration form). -/
def funcAttr (funcInfo : Json) (attr : Attr) : Res Json :=
  let typeId := attr.mType
  if typeId = DW_AT_name then
    Res.bind attr.getStr fun v => funcInfo.setKey "0-name".toList (.str v)
  else if typeId = DW_AT_linkage_name then
    Res.bind attr.getStr fun v => funcInfo.setKey "0-linkage".toList (.str v)
  else if typeId = DW_AT_external then funcInfo.setKey "0-external".toList Json.one
  else if typeId = DW_AT_accessibility then
    Res.bind attr.getU64 fun v => funcInfo.setKey "1-accessibility".toList (.uint v)
  else if typeId = DW_AT_defaulted then
    Res.bind attr.getU64 fun v => funcInfo.setKey "1-default".toList (.uint v)
  else if typeId = DW_AT_deleted then funcInfo.setKey "1-deleted".toList Json.one
  else if typeId = DW_AT_decl_line then
    Res.bind attr.getU64 fun v => setDeclPos funcInfo 0 v
  else if typeId = DW_AT_decl_column then
    Res.bind attr.getU64 fun v => setDeclPos funcInfo 1 v
  else if typeId = DW_AT_virtuality then
    Res.bind attr.getU64 fun v => funcInfo.setKey "1-virtual".toList (.uint v)
  else if typeId = DW_AT_inline then
    Res.bind attr.getU64 fun v => funcInfo.setKey "1-inline".toList (.uint v)
  else if typeId = DW_AT_vtable_elem_location then
    Res.bind attr.getLoc0 fun op => funcInfo.setKey "1-vtable_loc".toList (.uint op.opd1)
  else if typeId = DW_AT_reference then funcInfo.setKey "1-ref_decorate".toList Json.one
  else if typeId = DW_AT_rvalue_reference then funcInfo.setKey "1-r_ref_decorate".toList Json.one
  else if typeId = DW_AT_artificial then funcInfo.setKey "1-artificial".toList Json.one
  else .ok funcInfo

/-- The locals that the child loop of `parseFunction` (declaration form) updates. -/
structure FuncScan where
  paramTypes : List Str
  paramNames : List Str
  templateParams : List Str
  laterToParse : List Die
  funcInfo : Json

/-- The default `"/*Unnamed*/"` of the parameter names. -/
abbrev unnamedParam : Str := "/*Unnamed*/".toList

/-- One round of the child loop of `parseFunction` (declaration form). -/
def funcChild (fuel : Nat) (env : Env) (funcDIE : DieRef) (sc : FuncScan) (c : Die) :
    Res FuncScan :=
  let localInfoDIE := funcDIE.child c
  let tagId := c.getTAG
  if tagId = DW_TAG_formal_parameter then
    if (c.findAttrByType DW_AT_artificial).isSome then
      Res.bind (getTypeInfo fuel env localInfoDIE "{obj_ptr}".toList) fun r =>
      Res.bind (if r.2 % 2 = 1 then sc.funcInfo.setKey "const_decorate".toList Json.one
                else .ok sc.funcInfo) fun fi =>
      Res.bind (c.getName unnamedParam) fun nm =>
      .ok { sc with paramTypes := sc.paramTypes ++ [r.1], paramNames := sc.paramNames ++ [nm],
                    funcInfo := fi }
    else
      Res.bind (getTypeInfo fuel env localInfoDIE "{}".toList) fun r =>
      Res.bind (c.getName unnamedParam) fun nm =>
      .ok { sc with paramTypes := sc.paramTypes ++ [r.1], paramNames := sc.paramNames ++ [nm] }
  else if tagId = DW_TAG_unspecified_parameters then
    Res.bind (c.getName unnamedParam) fun nm =>
    .ok { sc with paramTypes := sc.paramTypes ++ ["...".toList], paramNames := sc.paramNames ++ [nm] }
  else if tagId = DW_TAG_GNU_formal_parameter_pack then
    .ok { sc with paramNames := sc.paramNames ++ ["...args".toList] }
  else if tagId = DW_TAG_template_type_param then
    Res.bind (c.getName unnamedParam) fun nm =>
    .ok { sc with templateParams := sc.templateParams ++ [nm] }
  else if tagId = DW_TAG_template_value_param then
    Res.bind (c.getName unnamedParam) fun nm =>
    Res.bind (getTypeInfo fuel env localInfoDIE nm) fun r =>
    .ok { sc with templateParams := sc.templateParams ++ [r.1] }
  else if tagId = DW_TAG_GNU_template_parameter_pack then
    Res.bind (c.getName unnamedParam) fun nm =>
    .ok { sc with templateParams := sc.templateParams ++ ["...".toList ++ nm] }
  else .ok { sc with laterToParse := sc.laterToParse ++ [c] }

/-- One round of the child loop of `parseFunction` (out-of-line definition):
the parameter names and the children to dispatch later. -/
def specChild (acc : List Str × List Die) (c : Die) : Res (List Str × List Die) :=
  let tagId := c.getTAG
  if tagId = DW_TAG_formal_parameter ∨ tagId = DW_TAG_unspecified_parameters then
    Res.bind (c.getName unnamedParam) fun nm => .ok (acc.1 ++ [nm], acc.2)
  else if tagId = DW_TAG_GNU_formal_parameter_pack then .ok (acc.1 ++ ["...args".toList], acc.2)
  else .ok (acc.1, acc.2 ++ [c])

/-- The fields that an out-of-line definition lays over the record of its
specification: parameter names, `0-linkage` and `otherOffset`. -/
def funcOverlay (funcDIE : Die) (paramNames : List Str) (funcInfo : Json) : Res Json :=
  Res.bind (if paramNames ≠ [] then funcInfo.setKey "2-param_name".toList (Json.ofStrs paramNames)
            else .ok funcInfo) fun fi1 =>
  Res.bind (match funcDIE.findAttrByType DW_AT_linkage_name with
            | some attr => Res.bind attr.getStr fun v => fi1.setKey "0-linkage".toList (.str v)
            | none => .ok fi1) fun fi2 =>
  fi2.setKey "otherOffset".toList (.uint funcDIE.getOffset)

/-- The record that `parseFunction` (declaration form) builds for `funcDIE`,
with the children left for later dispatch. -/
def funcRecord (fuel : Nat) (env : Env) (funcDIE : DieRef) : Res (Json × List Die) :=
  Res.bind (Json.null.setKey "offset".toList (.uint funcDIE.die.getOffset)) fun fi0 =>
  Res.bind (Res.foldl funcAttr fi0 funcDIE.die.getAttrs) fun fi1 =>
  Res.bind (getTypeInfo fuel env funcDIE []) fun rt =>
  Res.bind (fi1.emplace "1-type".toList (.str rt.1)) fun fi2 =>
  Res.bind (Res.foldl (funcChild fuel env funcDIE) ⟨[], [], [], [], fi2⟩
              funcDIE.die.getChildren) fun sc =>
  Res.bind (if sc.paramTypes ≠ [] then
              sc.funcInfo.emplace "2-param_type".toList (Json.ofStrs sc.paramTypes)
            else .ok sc.funcInfo) fun fi3 =>
  Res.bind (if sc.templateParams ≠ [] then
              fi3.emplace "2-template_param".toList (Json.ofStrs sc.templateParams)
            else .ok fi3) fun fi4 =>
  Res.bind (if fi4.hasKey "2-param_name".toList then .ok fi4
            else fi4.emplace "2-param_name".toList (Json.ofStrs sc.paramNames)) fun fi5 =>
  .ok (fi5, sc.laterToParse)

/-- Whether the value reached along `path` already holds `storeKey`, the test
`out->find(storeKey) != out->end()`. -/
def hasRecord (out : Json) (path : List Str) (storeKey : Str) : Bool :=
  match Json.getAt path out with
  | some j => j.hasKey storeKey
  | none => false

/-- One round of the attribute loop of `parseVariable` (declaration form). -/
def varAttr (env : Env) (variableInfo : Json) (attr : Attr) : Res Json :=
  let attrType := attr.mType
  if attrType = DW_AT_name then
    Res.bind attr.getStr fun v => variableInfo.setKey "0-name".toList (.str v)
  else if attrType = DW_AT_decl_line then setDeclPos variableInfo 0 attr.getValueAsU64
  else if attrType = DW_AT_decl_column then setDeclPos variableInfo 1 attr.getValueAsU64
  else if attrType = DW_AT_data_member_location then
    variableInfo.setKey "1-member_location".toList (.uint attr.getValueAsU64)
  else if attrType = DW_AT_declaration then variableInfo.setKey "0-declaration".toList Json.one
  else if attrType = DW_AT_external then variableInfo.setKey "0-external".toList Json.one
  else if attrType = DW_AT_accessibility then
    variableInfo.setKey "1-accessibility".toList (.uint attr.getValueAsU64)
  else if attrType = DW_AT_inline then
    variableInfo.setKey "1-inline".toList (.uint attr.getValueAsU64)
  else if attrType = DW_AT_location then
    Res.bind attr.getLoc0 fun op =>
    variableInfo.emplace "1-location".toList (.str (op.toString env.opName))
  else if attrType = DW_AT_linkage_name then
    Res.bind attr.getStr fun v => variableInfo.setKey "1-linkage".toList (.str v)
  else if attrType = DW_AT_const_value then
    if attr.mValue.index = 1 ∨ attr.mValue.index = 2 then
      variableInfo.setKey "1-const_val".toList (.uint attr.getValueAsU64)
    else if attr.mValue.index = 3 ∨ attr.mValue.index = 4 then
      variableInfo.setKey "1-const_val".toList (.int attr.getValueAsI64)
    else .ok variableInfo
  else if attrType = DW_AT_bit_size then
    Res.bind attr.getU64 fun v => variableInfo.setKey "1-bit_size".toList (.uint v)
  else if attrType = DW_AT_bit_offset then
    Res.bind attr.getU64 fun v => variableInfo.setKey "1-bit_offset".toList (.uint v)
  else .ok variableInfo

/-- One round of the attribute loop of `parseVariable` (definition with a
specification): `location` and `linkage_name` are laid over the record. -/
def varOverlayAttr (env : Env) (varJson : Json) (attr : Attr) : Res Json :=
  let typeId := attr.mType
  if typeId = DW_AT_location then
    Res.bind attr.getLoc0 fun op => varJson.emplace "1-location".toList (.str (op.toString env.opName))
  else if typeId = DW_AT_linkage_name then
    Res.bind attr.getStr fun v => varJson.setKey "1-linkage".toList (.str v)
  else .ok varJson

/-- The `memb` / `var` part of the storage key of a variable. -/
def varKind (memberVariable : Bool) : String := if memberVariable then "memb" else "var"

/-- The default name of a variable. -/
abbrev unnamedVar : Str := "`Unnamed`".toList

/-- The default name of every other entity. -/
abbrev anonymousName : Str := "`anonymous`".toList

/-- The record that `parseVariable` (declaration form) builds for `varDIE`. -/
def varRecord (fuel : Nat) (env : Env) (varDIE : DieRef) : Res Json :=
  Res.bind (Json.null.setKey "offset".toList (.uint varDIE.die.getOffset)) fun v0 =>
  Res.bind (Res.foldl (varAttr env) v0 varDIE.die.getAttrs) fun v1 =>
  Res.bind (varDIE.die.getName unnamedVar) fun nm =>
  Res.bind (getTypeInfo fuel env varDIE nm) fun ty =>
  v1.emplace "1-type".toList (.str ty.1)

/-- Model of `dwarf2json::parseVariable`. -/
def parseVariable : Nat → Env → CU → DieRef → Bool → Json → Res Json
  | 0, _, _, _, _, _ => .timeout
  | fuel + 1, env, compileUnit, varDIE, memberVariable, out =>
    match varDIE.die.findAttrByType DW_AT_specification with
    | some hasSpecification =>
      Res.bind hasSpecification.getU64 fun off =>
      Res.bind (env.mDbg.findDIEbyOffset off) fun found =>
      match found with
      | none => .ok out
      | some specificVar =>
        Res.bind (findWhereToStore fuel env compileUnit specificVar) fun path =>
        if path = [] then .ok out
        else
          let memberVariable1 : Bool := specificVar.die.getTAG = DW_TAG_member
          Res.bind (declLineOf specificVar.die) fun line =>
          Res.bind (specificVar.die.getName unnamedVar) fun nm =>
          let storeKey := storeKeyOf line (varKind memberVariable1) nm
          Res.bind (Json.touch path out) fun out1 =>
          Res.bind (if hasRecord out1 path storeKey then .ok out1
                    else parseVariable fuel env compileUnit specificVar memberVariable1 out1)
            fun out2 =>
          Json.modifyAt (path ++ [storeKey])
            (fun varJson => Res.foldl (varOverlayAttr env) varJson varDIE.die.getAttrs) out2
    | none =>
      Res.bind (findWhereToStore fuel env compileUnit varDIE) fun path =>
      if path = [] then .ok out
      else
        Res.bind (varRecord fuel env varDIE) fun variableInfo =>
        Res.bind (declLineOf varDIE.die) fun line =>
        Res.bind (varDIE.die.getName unnamedVar) fun nm =>
        let storeKey := storeKeyOf line (varKind memberVariable) nm
        Json.modifyAt path (fun o => o.emplace storeKey variableInfo) out

/-- One round of the attribute loop of `parseEnum`. -/
def enumAttr (enumInfo : Json) (attr : Attr) : Res Json :=
  let attrType := attr.mType
  if attrType = DW_AT_name then
    Res.bind attr.getStr fun v => enumInfo.setKey "0-name".toList (.str v)
  else if attrType = DW_AT_enum_class then enumInfo.setKey "0-enum_class".toList Json.one
  else if attrType = DW_AT_decl_line then setDeclPos enumInfo 0 attr.getValueAsU64
  else if attrType = DW_AT_decl_column then setDeclPos enumInfo 1 attr.getValueAsU64
  else .ok enumInfo

/-- One round of the enumerator loop of `parseEnum`; a missing `const_value` is a
null pointer dereference. -/
def enumChild (enumInfo : Json) (enumerator : Die) : Res Json :=
  if enumerator.getTAG = DW_TAG_enumerator then
    match enumerator.findAttrByType DW_AT_const_value with
    | none => .fault
    | some enumVal =>
      Res.bind (enumerator.getName []) fun nm =>
      if enumVal.mValue.index = 1 then
        Res.bind enumVal.getU64 fun v =>
        enumInfo.modifyKey "content".toList (fun c => c.emplace nm (.uint v))
      else
        Res.bind enumVal.getI64 fun v =>
        enumInfo.modifyKey "content".toList (fun c => c.emplace nm (.int v))
  else .ok enumInfo

/-- Model of `dwarf2json::parseEnum`. -/
def parseEnum (fuel : Nat) (env : Env) (compileUnit : CU) (enumDIE : DieRef) (out : Json) :
    Res Json :=
  Res.bind (findWhereToStore fuel env compileUnit enumDIE) fun path =>
  if path = [] then .ok out
  else
    Res.bind (Json.null.setKey "offset".toList (.uint enumDIE.die.getOffset)) fun e0 =>
    Res.bind (Res.foldl enumAttr e0 enumDIE.die.getAttrs) fun e1 =>
    Res.bind (getTypeInfo fuel env enumDIE []) fun ty =>
    Res.bind (e1.emplace "1-type".toList (.str ty.1)) fun e2 =>
    Res.bind (Res.foldl enumChild e2 enumDIE.die.getChildren) fun enumInfo =>
    Res.bind (declLineOf enumDIE.die) fun line =>
    Res.bind (enumDIE.die.getName anonymousName) fun nm =>
    Json.modifyAt path (fun o => o.emplace (storeKeyOf line "enum" nm) enumInfo) out

/-- One round of the attribute loop of `parseUnion`. -/
def unionAttr (unionInfo : Json) (attr : Attr) : Res Json :=
  let attrType := attr.mType
  if attrType = DW_AT_name then
    Res.bind attr.getStr fun v => unionInfo.setKey "0-name".toList (.str v)
  else if attrType = DW_AT_decl_line then
    Res.bind attr.getU64 fun v => setDeclPos unionInfo 0 v
  else if attrType = DW_AT_decl_column then
    Res.bind attr.getU64 fun v => setDeclPos unionInfo 1 v
  else if attrType = DW_AT_byte_size then
    Res.bind attr.getU64 fun v => unionInfo.setKey "0-byte_size".toList (.uint v)
  else .ok unionInfo

/-- One round of the attribute loop of `parseTypedef`. -/
def typedefAttr (typedefInfo : Json) (attr : Attr) : Res Json :=
  let attrType := attr.mType
  if attrType = DW_AT_name then
    Res.bind attr.getStr fun v => typedefInfo.setKey "0-name".toList (.str v)
  else if attrType = DW_AT_decl_line then
    Res.bind attr.getU64 fun v => setDeclPos typedefInfo 0 v
  else if attrType = DW_AT_decl_column then
    Res.bind attr.getU64 fun v => setDeclPos typedefInfo 1 v
  else .ok typedefInfo

/-- Model of `dwarf2json::parseTypedef`. -/
def parseTypedef (fuel : Nat) (env : Env) (compileUnit : CU) (typedefDIE : DieRef) (out : Json) :
    Res Json :=
  Res.bind (findWhereToStore fuel env compileUnit typedefDIE) fun path =>
  if path = [] then .ok out
  else
    Res.bind (Json.null.setKey "offset".toList (.uint typedefDIE.die.getOffset)) fun t0 =>
    Res.bind (Res.foldl typedefAttr t0 typedefDIE.die.getAttrs) fun t1 =>
    Res.bind (getTypeInfo fuel env typedefDIE "{}".toList) fun ty =>
    Res.bind (t1.emplace "1-ori_type".toList (.str ty.1)) fun typedefInfo =>
    Res.bind (declLineOf typedefDIE.die) fun line =>
    Res.bind (typedefDIE.die.getName anonymousName) fun nm =>
    Json.modifyAt path (fun o => o.emplace (storeKeyOf line "typedef" nm) typedefInfo) out

/-- The key `std::format("{}: {}", class or struct, name)` of a parent aggregate. -/
def aggregateKey (parentDIE : Die) (name : Str) : Str :=
  (if parentDIE.getTAG = DW_TAG_class_type then "class".toList else "struct".toList) ++
    ": ".toList ++ name

/-- Model of `dwarf2json::parseInheritance`. -/
def parseInheritance (fuel : Nat) (env : Env) (compileUnit : CU) (inheriDIE : DieRef)
    (out : Json) : Res Json :=
  match inheriDIE.getParentDIE with
  | none => .fault
  | some parentDIE =>
    Res.bind (findWhereToStore fuel env compileUnit parentDIE) fun path =>
    if path = [] then .ok out
    else
      Res.bind (parentDIE.die.getName anonymousName) fun pname =>
      let path1 := path ++ [aggregateKey parentDIE.die pname]
      Res.bind (match inheriDIE.die.findAttrByType DW_AT_data_member_location with
                | some a => a.getU64
                | none => .ok 0) fun loc =>
      Res.bind (getTypeInfo fuel env inheriDIE []) fun ty =>
      let storeKey := fmt05 loc ++ "-".toList ++ ty.1
      Res.bind (match inheriDIE.die.findAttrByType DW_AT_accessibility with
                | some a => a.getU64
                | none => .ok 0) fun acc =>
      Json.modifyAt (path1 ++ ["0-inheri".toList]) (fun o => o.emplace storeKey (.uint acc)) out

/-- Model of `dwarf2json::parseClassTemplateParams`. -/
def parseClassTemplateParams (fuel : Nat) (env : Env) (compileUnit : CU) (templateDIE : DieRef)
    (out : Json) : Res Json :=
  match templateDIE.getParentDIE with
  | none => .fault
  | some parent =>
    Res.bind (findWhereToStore fuel env compileUnit parent) fun path =>
    if path = [] then .ok out
    else
      Res.bind (parent.die.getName anonymousName) fun pname =>
      let path1 := path ++ [aggregateKey parent.die pname]
      Json.modifyAt (path1 ++ ["0-template_param".toList])
        (fun out_ =>
          if out_.empty then
            let tagId := templateDIE.die.getTAG
            if tagId = DW_TAG_template_type_param then
              Res.bind (templateDIE.die.getName unnamedParam) fun nm => .ok (Json.ofStrs [nm])
            else if tagId = DW_TAG_template_value_param then
              Res.bind (templateDIE.die.getName unnamedParam) fun nm =>
              Res.bind (getTypeInfo fuel env templateDIE nm) fun ty => .ok (Json.ofStrs [ty.1])
            else if tagId = DW_TAG_GNU_template_parameter_pack then
              Res.bind (templateDIE.die.getName unnamedParam) fun _ =>
              .ok (Json.ofStrs ["...".toList])
            else .ok (Json.ofStrs [])
          else .ok out_)
        out

mutual
/-- Model of `dwarf2json::parseDIE`, the dispatcher. -/
def parseDIE : Nat → Env → CU → DieRef → Json → Res Json
  | 0, _, _, _, _ => .timeout
  | fuel + 1, env, compileUnit, DIE, out =>
    let tagId := DIE.die.getTAG
    let descend : Res Json :=
      Res.foldl (fun o childDIE => parseDIE fuel env compileUnit (DIE.child childDIE) o) out
        DIE.die.getChildren
    if tagId = DW_TAG_namespace then
      Res.bind (DIE.die.getName []) fun dieName =>
      if dieName = "std".toList ∨ startsWith dieName "__".toList then .ok out else descend
    else if tagId = DW_TAG_class_type ∨ tagId = DW_TAG_structure_type ∨
        tagId = DW_TAG_lexical_block then descend
    else if tagId = DW_TAG_subprogram then parseFunction fuel env compileUnit DIE out
    else if tagId = DW_TAG_enumeration_type then parseEnum fuel env compileUnit DIE out
    else if tagId = DW_TAG_union_type then parseUnion fuel env compileUnit DIE out
    else if tagId = DW_TAG_variable then parseVariable fuel env compileUnit DIE false out
    else if tagId = DW_TAG_member then parseVariable fuel env compileUnit DIE true out
    else if tagId = DW_TAG_typedef then parseTypedef fuel env compileUnit DIE out
    else if tagId = DW_TAG_inheritance then parseInheritance fuel env compileUnit DIE out
    else if tagId = DW_TAG_GNU_template_parameter_pack ∨ tagId = DW_TAG_template_type_param ∨
        tagId = DW_TAG_template_value_param then
      parseClassTemplateParams fuel env compileUnit DIE out
    else .ok out
/-- Model of `dwarf2json::parseFunction`. -/
def parseFunction : Nat → Env → CU → DieRef → Json → Res Json
  | 0, _, _, _, _ => .timeout
  | fuel + 1, env, compileUnit, funcDIE, out =>
    Res.bind (funcDIE.die.getName []) fun ownName =>
    if startsWith ownName "__".toList then .ok out
    else
      match funcDIE.die.findAttrByType DW_AT_specification with
      | some hasSpecification =>
        Res.bind hasSpecification.getU64 fun off =>
        Res.bind (env.mDbg.findDIEbyOffset off) fun found =>
        match found with
        | none => .ok out
        | some specificFunc =>
          Res.bind (findWhereToStore fuel env compileUnit specificFunc) fun path =>
          if path = [] then .ok out
          else
            Res.bind (declLineOf specificFunc.die) fun line =>
            Res.bind (specificFunc.die.getName anonymousName) fun nm =>
            let storeKey := storeKeyOf line "func" nm
            Res.bind (Res.foldl specChild ([], []) funcDIE.die.getChildren) fun scan =>
            Res.bind (Json.touch path out) fun out1 =>
            Res.bind (if hasRecord out1 path storeKey then .ok out1
                      else parseFunction fuel env compileUnit specificFunc out1) fun out2 =>
            Res.bind (Json.modifyAt (path ++ [storeKey]) (funcOverlay funcDIE.die scan.1) out2)
              fun out3 =>
            Res.foldl (fun o die => parseDIE fuel env compileUnit (funcDIE.child die) o) out3 scan.2
      | none =>
        Res.bind (findWhereToStore fuel env compileUnit funcDIE) fun path =>
        if path = [] then .ok out
        else
          Res.bind (declLineOf funcDIE.die) fun line =>
          Res.bind (funcDIE.die.getName anonymousName) fun nm =>
          let storeKey := storeKeyOf line "func" nm
          Res.bind (funcRecord fuel env funcDIE) fun built =>
          Res.bind (Json.modifyAt path (fun o => o.emplace storeKey built.1) out) fun out1 =>
          Res.foldl (fun o die => parseDIE fuel env compileUnit (funcDIE.child die) o) out1 built.2
/-- Model of `dwarf2json::parseUnion`. -/
def parseUnion : Nat → Env → CU → DieRef → Json → Res Json
  | 0, _, _, _, _ => .timeout
  | fuel + 1, env, compileUnit, unionDIE, out =>
    Res.bind (findWhereToStore fuel env compileUnit unionDIE) fun path =>
    if path = [] then .ok out
    else
      Res.bind (Json.null.setKey "offset".toList (.uint unionDIE.die.getOffset)) fun u0 =>
      Res.bind (Res.foldl unionAttr u0 unionDIE.die.getAttrs) fun unionInfo =>
      Res.bind (unionDIE.die.getName anonymousName) fun nm =>
      Res.bind (Json.modifyAt path (fun o => o.emplace ("union: ".toList ++ nm) unionInfo) out)
        fun out1 =>
      Res.foldl (fun o child => parseDIE fuel env compileUnit (unionDIE.child child) o) out1
        unionDIE.die.getChildren
end

/-- Model of `dwarf2json::parseCU`. -/
def parseCU (fuel : Nat) (env : Env) (compileUnit : CU) (out : Json) : Res Json :=
  Res.foldl (fun o child => parseDIE fuel env compileUnit ⟨child, [compileUnit.die]⟩ o) out
    compileUnit.die.getChildren

/-- Model of the loop of `dwarf2json::start` over the compile units of the file. -/
def start (fuel : Nat) (env : Env) (out : Json) : Res Json :=
  Res.foldl (fun o compileUnit => parseCU fuel env compileUnit o) out env.mDbg.mCompileUnits

/-! ## The components that survive normalization -/

/-- The components of a path that survive normalization, in the words of the
design: split on `/`, drop empty and `.` components, let a `..` cancel the
component before it; a `..` with nothing before it stays. -/
def survivors (p : Str) : List Str :=
  (p.splitOn '/').foldl
    (fun stack c =>
      if c = [] ∨ c = ['.'] then stack
      else if c = ['.', '.'] ∧ stack ≠ [] then stack.dropLast
      else stack ++ [c])
    []

/-- The non-empty pieces between the separators of a path. -/
def pieces (p : Str) : List Str := (p.splitOn '/').filter (fun c => c ≠ [])

/-! ## Predicates used in the statements -/

/-- A component that the splitting loop keeps on its stack. -/
def CleanComp (c : Str) : Prop := c ≠ [] ∧ c ≠ ['.'] ∧ '/' ∉ c

/-- The shape of every stack of the splitting loop. -/
def GoodStack (st : List Str) : Prop :=
  (∀ c ∈ st, CleanComp c) ∧ ∀ c ∈ st.tail, c ≠ ['.', '.']

/-- No ancestor in the chain is a subprogram that carries a specification attribute. -/
def NoSpecAncestor (parents : List Die) : Prop :=
  ∀ p ∈ parents, ¬ (p.getTAG = DW_TAG_subprogram ∧ (p.findAttrByType DW_AT_specification).isSome)

/-- The tags of the children that `parseFunction` (declaration form) consumes
itself: parameters and template parameters. -/
def IsParamTag (t : Nat) : Prop :=
  t = DW_TAG_formal_parameter ∨ t = DW_TAG_unspecified_parameters ∨
    t = DW_TAG_GNU_formal_parameter_pack ∨ t = DW_TAG_template_type_param ∨
    t = DW_TAG_template_value_param ∨ t = DW_TAG_GNU_template_parameter_pack

/-- No DIE of the chain is a subprogram. -/
def NoSubprogram (pre : List Die) : Prop := ∀ d ∈ pre, d.getTAG ≠ DW_TAG_subprogram

/-- The keys of a record that the overlays of `parseFunction` and `parseVariable` assign
to, replacing the old value. -/
def overlayKeys : List Str :=
  ["2-param_name".toList, "0-linkage".toList, "otherOffset".toList, "1-linkage".toList]

/-- An update of the output keeps every record whose path goes through no overlay key. -/
def KeepsRecords (f : Json → Res Json) : Prop :=
  ∀ (p : List Str) (key : Str) (j j1 : Json), (∀ k ∈ p, k ∉ overlayKeys) →
    f j = .ok j1 → hasRecord j p key = true → hasRecord j1 p key = true

/-! ## Sample inputs -/

/-- A string attribute. -/
def Attr.ofStr (off type : Nat) (s : String) : Attr := ⟨off, type, 0x08, .str s.toList⟩

/-- An unsigned attribute. -/
def Attr.ofU64 (off type : Nat) (n : Nat) : Attr := ⟨off, type, 0x0f, .u64 n⟩

/-- The keys of the top level of an output document. -/
def topKeys : Res Json → List Str
  | .ok (.obj kvs) => kvs.map Prod.fst
  | _ => []

namespace Sample

/-- Declaration of `g` in the header (file 2). -/
def gDecl : Die :=
  .mk 20 DW_TAG_subprogram
    [Attr.ofStr 21 DW_AT_name "g", Attr.ofU64 22 DW_AT_decl_file 2, Attr.ofU64 23 DW_AT_decl_line 3] []

/-- Declaration of the member function `m` of the local class `L` (file 1). -/
def mDecl : Die :=
  .mk 50 DW_TAG_subprogram
    [Attr.ofStr 51 DW_AT_name "m", Attr.ofU64 52 DW_AT_decl_file 1, Attr.ofU64 53 DW_AT_decl_line 5] []

/-- The class `L`, local to the body of `g`. -/
def localClass : Die := .mk 40 DW_TAG_class_type [Attr.ofStr 41 DW_AT_name "L"] [mDecl]

/-- Out-of-line definition of `g`: its specification is `gDecl`. -/
def gDef : Die := .mk 30 DW_TAG_subprogram [Attr.ofU64 31 DW_AT_specification 20] [localClass]

/-- Out-of-line definition of `m`: its specification is `mDecl`. -/
def mDef : Die := .mk 60 DW_TAG_subprogram [Attr.ofU64 61 DW_AT_specification 50] []

/-- The compile unit of `/src/a.cpp`. -/
def cuDie : Die :=
  .mk 11 DW_TAG_compile_unit [Attr.ofStr 12 DW_AT_name "/src/a.cpp"] [gDecl, gDef, mDef]

/-- The compile unit with its source-file table. -/
def cu : CU := ⟨cuDie, ["/src/a.cpp".toList, "/inc/h.h".toList]⟩

/-- The engine run with the filter `/src`. -/
def env : Env := ⟨⟨[cu]⟩, "/src".toList, fun _ => none⟩

/-- A member `v` of an anonymous union in the structure `S` of `/src/b.c`. -/
def member : Die :=
  .mk 130 DW_TAG_member
    [Attr.ofStr 131 DW_AT_name "v", Attr.ofU64 132 DW_AT_decl_file 1, Attr.ofU64 133 DW_AT_decl_line 9] []

/-- The anonymous union. -/
def anonUnion : Die := .mk 120 DW_TAG_union_type [Attr.ofU64 121 DW_AT_decl_file 1] [member]

/-- The structure `S`. -/
def structS : Die :=
  .mk 110 DW_TAG_structure_type [Attr.ofStr 111 DW_AT_name "S", Attr.ofU64 112 DW_AT_decl_file 1]
    [anonUnion]

/-- The compile unit of `/src/b.c`. -/
def cuDieB : Die := .mk 100 DW_TAG_compile_unit [Attr.ofStr 101 DW_AT_name "b.c"] [structS]

/-- The compile unit of `/src/b.c` with its source-file table. -/
def cuB : CU := ⟨cuDieB, ["/src/./b.c".toList]⟩

/-- The engine run on `/src/b.c` with the filter `/src`. -/
def envB : Env := ⟨⟨[cuB]⟩, "/src".toList, fun _ => none⟩

/-- The document after the member `v` alone has been parsed into an empty one. -/
def memberOut : Json :=
  .obj [("/src/b.c".toList, .obj [("struct: S".toList, .obj [("union: `anonymous`".toList,
    .obj [("content".toList, .obj [("00009-memb: v".toList,
      .obj [("0-decl_pos".toList, .arr [.uint 9]), ("0-name".toList, .str "v".toList),
        ("1-type".toList, .str "void v".toList), ("offset".toList, .uint 130)])])])])])]

/-- The base class of `/src/c.cpp`. -/
def baseClass : Die :=
  .mk 210 DW_TAG_class_type [Attr.ofStr 211 DW_AT_name "Base", Attr.ofU64 212 DW_AT_decl_file 1] []

/-- The inheritance entry of `Derived`; it has no `decl_file`. -/
def inheritance : Die :=
  .mk 230 DW_TAG_inheritance
    [Attr.ofU64 231 DW_AT_type 210, Attr.ofU64 232 DW_AT_data_member_location 0,
      Attr.ofU64 233 DW_AT_accessibility 1] []

/-- The class `Derived`. -/
def derivedClass : Die :=
  .mk 220 DW_TAG_class_type [Attr.ofStr 221 DW_AT_name "Derived", Attr.ofU64 222 DW_AT_decl_file 1]
    [inheritance]

/-- A typedef without `decl_file`. -/
def typedefNoFile : Die := .mk 240 DW_TAG_typedef [Attr.ofStr 241 DW_AT_name "T"] []

/-- A subprogram without `decl_file`. -/
def funcNoFile : Die := .mk 250 DW_TAG_subprogram [Attr.ofStr 251 DW_AT_name "f"] []

/-- An inheritance entry under a namespace: neither has a `decl_file`. -/
def strayInheritance : Die := .mk 270 DW_TAG_inheritance [] []

/-- A namespace without `decl_file`. -/
def plainNamespace : Die := .mk 260 DW_TAG_namespace [Attr.ofStr 261 DW_AT_name "n"] [strayInheritance]

/-- The compile unit of `/src/c.cpp`. -/
def cuDieC : Die :=
  .mk 200 DW_TAG_compile_unit [Attr.ofStr 201 DW_AT_name "c.cpp"]
    [baseClass, derivedClass, typedefNoFile, funcNoFile, plainNamespace]

/-- The compile unit of `/src/c.cpp` with its source-file table. -/
def cuC : CU := ⟨cuDieC, ["/src/c.cpp".toList]⟩

/-- The engine run on `/src/c.cpp` without filter. -/
def envC : Env := ⟨⟨[cuC]⟩, [], fun _ => none⟩

/-- The document after the inheritance entry of `Derived` has been dispatched. -/
def inheritanceOut : Json :=
  .obj [("/src/c.cpp".toList, .obj [("class: Derived".toList,
    .obj [("0-inheri".toList, .obj [("00000-Base ".toList, .uint 1)])])])]

/-- The base type `int`. -/
def intType : Die := .mk 390 DW_TAG_base_type [Attr.ofStr 391 DW_AT_name "int"] []

/-- Declaration of the member function `foo` of class `C` (header, file 2). -/
def fooDecl : Die :=
  .mk 340 DW_TAG_subprogram
    [Attr.ofStr 341 DW_AT_name "foo", Attr.ofU64 342 DW_AT_decl_file 2,
      Attr.ofU64 343 DW_AT_decl_line 7, Attr.ofU64 344 DW_AT_type 390]
    [.mk 345 DW_TAG_formal_parameter [Attr.ofU64 346 DW_AT_type 390] []]

/-- Declaration of the static member `x` of class `C` (header, file 2). -/
def xDecl : Die :=
  .mk 350 DW_TAG_member
    [Attr.ofStr 351 DW_AT_name "x", Attr.ofU64 352 DW_AT_decl_file 2,
      Attr.ofU64 353 DW_AT_decl_line 9, Attr.ofU64 354 DW_AT_type 390] []

/-- The class `C`. -/
def classC : Die :=
  .mk 330 DW_TAG_class_type [Attr.ofStr 331 DW_AT_name "C", Attr.ofU64 332 DW_AT_decl_file 2]
    [fooDecl, xDecl]

/-- The namespace `n`. -/
def namespaceN : Die := .mk 320 DW_TAG_namespace [Attr.ofStr 321 DW_AT_name "n"] [classC]

/-- A local variable of the body of `foo`. -/
def localVar : Die :=
  .mk 420 DW_TAG_variable
    [Attr.ofStr 421 DW_AT_name "local", Attr.ofU64 422 DW_AT_decl_file 1,
      Attr.ofU64 423 DW_AT_decl_line 12, Attr.ofU64 424 DW_AT_type 390] []

/-- Out-of-line definition of `foo`: its specification is `fooDecl`. -/
def fooDef : Die :=
  .mk 400 DW_TAG_subprogram
    [Attr.ofU64 401 DW_AT_specification 340, Attr.ofStr 402 DW_AT_linkage_name "_ZN1n1C3fooEi",
      Attr.ofU64 403 DW_AT_decl_file 1]
    [.mk 410 DW_TAG_formal_parameter [Attr.ofStr 411 DW_AT_name "a", Attr.ofU64 412 DW_AT_type 390] [],
      localVar]

/-- Definition of the static member `x`: its specification is `xDecl`. -/
def xDef : Die :=
  .mk 450 DW_TAG_variable
    [Attr.ofU64 451 DW_AT_specification 350, Attr.ofStr 452 DW_AT_linkage_name "_ZN1n1C1xE"] []

/-- The compile unit of `/src/d.cpp`. -/
def cuDieA : Die :=
  .mk 300 DW_TAG_compile_unit [Attr.ofStr 301 DW_AT_name "d.cpp"]
    [namespaceN, intType, fooDef, xDef]

/-- The compile unit of `/src/d.cpp` with its source-file table. -/
def cuA : CU := ⟨cuDieA, ["/src/d.cpp".toList, "/inc/./d.h".toList]⟩

/-- The engine run on `/src/d.cpp` without filter. -/
def envA : Env := ⟨⟨[cuA]⟩, [], fun _ => none⟩

/-- The pointer to the declaration of `foo`. -/
def fooDeclRef : DieRef := ⟨fooDecl, [classC, namespaceN, cuDieA]⟩

/-- The pointer to the declaration of `x`. -/
def xDeclRef : DieRef := ⟨xDecl, [classC, namespaceN, cuDieA]⟩

/-- The path under which the members of `C` are stored. -/
def pathC : List Str := ["/inc/d.h".toList, "namespace: n".toList, "class: C".toList]

/-- The record of `foo` built from its declaration. -/
def fooRecord : Json :=
  .obj [("0-decl_pos".toList, .arr [.uint 7]), ("0-name".toList, .str "foo".toList),
    ("1-type".toList, .str "int ".toList),
    ("2-param_name".toList, .arr [.str "/*Unnamed*/".toList]),
    ("2-param_type".toList, .arr [.str "int {}".toList]), ("offset".toList, .uint 340)]

/-- The document holding `members` of the class `C`. -/
def inClassC (members : List (Str × Json)) : Json :=
  .obj [("/inc/d.h".toList, .obj [("namespace: n".toList, .obj [("class: C".toList,
    .obj members)])])]

/-- The document after the declaration of `foo` has been parsed into an empty one. -/
def fooOut1 : Json := inClassC [("00007-func: foo".toList, fooRecord)]

/-- The document after the definition of `foo` has been parsed as well. -/
def fooOut2 : Json :=
  inClassC [("00007-func: foo".toList,
    .obj [("0-decl_pos".toList, .arr [.uint 7]),
      ("0-linkage".toList, .str "_ZN1n1C3fooEi".toList), ("0-name".toList, .str "foo".toList),
      ("1-type".toList, .str "int ".toList), ("2-param_name".toList, .arr [.str "a".toList]),
      ("2-param_type".toList, .arr [.str "int {}".toList]),
      ("local_info".toList, .obj [("00012-var: local".toList,
        .obj [("0-decl_pos".toList, .arr [.uint 12]), ("0-name".toList, .str "local".toList),
          ("1-type".toList, .str "int local".toList), ("offset".toList, .uint 420)])]),
      ("offset".toList, .uint 340), ("otherOffset".toList, .uint 400)])]

/-- The document after the declaration of `x` has been parsed into an empty one. -/
def xOut1 : Json :=
  inClassC [("00009-memb: x".toList,
    .obj [("0-decl_pos".toList, .arr [.uint 9]), ("0-name".toList, .str "x".toList),
      ("1-type".toList, .str "int x".toList), ("offset".toList, .uint 350)])]

/-- The document after the definition of `x` has been parsed as well. -/
def xOut2 : Json :=
  inClassC [("00009-memb: x".toList,
    .obj [("0-decl_pos".toList, .arr [.uint 9]), ("0-name".toList, .str "x".toList),
      ("1-linkage".toList, .str "_ZN1n1C1xE".toList), ("1-type".toList, .str "int x".toList),
      ("offset".toList, .uint 350)])]

end Sample

namespace Sample

/-- A type-modifier DIE without name: tag, optional target of the `type` attribute, children. -/
def modifier (off tag : Nat) (target : Option Nat) (children : List Die) : Die :=
  .mk off tag
    (match target with
     | some t => [Attr.ofU64 (off + 1) DW_AT_type t]
     | none => [])
    children

/-- A variable DIE whose `type` attribute refers to `target`. -/
def typedVar (off target : Nat) : Die :=
  .mk off DW_TAG_variable [Attr.ofStr (off + 1) DW_AT_name "x", Attr.ofU64 (off + 2) DW_AT_type target] []

/-- A subrange child with a `count` attribute. -/
def subrange (off count : Nat) : Die :=
  .mk off DW_TAG_subrange_type [Attr.ofU64 (off + 1) DW_AT_count count] []

/-- A formal parameter of the given type. -/
def param (off target : Nat) : Die :=
  .mk off DW_TAG_formal_parameter [Attr.ofU64 (off + 1) DW_AT_type target] []

/-- The implicit object parameter: a formal parameter with the `artificial` flag. -/
def thisParam (off target : Nat) : Die :=
  .mk off DW_TAG_formal_parameter
    [Attr.ofU64 (off + 1) DW_AT_type target, ⟨off + 2, DW_AT_artificial, 0x19, .i32 1⟩] []

/-- The named type `int` of the type samples. -/
def tInt : Die := .mk 1010 DW_TAG_base_type [Attr.ofStr 1011 DW_AT_name "int"] []

/-- The class `A` of the type samples. -/
def tClassA : Die := .mk 1110 DW_TAG_class_type [Attr.ofStr 1111 DW_AT_name "A"] []

/-- The children of the compile unit of the type samples, in offset order. -/
def typeDies : List Die :=
  [tInt,
   modifier 1020 DW_TAG_const_type (some 1010) [],
   modifier 1030 DW_TAG_pointer_type (some 1020) [],
   modifier 1040 DW_TAG_pointer_type (some 1010) [],
   modifier 1050 DW_TAG_const_type (some 1040) [],
   modifier 1060 DW_TAG_array_type (some 1040) [subrange 1065 10],
   modifier 1070 DW_TAG_array_type (some 1010) [subrange 1075 10],
   modifier 1080 DW_TAG_pointer_type (some 1070) [],
   modifier 1090 DW_TAG_subroutine_type (some 1010) [param 1093 1010, param 1096 1010],
   modifier 1100 DW_TAG_pointer_type (some 1090) [],
   tClassA,
   modifier 1120 DW_TAG_const_type (some 1110) [],
   modifier 1130 DW_TAG_pointer_type (some 1120) [],
   modifier 1140 DW_TAG_subroutine_type none [thisParam 1143 1130, param 1147 1010],
   .mk 1150 DW_TAG_ptr_to_member_type
     [Attr.ofU64 1151 DW_AT_containing_type 1110, Attr.ofU64 1152 DW_AT_type 1140] [],
   modifier 1160 DW_TAG_subroutine_type none [],
   modifier 1170 DW_TAG_pointer_type none [],
   modifier 1180 DW_TAG_volatile_type (some 1020) [],
   modifier 1190 DW_TAG_reference_type (some 1080) [],
   typedVar 1200 1020, typedVar 1210 1030, typedVar 1220 1050, typedVar 1230 1060,
   typedVar 1240 1080, typedVar 1250 1100, typedVar 1260 1150, typedVar 1270 1160,
   typedVar 1280 1170, typedVar 1290 1180, typedVar 1300 1190]

/-- The compile unit of the type samples. -/
def cuDieT : Die := .mk 1000 DW_TAG_compile_unit [Attr.ofStr 1001 DW_AT_name "t.cpp"] typeDies

/-- The compile unit of the type samples with its source-file table. -/
def cuT : CU := ⟨cuDieT, ["/src/t.cpp".toList]⟩

/-- The engine run on the type samples without filter. -/
def envT : Env := ⟨⟨[cuT]⟩, [], fun _ => none⟩

/-- The pointer to the sample variable at `off` whose type is `target`. -/
def varRef (off target : Nat) : DieRef := ⟨typedVar off target, [cuDieT]⟩

end Sample

namespace Sample

/-- A global variable `v` declared at line 3 of file 1. -/
def globalV : Die :=
  .mk 520 DW_TAG_variable
    [Attr.ofStr 521 DW_AT_name "v", Attr.ofU64 522 DW_AT_decl_file 1,
      Attr.ofU64 523 DW_AT_decl_line 3] []

/-- The namespace `std` holding `v`. -/
def stdNamespace : Die := .mk 510 DW_TAG_namespace [Attr.ofStr 511 DW_AT_name "std"] [globalV]

/-- The namespace `__gnu_cxx` holding `v`. -/
def reservedNamespace : Die :=
  .mk 510 DW_TAG_namespace [Attr.ofStr 511 DW_AT_name "__gnu_cxx"] [globalV]

/-- An anonymous namespace holding `v`. -/
def anonNamespace : Die := .mk 510 DW_TAG_namespace [] [globalV]

/-- A class `K` holding `v`. -/
def classK : Die := .mk 510 DW_TAG_class_type [Attr.ofStr 511 DW_AT_name "K"] [globalV]

/-- The compile unit of `/src/s.cpp` with the single child `top`. -/
def cuDieS (top : Die) : Die := .mk 500 DW_TAG_compile_unit [Attr.ofStr 501 DW_AT_name "s.cpp"] [top]

/-- The compile unit of `/src/s.cpp` with its source-file table. -/
def cuS (top : Die) : CU := ⟨cuDieS top, ["/src/s.cpp".toList]⟩

/-- The engine run on `/src/s.cpp` without filter. -/
def envS (top : Die) : Env := ⟨⟨[cuS top]⟩, [], fun _ => none⟩

/-- A variable `v` local to a function body, declared at line 8 of file 1. -/
def localV : Die :=
  .mk 620 DW_TAG_variable
    [Attr.ofStr 621 DW_AT_name "v", Attr.ofU64 622 DW_AT_decl_file 1,
      Attr.ofU64 623 DW_AT_decl_line 8] []

/-- A subprogram without name, declared at line 7 of file 1, with the local variable `v`. -/
def anonFunc : Die :=
  .mk 610 DW_TAG_subprogram [Attr.ofU64 611 DW_AT_decl_file 1, Attr.ofU64 612 DW_AT_decl_line 7]
    [localV]

/-- Out-of-line definition of `m` with a local variable: its specification is `mDecl`. -/
def mDefLocal : Die := .mk 60 DW_TAG_subprogram [Attr.ofU64 61 DW_AT_specification 50] [localV]

/-- The compile unit of `/src/a.cpp` whose definition of `m` has a local variable. -/
def cuDieN : Die :=
  .mk 11 DW_TAG_compile_unit [Attr.ofStr 12 DW_AT_name "/src/a.cpp"] [gDecl, gDef, mDefLocal]

/-- The compile unit `cuDieN` with its source-file table. -/
def cuN : CU := ⟨cuDieN, ["/src/a.cpp".toList, "/inc/h.h".toList]⟩

/-- The engine run on `cuN` without filter. -/
def envN : Env := ⟨⟨[cuN]⟩, [], fun _ => none⟩

end Sample

namespace Sample

/-- The compile unit of `/src/d.cpp` with a file table whose header is `/inc/a.h`. -/
def cuH : CU := ⟨cuDieA, ["/src/d.cpp".toList, "/inc/./a.h".toList]⟩

/-- The engine run on `cuH` without filter. -/
def envH : Env := ⟨⟨[cuH]⟩, [], fun _ => none⟩

/-- The document after the definition of `foo` has been parsed into an empty one in `cuH`. -/
def fooOutH : Json :=
  .obj [("/inc/a.h".toList, .obj [("namespace: n".toList, .obj [("class: C".toList,
    .obj [("00007-func: foo".toList,
      .obj [("0-decl_pos".toList, .arr [.uint 7]),
        ("0-linkage".toList, .str "_ZN1n1C3fooEi".toList), ("0-name".toList, .str "foo".toList),
        ("1-type".toList, .str "int ".toList), ("2-param_name".toList, .arr [.str "a".toList]),
        ("2-param_type".toList, .arr [.str "int {}".toList]),
        ("local_info".toList, .obj [("00012-var: local".toList,
          .obj [("0-decl_pos".toList, .arr [.uint 12]), ("0-name".toList, .str "local".toList),
            ("1-type".toList, .str "int local".toList), ("offset".toList, .uint 420)])]),
        ("offset".toList, .uint 340), ("otherOffset".toList, .uint 400)])])])])]

end Sample

/-! ## Predicates on type chains -/

/-- The `type` attribute of `a` is a `uint64_t` offset at which the lookup finds `b`. -/
def TypeLink (env : Env) (a : Die) (b : DieRef) : Prop :=
  ∃ attr off, a.findAttrByType DW_AT_type = some attr ∧ attr.getU64 = .ok off ∧
    env.mDbg.findDIEbyOffset off = .ok (some b)

/-- A type DIE with the non-empty name `T` that sits directly under a compile unit. -/
def NamedType (t : DieRef) (T : Str) : Prop :=
  T ≠ [] ∧ (∃ a, t.die.findAttrByType DW_AT_name = some a ∧ a.mValue = .str T) ∧
    ∃ c, t.parents = [c] ∧ c.getTAG = DW_TAG_compile_unit ∧ (c.getName []).isOk = true

/-- An unnamed pointer, reference or rvalue-reference DIE with the symbol it prepends. -/
def IsPtrLike (d : Die) (sym : Str) : Prop :=
  d.findAttrByType DW_AT_name = none ∧
    ((d.getTAG = DW_TAG_pointer_type ∧ sym = "*".toList) ∨
     (d.getTAG = DW_TAG_reference_type ∧ sym = "&".toList) ∨
     (d.getTAG = DW_TAG_rvalue_reference_type ∧ sym = "&&".toList))

/-- The first DIE of a chain of modifiers, or the target when the chain is empty. -/
def chainHead (ms : List (DieRef × Str)) (target : DieRef) : DieRef :=
  match ms with
  | [] => target
  | m :: _ => m.1

/-- A chain of pointer-like modifiers, outermost first, each linked by its `type`
attribute to the next one and the last one to `target`. -/
def PtrChain (env : Env) : List (DieRef × Str) → DieRef → Prop
  | [], _ => True
  | m :: rest, target =>
    IsPtrLike m.1.die m.2 ∧ TypeLink env m.1.die (chainHead rest target) ∧ PtrChain env rest target

/-- The declarator after the modifiers of a chain have been applied to `t`, outermost first. -/
def chainDeclarator (ms : List (DieRef × Str)) (t : Str) : Str :=
  ms.foldl (fun acc m => m.2 ++ acc) t

/-- An unnamed type DIE with the given tag whose `type` attribute leads to `next`. -/
def Modifier (env : Env) (d : DieRef) (tag : Nat) (next : DieRef) : Prop :=
  d.die.findAttrByType DW_AT_name = none ∧ d.die.getTAG = tag ∧ TypeLink env d.die next

/-- An unnamed array type with exactly one child, a subrange with the `uint64_t` count `n`,
over the element type `elem`. -/
def ArrayOf (env : Env) (arr : DieRef) (n : Nat) (elem : DieRef) : Prop :=
  Modifier env arr DW_TAG_array_type elem ∧
    ∃ sub countAttr, arr.die.getChildren = [sub] ∧ sub.getTAG = DW_TAG_subrange_type ∧
      sub.findAttrByType DW_AT_count = some countAttr ∧ countAttr.getU64 = .ok n

/-- The tags of the aggregate cases of the type loop, which set `noVoidType`. -/
def IsAggregateTag (tag : Nat) : Prop :=
  tag = DW_TAG_union_type ∨ tag = DW_TAG_class_type ∨ tag = DW_TAG_structure_type ∨
    tag = DW_TAG_enumeration_type

namespace Sample

/-- The base type `int` of the samples with anonymous types. -/
def uInt : Die := .mk 2010 DW_TAG_base_type [Attr.ofStr 2011 DW_AT_name "int"] []

/-- An enumeration without name whose `type` attribute names the underlying type `int`. -/
def anonEnumTyped : Die := modifier 2020 DW_TAG_enumeration_type (some 2010) []

/-- An enumeration without name and without `type` attribute. -/
def anonEnumPlain : Die := modifier 2030 DW_TAG_enumeration_type none []

/-- The children of the compile unit of the samples with anonymous types, in offset order. -/
def anonDies : List Die :=
  [uInt, anonEnumTyped, anonEnumPlain,
   modifier 2040 DW_TAG_pointer_type (some 2020) [],
   modifier 2050 DW_TAG_pointer_type (some 9999) [],
   typedVar 2100 2020, typedVar 2110 2030, typedVar 2120 2040, typedVar 2130 9999,
   typedVar 2140 2015, typedVar 2150 5, typedVar 2160 2050]

/-- The compile unit of the samples with anonymous types. -/
def cuDieU : Die := .mk 2000 DW_TAG_compile_unit [Attr.ofStr 2001 DW_AT_name "u.cpp"] anonDies

/-- The compile unit `cuDieU` with its source-file table. -/
def cuU : CU := ⟨cuDieU, ["/src/u.cpp".toList]⟩

/-- The engine run on the samples with anonymous types, without filter. -/
def envU : Env := ⟨⟨[cuU]⟩, [], fun _ => none⟩

/-- The pointer to the variable at `off` of `cuDieU` whose type is `target`. -/
def varRefU (off target : Nat) : DieRef := ⟨typedVar off target, [cuDieU]⟩

/-- A structure `Foo` at the given offset. -/
def structFoo (off : Nat) : Die :=
  .mk off DW_TAG_structure_type [Attr.ofStr (off + 1) DW_AT_name "Foo"] []

/-- A namespace without name at offset 4010 holding a structure `Foo`. -/
def anonNs1 : Die := .mk 4010 DW_TAG_namespace [] [structFoo 4020]

/-- A second namespace without name, at offset 4030, holding a structure `Foo`. -/
def anonNs2 : Die := .mk 4030 DW_TAG_namespace [] [structFoo 4040]

/-- The class template instance `shared_ptr<int>`. -/
def sharedPtr : Die :=
  .mk 4060 DW_TAG_class_type [Attr.ofStr 4061 DW_AT_name "shared_ptr<int>"] []

/-- The namespace `std` holding `shared_ptr<int>`. -/
def nsStd : Die := .mk 4050 DW_TAG_namespace [Attr.ofStr 4051 DW_AT_name "std"] [sharedPtr]

/-- The enumeration `E`. -/
def enumE : Die := .mk 4090 DW_TAG_enumeration_type [Attr.ofStr 4091 DW_AT_name "E"] []

/-- The class `B` holding `E`. -/
def classB : Die := .mk 4080 DW_TAG_class_type [Attr.ofStr 4081 DW_AT_name "B"] [enumE]

/-- The namespace `a` holding `B`. -/
def nsA : Die := .mk 4070 DW_TAG_namespace [Attr.ofStr 4071 DW_AT_name "a"] [classB]

/-- The compile unit of the samples for qualified names. -/
def cuDieQ : Die :=
  .mk 4000 DW_TAG_compile_unit [Attr.ofStr 4001 DW_AT_name "q.cpp"] [anonNs1, anonNs2, nsStd, nsA]

end Sample

namespace Sample

/-- Declaration of the function `__foo` at line 7 of file 1. -/
def hiddenDecl : Die :=
  .mk 5020 DW_TAG_subprogram
    [Attr.ofStr 5021 DW_AT_name "__foo", Attr.ofU64 5022 DW_AT_decl_file 1,
      Attr.ofU64 5023 DW_AT_decl_line 7] []

/-- Out-of-line definition of `__foo`: its specification is `hiddenDecl`. -/
def hiddenDef : Die :=
  .mk 5030 DW_TAG_subprogram
    [Attr.ofU64 5031 DW_AT_specification 5020, Attr.ofStr 5032 DW_AT_linkage_name "_Z5__fooi"]
    [.mk 5040 DW_TAG_formal_parameter [Attr.ofStr 5041 DW_AT_name "a"] []]

/-- The compile unit of `/src/p.cpp`. -/
def cuDieP : Die :=
  .mk 5000 DW_TAG_compile_unit [Attr.ofStr 5001 DW_AT_name "p.cpp"] [hiddenDecl, hiddenDef]

/-- The compile unit `cuDieP` with its source-file table. -/
def cuP : CU := ⟨cuDieP, ["/src/p.cpp".toList]⟩

/-- The engine run on `/src/p.cpp` without filter. -/
def envP : Env := ⟨⟨[cuP]⟩, [], fun _ => none⟩

/-- An enumerator `A` whose `const_value` is held as `v`. -/
def enumeratorA (v : AttrValue) : Die :=
  .mk 520 DW_TAG_enumerator [Attr.ofStr 521 DW_AT_name "A", ⟨522, DW_AT_const_value, 0x0b, v⟩] []

/-- The enumeration `E`, declared at line 3 of file 1, with the given children. -/
def enumWith (children : List Die) : Die :=
  .mk 510 DW_TAG_enumeration_type
    [Attr.ofStr 511 DW_AT_name "E", Attr.ofU64 512 DW_AT_decl_file 1,
      Attr.ofU64 513 DW_AT_decl_line 3] children

/-- The enumeration `E` with the single enumerator `A` of value `v`. -/
def enumOf (v : AttrValue) : Die := enumWith [enumeratorA v]

/-- The enumeration `E` whose enumerator `A` has no `const_value`. -/
def enumNoValue : Die := enumWith [.mk 520 DW_TAG_enumerator [Attr.ofStr 521 DW_AT_name "A"] []]

/-- A function `f` whose `decl_line` is held as a signed integer. -/
def funcSignedLine : Die :=
  .mk 510 DW_TAG_subprogram
    [Attr.ofStr 511 DW_AT_name "f", Attr.ofU64 512 DW_AT_decl_file 1,
      ⟨513, DW_AT_decl_line, 0x0d, .i64 7⟩] []

/-- A variable `v` whose location list is empty. -/
def varEmptyLoc : Die :=
  .mk 510 DW_TAG_variable
    [Attr.ofStr 511 DW_AT_name "v", Attr.ofU64 512 DW_AT_decl_file 1,
      Attr.ofU64 513 DW_AT_decl_line 3, ⟨514, DW_AT_location, 0x18, .loc []⟩] []

end Sample

namespace Sample

/-- The document after the definition of `__foo` has been parsed into an empty one. -/
def hiddenOut : Json :=
  .obj [("/src/p.cpp".toList, .obj [("00007-func: __foo".toList,
    .obj [("0-linkage".toList, .str "_Z5__fooi".toList),
      ("2-param_name".toList, .arr [.str "a".toList]), ("otherOffset".toList, .uint 5030)])])]

/-- The pointer to the enumeration `E` with enumerator value `v` in its compile unit. -/
def enumRef (v : AttrValue) : DieRef := ⟨enumOf v, [cuDieS (enumOf v)]⟩

/-- The path of the enumerator `A` inside the record of `E`. -/
def enumeratorPath : List Str :=
  ["/src/s.cpp".toList, "00003-enum: E".toList, "content".toList, "A".toList]

end Sample

namespace Sample

/-- A member function declared in file 1 whose only child is the implicit object parameter
of the type at `thisType`. -/
def method (off : Nat) (name : String) (line thisType : Nat) : Die :=
  .mk off DW_TAG_subprogram
    [Attr.ofStr (off + 1) DW_AT_name name, Attr.ofU64 (off + 2) DW_AT_decl_file 1,
      Attr.ofU64 (off + 3) DW_AT_decl_line line]
    [thisParam (off + 10) thisType]

/-- The class `A` with the member functions `m` (object pointer `A *const`), `k` (object
pointer `const A *`) and `n` (object pointer `A *`). -/
def classWithMethods : Die :=
  .mk 3010 DW_TAG_class_type [Attr.ofStr 3011 DW_AT_name "A", Attr.ofU64 3012 DW_AT_decl_file 1]
    [method 3020 "m" 4 3110, method 3040 "k" 5 3130, method 3060 "n" 6 3100]

/-- The compile unit of `/src/m.cpp`: the class `A` and the types of its object pointers. -/
def cuDieM : Die :=
  .mk 3000 DW_TAG_compile_unit [Attr.ofStr 3001 DW_AT_name "m.cpp"]
    [classWithMethods,
     modifier 3100 DW_TAG_pointer_type (some 3010) [],
     modifier 3110 DW_TAG_const_type (some 3100) [],
     modifier 3120 DW_TAG_const_type (some 3010) [],
     modifier 3130 DW_TAG_pointer_type (some 3120) []]

/-- The compile unit `cuDieM` with its source-file table. -/
def cuM : CU := ⟨cuDieM, ["/src/m.cpp".toList]⟩

/-- The engine run on `/src/m.cpp` without filter. -/
def envM : Env := ⟨⟨[cuM]⟩, [], fun _ => none⟩

/-- The pointer to the member function of `A` at `off`. -/
def methodRef (off : Nat) (name : String) (line thisType : Nat) : DieRef :=
  ⟨method off name line thisType, [classWithMethods, cuDieM]⟩

end Sample

namespace Sample

/-- The record that `parseFunction` builds for the member function `m` of `A`. -/
def methodRecord : Json :=
  .obj [("0-decl_pos".toList, .arr [.uint 4]), ("0-name".toList, .str "m".toList),
    ("1-type".toList, .str "void ".toList),
    ("2-param_name".toList, .arr [.str "/*Unnamed*/".toList]),
    ("2-param_type".toList, .arr [.str "const A *{obj_ptr}".toList]),
    ("const_decorate".toList, .int 1), ("offset".toList, .uint 3020)]

end Sample

namespace Sample

/-- The class template instance `Box<int, char>` with its two template type parameters. -/
def classBox : Die :=
  .mk 510 DW_TAG_class_type
    [Attr.ofStr 511 DW_AT_name "Box<int, char>", Attr.ofU64 512 DW_AT_decl_file 1]
    [.mk 520 DW_TAG_template_type_param [Attr.ofStr 521 DW_AT_name "T"] [],
     .mk 530 DW_TAG_template_type_param [Attr.ofStr 531 DW_AT_name "U"] []]

/-- The pointer to the template parameter `name` at `off` of `Box<int, char>`. -/
def boxParam (off : Nat) (name : String) : DieRef :=
  ⟨.mk off DW_TAG_template_type_param [Attr.ofStr (off + 1) DW_AT_name name] [],
    [classBox, cuDieS classBox]⟩

/-- The document after the first template parameter of `Box<int, char>` has been parsed. -/
def boxOut : Json :=
  .obj [("/src/s.cpp".toList, .obj [("class: Box<int, char>".toList,
    .obj [("0-template_param".toList, .arr [.str "T".toList])])])]

end Sample

namespace Sample

/-- The document in which the walk to the class `C` has created its entries. -/
def inClassC0 : Json :=
  .obj [("/inc/d.h".toList, .obj [("namespace: n".toList, .obj [("class: C".toList, .null)])])]

end Sample

namespace Sample

/-- Declaration of the function `h` without `decl_file`: the scope resolver skips it. -/
def noFileFunc : Die := .mk 6010 DW_TAG_subprogram [Attr.ofStr 6011 DW_AT_name "h"] []

/-- Out-of-line definition whose specification is `noFileFunc`. -/
def defOfNoFileFunc : Die :=
  .mk 6020 DW_TAG_subprogram [Attr.ofU64 6021 DW_AT_specification 6010] []

/-- Declaration of the variable `w` without `decl_file`. -/
def noFileVar : Die := .mk 6030 DW_TAG_variable [Attr.ofStr 6031 DW_AT_name "w"] []

/-- Definition whose specification is `noFileVar`. -/
def defOfNoFileVar : Die :=
  .mk 6040 DW_TAG_variable [Attr.ofU64 6041 DW_AT_specification 6030] []

/-- A function definition whose specification refers to offset 9999, where no DIE is. -/
def danglingFunc : Die :=
  .mk 6050 DW_TAG_subprogram [Attr.ofU64 6051 DW_AT_specification 9999] []

/-- A variable definition whose specification refers to offset 9999, where no DIE is. -/
def danglingVar : Die :=
  .mk 6060 DW_TAG_variable [Attr.ofU64 6061 DW_AT_specification 9999] []

/-- A global variable `g` declared at line 3 of file 1, the last child of its compile unit. -/
def lastG : Die :=
  .mk 6070 DW_TAG_variable
    [Attr.ofStr 6071 DW_AT_name "g", Attr.ofU64 6072 DW_AT_decl_file 1,
      Attr.ofU64 6073 DW_AT_decl_line 3] []

/-- The compile unit of `/src/l.cpp` with the given children. -/
def cuDieL (children : List Die) : Die :=
  .mk 6000 DW_TAG_compile_unit [Attr.ofStr 6001 DW_AT_name "l.cpp"] children

/-- The compile unit `cuDieL` with its source-file table. -/
def cuL (children : List Die) : CU := ⟨cuDieL children, ["/src/l.cpp".toList]⟩

/-- The engine run on `/src/l.cpp` without filter. -/
def envL (children : List Die) : Env := ⟨⟨[cuL children]⟩, [], fun _ => none⟩

/-- The children of the compile unit whose definitions refer to skipped declarations. -/
def skippedKids : List Die := [noFileFunc, defOfNoFileFunc, noFileVar, defOfNoFileVar, lastG]

/-- The document that holds the record of `g` alone. -/
def lastGOut : Json :=
  .obj [("/src/l.cpp".toList, .obj [("00003-var: g".toList,
    .obj [("0-decl_pos".toList, .arr [.uint 3]), ("0-name".toList, .str "g".toList),
      ("1-type".toList, .str "void g".toList), ("offset".toList, .uint 6070)])])]

/-- A template parameter pack `Ts`. -/
def packTs : Die :=
  .mk 520 DW_TAG_GNU_template_parameter_pack [Attr.ofStr 521 DW_AT_name "Ts"] []

/-- A template value parameter `N` of type `int`. -/
def valueN : Die :=
  .mk 520 DW_TAG_template_value_param
    [Attr.ofStr 521 DW_AT_name "N", Attr.ofU64 522 DW_AT_type 530] []

/-- A template type parameter `T`. -/
def typeT : Die := .mk 520 DW_TAG_template_type_param [Attr.ofStr 521 DW_AT_name "T"] []

/-- The class `V`, declared in file 1, with one template parameter. -/
def classV (p : Die) : Die :=
  .mk 510 DW_TAG_class_type [Attr.ofStr 511 DW_AT_name "V", Attr.ofU64 512 DW_AT_decl_file 1] [p]

/-- The function `f`, declared at line 7 of file 1, with one template parameter. -/
def funcV (p : Die) : Die :=
  .mk 510 DW_TAG_subprogram
    [Attr.ofStr 511 DW_AT_name "f", Attr.ofU64 512 DW_AT_decl_file 1,
      Attr.ofU64 513 DW_AT_decl_line 7] [p]

/-- The compile unit of `/src/s.cpp` with the child `top` and the base type `int` behind it. -/
def cuDieV (top : Die) : Die :=
  .mk 500 DW_TAG_compile_unit [Attr.ofStr 501 DW_AT_name "s.cpp"]
    [top, .mk 530 DW_TAG_base_type [Attr.ofStr 531 DW_AT_name "int"] []]

/-- The compile unit `cuDieV` with its source-file table. -/
def cuV (top : Die) : CU := ⟨cuDieV top, ["/src/s.cpp".toList]⟩

/-- The engine run on `cuV` without filter. -/
def envV (top : Die) : Env := ⟨⟨[cuV top]⟩, [], fun _ => none⟩

/-- The pointer to the template parameter `p` of the class `V`. -/
def paramOfV (p : Die) : DieRef := ⟨p, [classV p, cuDieV (classV p)]⟩

/-- The path of the slot `0-template_param` of the class `V`. -/
def slotV : List Str := ["/src/s.cpp".toList, "class: V".toList, "0-template_param".toList]

/-- The path of the field `2-template_param` of the function `f`. -/
def slotF : List Str :=
  ["/src/s.cpp".toList, "00007-func: f".toList, "2-template_param".toList]

/-- The children of the compile unit of the samples with function types: a function type
without parameters and without return type, a pointer to it, and two variables. -/
def funcTypeDies : List Die :=
  [modifier 7010 DW_TAG_subroutine_type none [],
   modifier 7020 DW_TAG_pointer_type (some 7010) [],
   typedVar 7100 7020, typedVar 7110 7010]

/-- The compile unit of the samples with function types. -/
def cuDieF : Die := .mk 7000 DW_TAG_compile_unit [Attr.ofStr 7001 DW_AT_name "f.cpp"] funcTypeDies

/-- The engine run on the samples with function types, without filter. -/
def envF : Env := ⟨⟨[⟨cuDieF, ["/src/f.cpp".toList]⟩]⟩, [], fun _ => none⟩

/-- The pointer to the variable at `off` of `cuDieF` whose type is `target`. -/
def varRefF (off target : Nat) : DieRef := ⟨typedVar off target, [cuDieF]⟩

/-- A structure `L` local to a block. -/
def localL : Die := .mk 8030 DW_TAG_structure_type [Attr.ofStr 8031 DW_AT_name "L"] []

/-- A lexical block holding `L`. -/
def blockOfL : Die := .mk 8020 DW_TAG_lexical_block [] [localL]

/-- The function `f` whose body is the block. -/
def funcOfL : Die := .mk 8010 DW_TAG_subprogram [Attr.ofStr 8011 DW_AT_name "f"] [blockOfL]

/-- The compile unit of the function `f`. -/
def cuDieO : Die := .mk 8000 DW_TAG_compile_unit [Attr.ofStr 8001 DW_AT_name "o.cpp"] [funcOfL]

/-- A variable `z` whose `decl_file` is `idx`. -/
def varInFile (idx : Nat) : Die :=
  .mk 520 DW_TAG_variable
    [Attr.ofStr 521 DW_AT_name "z", Attr.ofU64 522 DW_AT_decl_file idx,
      Attr.ofU64 523 DW_AT_decl_line 3] []

/-- Declaration of the function `k` at line 7 whose `decl_file` is `idx`. -/
def declInFile (idx : Nat) : Die :=
  .mk 9010 DW_TAG_subprogram
    [Attr.ofStr 9011 DW_AT_name "k", Attr.ofU64 9012 DW_AT_decl_file idx,
      Attr.ofU64 9013 DW_AT_decl_line 7] []

/-- A variable `v` of file 1, local to the definition of `k`. -/
def localOfK : Die :=
  .mk 9030 DW_TAG_variable
    [Attr.ofStr 9031 DW_AT_name "v", Attr.ofU64 9032 DW_AT_decl_file 1,
      Attr.ofU64 9033 DW_AT_decl_line 8] []

/-- Out-of-line definition of `k` with the local variable `v`. -/
def defOfK : Die := .mk 9020 DW_TAG_subprogram [Attr.ofU64 9021 DW_AT_specification 9010] [localOfK]

/-- The compile unit of `/src/k.cpp` whose declaration of `k` has the `decl_file` index `idx`. -/
def cuDieK (idx : Nat) : Die :=
  .mk 9000 DW_TAG_compile_unit [Attr.ofStr 9001 DW_AT_name "k.cpp"] [declInFile idx, defOfK]

/-- The compile unit `cuDieK` with its source-file table of one entry. -/
def cuK (idx : Nat) : CU := ⟨cuDieK idx, ["/src/k.cpp".toList]⟩

/-- The engine run on `/src/k.cpp` without filter. -/
def envK (idx : Nat) : Env := ⟨⟨[cuK idx]⟩, [], fun _ => none⟩

end Sample

namespace Sample

/-- A function type without name whose parameter is a pointer to the function type itself. -/
def selfFuncType : Die := modifier 7510 DW_TAG_subroutine_type none [param 7520 7530]

/-- The children of the compile unit with the function type that takes a pointer to itself:
the function type, the pointer to it, and a variable of the function type. -/
def selfTypeDies : List Die :=
  [selfFuncType, modifier 7530 DW_TAG_pointer_type (some 7510) [], typedVar 7540 7510]

/-- The compile unit with the function type that takes a pointer to itself. -/
def cuDieX : Die := .mk 7500 DW_TAG_compile_unit [Attr.ofStr 7501 DW_AT_name "x.cpp"] selfTypeDies

/-- The engine run on `cuDieX` without filter. -/
def envX : Env := ⟨⟨[⟨cuDieX, ["/src/x.cpp".toList]⟩]⟩, [], fun _ => none⟩

/-- A rank for the `type` attributes of `cuDieX`: the function type has no such attribute,
the pointer refers to the function type, the parameter to the pointer. -/
def rankX (off : Nat) : Nat :=
  if off = 7510 then 0 else if off = 7530 then 1 else 2

end Sample

namespace Sample

/-- A rank for the type samples: every step leads to a smaller offset. -/
def rankT (off : Nat) : Nat := off - 1000

/-- A rank for the samples with anonymous types: the offsets where no DIE is get a small
rank, every other step leads to a smaller offset. -/
def rankU (off : Nat) : Nat := if 3000 < off then 0 else off - 1999

end Sample

namespace Sample

/-- Declaration of the function `f` at line 7 of file 1. -/
def declF : Die :=
  .mk 10010 DW_TAG_subprogram
    [Attr.ofStr 10011 DW_AT_name "f", Attr.ofU64 10012 DW_AT_decl_file 1,
      Attr.ofU64 10013 DW_AT_decl_line 7] []

/-- A definition of `f` with the linkage name `inner`, placed below the declaration of `g`. -/
def innerDefF : Die :=
  .mk 10030 DW_TAG_subprogram
    [Attr.ofU64 10031 DW_AT_specification 10010, Attr.ofStr 10032 DW_AT_linkage_name "inner"] []

/-- Declaration of the function `g` at line 8 of file 1; its child is a definition of `f`. -/
def declG : Die :=
  .mk 10020 DW_TAG_subprogram
    [Attr.ofStr 10021 DW_AT_name "g", Attr.ofU64 10022 DW_AT_decl_file 1,
      Attr.ofU64 10023 DW_AT_decl_line 8] [innerDefF]

/-- A definition of `g`. -/
def defG : Die := .mk 10050 DW_TAG_subprogram [Attr.ofU64 10051 DW_AT_specification 10020] []

/-- A definition of `f` with the linkage name `outer`; its child is the definition of `g`. -/
def outerDefF : Die :=
  .mk 10040 DW_TAG_subprogram
    [Attr.ofU64 10041 DW_AT_specification 10010, Attr.ofStr 10042 DW_AT_linkage_name "outer"]
    [defG]

/-- The compile unit of `/src/i.cpp`. -/
def cuDieI : Die :=
  .mk 10000 DW_TAG_compile_unit [Attr.ofStr 10001 DW_AT_name "i.cpp"] [declF, declG, outerDefF]

/-- The compile unit `cuDieI` with its source-file table. -/
def cuI : CU := ⟨cuDieI, ["/src/i.cpp".toList]⟩

/-- The engine run on `/src/i.cpp` without filter. -/
def envI : Env := ⟨⟨[cuI]⟩, [], fun _ => none⟩

/-- The pointer to the outer definition of `f`. -/
def outerDefRef : DieRef := ⟨outerDefF, [cuDieI]⟩

/-- The document with the records of `f` and `g`, where the overlay on `f` comes from the
definition at `other` with the linkage name `linkage`. -/
def nestedOut (linkage : String) (other : Nat) : Json :=
  .obj [("/src/i.cpp".toList, .obj
    [("00007-func: f".toList,
      .obj [("0-decl_pos".toList, .arr [.uint 7]), ("0-linkage".toList, .str linkage.toList),
        ("0-name".toList, .str "f".toList), ("1-type".toList, .str "void ".toList),
        ("2-param_name".toList, .arr []), ("offset".toList, .uint 10010),
        ("otherOffset".toList, .uint other)]),
     ("00008-func: g".toList,
      .obj [("0-decl_pos".toList, .arr [.uint 8]), ("0-name".toList, .str "g".toList),
        ("1-type".toList, .str "void ".toList), ("2-param_name".toList, .arr []),
        ("offset".toList, .uint 10020), ("otherOffset".toList, .uint 10050)])])]

end Sample

/-! ## Sample inputs: definitions that carry a name, nested definitions -/

namespace Sample

/-- An out-of-line definition of `foo` that carries the name `__foo_impl` itself. -/
def fooDefReserved : Die :=
  .mk 460 DW_TAG_subprogram
    [Attr.ofStr 461 DW_AT_name "__foo_impl", Attr.ofU64 462 DW_AT_specification 340,
      Attr.ofStr 463 DW_AT_linkage_name "_ZN1n1C3fooEi"]
    [.mk 470 DW_TAG_formal_parameter
      [Attr.ofStr 471 DW_AT_name "a", Attr.ofU64 472 DW_AT_type 390] []]

/-- The compile unit of `/src/d.cpp` in which the definition of `foo` carries a name. -/
def cuDieR : Die :=
  .mk 300 DW_TAG_compile_unit [Attr.ofStr 301 DW_AT_name "d.cpp"]
    [namespaceN, intType, fooDefReserved]

/-- The compile unit `cuDieR` with a file table whose header is `/inc/a.h`. -/
def cuR : CU := ⟨cuDieR, ["/src/d.cpp".toList, "/inc/./a.h".toList]⟩

/-- The engine run on `cuR` without filter. -/
def envR : Env := ⟨⟨[cuR]⟩, [], fun _ => none⟩

/-- A second out-of-line definition of `foo`, with the parameter `b`. -/
def fooDefInner : Die :=
  .mk 415 DW_TAG_subprogram [Attr.ofU64 416 DW_AT_specification 340]
    [.mk 417 DW_TAG_formal_parameter
      [Attr.ofStr 418 DW_AT_name "b", Attr.ofU64 419 DW_AT_type 390] []]

/-- The out-of-line definition of `foo` with the parameter `a`; its other child is the second
definition of `foo`. -/
def fooDefOuter : Die :=
  .mk 400 DW_TAG_subprogram
    [Attr.ofU64 401 DW_AT_specification 340, Attr.ofStr 402 DW_AT_linkage_name "_ZN1n1C3fooEi",
      Attr.ofU64 403 DW_AT_decl_file 1]
    [.mk 410 DW_TAG_formal_parameter
        [Attr.ofStr 411 DW_AT_name "a", Attr.ofU64 412 DW_AT_type 390] [],
      fooDefInner]

/-- The compile unit of `/src/d.cpp` with the two definitions of `foo`. -/
def cuDieJ : Die :=
  .mk 300 DW_TAG_compile_unit [Attr.ofStr 301 DW_AT_name "d.cpp"]
    [namespaceN, intType, fooDefOuter]

/-- The compile unit `cuDieJ` with its source-file table. -/
def cuJ : CU := ⟨cuDieJ, ["/src/d.cpp".toList, "/inc/./d.h".toList]⟩

/-- The engine run on `cuJ` without filter. -/
def envJ : Env := ⟨⟨[cuJ]⟩, [], fun _ => none⟩

/-- The document after the outer definition of `foo` in `cuJ` has been parsed into an empty
one: the overlay of the nested definition is the one that stays. -/
def fooOutJ : Json :=
  inClassC [("00007-func: foo".toList,
    .obj [("0-decl_pos".toList, .arr [.uint 7]),
      ("0-linkage".toList, .str "_ZN1n1C3fooEi".toList), ("0-name".toList, .str "foo".toList),
      ("1-type".toList, .str "int ".toList), ("2-param_name".toList, .arr [.str "b".toList]),
      ("2-param_type".toList, .arr [.str "int {}".toList]), ("offset".toList, .uint 340),
      ("otherOffset".toList, .uint 415)])]

/-- The out-of-line definition of `foo` with the parameter `a` and no other child. -/
def fooDefPlain : Die :=
  .mk 400 DW_TAG_subprogram
    [Attr.ofU64 401 DW_AT_specification 340, Attr.ofStr 402 DW_AT_linkage_name "_ZN1n1C3fooEi",
      Attr.ofU64 403 DW_AT_decl_file 1]
    [.mk 410 DW_TAG_formal_parameter
      [Attr.ofStr 411 DW_AT_name "a", Attr.ofU64 412 DW_AT_type 390] []]

/-- The compile unit of `/src/d.cpp` with the definition `fooDefPlain`; the declaration of
`foo` is in `/inc/a.h`. -/
def cuDiePlain : Die :=
  .mk 300 DW_TAG_compile_unit [Attr.ofStr 301 DW_AT_name "d.cpp"]
    [namespaceN, intType, fooDefPlain]

/-- The compile unit `cuDiePlain` with its source-file table. -/
def cuPlain : CU := ⟨cuDiePlain, ["/src/d.cpp".toList, "/inc/./a.h".toList]⟩

/-- The engine run on `cuPlain` without filter. -/
def envPlain : Env := ⟨⟨[cuPlain]⟩, [], fun _ => none⟩

end Sample
/-! ## Predicates on scopes and on type chains (continued) -/

/-- The tags of the scopes that `completeNameScope` names: namespace, class, structure, union
and enumeration. -/
def IsScopeTag (tag : Nat) : Prop :=
  tag = DW_TAG_namespace ∨ tag = DW_TAG_class_type ∨ tag = DW_TAG_structure_type ∨
    tag = DW_TAG_union_type ∨ tag = DW_TAG_enumeration_type

/-- A scope DIE whose `name` attribute holds the string `n`. -/
def NamedScope (d : Die) (n : Str) : Prop :=
  IsScopeTag d.getTAG ∧ ∃ a, d.findAttrByType DW_AT_name = some a ∧ a.mValue = .str n

/-- The qualified name `a1::...::an::name` for the scope names given innermost first. -/
def qualifiedName (scopes : List Str) (name : Str) : Str :=
  "::".toList.intercalate (scopes.reverse ++ [name])

/-- The first DIE of a chain, or `terminal` when the chain is empty. -/
def chainStart (ms : List DieRef) (terminal : Option DieRef) : Option DieRef :=
  match ms with
  | [] => terminal
  | m :: _ => some m

/-- The `type` attribute of `d` leads to `next`; `none` stands for a DIE without `type`
attribute. -/
def NextType (env : Env) (d : Die) (next : Option DieRef) : Prop :=
  match next with
  | none => d.findAttrByType DW_AT_type = none
  | some t => TypeLink env d t

/-- The DIEs `ms` are the DIEs without name that the loop of `getTypeInfo` visits one after
the other; behind the last one comes `terminal`, or nothing when the last one has no `type`
attribute. -/
def UnnamedChain (env : Env) : List DieRef → Option DieRef → Prop
  | [], _ => True
  | m :: rest, terminal =>
    m.die.getName [] = .ok [] ∧ NextType env m.die (chainStart rest terminal) ∧
      UnnamedChain env rest terminal

/-- A DIE whose name is not empty, where the loop of `getTypeInfo` stops. -/
def HasName (t : DieRef) : Prop := ∃ n, n ≠ [] ∧ t.die.getName [] = .ok n

/-- The keys that the attribute loop of `parseFunction` (declaration form) assigns to. -/
def funcAttrKeys : List Str :=
  ["0-name".toList, "0-linkage".toList, "0-external".toList, "1-accessibility".toList,
   "1-default".toList, "1-deleted".toList, "0-decl_pos".toList, "1-virtual".toList,
   "1-inline".toList, "1-vtable_loc".toList, "1-ref_decorate".toList,
   "1-r_ref_decorate".toList, "1-artificial".toList]

/-- The child `c` of the function `F` is an artificial formal parameter for whose type
`getTypeInfo` reports the const flag. -/
def ConstThis (fuel : Nat) (env : Env) (F : DieRef) (c : Die) : Prop :=
  c.getTAG = DW_TAG_formal_parameter ∧ (c.findAttrByType DW_AT_artificial).isSome = true ∧
    ∃ r, getTypeInfo fuel env (F.child c) "{obj_ptr}".toList = .ok r ∧ r.2 % 2 = 1

/-! ## Predicates for the frame of the parsers -/

/-- A value that is neither `null` nor an object: a number, a string or an array. -/
def Json.isScalar : Json → Bool
  | .uint _ => true
  | .int _ => true
  | .str _ => true
  | .arr _ => true
  | _ => false

/-- The keys that the overlay of `parseFunction` assigns to. -/
def funcOverlayKeys : List Str :=
  ["2-param_name".toList, "0-linkage".toList, "otherOffset".toList]

/-- An update of the output keeps every value `v` of the kind `L` that is reached by a path
through no key of `bad`. -/
def KeepsValues (bad : List Str) (L : Json → Prop) (f : Json → Res Json) : Prop :=
  ∀ (q : List Str) (v j j1 : Json), (∀ k ∈ q, k ∉ bad) → L v →
    f j = .ok j1 → Json.getAt q j = some v → Json.getAt q j1 = some v

/-- The side conditions of the frame: only numbers, strings and arrays are followed, the key
`1-linkage` is given up, and so is the key `0-template_param` unless empty values are not
followed. -/
def FrameOk (bad : List Str) (L : Json → Prop) : Prop :=
  (∀ v, L v → v.isScalar = true) ∧ "1-linkage".toList ∈ bad ∧
    ("0-template_param".toList ∈ bad ∨ ∀ v, L v → v.empty = false)

mutual
/-- No DIE of the subtree is a subprogram with a specification attribute. -/
def Die.quiet : Die → Bool
  | .mk _ t a cs =>
    !(decide (t = DW_TAG_subprogram) &&
        (a.find? (fun x => x.mType == DW_AT_specification)).isSome) && Die.quietAll cs
/-- No DIE of the subtrees of the list is a subprogram with a specification attribute. -/
def Die.quietAll : List Die → Bool
  | [] => true
  | c :: cs => Die.quiet c && Die.quietAll cs
end

/-- A non-empty array. -/
def IsNonEmptyList (v : Json) : Prop := ∃ l, l ≠ [] ∧ v = .arr l

/-- The tags that the dispatcher hands to `parseClassTemplateParams`. -/
def IsTemplateParamTag (tag : Nat) : Prop :=
  tag = DW_TAG_GNU_template_parameter_pack ∨ tag = DW_TAG_template_type_param ∨
    tag = DW_TAG_template_value_param

/-- The children from which an out-of-line definition takes parameter names: formal
parameters, unspecified parameters and formal parameter packs. -/
def IsNameChild (c : Die) : Bool :=
  decide (c.getTAG = DW_TAG_formal_parameter ∨ c.getTAG = DW_TAG_unspecified_parameters ∨
    c.getTAG = DW_TAG_GNU_formal_parameter_pack)

/-- The parameter name that a child of an out-of-line definition stands for: `...args` for a
formal parameter pack, otherwise the name of the child or `/*Unnamed*/`. -/
def paramNameOf (c : Die) : Res Str :=
  if c.getTAG = DW_TAG_GNU_formal_parameter_pack then .ok "...args".toList
  else c.getName unnamedParam

/-- The keys given up when the fields of a record are followed through every dispatch. -/
def overwrittenKeys : List Str := overlayKeys ++ ["0-template_param".toList]

/-- The keys given up when a field is followed through the dispatch of DIEs below which no
subprogram has a specification. -/
def variableOverlayKeys : List Str := ["1-linkage".toList, "0-template_param".toList]

/-- A number, a string or an array, as a proposition. -/
def IsScalar (v : Json) : Prop := v.isScalar = true

/-! ## The DIEs of a forest and their order -/

mutual
/-- The DIEs below `d`, in document order. -/
def Die.descendants : Die → List Die
  | .mk _ _ _ children => descendantsOf children
/-- The DIEs of a list of siblings together with the DIEs below them, in document order. -/
def descendantsOf : List Die → List Die
  | [] => []
  | c :: cs => c :: (c.descendants ++ descendantsOf cs)
end

mutual
/-- The pointers to the DIEs below `d`, where `parents` is the chain of parents of `d`. -/
def Die.refsBelow : Die → List Die → List DieRef
  | .mk o t a children, parents => refsOf children (Die.mk o t a children :: parents)
/-- The pointers to the DIEs of a list of siblings and to the DIEs below them. -/
def refsOf : List Die → List Die → List DieRef
  | [], _ => []
  | c :: cs, parents => ⟨c, parents⟩ :: (c.refsBelow parents ++ refsOf cs parents)
end

/-- The pointers to all DIEs of the forest of a file. -/
def File.refs (f : File) : List DieRef := refsOf (f.mCompileUnits.map CU.die) []

/-- A list of siblings is in strictly increasing offset order, and the DIEs below each sibling
have offsets greater than its own and smaller than that of its next sibling. -/
def siblingsOrdered : List Die → Bool
  | [] => true
  | [d] => d.descendants.all (fun x => d.getOffset < x.getOffset)
  | d :: s :: rest =>
    d.getOffset < s.getOffset &&
      d.descendants.all (fun x => d.getOffset < x.getOffset && x.getOffset < s.getOffset) &&
      siblingsOrdered (s :: rest)

mutual
/-- Every child list at or below `d` is ordered. -/
def Die.orderedBelow : Die → Bool
  | .mk _ _ _ children => siblingsOrdered children && allOrderedBelow children
/-- Every child list at or below the DIEs of a list is ordered. -/
def allOrderedBelow : List Die → Bool
  | [] => true
  | c :: cs => c.orderedBelow && allOrderedBelow cs
end

/-- The compile units and every child list of the forest are ordered. -/
def File.ordered (f : File) : Bool :=
  siblingsOrdered (f.mCompileUnits.map CU.die) && allOrderedBelow (f.mCompileUnits.map CU.die)

/-! ## The steps of the type reconstructor -/

/-- The offset that the `type` attribute of `d` refers to, when `d` has one that holds an
unsigned 64-bit value. -/
def typeOffsetOf (d : Die) : Option Nat :=
  match d.findAttrByType DW_AT_type with
  | some a =>
    match a.mValue with
    | .u64 n => some n
    | _ => none
  | none => none

/-- The offsets that the formal parameters of a subroutine type refer to with their `type`
attributes; empty for every other DIE. -/
def paramTypeOffsets (x : Die) : List Nat :=
  if x.getTAG = DW_TAG_subroutine_type then
    (x.getChildren.filter (fun c => c.getTAG = DW_TAG_formal_parameter)).filterMap typeOffsetOf
  else []

/-- Following a `type` attribute lowers the rank: `rank` maps offsets to numbers, and for
every DIE of the forest the offset in its `type` attribute has a smaller rank than its own.
A forest has such a rank exactly when following `type` attributes never comes back to a DIE. -/
def typeAttrsRanked (f : File) (rank : Nat → Nat) : Bool :=
  f.refs.all fun x =>
    (typeOffsetOf x.die).all fun o => rank o < rank x.die.getOffset

/-- Every step of the type reconstructor lowers the rank: besides the step along the `type`
attribute of a DIE, the step from a subroutine type to the type of one of its formal
parameters. -/
def typesRanked (f : File) (rank : Nat → Nat) : Bool :=
  f.refs.all fun x =>
    ((typeOffsetOf x.die).toList ++ paramTypeOffsets x.die).all fun o =>
      rank o < rank x.die.getOffset

/-! ## Relations between documents, for the second dispatch of a DIE -/

/-- The document `t` extends the document `s`: every key of `s` is a key of `t`, a value
that is neither empty nor an object is the same in both, and an object is extended key by
key. The values under the keys of `bad` are not compared; below the first level these are
the overlay keys. -/
inductive Ext : List Str → Json → Json → Prop
  | refl (bad : List Str) (t : Json) : Ext bad t t
  | empty (bad : List Str) (s t : Json) (h : s.empty = true) : Ext bad s t
  | obj (bad : List Str) (kvs kvs1 : List (Str × Json))
      (hk : ∀ k, (mapFind kvs k).isSome = true → (mapFind kvs1 k).isSome = true)
      (hv : ∀ k v v1, mapFind kvs k = some v → mapFind kvs1 k = some v1 → k ∉ bad →
        Ext overlayKeys v v1) : Ext bad (.obj kvs) (.obj kvs1)

mutual
/-- The document with the values under the keys of `bad` blanked out, at every place that a
walk can reach; below the first level the overlay keys are blanked. -/
def Json.strip (bad : List Str) : Json → Json
  | .obj kvs => .obj (stripL bad [] kvs)
  | .null => .null
  | .uint n => .uint n
  | .int i => .int i
  | .str s => .str s
  | .arr l => .arr l
/-- The entries of an object with the values under the keys of `bad` blanked out; an entry
whose key is in `seen` is hidden behind an earlier entry and is left as it is. -/
def stripL (bad seen : List Str) : List (Str × Json) → List (Str × Json)
  | [] => []
  | (k, v) :: rest =>
    (k, if k ∈ seen then v else if k ∈ bad then .null else v.strip overlayKeys) ::
      stripL bad (k :: seen) rest
end

/-- A path that ends with a key of `bad` and goes through no key of `bad` before; below the
first level the overlay keys take the place of `bad`. With `bad` empty these are the paths
to the fields that an overlay assigns to. -/
def Slot : List Str → List Str → Prop
  | _, [] => False
  | bad, [k] => k ∈ bad
  | bad, k0 :: k1 :: rest => k0 ∉ bad ∧ Slot overlayKeys (k1 :: rest)

/-- A path whose first key is not in `bad` and whose other keys are no overlay keys. -/
def PathOk : List Str → List Str → Prop
  | _, [] => True
  | bad, k :: rest => k ∉ bad ∧ ∀ x ∈ rest, x ∉ overlayKeys

/-- The relation between the document `s` of a first run and the document `u` of a second
run that started from the result `T1` of the first: `u` is `T1` up to the fields that
overlays assign to, it extends `T1`, and each such field of `u` holds what it holds in `T1`
or in `s`. -/
def Inv (T1 s u : Json) : Prop :=
  Ext [] T1 u ∧ Json.strip [] u = Json.strip [] T1 ∧
    ∀ σ v, Slot [] σ → Json.getAt σ u = some v →
      Json.getAt σ T1 = some v ∨ Json.getAt σ s = some v

/-- An update extends every document it completes on. -/
def Infl (f : Json → Res Json) : Prop := ∀ s s1, f s = .ok s1 → Ext [] s s1

/-- An update can be repeated in the second run: when it took `s` to `s1` in the first run,
it completes on the related document `u`, and the results are related again. -/
def Lock (T1 : Json) (f : Json → Res Json) : Prop :=
  ∀ s s1 u, f s = .ok s1 → Ext [] s1 T1 → Inv T1 s u → ∃ u1, f u = .ok u1 ∧ Inv T1 s1 u1

/-- Whether the specification named by the DIE `x` is a declaration: when `x` has a
specification attribute that the lookup resolves, the DIE found has no specification
attribute itself, and if `x` is a subprogram all its children are parameters. -/
def specIsDeclaration (env : Env) (x : Die) : Bool :=
  match x.findAttrByType DW_AT_specification with
  | none => true
  | some a =>
    match a.getU64 with
    | .ok off =>
      match env.mDbg.findDIEbyOffset off with
      | .ok (some S) =>
        (S.die.findAttrByType DW_AT_specification).isNone &&
          (decide (x.getTAG ≠ DW_TAG_subprogram) ||
            S.die.getChildren.all fun c =>
              decide (c.getTAG = DW_TAG_formal_parameter ∨
                c.getTAG = DW_TAG_unspecified_parameters ∨
                c.getTAG = DW_TAG_GNU_formal_parameter_pack ∨
                c.getTAG = DW_TAG_template_type_param ∨
                c.getTAG = DW_TAG_template_value_param ∨
                c.getTAG = DW_TAG_GNU_template_parameter_pack))
      | _ => true
    | _ => true

/-- The specifications named at or below the DIE `d` are declarations. -/
def specsAreDeclarations (env : Env) (d : Die) : Bool :=
  (d :: d.descendants).all (specIsDeclaration env)

/-- An update keeps the value of every field that overlays assign to. -/
def KeepsSlots (bad : List Str) (f : Json → Res Json) : Prop :=
  ∀ σ v s s1, Slot bad σ → f s = .ok s1 → Json.getAt σ s = some v → Json.getAt σ s1 = some v


/-- An update that has nothing left to do on a document that extends its result. -/
def Settles (f : Json → Res Json) : Prop :=
  ∀ s s1 u, f s = .ok s1 → Ext [] s1 u → f u = .ok u

/-- An update that only adds: it extends the document, has nothing left to do afterwards,
and keeps the fields that overlays assign to. -/
def Tame (f : Json → Res Json) : Prop := Infl f ∧ Settles f ∧ KeepsSlots [] f

/-- An update that extends the document and can be repeated in the second run. -/
def Good (T1 : Json) (f : Json → Res Json) : Prop := Infl f ∧ Lock T1 f

/-- The specifications named at or below the DIE `d` are declarations, as a proposition. -/
def SpecsOk (env : Env) (d : Die) : Prop :=
  ∀ x ∈ d :: d.descendants, specIsDeclaration env x = true
/-! ## Predicates for the frame below the first key -/

/-- An update of the output keeps every value `v` of the kind `L` that is reached by a path
through no key of `bad` after its first key (the first key of a path into the output is the
name of a file). -/
def KeepsBelow (bad : List Str) (L : Json → Prop) (f : Json → Res Json) : Prop :=
  ∀ (q : List Str) (v j j1 : Json), (∀ k ∈ q.tail, k ∉ bad) → L v →
    f j = .ok j1 → Json.getAt q j = some v → Json.getAt q j1 = some v

/-- Every field of the record `j` is a number, a string or an array. -/
def ScalarFields (j : Json) : Prop :=
  ∀ (field : Str) (v : Json), j.getKey field = some v → v.isScalar = true

/-! ## Lemmas: results, path normalizer, keys -/

@[simp] theorem Res.bind_ok {α β : Type} (a : α) (f : α → Res β) : Res.bind (.ok a) f = f a := rfl
@[simp] theorem Res.bind_fault {α β : Type} (f : α → Res β) : Res.bind .fault f = .fault := rfl
@[simp] theorem Res.bind_timeout {α β : Type} (f : α → Res β) : Res.bind .timeout f = .timeout := rfl

theorem Res.bind_eq_ok {α β : Type} {x : Res α} {f : α → Res β} {b : β} :
    Res.bind x f = .ok b ↔ ∃ a, x = .ok a ∧ f a = .ok b := by
  cases x <;> simp

theorem splitOn_slash_unfold (p : Str) :
    p.splitOn '/' =
      p.takeWhile (fun c => c != '/') ::
        (match p.dropWhile (fun c => c != '/') with
         | [] => []
         | _ :: rest => rest.splitOn '/') := by
  induction p with
  | nil => simp [List.splitOn]
  | cons x xs ih =>
    unfold List.splitOn at ih ⊢
    rw [List.splitOnP_cons]
    by_cases hx : x = '/'
    · subst hx
      simp
    · have h1 : (x == '/') = false := by simpa using hx
      have h2 : (x != '/') = true := by simpa using hx
      rw [h1]
      simp only [Bool.false_eq_true, if_false]
      rw [ih]
      simp [List.takeWhile_cons, List.dropWhile_cons, h2]

theorem splitLoop_eq_foldl : ∀ (fuel : Nat) (p : Str) (acc : List Str), p.length < fuel →
    splitLoop fuel p acc = (p.splitOn '/').foldl pathStep acc := by
  intro fuel
  induction fuel with
  | zero => intro p acc h; omega
  | succ n ih =>
    intro p acc h
    rw [splitOn_slash_unfold]
    unfold splitLoop getline
    by_cases hp : p = []
    · subst hp
      simp [pathStep]
    · simp only [hp, if_false]
      cases hd : p.dropWhile (fun c => c != '/') with
      | nil =>
        simp only [List.tail_nil, List.foldl_cons, List.foldl_nil]
        cases n <;> simp [splitLoop, getline]
      | cons y rest =>
        simp only [List.tail_cons, List.foldl_cons]
        apply ih
        have hl : (p.dropWhile (fun c => c != '/')).length ≤ p.length :=
          (List.dropWhile_sublist _).length_le
        rw [hd] at hl
        simp at hl
        omega

theorem pathComponents_eq_survivors (p : Str) : pathComponents p = survivors p := by
  unfold pathComponents survivors
  rw [splitLoop_eq_foldl _ _ _ (Nat.lt_succ_self _)]
  rfl

theorem goodStack_nil : GoodStack [] := by
  constructor <;> simp

theorem goodStack_dropLast {st : List Str} (h : GoodStack st) : GoodStack st.dropLast := by
  constructor
  · intro c hc
    exact h.1 c (List.mem_of_mem_dropLast hc)
  · intro c hc
    apply h.2 c
    cases st with
    | nil => simp at hc
    | cons a as =>
      cases as with
      | nil => simp at hc
      | cons b bs =>
        simp only [List.dropLast_cons₂, List.tail_cons] at hc ⊢
        exact List.mem_of_mem_dropLast hc

theorem pathStep_good {st : List Str} {c : Str} (h : GoodStack st) (hc : '/' ∉ c) :
    GoodStack (pathStep st c) := by
  unfold pathStep
  split_ifs with h1 h2
  · exact h
  · exact goodStack_dropLast h
  · constructor
    · intro d hd
      rcases List.mem_append.1 hd with hd | hd
      · exact h.1 d hd
      · simp only [List.mem_singleton] at hd
        subst hd
        exact ⟨fun e => h1 (Or.inl e), fun e => h1 (Or.inr e), hc⟩
    · intro d hd
      cases st with
      | nil => simp at hd
      | cons a as =>
        simp only [List.cons_append, List.tail_cons] at hd
        rcases List.mem_append.1 hd with hd | hd
        · exact h.2 d (by simpa using hd)
        · simp only [List.mem_singleton] at hd
          subst hd
          intro e
          exact h2 ⟨e, by simp⟩

theorem splitOn_no_slash : ∀ (n : Nat) (p : Str), p.length ≤ n → ∀ l ∈ p.splitOn '/', '/' ∉ l := by
  intro n
  induction n with
  | zero =>
    intro p hp l hl
    have : p = [] := List.length_eq_zero.1 (Nat.le_zero.1 hp)
    subst this
    simp [List.splitOn] at hl
    subst hl
    simp
  | succ n ih =>
    intro p hp l hl
    rw [splitOn_slash_unfold] at hl
    rcases List.mem_cons.1 hl with hl | hl
    · subst hl
      intro hmem
      have := List.mem_takeWhile_imp hmem
      simp at this
    · cases hd : p.dropWhile (fun c => c != '/') with
      | nil => rw [hd] at hl; simp at hl
      | cons y rest =>
        rw [hd] at hl
        simp only at hl
        apply ih rest _ l hl
        have hl2 : (p.dropWhile (fun c => c != '/')).length ≤ p.length :=
          (List.dropWhile_sublist _).length_le
        rw [hd] at hl2
        simp at hl2
        omega

theorem foldl_pathStep_good : ∀ (l : List Str) (acc : List Str), GoodStack acc →
    (∀ c ∈ l, '/' ∉ c) → GoodStack (l.foldl pathStep acc) := by
  intro l
  induction l with
  | nil => intro acc h _; exact h
  | cons c cs ih =>
    intro acc h hl
    simp only [List.foldl_cons]
    apply ih
    · exact pathStep_good h (hl c (by simp))
    · intro d hd
      exact hl d (by simp [hd])

theorem survivors_good (p : Str) : GoodStack (survivors p) := by
  have : survivors p = (p.splitOn '/').foldl pathStep [] := rfl
  rw [this]
  exact foldl_pathStep_good _ _ goodStack_nil (splitOn_no_slash p.length p (le_refl _))

theorem foldl_pathStep_of_good : ∀ (cs acc : List Str), GoodStack (acc ++ cs) →
    cs.foldl pathStep acc = acc ++ cs := by
  intro cs
  induction cs with
  | nil => intro acc _; simp
  | cons c cs ih =>
    intro acc h
    simp only [List.foldl_cons]
    have hc : CleanComp c := h.1 c (by simp)
    have hstep : pathStep acc c = acc ++ [c] := by
      unfold pathStep
      have h1 : ¬ (c = [] ∨ c = ['.']) := by
        rintro (e | e)
        · exact hc.1 e
        · exact hc.2.1 e
      rw [if_neg h1]
      have h2 : ¬ (c = ['.', '.'] ∧ acc ≠ []) := by
        rintro ⟨e, hne⟩
        cases acc with
        | nil => exact hne rfl
        | cons a as =>
          exact h.2 c (by simp) e
      rw [if_neg h2]
    rw [hstep]
    have : acc ++ c :: cs = (acc ++ [c]) ++ cs := by simp
    rw [this] at h ⊢
    exact ih _ h

theorem joinComponents_foldl_ne_nil : ∀ (cs : List Str) (acc : Str), acc ≠ [] →
    cs.foldl (fun acc comp => acc ++ ((if acc = [] then [] else ['/']) ++ comp)) acc =
      acc ++ (cs.map (fun c => '/' :: c)).flatten := by
  intro cs
  induction cs with
  | nil => intro acc _; simp
  | cons c cs ih =>
    intro acc h
    simp only [List.foldl_cons, if_neg h]
    rw [ih _ (by simp [h])]
    simp

theorem intercalate_slash_cons (c : Str) (cs : List Str) :
    List.intercalate ['/'] (c :: cs) = c ++ (cs.map (fun d => '/' :: d)).flatten := by
  induction cs generalizing c with
  | nil => simp [List.intercalate]
  | cons d ds ih =>
    have := ih d
    simp only [List.intercalate, List.intersperse_cons₂, List.flatten_cons] at this ⊢
    simp [List.intersperse, this]

theorem joinComponents_eq (st : List Str) (h : ∀ c ∈ st, c ≠ []) :
    joinComponents st = List.intercalate ['/'] st := by
  cases st with
  | nil => simp [joinComponents, List.intercalate]
  | cons c cs =>
    rw [intercalate_slash_cons]
    unfold joinComponents
    simp only [List.foldl_cons, if_true, List.nil_append]
    exact joinComponents_foldl_ne_nil cs c (h c (by simp))

theorem intercalate_eq_nil_iff (st : List Str) (h : ∀ c ∈ st, c ≠ []) :
    List.intercalate ['/'] st = [] ↔ st = [] := by
  cases st with
  | nil => simp [List.intercalate]
  | cons c cs =>
    rw [intercalate_slash_cons]
    simp [h c (by simp)]

/-- What `simplifyPath` returns, in terms of the surviving components. -/
theorem simplifyPath_eq (p : Str) (hp : p ≠ []) :
    simplifyPath p =
      if survivors p = [] then ['/']
      else (if p.head? = some '/' then ['/'] else []) ++ List.intercalate ['/'] (survivors p) := by
  have hg := survivors_good p
  have hne : ∀ c ∈ survivors p, c ≠ [] := fun c hc => (hg.1 c hc).1
  unfold simplifyPath
  rw [if_neg hp, pathComponents_eq_survivors]
  simp only [joinComponents_eq _ hne, intercalate_eq_nil_iff _ hne]
  by_cases hs : survivors p = []
  · simp [hs]
  · simp only [hs, if_false]
    by_cases hh : p.head? = some '/'
    · simp [hh]
    · simp [hh]

theorem survivors_slash_cons (s : Str) : survivors ('/' :: s) = survivors s := by
  have h1 : ∀ q : Str, survivors q = (q.splitOn '/').foldl pathStep [] := fun _ => rfl
  rw [h1, h1]
  unfold List.splitOn
  rw [List.splitOnP_cons]
  simp [pathStep]

theorem survivors_intercalate (st : List Str) (h : GoodStack st) (hne : st ≠ []) :
    survivors (List.intercalate ['/'] st) = st := by
  have h1 : ∀ q : Str, survivors q = (q.splitOn '/').foldl pathStep [] := fun _ => rfl
  rw [h1, List.splitOn_intercalate st '/' (fun l hl => (h.1 l hl).2.2) hne]
  have := foldl_pathStep_of_good st [] (by simpa using h)
  simpa using this

theorem survivors_simplifyPath (p : Str) : survivors (simplifyPath p) = survivors p := by
  by_cases hp : p = []
  · subst hp; rfl
  · rw [simplifyPath_eq p hp]
    by_cases hs : survivors p = []
    · rw [if_pos hs, hs]; decide
    · rw [if_neg hs]
      by_cases hh : p.head? = some '/'
      · rw [if_pos hh]
        simp only [List.singleton_append]
        rw [survivors_slash_cons, survivors_intercalate _ (survivors_good p) hs]
      · rw [if_neg hh]
        simp only [List.nil_append]
        rw [survivors_intercalate _ (survivors_good p) hs]

theorem head_intercalate_ne_slash (st : List Str) (h : GoodStack st) :
    (List.intercalate ['/'] st).head? ≠ some '/' := by
  cases st with
  | nil => simp [List.intercalate]
  | cons c cs =>
    rw [intercalate_slash_cons]
    have hc := h.1 c (by simp)
    cases c with
    | nil => exact absurd rfl hc.1
    | cons x xs =>
      simp only [List.cons_append, List.head?_cons]
      intro e
      apply hc.2.2
      simp only [Option.some.injEq] at e
      simp [e]

theorem digitChar_toNat : ∀ k, k < 10 → (Nat.digitChar k).toNat = 48 + k := by decide

theorem toDigitsCore_step (fuel n : Nat) (ds : List Char) (hf : 0 < fuel) :
    Nat.toDigitsCore 10 fuel n ds =
      if n / 10 = 0 then Nat.digitChar (n % 10) :: ds
      else Nat.toDigitsCore 10 (fuel - 1) (n / 10) (Nat.digitChar (n % 10) :: ds) := by
  cases fuel with
  | zero => omega
  | succ f => simp [Nat.toDigitsCore]

/-- The five decimal digits of a number below one hundred thousand. -/
theorem fmt05_eq (n : Nat) (h : n < 100000) :
    fmt05 n = [Nat.digitChar (n / 10000), Nat.digitChar (n / 1000 % 10),
      Nat.digitChar (n / 100 % 10), Nat.digitChar (n / 10 % 10), Nat.digitChar (n % 10)] := by
  have d2 : n / 10 / 10 = n / 100 := by omega
  have d3 : n / 100 / 10 = n / 1000 := by omega
  have d4 : n / 1000 / 10 = n / 10000 := by omega
  have d5 : n / 10000 / 10 = 0 := by omega
  have z : Nat.digitChar 0 = '0' := rfl
  unfold fmt05 fmtU Nat.toDigits
  rw [toDigitsCore_step _ _ _ (by omega)]
  by_cases h1 : n / 10 = 0
  · have e2 : n / 100 = 0 := by omega
    have e3 : n / 1000 = 0 := by omega
    have e4 : n / 10000 = 0 := by omega
    simp [h1, e2, e3, e4, List.replicate, z]
  · rw [if_neg h1, toDigitsCore_step _ _ _ (by omega), d2]
    by_cases h2 : n / 100 = 0
    · have e3 : n / 1000 = 0 := by omega
      have e4 : n / 10000 = 0 := by omega
      simp [h2, e3, e4, List.replicate, z]
    · rw [if_neg h2, toDigitsCore_step _ _ _ (by omega), d3]
      by_cases h3 : n / 1000 = 0
      · have e4 : n / 10000 = 0 := by omega
        simp [h3, e4, List.replicate, z]
      · rw [if_neg h3, toDigitsCore_step _ _ _ (by omega), d4]
        by_cases h4 : n / 10000 = 0
        · simp [h4, List.replicate, z]
        · have m4 : n / 10000 % 10 = n / 10000 := by omega
          rw [if_neg h4, toDigitsCore_step _ _ _ (by omega), d5]
          simp [List.replicate, m4]

theorem strLt_cons_lt (x y : Char) (xs ys : Str) (h : x.toNat < y.toNat) :
    strLt (x :: xs) (y :: ys) = true := by
  simp [strLt, h]

theorem strLt_cons_eq (x y : Char) (xs ys : Str) (h : x.toNat = y.toNat) :
    strLt (x :: xs) (y :: ys) = strLt xs ys := by
  simp [strLt, h]

theorem strLt_digit (i j : Nat) (hi : i < 10) (hj : j < 10) (xs ys : Str) (hle : i ≤ j)
    (hrest : i = j → strLt xs ys = true) :
    strLt (Nat.digitChar i :: xs) (Nat.digitChar j :: ys) = true := by
  rcases Nat.lt_or_eq_of_le hle with h | h
  · apply strLt_cons_lt
    rw [digitChar_toNat i hi, digitChar_toNat j hj]
    omega
  · rw [strLt_cons_eq _ _ _ _ (by rw [h])]
    exact hrest h

theorem strLt_fmt05 (a b : Nat) (hab : a < b) (hb : b < 100000) (s t : Str) :
    strLt (fmt05 a ++ s) (fmt05 b ++ t) = true := by
  rw [fmt05_eq a (by omega), fmt05_eq b hb]
  simp only [List.cons_append, List.nil_append]
  apply strLt_digit _ _ (by omega) (by omega) _ _ (by omega)
  intro h4
  apply strLt_digit _ _ (by omega) (by omega) _ _ (by omega)
  intro h3
  apply strLt_digit _ _ (by omega) (by omega) _ _ (by omega)
  intro h2
  apply strLt_digit _ _ (by omega) (by omega) _ _ (by omega)
  intro h1
  apply strLt_digit _ _ (by omega) (by omega) _ _ (by omega)
  intro h0
  omega

theorem filter_ne_nil_of_good (st : List Str) (h : GoodStack st) :
    st.filter (fun c => decide (c ≠ [])) = st := by
  apply List.filter_eq_self.2
  intro c hc
  simpa using (h.1 c hc).1

theorem pieces_slash_cons (s : Str) : pieces ('/' :: s) = pieces s := by
  unfold pieces List.splitOn
  rw [List.splitOnP_cons]
  simp

theorem pieces_intercalate (st : List Str) (h : GoodStack st) (hne : st ≠ []) :
    pieces (List.intercalate ['/'] st) = st := by
  unfold pieces
  rw [List.splitOn_intercalate st '/' (fun l hl => (h.1 l hl).2.2) hne]
  exact filter_ne_nil_of_good st h

/-- The pieces of a normalized path are the surviving components. -/
theorem pieces_simplifyPath (p : Str) : pieces (simplifyPath p) = survivors p := by
  by_cases hp : p = []
  · subst hp; decide
  · rw [simplifyPath_eq p hp]
    by_cases hs : survivors p = []
    · rw [if_pos hs, hs]; decide
    · rw [if_neg hs]
      by_cases hh : p.head? = some '/'
      · rw [if_pos hh]
        simp only [List.singleton_append]
        rw [pieces_slash_cons, pieces_intercalate _ (survivors_good p) hs]
      · rw [if_neg hh]
        simp only [List.nil_append]
        rw [pieces_intercalate _ (survivors_good p) hs]

/-! ## Lemmas: scope resolver -/

theorem findWhereToStoreLoop_head (env : Env) (declFiles : List Str) :
    ∀ (fuel : Nat) (parents : List Die) (idx : Nat) (declFile : Str) (ret path : List Str),
      findWhereToStoreLoop env declFiles fuel parents idx declFile ret = .ok path →
      NoSpecAncestor parents → path.head? = some declFile := by
  intro fuel
  induction fuel with
  | zero =>
    intro parents idx declFile ret path h _
    cases parents with
    | nil =>
      simp only [findWhereToStoreLoop, Res.ok.injEq] at h
      subst h
      simp
    | cons p up => simp [findWhereToStoreLoop] at h
  | succ n ih =>
    intro parents idx declFile ret path h hno
    cases parents with
    | nil =>
      simp only [findWhereToStoreLoop, Res.ok.injEq] at h
      subst h
      simp
    | cons p up =>
      have hup : NoSpecAncestor up := fun q hq => hno q (List.mem_cons_of_mem _ hq)
      have hp := hno p (List.mem_cons_self _ _)
      rw [findWhereToStoreLoop] at h
      obtain ⟨name, _, h⟩ := Res.bind_eq_ok.1 h
      split_ifs at h with t1 t2 t3 t4 t5 t6
      · exact ih _ _ _ _ _ h hup
      · exact ih _ _ _ _ _ h hup
      · exact ih _ _ _ _ _ h hup
      · exact ih _ _ _ _ _ h hup
      · split at h
        · rename_i a ha
          exact absurd ⟨t5, by simp [ha]⟩ hp
        · obtain ⟨line, _, h⟩ := Res.bind_eq_ok.1 h
          obtain ⟨fn, _, h⟩ := Res.bind_eq_ok.1 h
          exact ih _ _ _ _ _ h hup
      · exact ih _ _ _ _ _ h hup
      · exact ih _ _ _ _ _ h hup

/-- More fuel does not change a result of the ancestor loop. -/
theorem findWhereToStoreLoop_succ (env : Env) (declFiles : List Str) :
    ∀ (fuel : Nat) (parents : List Die) (idx : Nat) (declFile : Str) (ret path : List Str),
      findWhereToStoreLoop env declFiles fuel parents idx declFile ret = .ok path →
      findWhereToStoreLoop env declFiles (fuel + 1) parents idx declFile ret = .ok path := by
  intro fuel
  induction fuel with
  | zero =>
    intro parents idx declFile ret path h
    cases parents with
    | nil => simpa [findWhereToStoreLoop] using h
    | cons p up => simp [findWhereToStoreLoop] at h
  | succ n ih =>
    intro parents idx declFile ret path h
    cases parents with
    | nil => simpa [findWhereToStoreLoop] using h
    | cons p up =>
      rw [findWhereToStoreLoop] at h ⊢
      obtain ⟨name, hname, h⟩ := Res.bind_eq_ok.1 h
      rw [hname]
      simp only [Res.bind_ok]
      split_ifs at h ⊢ with t1 t2 t3 t4 t5 t6
      · exact ih _ _ _ _ _ h
      · exact ih _ _ _ _ _ h
      · exact ih _ _ _ _ _ h
      · exact ih _ _ _ _ _ h
      · split at h
        · rename_i a ha
          obtain ⟨off, hoff, h⟩ := Res.bind_eq_ok.1 h
          obtain ⟨found, hfound, h⟩ := Res.bind_eq_ok.1 h
          simp only [hoff, hfound, Res.bind_ok]
          cases found with
          | none => exact ih _ _ _ _ _ h
          | some specification =>
            simp only at h ⊢
            obtain ⟨line, hline, h⟩ := Res.bind_eq_ok.1 h
            obtain ⟨sn, hsn, h⟩ := Res.bind_eq_ok.1 h
            obtain ⟨file, hfile, h⟩ := Res.bind_eq_ok.1 h
            simp only [hline, hsn, hfile, Res.bind_ok]
            exact ih _ _ _ _ _ h
        · obtain ⟨line, hline, h⟩ := Res.bind_eq_ok.1 h
          obtain ⟨fn, hfn, h⟩ := Res.bind_eq_ok.1 h
          simp only [hline, hfn, Res.bind_ok]
          exact ih _ _ _ _ _ h
      · exact ih _ _ _ _ _ h
      · exact ih _ _ _ _ _ h

theorem findWhereToStoreLoop_add (env : Env) (declFiles : List Str) (k : Nat) :
    ∀ (fuel : Nat) (parents : List Die) (idx : Nat) (declFile : Str) (ret path : List Str),
      findWhereToStoreLoop env declFiles fuel parents idx declFile ret = .ok path →
      findWhereToStoreLoop env declFiles (fuel + k) parents idx declFile ret = .ok path := by
  induction k with
  | zero => intro fuel parents idx declFile ret path h; exact h
  | succ k ih =>
    intro fuel parents idx declFile ret path h
    exact findWhereToStoreLoop_succ env declFiles _ _ _ _ _ _ (ih _ _ _ _ _ _ h)

/-- The path that `findWhereToStore` returns does not depend on the fuel. -/
theorem findWhereToStore_fuel (env : Env) (compileUnit : CU) (DIE : DieRef) (f1 f2 : Nat)
    (p1 p2 : List Str) (h1 : findWhereToStore f1 env compileUnit DIE = .ok p1)
    (h2 : findWhereToStore f2 env compileUnit DIE = .ok p2) : p1 = p2 := by
  unfold findWhereToStore at h1 h2
  split at h1
  · rename_i ha
    rw [ha] at h2
    simp only [Res.ok.injEq] at h1 h2
    rw [← h1, ← h2]
  · rename_i attr ha
    rw [ha] at h2
    simp only at h1 h2
    split_ifs at h1 h2 with c1
    · simp only [Res.ok.injEq] at h1 h2
      rw [← h1, ← h2]
    · obtain ⟨file, hfile, h1⟩ := Res.bind_eq_ok.1 h1
      rw [hfile] at h2
      simp only [Res.bind_ok] at h2
      split_ifs at h1 h2 with c2
      · simp only [Res.ok.injEq] at h1 h2
        rw [← h1, ← h2]
      · have e1 := findWhereToStoreLoop_add env _ f2 _ _ _ _ _ _ h1
        have e2 := findWhereToStoreLoop_add env _ f1 _ _ _ _ _ _ h2
        rw [Nat.add_comm f2 f1, e1] at e2
        simpa using e2

/-! ## Lemmas: the output document -/

theorem mapFind_mapReplace_same : ∀ (kvs : List (Str × Json)) (k : Str) (v : Json),
    (mapFind kvs k).isSome = true → mapFind (mapReplace kvs k v) k = some v := by
  intro kvs
  induction kvs with
  | nil => intro k v h; simp [mapFind] at h
  | cons kv rest ih =>
    intro k v h
    obtain ⟨k0, v0⟩ := kv
    by_cases e : k0 = k
    · simp [mapReplace, mapFind, e]
    · simp only [mapFind, if_neg e] at h
      simp only [mapReplace, if_neg e, mapFind]
      exact ih k v h

theorem mapFind_mapReplace_other : ∀ (kvs : List (Str × Json)) (k k1 : Str) (v : Json),
    k1 ≠ k → mapFind (mapReplace kvs k v) k1 = mapFind kvs k1 := by
  intro kvs
  induction kvs with
  | nil => intro k k1 v _; rfl
  | cons kv rest ih =>
    intro k k1 v h
    obtain ⟨k0, v0⟩ := kv
    by_cases e : k0 = k
    · subst e
      simp [mapReplace, mapFind, Ne.symm h]
    · simp only [mapReplace, if_neg e, mapFind]
      by_cases e1 : k0 = k1
      · simp [e1]
      · simp only [if_neg e1]
        exact ih k k1 v h

theorem mapFind_mapInsert_same : ∀ (kvs : List (Str × Json)) (k : Str) (v : Json),
    mapFind kvs k = none → mapFind (mapInsert kvs k v) k = some v := by
  intro kvs
  induction kvs with
  | nil => intro k v _; simp [mapInsert, mapFind]
  | cons kv rest ih =>
    intro k v h
    obtain ⟨k0, v0⟩ := kv
    by_cases e : k0 = k
    · simp [mapFind, e] at h
    · simp only [mapFind, if_neg e] at h
      simp only [mapInsert]
      split_ifs
      · simp [mapFind]
      · simp only [mapFind, if_neg e]
        exact ih k v h

theorem mapFind_mapInsert_other : ∀ (kvs : List (Str × Json)) (k k1 : Str) (v : Json),
    k1 ≠ k → mapFind (mapInsert kvs k v) k1 = mapFind kvs k1 := by
  intro kvs
  induction kvs with
  | nil => intro k k1 v h; simp [mapInsert, mapFind, Ne.symm h]
  | cons kv rest ih =>
    intro k k1 v h
    obtain ⟨k0, v0⟩ := kv
    simp only [mapInsert]
    split_ifs
    · simp [mapFind, Ne.symm h]
    · simp only [mapFind]
      by_cases e1 : k0 = k1
      · simp [e1]
      · simp only [if_neg e1]
        exact ih k k1 v h

theorem mapReplace_same_value : ∀ (kvs : List (Str × Json)) (k : Str) (v : Json),
    mapFind kvs k = some v → mapReplace kvs k v = kvs := by
  intro kvs
  induction kvs with
  | nil => intro k v _; rfl
  | cons kv rest ih =>
    intro k v h
    obtain ⟨k0, v0⟩ := kv
    by_cases e : k0 = k
    · simp only [mapFind, if_pos e, Option.some.injEq] at h
      simp [mapReplace, e, h]
    · simp only [mapFind, if_neg e] at h
      simp only [mapReplace, if_neg e]
      rw [ih k v h]

theorem mapReplace_mapReplace : ∀ (kvs : List (Str × Json)) (k : Str) (v w : Json),
    mapReplace (mapReplace kvs k v) k w = mapReplace kvs k w := by
  intro kvs
  induction kvs with
  | nil => intro k v w; rfl
  | cons kv rest ih =>
    intro k v w
    obtain ⟨k0, v0⟩ := kv
    by_cases e : k0 = k
    · simp [mapReplace, e]
    · simp only [mapReplace, if_neg e]
      rw [ih]

theorem mapReplace_mapInsert : ∀ (kvs : List (Str × Json)) (k : Str) (v w : Json),
    mapFind kvs k = none → mapReplace (mapInsert kvs k v) k w = mapInsert kvs k w := by
  intro kvs
  induction kvs with
  | nil => intro k v w _; simp [mapInsert, mapReplace]
  | cons kv rest ih =>
    intro k v w h
    obtain ⟨k0, v0⟩ := kv
    by_cases e : k0 = k
    · simp [mapFind, e] at h
    · simp only [mapFind, if_neg e] at h
      simp only [mapInsert]
      split_ifs
      · simp [mapReplace]
      · simp only [mapReplace, if_neg e]
        rw [ih k v w h]

/-- What `modifyKey` leaves under the key it addressed. -/
theorem Json.modifyKey_getKey {j j1 : Json} {k : Str} {f : Json → Res Json}
    (h : j.modifyKey k f = .ok j1) :
    ∃ v, f ((j.getKey k).getD .null) = .ok v ∧ j1.getKey k = some v := by
  cases j with
  | null =>
    simp only [Json.modifyKey] at h
    obtain ⟨v, hv, h⟩ := Res.bind_eq_ok.1 h
    simp only [Res.ok.injEq] at h
    subst h
    exact ⟨v, by simpa [Json.getKey] using hv, by simp [Json.getKey, mapFind]⟩
  | obj kvs =>
    simp only [Json.modifyKey] at h
    cases hf : mapFind kvs k with
    | some old =>
      rw [hf] at h
      simp only at h
      obtain ⟨v, hv, h⟩ := Res.bind_eq_ok.1 h
      simp only [Res.ok.injEq] at h
      subst h
      refine ⟨v, by simpa [Json.getKey, hf] using hv, ?_⟩
      simp only [Json.getKey]
      exact mapFind_mapReplace_same kvs k v (by simp [hf])
    | none =>
      rw [hf] at h
      simp only at h
      obtain ⟨v, hv, h⟩ := Res.bind_eq_ok.1 h
      simp only [Res.ok.injEq] at h
      subst h
      refine ⟨v, by simpa [Json.getKey, hf] using hv, ?_⟩
      simp only [Json.getKey]
      exact mapFind_mapInsert_same kvs k v hf
  | uint n => simp [Json.modifyKey] at h
  | int n => simp [Json.modifyKey] at h
  | str n => simp [Json.modifyKey] at h
  | arr n => simp [Json.modifyKey] at h

/-- The entries under the other keys are left alone by `modifyKey`. -/
theorem Json.modifyKey_getKey_other {j j1 : Json} {k k1 : Str} {f : Json → Res Json}
    (h : j.modifyKey k f = .ok j1) (hk : k1 ≠ k) : j1.getKey k1 = j.getKey k1 := by
  cases j with
  | null =>
    simp only [Json.modifyKey] at h
    obtain ⟨v, _, h⟩ := Res.bind_eq_ok.1 h
    simp only [Res.ok.injEq] at h
    subst h
    simp [Json.getKey, mapFind, Ne.symm hk]
  | obj kvs =>
    simp only [Json.modifyKey] at h
    cases hf : mapFind kvs k with
    | some old =>
      rw [hf] at h
      simp only at h
      obtain ⟨v, _, h⟩ := Res.bind_eq_ok.1 h
      simp only [Res.ok.injEq] at h
      subst h
      exact mapFind_mapReplace_other kvs k k1 v hk
    | none =>
      rw [hf] at h
      simp only at h
      obtain ⟨v, _, h⟩ := Res.bind_eq_ok.1 h
      simp only [Res.ok.injEq] at h
      subst h
      exact mapFind_mapInsert_other kvs k k1 v hk
  | uint n => simp [Json.modifyKey] at h
  | int n => simp [Json.modifyKey] at h
  | str n => simp [Json.modifyKey] at h
  | arr n => simp [Json.modifyKey] at h

/-- Two updates of the same entry compose. -/
theorem Json.modifyKey_comp (j : Json) (k : Str) (f g : Json → Res Json) :
    Res.bind (j.modifyKey k f) (fun j1 => j1.modifyKey k g) =
      j.modifyKey k (fun v => Res.bind (f v) g) := by
  cases j with
  | null =>
    simp only [Json.modifyKey]
    cases hv : f .null with
    | ok v =>
      simp only [Res.bind_ok, Json.modifyKey, mapFind, if_true]
      cases g v <;> simp [mapReplace]
    | fault => rfl
    | timeout => rfl
  | obj kvs =>
    simp only [Json.modifyKey]
    cases hf : mapFind kvs k with
    | some old =>
      simp only
      cases hv : f old with
      | ok v =>
        simp only [Res.bind_ok, Json.modifyKey, mapFind_mapReplace_same kvs k v (by simp [hf])]
        cases g v <;> simp [mapReplace_mapReplace]
      | fault => rfl
      | timeout => rfl
    | none =>
      simp only
      cases hv : f .null with
      | ok v =>
        simp only [Res.bind_ok, Json.modifyKey, mapFind_mapInsert_same kvs k v hf]
        cases g v <;> simp [mapReplace_mapInsert _ _ _ _ hf]
      | fault => rfl
      | timeout => rfl
  | uint n => rfl
  | int n => rfl
  | str n => rfl
  | arr n => rfl

/-- Updates that agree on the value found under the key have the same effect. -/
theorem Json.modifyKey_congr (j : Json) (k : Str) (f g : Json → Res Json)
    (h : f ((j.getKey k).getD .null) = g ((j.getKey k).getD .null)) :
    j.modifyKey k f = j.modifyKey k g := by
  cases j with
  | null => simpa [Json.modifyKey, Json.getKey] using congrArg (fun r => Res.bind r _) h
  | obj kvs =>
    simp only [Json.modifyKey]
    cases hf : mapFind kvs k with
    | some old =>
      simp only [Json.getKey, hf, Option.getD_some] at h
      simp only [h]
    | none =>
      simp only [Json.getKey, hf, Option.getD_none] at h
      simp only [h]
  | uint n => rfl
  | int n => rfl
  | str n => rfl
  | arr n => rfl

/-- The value at the end of a walk after `modifyAt`. -/
theorem Json.modifyAt_getAt : ∀ (path : List Str) (f : Json → Res Json) (j j1 : Json),
    Json.modifyAt path f j = .ok j1 →
    ∃ v, f ((Json.getAt path j).getD .null) = .ok v ∧ Json.getAt path j1 = some v := by
  intro path
  induction path with
  | nil =>
    intro f j j1 h
    exact ⟨j1, by simpa [Json.modifyAt, Json.getAt] using h, rfl⟩
  | cons k rest ih =>
    intro f j j1 h
    simp only [Json.modifyAt] at h
    obtain ⟨v, hv, hg⟩ := Json.modifyKey_getKey h
    obtain ⟨w, hw, hgw⟩ := ih f _ v hv
    refine ⟨w, ?_, ?_⟩
    · simp only [Json.getAt]
      cases hk : j.getKey k with
      | some old => simpa [hk] using hw
      | none => 
        simp only [hk, Option.getD_none] at hw ⊢
        cases rest with
        | nil => simpa [Json.getAt] using hw
        | cons k2 r2 => simpa [Json.getAt, Json.getKey] using hw
    · simp only [Json.getAt, hg]
      exact hgw

/-- Two updates at the end of the same walk compose. -/
theorem Json.modifyAt_comp : ∀ (path : List Str) (f g : Json → Res Json) (j : Json),
    Res.bind (Json.modifyAt path f j) (Json.modifyAt path g) =
      Json.modifyAt path (fun v => Res.bind (f v) g) j := by
  intro path
  induction path with
  | nil => intro f g j; rfl
  | cons k rest ih =>
    intro f g j
    simp only [Json.modifyAt]
    rw [Json.modifyKey_comp]
    congr 1
    funext v
    exact ih f g v

/-- The walk to `path ++ [key]` is the walk to `path` followed by `operator[]`. -/
theorem Json.modifyAt_append : ∀ (path : List Str) (key : Str) (f : Json → Res Json) (j : Json),
    Json.modifyAt (path ++ [key]) f j = Json.modifyAt path (fun o => o.modifyKey key f) j := by
  intro path
  induction path with
  | nil => intro key f j; rfl
  | cons k rest ih =>
    intro key f j
    simp only [List.cons_append, Json.modifyAt]
    congr 1
    funext v
    exact ih key f v

/-- An `emplace` leaves the key present. -/
theorem Json.emplace_hasKey {o o1 : Json} {key : Str} {v : Json}
    (h : o.emplace key v = .ok o1) : o1.hasKey key = true := by
  cases o with
  | null =>
    simp only [Json.emplace, Res.ok.injEq] at h
    subst h
    simp [Json.hasKey, mapHas, mapFind]
  | obj kvs =>
    simp only [Json.emplace] at h
    by_cases hk : mapHas kvs key = true
    · simp only [hk, if_true, Res.ok.injEq] at h
      subst h
      simpa [Json.hasKey] using hk
    · have hk0 : mapHas kvs key = false := by simpa using hk
      simp only [hk0, Bool.false_eq_true, if_false, Res.ok.injEq] at h
      subst h
      have hn : mapFind kvs key = none := by
        simpa [mapHas] using hk
      simp [Json.hasKey, mapHas, mapFind_mapInsert_same kvs key v hn]
  | uint n => simp [Json.emplace] at h
  | int n => simp [Json.emplace] at h
  | str n => simp [Json.emplace] at h
  | arr n => simp [Json.emplace] at h

/-- After a record has been emplaced at the end of a walk, it is found there. -/
theorem hasRecord_of_emplace {path : List Str} {key : Str} {v out out1 : Json}
    (h : Json.modifyAt path (fun o => o.emplace key v) out = .ok out1) :
    hasRecord out1 path key = true := by
  obtain ⟨w, hw, hg⟩ := Json.modifyAt_getAt path _ out out1 h
  simp only [hasRecord, hg]
  exact Json.emplace_hasKey hw

theorem Res.bind_ok_right {α : Type} (x : Res α) : Res.bind x Res.ok = x := by
  cases x <;> rfl

theorem Json.getAt_null (path : List Str) : (Json.getAt path .null).getD .null = .null := by
  cases path with
  | nil => rfl
  | cons k rest => rfl

/-- Updates that agree on the value at the end of the walk have the same effect. -/
theorem Json.modifyAt_congr : ∀ (path : List Str) (f g : Json → Res Json) (j : Json),
    f ((Json.getAt path j).getD .null) = g ((Json.getAt path j).getD .null) →
    Json.modifyAt path f j = Json.modifyAt path g j := by
  intro path
  induction path with
  | nil => intro f g j h; exact h
  | cons k rest ih =>
    intro f g j h
    simp only [Json.modifyAt]
    apply Json.modifyKey_congr
    apply ih
    cases hk : j.getKey k with
    | some v => simpa [Json.getAt, hk] using h
    | none =>
      simp only [Json.getAt, hk, Option.getD_none] at h ⊢
      rw [Json.getAt_null]
      exact h

/-- On a value without the key, `emplace` is `operator[]` followed by an assignment. -/
theorem Json.emplace_eq_modifyKey (o : Json) (key : Str) (v : Json)
    (h : o.hasKey key = false) : o.emplace key v = o.modifyKey key (fun _ => .ok v) := by
  cases o with
  | null => rfl
  | obj kvs =>
    simp only [Json.hasKey] at h
    have hn : mapFind kvs key = none := by simpa [mapHas] using h
    simp [Json.emplace, Json.modifyKey, h, hn]
  | uint n => rfl
  | int n => rfl
  | str n => rfl
  | arr n => rfl

/-- Storing a new record: the tree is the old one with the record put at
`path ++ [key]`. -/
theorem modifyAt_emplace_absent (path : List Str) (key : Str) (v out : Json)
    (h : hasRecord out path key = false) :
    Json.modifyAt path (fun o => o.emplace key v) out =
      Json.modifyAt (path ++ [key]) (fun _ => .ok v) out := by
  rw [Json.modifyAt_append]
  apply Json.modifyAt_congr
  apply Json.emplace_eq_modifyKey
  unfold hasRecord at h
  cases hg : Json.getAt path out with
  | some j => simpa [hg] using h
  | none => rfl

/-- Walking again along a path that an update has just walked changes nothing. -/
theorem touch_after_modifyAt (path : List Str) (f : Json → Res Json) (out out1 : Json)
    (h : Json.modifyAt path f out = .ok out1) : Json.touch path out1 = .ok out1 := by
  have hc := Json.modifyAt_comp path f Res.ok out
  rw [h] at hc
  simp only [Res.bind_ok] at hc
  unfold Json.touch
  rw [hc]
  have : (fun v => Res.bind (f v) Res.ok) = f := by
    funext v
    exact Res.bind_ok_right _
  rw [this, h]

/-- The key that `setKey` writes holds the value written. -/
theorem Json.setKey_getKey {j j1 : Json} {k : Str} {v : Json} (h : j.setKey k v = .ok j1) :
    j1.getKey k = some v := by
  obtain ⟨w, hw, hg⟩ := Json.modifyKey_getKey h
  simp only [Res.ok.injEq] at hw
  rw [hg, hw]

/-- The other keys keep their values under `setKey`. -/
theorem Json.setKey_getKey_other {j j1 : Json} {k k1 : Str} {v : Json}
    (h : j.setKey k v = .ok j1) (hk : k1 ≠ k) : j1.getKey k1 = j.getKey k1 :=
  Json.modifyKey_getKey_other h hk

/-- The other keys keep their values under `emplace`. -/
theorem Json.emplace_getKey_other {j j1 : Json} {k k1 : Str} {v : Json}
    (h : j.emplace k v = .ok j1) (hk : k1 ≠ k) : j1.getKey k1 = j.getKey k1 := by
  cases j with
  | null =>
    simp only [Json.emplace, Res.ok.injEq] at h
    subst h
    simp [Json.getKey, mapFind, Ne.symm hk]
  | obj kvs =>
    simp only [Json.emplace] at h
    split_ifs at h
    · simp only [Res.ok.injEq] at h
      subst h
      rfl
    · simp only [Res.ok.injEq] at h
      subst h
      exact mapFind_mapInsert_other kvs k k1 v hk
  | uint n => simp [Json.emplace] at h
  | int n => simp [Json.emplace] at h
  | str n => simp [Json.emplace] at h
  | arr n => simp [Json.emplace] at h

/-! ## Lemmas: entity parsers -/

/-- What the overlay of an out-of-line definition leaves in the record. -/
theorem funcOverlay_fields {funcDIE : Die} {paramNames : List Str} {r0 r : Json}
    (h : funcOverlay funcDIE paramNames r0 = .ok r) :
    r.getKey "otherOffset".toList = some (.uint funcDIE.getOffset) ∧
    (∀ la l, funcDIE.findAttrByType DW_AT_linkage_name = some la → la.mValue = .str l →
      r.getKey "0-linkage".toList = some (.str l)) ∧
    (∀ k : Str, k ≠ "2-param_name".toList → k ≠ "0-linkage".toList →
      k ≠ "otherOffset".toList → r.getKey k = r0.getKey k) := by
  unfold funcOverlay at h
  obtain ⟨fi1, h1, h⟩ := Res.bind_eq_ok.1 h
  obtain ⟨fi2, h2, h3⟩ := Res.bind_eq_ok.1 h
  have e1 : ∀ k : Str, k ≠ "2-param_name".toList → fi1.getKey k = r0.getKey k := by
    intro k hk
    split_ifs at h1
    · exact Json.setKey_getKey_other h1 hk
    · simp only [Res.ok.injEq] at h1
      rw [h1]
  refine ⟨Json.setKey_getKey h3, ?_, ?_⟩
  · intro la l hla hl
    rw [hla] at h2
    simp only [Attr.getStr, hl, Res.bind_ok] at h2
    rw [Json.setKey_getKey_other h3 (by decide)]
    exact Json.setKey_getKey h2
  · intro k hk1 hk2 hk3
    rw [Json.setKey_getKey_other h3 hk3, ← e1 k hk1]
    cases hla : funcDIE.findAttrByType DW_AT_linkage_name with
    | none =>
      rw [hla] at h2
      simp only [Res.ok.injEq] at h2
      rw [h2]
    | some la =>
      rw [hla] at h2
      simp only at h2
      obtain ⟨v, _, h2⟩ := Res.bind_eq_ok.1 h2
      exact Json.setKey_getKey_other h2 hk2

/-- A parameter child is not left for later dispatch. -/
theorem funcChild_later {fuel : Nat} {env : Env} {funcDIE : DieRef} {sc sc1 : FuncScan} {c : Die}
    (hc : IsParamTag c.getTAG) (h : funcChild fuel env funcDIE sc c = .ok sc1) :
    sc1.laterToParse = sc.laterToParse := by
  unfold funcChild at h
  simp only at h
  split_ifs at h with t1 t2 t3 t4 t5 t6 t7
  · obtain ⟨r, _, h⟩ := Res.bind_eq_ok.1 h
    obtain ⟨fi, _, h⟩ := Res.bind_eq_ok.1 h
    obtain ⟨nm, _, h⟩ := Res.bind_eq_ok.1 h
    simp only [Res.ok.injEq] at h
    rw [← h]
  · obtain ⟨r, _, h⟩ := Res.bind_eq_ok.1 h
    obtain ⟨nm, _, h⟩ := Res.bind_eq_ok.1 h
    simp only [Res.ok.injEq] at h
    rw [← h]
  · obtain ⟨nm, _, h⟩ := Res.bind_eq_ok.1 h
    simp only [Res.ok.injEq] at h
    rw [← h]
  · simp only [Res.ok.injEq] at h
    rw [← h]
  · obtain ⟨nm, _, h⟩ := Res.bind_eq_ok.1 h
    simp only [Res.ok.injEq] at h
    rw [← h]
  · obtain ⟨nm, _, h⟩ := Res.bind_eq_ok.1 h
    obtain ⟨r, _, h⟩ := Res.bind_eq_ok.1 h
    simp only [Res.ok.injEq] at h
    rw [← h]
  · obtain ⟨nm, _, h⟩ := Res.bind_eq_ok.1 h
    simp only [Res.ok.injEq] at h
    rw [← h]
  · rcases hc with e | e | e | e | e | e <;> contradiction

theorem funcChild_foldl_later {fuel : Nat} {env : Env} {funcDIE : DieRef} :
    ∀ (children : List Die) (sc sc1 : FuncScan), (∀ c ∈ children, IsParamTag c.getTAG) →
      Res.foldl (funcChild fuel env funcDIE) sc children = .ok sc1 →
      sc1.laterToParse = sc.laterToParse := by
  intro children
  induction children with
  | nil =>
    intro sc sc1 _ h
    simp only [Res.foldl, Res.ok.injEq] at h
    rw [h]
  | cons c cs ih =>
    intro sc sc1 hc h
    simp only [Res.foldl] at h
    obtain ⟨sc2, h2, h⟩ := Res.bind_eq_ok.1 h
    rw [ih sc2 sc1 (fun d hd => hc d (List.mem_cons_of_mem _ hd)) h]
    exact funcChild_later (hc c (List.mem_cons_self _ _)) h2

/-- A declaration with parameter children only leaves nothing for later dispatch. -/
theorem funcRecord_later {fuel : Nat} {env : Env} {funcDIE : DieRef} {built : Json × List Die}
    (hc : ∀ c ∈ funcDIE.die.getChildren, IsParamTag c.getTAG)
    (h : funcRecord fuel env funcDIE = .ok built) : built.2 = [] := by
  unfold funcRecord at h
  obtain ⟨fi0, _, h⟩ := Res.bind_eq_ok.1 h
  obtain ⟨fi1, _, h⟩ := Res.bind_eq_ok.1 h
  obtain ⟨rt, _, h⟩ := Res.bind_eq_ok.1 h
  obtain ⟨fi2, _, h⟩ := Res.bind_eq_ok.1 h
  obtain ⟨sc, hsc, h⟩ := Res.bind_eq_ok.1 h
  obtain ⟨fi3, _, h⟩ := Res.bind_eq_ok.1 h
  obtain ⟨fi4, _, h⟩ := Res.bind_eq_ok.1 h
  obtain ⟨fi5, _, h⟩ := Res.bind_eq_ok.1 h
  simp only [Res.ok.injEq] at h
  rw [← h]
  exact funcChild_foldl_later _ _ _ hc hsc

theorem Res.foldl_append {α β : Type} (f : β → α → Res β) :
    ∀ (l1 l2 : List α) (b : β),
      Res.foldl f b (l1 ++ l2) = Res.bind (Res.foldl f b l1) (fun b1 => Res.foldl f b1 l2) := by
  intro l1
  induction l1 with
  | nil => intro l2 b; rfl
  | cons a as ih =>
    intro l2 b
    simp only [List.cons_append, Res.foldl]
    cases f b a with
    | ok b1 => simp only [Res.bind_ok]; exact ih l2 b1
    | fault => rfl
    | timeout => rfl

/-- A property of the accumulator that every round of a loop keeps is kept by the loop. -/
theorem Res.foldl_invariant {α β : Type} (f : β → α → Res β) (P : β → Prop)
    (hstep : ∀ b a b1, P b → f b a = .ok b1 → P b1) :
    ∀ (l : List α) (b b1 : β), P b → Res.foldl f b l = .ok b1 → P b1 := by
  intro l
  induction l with
  | nil =>
    intro b b1 hb h
    simp only [Res.foldl, Res.ok.injEq] at h
    rw [← h]
    exact hb
  | cons a as ih =>
    intro b b1 hb h
    simp only [Res.foldl] at h
    obtain ⟨b2, h2, h⟩ := Res.bind_eq_ok.1 h
    exact ih b2 b1 (hstep b a b2 hb h2) h

/-- The overlay of a variable definition writes `1-location` and `1-linkage` only. -/
theorem varOverlayAttr_other {env : Env} {j j1 : Json} {a : Attr} {k : Str}
    (h : varOverlayAttr env j a = .ok j1) (h1 : k ≠ "1-location".toList)
    (h2 : k ≠ "1-linkage".toList) : j1.getKey k = j.getKey k := by
  unfold varOverlayAttr at h
  simp only at h
  split_ifs at h
  · obtain ⟨op, _, h⟩ := Res.bind_eq_ok.1 h
    exact Json.emplace_getKey_other h h1
  · obtain ⟨v, _, h⟩ := Res.bind_eq_ok.1 h
    exact Json.setKey_getKey_other h h2
  · simp only [Res.ok.injEq] at h
    rw [h]

/-- An attribute other than `linkage_name` leaves `1-linkage` alone. -/
theorem varOverlayAttr_linkage_other {env : Env} {j j1 : Json} {a : Attr}
    (h : varOverlayAttr env j a = .ok j1) (ha : a.mType ≠ DW_AT_linkage_name) :
    j1.getKey "1-linkage".toList = j.getKey "1-linkage".toList := by
  unfold varOverlayAttr at h
  simp only at h
  split_ifs at h
  · obtain ⟨op, _, h⟩ := Res.bind_eq_ok.1 h
    exact Json.emplace_getKey_other h (by decide)
  · simp only [Res.ok.injEq] at h
    rw [h]

/-- A `linkage_name` attribute of the definition is written to `1-linkage`. -/
theorem varOverlayAttr_linkage_set {env : Env} {j j1 : Json} {a : Attr} {l : Str}
    (h : varOverlayAttr env j a = .ok j1) (ha : a.mType = DW_AT_linkage_name)
    (hl : a.mValue = .str l) : j1.getKey "1-linkage".toList = some (.str l) := by
  unfold varOverlayAttr at h
  rw [ha] at h
  rw [if_neg (by decide), if_pos rfl] at h
  simp only [Attr.getStr, hl, Res.bind_ok] at h
  exact Json.setKey_getKey h

/-- Attributes other than `linkage_name` leave `1-linkage` alone. -/
theorem varOverlay_keeps_linkage {env : Env} :
    ∀ (back : List Attr) (j j1 : Json), (∀ a ∈ back, a.mType ≠ DW_AT_linkage_name) →
      Res.foldl (varOverlayAttr env) j back = .ok j1 →
      j1.getKey "1-linkage".toList = j.getKey "1-linkage".toList := by
  intro back
  induction back with
  | nil =>
    intro j j1 _ h
    simp only [Res.foldl, Res.ok.injEq] at h
    rw [h]
  | cons b bs ih =>
    intro j j1 hback h
    simp only [Res.foldl] at h
    obtain ⟨j4, h4, h⟩ := Res.bind_eq_ok.1 h
    rw [ih j4 j1 (fun a ha => hback a (List.mem_cons_of_mem _ ha)) h]
    exact varOverlayAttr_linkage_other h4 (hback b (List.mem_cons_self _ _))

/-- The last `linkage_name` attribute of the definition decides `1-linkage`. -/
theorem varOverlay_linkage {env : Env} {j j1 : Json} {attrs front back : List Attr} {la : Attr}
    {l : Str} (h : Res.foldl (varOverlayAttr env) j attrs = .ok j1)
    (hsplit : attrs = front ++ la :: back) (hla : la.mType = DW_AT_linkage_name)
    (hl : la.mValue = .str l) (hback : ∀ a ∈ back, a.mType ≠ DW_AT_linkage_name) :
    j1.getKey "1-linkage".toList = some (.str l) := by
  subst hsplit
  rw [Res.foldl_append] at h
  obtain ⟨j2, _, h⟩ := Res.bind_eq_ok.1 h
  simp only [Res.foldl] at h
  obtain ⟨j3, h3, h⟩ := Res.bind_eq_ok.1 h
  rw [varOverlay_keeps_linkage back j3 j1 hback h]
  exact varOverlayAttr_linkage_set h3 hla hl

/-- No round of the attribute loop of `parseVariable` writes `otherOffset` or `0-linkage`. -/
theorem varAttr_other {env : Env} {j j1 : Json} {a : Attr} {k : Str}
    (h : varAttr env j a = .ok j1)
    (hk : k = "otherOffset".toList ∨ k = "0-linkage".toList) : j1.getKey k = j.getKey k := by
  have hne : ∀ s : String, s.toList ≠ "otherOffset".toList → s.toList ≠ "0-linkage".toList →
      k ≠ s.toList := by
    intro s h1 h2 e
    rcases hk with hk | hk
    · exact h1 (e.symm.trans hk)
    · exact h2 (e.symm.trans hk)
  unfold varAttr setDeclPos at h
  dsimp only at h
  by_cases c0 : a.mType = DW_AT_name
  · rw [if_pos c0] at h
    obtain ⟨v, _, h⟩ := Res.bind_eq_ok.1 h
    exact Json.setKey_getKey_other h (hne "0-name" (by decide) (by decide))
  · rw [if_neg c0] at h
    by_cases c1 : a.mType = DW_AT_decl_line
    · rw [if_pos c1] at h
      exact Json.modifyKey_getKey_other h (hne "0-decl_pos" (by decide) (by decide))
    · rw [if_neg c1] at h
      by_cases c2 : a.mType = DW_AT_decl_column
      · rw [if_pos c2] at h
        exact Json.modifyKey_getKey_other h (hne "0-decl_pos" (by decide) (by decide))
      · rw [if_neg c2] at h
        by_cases c3 : a.mType = DW_AT_data_member_location
        · rw [if_pos c3] at h
          exact Json.setKey_getKey_other h (hne "1-member_location" (by decide) (by decide))
        · rw [if_neg c3] at h
          by_cases c4 : a.mType = DW_AT_declaration
          · rw [if_pos c4] at h
            exact Json.setKey_getKey_other h (hne "0-declaration" (by decide) (by decide))
          · rw [if_neg c4] at h
            by_cases c5 : a.mType = DW_AT_external
            · rw [if_pos c5] at h
              exact Json.setKey_getKey_other h (hne "0-external" (by decide) (by decide))
            · rw [if_neg c5] at h
              by_cases c6 : a.mType = DW_AT_accessibility
              · rw [if_pos c6] at h
                exact Json.setKey_getKey_other h (hne "1-accessibility" (by decide) (by decide))
              · rw [if_neg c6] at h
                by_cases c7 : a.mType = DW_AT_inline
                · rw [if_pos c7] at h
                  exact Json.setKey_getKey_other h (hne "1-inline" (by decide) (by decide))
                · rw [if_neg c7] at h
                  by_cases c8 : a.mType = DW_AT_location
                  · rw [if_pos c8] at h
                    obtain ⟨v, _, h⟩ := Res.bind_eq_ok.1 h
                    exact Json.emplace_getKey_other h (hne "1-location" (by decide) (by decide))
                  · rw [if_neg c8] at h
                    by_cases c9 : a.mType = DW_AT_linkage_name
                    · rw [if_pos c9] at h
                      obtain ⟨v, _, h⟩ := Res.bind_eq_ok.1 h
                      exact Json.setKey_getKey_other h (hne "1-linkage" (by decide) (by decide))
                    · rw [if_neg c9] at h
                      by_cases c10 : a.mType = DW_AT_const_value
                      · rw [if_pos c10] at h
                        by_cases d1 : a.mValue.index = 1 ∨ a.mValue.index = 2
                        · rw [if_pos d1] at h
                          exact Json.setKey_getKey_other h (hne "1-const_val" (by decide) (by decide))
                        · rw [if_neg d1] at h
                          by_cases d2 : a.mValue.index = 3 ∨ a.mValue.index = 4
                          · rw [if_pos d2] at h
                            exact Json.setKey_getKey_other h (hne "1-const_val" (by decide) (by decide))
                          · rw [if_neg d2] at h
                            simp only [Res.ok.injEq] at h
                            rw [h]
                      · rw [if_neg c10] at h
                        by_cases c11 : a.mType = DW_AT_bit_size
                        · rw [if_pos c11] at h
                          obtain ⟨v, _, h⟩ := Res.bind_eq_ok.1 h
                          exact Json.setKey_getKey_other h (hne "1-bit_size" (by decide) (by decide))
                        · rw [if_neg c11] at h
                          by_cases c12 : a.mType = DW_AT_bit_offset
                          · rw [if_pos c12] at h
                            obtain ⟨v, _, h⟩ := Res.bind_eq_ok.1 h
                            exact Json.setKey_getKey_other h (hne "1-bit_offset" (by decide) (by decide))
                          · rw [if_neg c12] at h
                            simp only [Res.ok.injEq] at h
                            rw [h]

/-- The record of a variable declaration has neither `otherOffset` nor `0-linkage`. -/
theorem varRecord_no_key {fuel : Nat} {env : Env} {varDIE : DieRef} {record : Json} {k : Str}
    (h : varRecord fuel env varDIE = .ok record)
    (hk : k = "otherOffset".toList ∨ k = "0-linkage".toList) : record.getKey k = none := by
  unfold varRecord at h
  obtain ⟨v0, h0, h⟩ := Res.bind_eq_ok.1 h
  obtain ⟨v1, h1, h⟩ := Res.bind_eq_ok.1 h
  obtain ⟨nm, _, h⟩ := Res.bind_eq_ok.1 h
  obtain ⟨ty, _, h⟩ := Res.bind_eq_ok.1 h
  have e0 : v0.getKey k = none := by
    rw [Json.setKey_getKey_other h0 (by rcases hk with hk | hk <;> rw [hk] <;> decide)]
    rfl
  have e1 : v1.getKey k = none :=
    Res.foldl_invariant (varAttr env) (fun j => j.getKey k = none)
      (fun b a b1 hb hstep => by show b1.getKey k = none; rw [varAttr_other hstep hk]; exact hb) _ _ _ e0 h1
  rw [Json.emplace_getKey_other h (by rcases hk with hk | hk <;> rw [hk] <;> decide)]
  exact e1

/-! ## Lemmas: type reconstructor -/

theorem getName_of_unnamed {d : Die} (whenNull : Str) (h : d.findAttrByType DW_AT_name = none) :
    d.getName whenNull = .ok whenNull := by
  simp [Die.getName, h]

theorem NamedType.getName {t : DieRef} {T : Str} (h : NamedType t T) (whenNull : Str) :
    t.die.getName whenNull = .ok T := by
  obtain ⟨_, ⟨a, ha, hv⟩, _⟩ := h
  simp [Die.getName, ha, Attr.getStr, hv]

theorem NamedType.completeNameScope {t : DieRef} {T : Str} (h : NamedType t T) :
    completeNameScope t = .ok T := by
  have hn := h.getName []
  obtain ⟨_, _, c, hp, hc, hcn⟩ := h
  obtain ⟨cn, hcn⟩ : ∃ cn, c.getName [] = .ok cn := by
    revert hcn
    cases c.getName [] <;> simp [Res.isOk]
  unfold DwarfSymbols.completeNameScope
  rw [hn, hp]
  simp only [Res.bind_ok, completeNameScopeLoop, hcn, hc, if_true]

/-- A named type ends the loop: its name and a blank are put in front. -/
theorem getTypeInfoLoop_named {t : DieRef} {T : Str} (h : NamedType t T) (fuel : Nat) (env : Env)
    (st : TypeState) :
    getTypeInfoLoop (fuel + 1) env (some t) st =
      .ok { st with typeName := T ++ " ".toList ++ st.typeName } := by
  have hn := h.getName []
  have hc := h.completeNameScope
  have hT := h.1
  rw [getTypeInfoLoop]
  simp only [hn, Res.bind_ok, hc, hT, ne_eq, not_false_eq_true, if_true]

/-- An unnamed DIE with a `type` attribute: the loop goes on at the target with the new state. -/
theorem getTypeInfoLoop_step {env : Env} {d : DieRef} {next : DieRef} {st st1 : TypeState}
    {noVoidType : Bool} (fuel : Nat) (hname : d.die.findAttrByType DW_AT_name = none)
    (hstep : typeStep env d st (parseSubroutineType fuel env d) = .ok (st1, noVoidType))
    (hlink : TypeLink env d.die next) :
    getTypeInfoLoop (fuel + 1) env (some d) st = getTypeInfoLoop fuel env (some next) st1 := by
  obtain ⟨a, off, ha, hoff, hfind⟩ := hlink
  rw [getTypeInfoLoop]
  simp only [getName_of_unnamed [] hname, Res.bind_ok, ne_eq, not_true_eq_false, if_false, hstep,
    ha, hoff, hfind]

/-- An unnamed DIE without `type` attribute ends the loop; `void ` is put in front unless the
DIE is an aggregate. -/
theorem getTypeInfoLoop_last {env : Env} {d : DieRef} {st st1 : TypeState}
    {noVoidType : Bool} (fuel : Nat) (hname : d.die.findAttrByType DW_AT_name = none)
    (hstep : typeStep env d st (parseSubroutineType fuel env d) = .ok (st1, noVoidType))
    (htype : d.die.findAttrByType DW_AT_type = none) :
    getTypeInfoLoop (fuel + 1) env (some d) st =
      .ok (if noVoidType then st1 else { st1 with typeName := "void ".toList ++ st1.typeName }) := by
  rw [getTypeInfoLoop]
  simp only [getName_of_unnamed [] hname, Res.bind_ok, ne_eq, not_true_eq_false, if_false, hstep,
    htype]
  cases noVoidType <;> simp

theorem typeStep_const {env : Env} {d : DieRef} (st : TypeState) (sub : Str → Res Str)
    (h : d.die.getTAG = DW_TAG_const_type) :
    typeStep env d st sub = .ok ({ st with isConst := true }, false) := by
  simp [typeStep, h]

theorem typeStep_volatile {env : Env} {d : DieRef} (st : TypeState) (sub : Str → Res Str)
    (h : d.die.getTAG = DW_TAG_volatile_type) :
    typeStep env d st sub = .ok ({ st with isVolatile := true }, false) := by
  simp [typeStep, h, DW_TAG_volatile_type, DW_TAG_const_type]

theorem typeStep_ptrLike {env : Env} {d : DieRef} {sym : Str} (st : TypeState)
    (sub : Str → Res Str) (h : IsPtrLike d.die sym) :
    typeStep env d st sub =
      .ok ({ st with typeName := sym ++ st.typeName, readDirection := -1 }, false) := by
  obtain ⟨_, h | h | h⟩ := h <;> obtain ⟨ht, hs⟩ := h <;> subst hs <;>
    simp [typeStep, ht, DW_TAG_volatile_type, DW_TAG_const_type, DW_TAG_pointer_type,
      DW_TAG_reference_type, DW_TAG_rvalue_reference_type]

theorem typeStep_array {env : Env} {d : DieRef} (st : TypeState) (sub : Str → Res Str)
    (h : d.die.getTAG = DW_TAG_array_type) :
    typeStep env d st sub =
      Res.bind (arraySuffix d.die.getChildren
        (if st.readDirection = -1 then "(".toList ++ st.typeName ++ ")".toList else st.typeName))
        fun t => .ok ({ st with typeName := t, readDirection := 1 }, false) := by
  simp [typeStep, h, DW_TAG_volatile_type, DW_TAG_const_type, DW_TAG_pointer_type,
      DW_TAG_reference_type, DW_TAG_rvalue_reference_type, DW_TAG_restrict_type, DW_TAG_array_type]

/-- The result of `getTypeInfo` from the final state of its loop. -/
theorem getTypeInfo_of_loop {env : Env} {die : DieRef} {t : DieRef} {st : TypeState} (fuel : Nat)
    (varName : Str) (hlink : TypeLink env die.die t)
    (hloop : getTypeInfoLoop fuel env (some t) ⟨varName, 1, false, false⟩ = .ok st) :
    getTypeInfo (fuel + 1) env die varName =
      .ok ((if st.isVolatile then "volatile ".toList else []) ++
           ((if st.isConst then "const ".toList else []) ++ st.typeName),
           (if st.isVolatile then 2 else 0) + (if st.isConst then 1 else 0)) := by
  obtain ⟨a, off, ha, hoff, hfind⟩ := hlink
  rw [getTypeInfo]
  simp only [ha, hoff, hfind, Res.bind_ok, hloop]

theorem chainDeclarator_cons (m : DieRef × Str) (rest : List (DieRef × Str)) (t : Str) :
    chainDeclarator (m :: rest) t = chainDeclarator rest (m.2 ++ t) := rfl

/-- A chain of pointer-like modifiers takes one round of the loop each and leaves the loop
reading leftwards. -/
theorem getTypeInfoLoop_chain (env : Env) (target : DieRef) (ms : List (DieRef × Str)) :
    PtrChain env ms target → ∀ (fuel : Nat) (st : TypeState),
      getTypeInfoLoop (fuel + ms.length) env (some (chainHead ms target)) st =
        getTypeInfoLoop fuel env (some target)
          { st with typeName := chainDeclarator ms st.typeName,
                    readDirection := if ms.isEmpty then st.readDirection else -1 } := by
  induction ms with
  | nil => intro _ fuel st; rfl
  | cons m rest ih =>
    intro h fuel st
    obtain ⟨hp, hlink, hrest⟩ := h
    have hstep := @typeStep_ptrLike env m.1 m.2 st
      (parseSubroutineType (fuel + rest.length) env m.1) hp
    have h1 := getTypeInfoLoop_step (fuel + rest.length) hp.1 hstep hlink
    rw [List.length_cons, ← Nat.add_assoc]
    show getTypeInfoLoop (fuel + rest.length + 1) env (some m.1) st = _
    rw [h1, ih hrest, chainDeclarator_cons]
    simp

/-- The array case for a single subrange with a count. -/
theorem getTypeInfoLoop_array {env : Env} {arr elem : DieRef} {n : Nat} (fuel : Nat)
    (st : TypeState) (h : ArrayOf env arr n elem) :
    getTypeInfoLoop (fuel + 1) env (some arr) st =
      getTypeInfoLoop fuel env (some elem)
        { st with
          typeName := (if st.readDirection = -1 then "(".toList ++ st.typeName ++ ")".toList
                       else st.typeName) ++ "[".toList ++ fmtU n ++ "]".toList,
          readDirection := 1 } := by
  obtain ⟨⟨hname, htag, hlink⟩, sub, ca, hch, hsub, hca, hn⟩ := h
  refine @getTypeInfoLoop_step env arr elem st _ false fuel hname ?_ hlink
  rw [typeStep_array st _ htag, hch]
  simp only [arraySuffix, hsub, if_true, hca, hn, Res.bind_ok]

theorem typeStep_noVoid {env : Env} {d : DieRef} {st st1 : TypeState} {sub : Str → Res Str}
    {noVoidType : Bool} (h : typeStep env d st sub = .ok (st1, noVoidType))
    (hagg : ¬ IsAggregateTag d.die.getTAG) : noVoidType = false := by
  unfold typeStep at h
  dsimp only at h
  by_cases c : d.die.getTAG = DW_TAG_const_type
  · rw [if_pos c] at h
    exact (Prod.mk.inj (Res.ok.inj h)).2.symm
  rw [if_neg c] at h
  clear c
  by_cases c : d.die.getTAG = DW_TAG_volatile_type
  · rw [if_pos c] at h
    exact (Prod.mk.inj (Res.ok.inj h)).2.symm
  rw [if_neg c] at h
  clear c
  by_cases c : d.die.getTAG = DW_TAG_pointer_type
  · rw [if_pos c] at h
    exact (Prod.mk.inj (Res.ok.inj h)).2.symm
  rw [if_neg c] at h
  clear c
  by_cases c : d.die.getTAG = DW_TAG_reference_type
  · rw [if_pos c] at h
    exact (Prod.mk.inj (Res.ok.inj h)).2.symm
  rw [if_neg c] at h
  clear c
  by_cases c : d.die.getTAG = DW_TAG_rvalue_reference_type
  · rw [if_pos c] at h
    exact (Prod.mk.inj (Res.ok.inj h)).2.symm
  rw [if_neg c] at h
  clear c
  by_cases c : d.die.getTAG = DW_TAG_restrict_type
  · rw [if_pos c] at h
    exact (Prod.mk.inj (Res.ok.inj h)).2.symm
  rw [if_neg c] at h
  clear c
  by_cases c : d.die.getTAG = DW_TAG_array_type
  · rw [if_pos c] at h
    obtain ⟨_, _, ht⟩ := Res.bind_eq_ok.mp h
    exact (Prod.mk.inj (Res.ok.inj ht)).2.symm
  rw [if_neg c] at h
  clear c
  by_cases c : d.die.getTAG = DW_TAG_ptr_to_member_type
  · rw [if_pos c] at h
    obtain ⟨_, _, ht⟩ := Res.bind_eq_ok.mp h
    exact (Prod.mk.inj (Res.ok.inj ht)).2.symm
  rw [if_neg c] at h
  clear c
  by_cases c : d.die.getTAG = DW_TAG_subroutine_type
  · rw [if_pos c] at h
    obtain ⟨_, _, ht⟩ := Res.bind_eq_ok.mp h
    exact (Prod.mk.inj (Res.ok.inj ht)).2.symm
  rw [if_neg c] at h
  clear c
  by_cases c : d.die.getTAG = DW_TAG_union_type
  · exact absurd (Or.inl c) hagg
  rw [if_neg c] at h
  clear c
  by_cases c : d.die.getTAG = DW_TAG_class_type
  · exact absurd (Or.inr (Or.inl c)) hagg
  rw [if_neg c] at h
  clear c
  by_cases c : d.die.getTAG = DW_TAG_structure_type
  · exact absurd (Or.inr (Or.inr (Or.inl c))) hagg
  rw [if_neg c] at h
  clear c
  by_cases c : d.die.getTAG = DW_TAG_enumeration_type
  · exact absurd (Or.inr (Or.inr (Or.inr c))) hagg
  rw [if_neg c] at h
  clear c
  exact (Prod.mk.inj (Res.ok.inj h)).2.symm

/-! ## Lemmas: scope resolver, accumulated keys -/

/-- The keys emitted so far only ride along: the loop started with `ret` gives the result of
the loop started with no keys, followed by `ret` reversed. -/
theorem findWhereToStoreLoop_acc (env : Env) (declFiles : List Str) :
    ∀ (fuel : Nat) (parents : List Die) (idx : Nat) (declFile : Str) (ret : List Str),
      findWhereToStoreLoop env declFiles fuel parents idx declFile ret =
        Res.bind (findWhereToStoreLoop env declFiles fuel parents idx declFile [])
          (fun p => .ok (p ++ ret.reverse)) := by
  intro fuel
  induction fuel with
  | zero =>
    intro parents idx declFile ret
    cases parents with
    | nil => simp [findWhereToStoreLoop]
    | cons p up => simp [findWhereToStoreLoop]
  | succ n ih =>
    intro parents idx declFile ret
    cases parents with
    | nil => simp [findWhereToStoreLoop]
    | cons p up =>
      have key : ∀ (ps : List Die) (i : Nat) (f : Str) (ks : List Str),
          findWhereToStoreLoop env declFiles n ps i f (ret ++ ks) =
            Res.bind (findWhereToStoreLoop env declFiles n ps i f ([] ++ ks))
              (fun q => .ok (q ++ ret.reverse)) := by
        intro ps i f ks
        rw [ih ps i f (ret ++ ks), ih ps i f ([] ++ ks)]
        cases findWhereToStoreLoop env declFiles n ps i f [] <;> simp
      have key0 : ∀ (ps : List Die) (i : Nat) (f : Str),
          findWhereToStoreLoop env declFiles n ps i f ret =
            Res.bind (findWhereToStoreLoop env declFiles n ps i f [])
              (fun q => .ok (q ++ ret.reverse)) := fun ps i f => ih ps i f ret
      rw [findWhereToStoreLoop, findWhereToStoreLoop]
      cases p.getName "\x60anonymous\x60".toList with
      | fault => rfl
      | timeout => rfl
      | ok name =>
        simp only [Res.bind_ok]
        split_ifs
        · exact key _ _ _ _
        · exact key _ _ _ _
        · exact key _ _ _ _
        · rw [List.append_assoc, List.append_assoc]; exact key _ _ _ _
        · split
          · rename_i a ha
            cases a.getU64 with
            | fault => rfl
            | timeout => rfl
            | ok off =>
              simp only [Res.bind_ok]
              cases env.mDbg.findDIEbyOffset off with
              | fault => rfl
              | timeout => rfl
              | ok found =>
                simp only [Res.bind_ok]
                cases found with
                | none => exact key0 _ _ _
                | some s =>
                  simp only
                  cases declLineOf s.die with
                  | fault => rfl
                  | timeout => rfl
                  | ok line =>
                    simp only [Res.bind_ok]
                    cases s.die.getName [] with
                    | fault => rfl
                    | timeout => rfl
                    | ok sn =>
                      simp only [Res.bind_ok]
                      generalize srcfileAt declFiles _ = sf
                      cases sf with
                      | fault => rfl
                      | timeout => rfl
                      | ok file =>
                        simp only [Res.bind_ok]
                        rw [List.append_assoc, List.append_assoc]; exact key _ _ _ _
          · cases declLineOf p with
            | fault => rfl
            | timeout => rfl
            | ok line =>
              simp only [Res.bind_ok]
              cases p.getName [] with
              | fault => rfl
              | timeout => rfl
              | ok fn =>
                simp only [Res.bind_ok]
                rw [List.append_assoc, List.append_assoc]; exact key _ _ _ _
        · exact key _ _ _ _
        · exact key0 _ _ _

/-- The walk over ancestors that are no subprograms does not look at the tracked file: when
the walk over `pre` alone gives `q`, the walk over `pre` followed by `rest` gives the result
of the walk over `rest` followed by the keys of `pre`, which are `q` without its file. -/
theorem findWhereToStoreLoop_prefix (env : Env) (declFiles : List Str) :
    ∀ (pre : List Die), NoSubprogram pre →
      ∀ (n : Nat) (i : Nat) (f : Str) (ret q : List Str),
        findWhereToStoreLoop env declFiles n pre i f ret = .ok q →
        ∀ (rest : List Die) (m i1 : Nat) (f1 : Str) (p : List Str),
          findWhereToStoreLoop env declFiles m rest i1 f1 [] = .ok p →
          findWhereToStoreLoop env declFiles (n + m) (pre ++ rest) i1 f1 ret =
            .ok (p ++ q.tail) := by
  intro pre
  induction pre with
  | nil =>
    intro _ n i f ret q hq rest m i1 f1 p hp
    have hq1 : q = f :: ret.reverse := by
      cases n <;> simp [findWhereToStoreLoop] at hq <;> exact hq.symm
    subst hq1
    have hp1 := findWhereToStoreLoop_add env declFiles n m rest i1 f1 [] p hp
    rw [List.nil_append, findWhereToStoreLoop_acc, Nat.add_comm, hp1]
    rfl
  | cons d pre1 ih =>
    intro hno n i f ret q hq rest m i1 f1 p hp
    have hd : d.getTAG ≠ DW_TAG_subprogram := hno d (List.mem_cons_self _ _)
    have hno1 : NoSubprogram pre1 := fun x hx => hno x (List.mem_cons_of_mem _ hx)
    cases n with
    | zero => simp [findWhereToStoreLoop] at hq
    | succ n1 =>
      rw [findWhereToStoreLoop] at hq
      obtain ⟨name, hname, hq⟩ := Res.bind_eq_ok.1 hq
      have hfuel : n1 + 1 + m = n1 + m + 1 := by omega
      rw [List.cons_append, hfuel, findWhereToStoreLoop]
      simp only [hname, Res.bind_ok]
      split_ifs at hq with t1 t2 t3 t4 t5
      · rw [if_pos t1]
        exact ih hno1 _ _ _ _ _ hq _ _ _ _ _ hp
      · rw [if_neg t1, if_pos t2]
        exact ih hno1 _ _ _ _ _ hq _ _ _ _ _ hp
      · rw [if_neg t1, if_neg t2, if_pos t3]
        exact ih hno1 _ _ _ _ _ hq _ _ _ _ _ hp
      · rw [if_neg t1, if_neg t2, if_neg t3, if_pos t4]
        exact ih hno1 _ _ _ _ _ hq _ _ _ _ _ hp
      · rw [if_neg t1, if_neg t2, if_neg t3, if_neg t4, if_neg hd, if_pos t5]
        exact ih hno1 _ _ _ _ _ hq _ _ _ _ _ hp
      · rw [if_neg t1, if_neg t2, if_neg t3, if_neg t4, if_neg hd, if_neg t5]
        exact ih hno1 _ _ _ _ _ hq _ _ _ _ _ hp

/-! ## Lemmas: records are kept -/

theorem Json.hasKey_eq (j : Json) (key : Str) : j.hasKey key = (j.getKey key).isSome := by
  cases j <;> rfl

theorem hasRecord_nil (j : Json) (key : Str) : hasRecord j [] key = j.hasKey key := rfl

theorem hasRecord_cons (j : Json) (k : Str) (p : List Str) (key : Str) :
    hasRecord j (k :: p) key =
      match j.getKey k with
      | some v => hasRecord v p key
      | none => false := by
  simp only [hasRecord, Json.getAt]
  cases j.getKey k <;> rfl

/-- An update below a key removes no key. -/
theorem Json.modifyKey_hasKey {j j1 : Json} {k key : Str} {f : Json → Res Json}
    (h : j.modifyKey k f = .ok j1) (hk : j.hasKey key = true) : j1.hasKey key = true := by
  by_cases e : key = k
  · subst e
    obtain ⟨v, _, hv⟩ := Json.modifyKey_getKey h
    rw [Json.hasKey_eq, hv]; rfl
  · rw [Json.hasKey_eq, Json.modifyKey_getKey_other h e, ← Json.hasKey_eq]; exact hk

theorem KeepsRecords.ok : KeepsRecords Res.ok := by
  intro p key j j1 _ h hrec
  cases h
  exact hrec

theorem KeepsRecords.bind {f g : Json → Res Json} (hf : KeepsRecords f) (hg : KeepsRecords g) :
    KeepsRecords (fun j => Res.bind (f j) g) := by
  intro p key j j1 hp h hrec
  obtain ⟨j0, h0, h1⟩ := Res.bind_eq_ok.1 h
  exact hg p key j0 j1 hp h1 (hf p key j j0 hp h0 hrec)

theorem KeepsRecords.modifyKey {g : Json → Res Json} (hg : KeepsRecords g) (k : Str) :
    KeepsRecords (fun j => j.modifyKey k g) := by
  intro p key j j1 hp h hrec
  cases p with
  | nil => exact Json.modifyKey_hasKey h hrec
  | cons k0 p1 =>
    rw [hasRecord_cons] at hrec ⊢
    by_cases e : k0 = k
    · subst e
      obtain ⟨v, hv, hget⟩ := Json.modifyKey_getKey h
      rw [hget]
      cases hold : j.getKey k0 with
      | none => rw [hold] at hrec; cases hrec
      | some old =>
        rw [hold] at hrec hv
        exact hg p1 key old v (fun x hx => hp x (List.mem_cons_of_mem _ hx)) hv hrec
    · rw [Json.modifyKey_getKey_other h e]; exact hrec

theorem KeepsRecords.modifyKey_overlay (g : Json → Res Json) {k : Str} (hk : k ∈ overlayKeys) :
    KeepsRecords (fun j => j.modifyKey k g) := by
  intro p key j j1 hp h hrec
  cases p with
  | nil => exact Json.modifyKey_hasKey h hrec
  | cons k0 p1 =>
    rw [hasRecord_cons] at hrec ⊢
    have e : k0 ≠ k := fun e => hp k0 (List.mem_cons_self _ _) (e ▸ hk)
    rw [Json.modifyKey_getKey_other h e]; exact hrec

theorem KeepsRecords.setKey_overlay (v : Json) {k : Str} (hk : k ∈ overlayKeys) :
    KeepsRecords (fun j => j.setKey k v) :=
  KeepsRecords.modifyKey_overlay _ hk

theorem KeepsRecords.emplace (k : Str) (v : Json) : KeepsRecords (fun j => j.emplace k v) := by
  intro p key j j1 hp h hrec
  have h : j.emplace k v = .ok j1 := h
  by_cases hh : j.hasKey k = true
  · have : j1 = j := by
      cases j with
      | obj kvs =>
        simp only [Json.hasKey] at hh
        simp only [Json.emplace, hh, if_true, Res.ok.injEq] at h
        exact h.symm
      | null => cases hh
      | uint _ => cases hh
      | int _ => cases hh
      | str _ => cases hh
      | arr _ => cases hh
    rw [this]; exact hrec
  · have hh0 : j.hasKey k = false := by simpa using hh
    rw [Json.emplace_eq_modifyKey j k v hh0] at h
    cases p with
    | nil => exact Json.modifyKey_hasKey h hrec
    | cons k0 p1 =>
      rw [hasRecord_cons] at hrec ⊢
      by_cases e : k0 = k
      · subst e
        rw [Json.hasKey_eq] at hh0
        cases hold : j.getKey k0 with
        | none => rw [hold] at hrec; cases hrec
        | some old => rw [hold] at hh0; cases hh0
      · rw [Json.modifyKey_getKey_other h e]; exact hrec

theorem KeepsRecords.modifyAt {f : Json → Res Json} (hf : KeepsRecords f) :
    ∀ (path : List Str), KeepsRecords (Json.modifyAt path f) := by
  intro path
  induction path with
  | nil => exact hf
  | cons k rest ih => exact KeepsRecords.modifyKey ih k

theorem KeepsRecords.foldl {α : Type} {step : Json → α → Res Json}
    (hstep : ∀ a, KeepsRecords (fun j => step j a)) :
    ∀ (l : List α), KeepsRecords (fun j => Res.foldl step j l) := by
  intro l
  induction l with
  | nil => intro p key j j1 _ h hrec; cases h; exact hrec
  | cons a rest ih =>
    intro p key j j1 hp h hrec
    simp only [Res.foldl] at h
    obtain ⟨j0, h0, h1⟩ := Res.bind_eq_ok.1 h
    exact ih p key j0 j1 hp h1 (hstep a p key j j0 hp h0 hrec)

theorem parseEnum_keeps (fuel : Nat) (env : Env) (compileUnit : CU) (enumDIE : DieRef) :
    KeepsRecords (parseEnum fuel env compileUnit enumDIE) := by
  intro p key j j1 hp h hrec
  unfold parseEnum at h
  obtain ⟨path, _, h⟩ := Res.bind_eq_ok.1 h
  split_ifs at h
  · cases h; exact hrec
  obtain ⟨_, _, h⟩ := Res.bind_eq_ok.1 h
  obtain ⟨_, _, h⟩ := Res.bind_eq_ok.1 h
  obtain ⟨_, _, h⟩ := Res.bind_eq_ok.1 h
  obtain ⟨_, _, h⟩ := Res.bind_eq_ok.1 h
  obtain ⟨_, _, h⟩ := Res.bind_eq_ok.1 h
  obtain ⟨_, _, h⟩ := Res.bind_eq_ok.1 h
  obtain ⟨_, _, h⟩ := Res.bind_eq_ok.1 h
  exact KeepsRecords.modifyAt (KeepsRecords.emplace _ _) path p key j j1 hp h hrec

theorem parseTypedef_keeps (fuel : Nat) (env : Env) (compileUnit : CU) (typedefDIE : DieRef) :
    KeepsRecords (parseTypedef fuel env compileUnit typedefDIE) := by
  intro p key j j1 hp h hrec
  unfold parseTypedef at h
  obtain ⟨path, _, h⟩ := Res.bind_eq_ok.1 h
  split_ifs at h
  · cases h; exact hrec
  obtain ⟨_, _, h⟩ := Res.bind_eq_ok.1 h
  obtain ⟨_, _, h⟩ := Res.bind_eq_ok.1 h
  obtain ⟨_, _, h⟩ := Res.bind_eq_ok.1 h
  obtain ⟨_, _, h⟩ := Res.bind_eq_ok.1 h
  obtain ⟨_, _, h⟩ := Res.bind_eq_ok.1 h
  obtain ⟨_, _, h⟩ := Res.bind_eq_ok.1 h
  exact KeepsRecords.modifyAt (KeepsRecords.emplace _ _) path p key j j1 hp h hrec

theorem parseInheritance_keeps (fuel : Nat) (env : Env) (compileUnit : CU) (inheriDIE : DieRef) :
    KeepsRecords (parseInheritance fuel env compileUnit inheriDIE) := by
  intro p key j j1 hp h hrec
  unfold parseInheritance at h
  split at h
  · cases h
  obtain ⟨path, _, h⟩ := Res.bind_eq_ok.1 h
  split_ifs at h
  · cases h; exact hrec
  obtain ⟨_, _, h⟩ := Res.bind_eq_ok.1 h
  obtain ⟨_, _, h⟩ := Res.bind_eq_ok.1 h
  obtain ⟨_, _, h⟩ := Res.bind_eq_ok.1 h
  obtain ⟨_, _, h⟩ := Res.bind_eq_ok.1 h
  exact KeepsRecords.modifyAt (KeepsRecords.emplace _ _) _ p key j j1 hp h hrec

/-- A value for which `empty()` holds has no record below it. -/
theorem hasRecord_of_empty {j : Json} (h : j.empty = true) (p : List Str) (key : Str) :
    hasRecord j p key = false := by
  cases j with
  | obj kvs =>
    cases kvs with
    | nil => cases p <;> rfl
    | cons _ _ => cases h
  | null => cases p <;> rfl
  | arr _ => cases p <;> rfl
  | uint _ => cases h
  | int _ => cases h
  | str _ => cases h

theorem KeepsRecords.ifEmpty (g : Json → Res Json) :
    KeepsRecords (fun j => if j.empty then g j else .ok j) := by
  intro p key j j1 hp h hrec
  by_cases he : j.empty = true
  · rw [hasRecord_of_empty he] at hrec; cases hrec
  · simp only [he] at h
    cases h; exact hrec

theorem parseClassTemplateParams_keeps (fuel : Nat) (env : Env) (compileUnit : CU)
    (templateDIE : DieRef) :
    KeepsRecords (parseClassTemplateParams fuel env compileUnit templateDIE) := by
  intro p key j j1 hp h hrec
  unfold parseClassTemplateParams at h
  split at h
  · cases h
  obtain ⟨path, _, h⟩ := Res.bind_eq_ok.1 h
  split_ifs at h
  · cases h; exact hrec
  obtain ⟨_, _, h⟩ := Res.bind_eq_ok.1 h
  exact KeepsRecords.modifyAt (KeepsRecords.ifEmpty _) _ p key j j1 hp h hrec

theorem varOverlayAttr_keeps (env : Env) (attr : Attr) :
    KeepsRecords (fun j => varOverlayAttr env j attr) := by
  intro p key j j1 hp h hrec
  have h : varOverlayAttr env j attr = .ok j1 := h
  unfold varOverlayAttr at h
  dsimp only at h
  split_ifs at h
  · obtain ⟨_, _, h⟩ := Res.bind_eq_ok.1 h
    exact KeepsRecords.emplace _ _ p key j j1 hp h hrec
  · obtain ⟨_, _, h⟩ := Res.bind_eq_ok.1 h
    exact KeepsRecords.setKey_overlay _ (by decide) p key j j1 hp h hrec
  · cases h; exact hrec

theorem funcOverlay_keeps (funcDIE : Die) (paramNames : List Str) :
    KeepsRecords (funcOverlay funcDIE paramNames) := by
  intro p key j j1 hp h hrec
  unfold funcOverlay at h
  obtain ⟨fi1, h1, h⟩ := Res.bind_eq_ok.1 h
  obtain ⟨fi2, h2, h⟩ := Res.bind_eq_ok.1 h
  have r1 : hasRecord fi1 p key = true := by
    split_ifs at h1
    · exact KeepsRecords.setKey_overlay _ (by decide) p key j fi1 hp h1 hrec
    · cases h1; exact hrec
  have r2 : hasRecord fi2 p key = true := by
    split at h2
    · obtain ⟨_, _, h2⟩ := Res.bind_eq_ok.1 h2
      exact KeepsRecords.setKey_overlay _ (by decide) p key fi1 fi2 hp h2 r1
    · cases h2; exact r1
  exact KeepsRecords.setKey_overlay _ (by decide) p key fi2 j1 hp h r2

theorem parseVariable_keeps : ∀ (fuel : Nat) (env : Env) (compileUnit : CU) (varDIE : DieRef)
    (memberVariable : Bool), KeepsRecords (parseVariable fuel env compileUnit varDIE memberVariable) := by
  intro fuel
  induction fuel with
  | zero =>
    intro env compileUnit varDIE memberVariable p key j j1 _ h _
    simp [parseVariable] at h
  | succ n ih =>
    intro env compileUnit varDIE memberVariable p key j j1 hp h hrec
    rw [parseVariable] at h
    split at h
    · obtain ⟨off, _, h⟩ := Res.bind_eq_ok.1 h
      obtain ⟨found, _, h⟩ := Res.bind_eq_ok.1 h
      cases found with
      | none => cases h; exact hrec
      | some specificVar =>
        simp only at h
        obtain ⟨path, _, h⟩ := Res.bind_eq_ok.1 h
        split_ifs at h
        · cases h; exact hrec
        obtain ⟨line, _, h⟩ := Res.bind_eq_ok.1 h
        obtain ⟨nm, _, h⟩ := Res.bind_eq_ok.1 h
        obtain ⟨out1, h1, h⟩ := Res.bind_eq_ok.1 h
        obtain ⟨out2, h2, h⟩ := Res.bind_eq_ok.1 h
        have r1 : hasRecord out1 p key = true :=
          KeepsRecords.modifyAt KeepsRecords.ok path p key j out1 hp h1 hrec
        have r2 : hasRecord out2 p key = true := by
          split_ifs at h2
          · cases h2; exact r1
          · exact ih _ _ _ _ p key out1 out2 hp h2 r1
        exact KeepsRecords.modifyAt (KeepsRecords.foldl (varOverlayAttr_keeps env) _) _
          p key out2 j1 hp h r2
    · obtain ⟨path, _, h⟩ := Res.bind_eq_ok.1 h
      split_ifs at h
      · cases h; exact hrec
      obtain ⟨_, _, h⟩ := Res.bind_eq_ok.1 h
      obtain ⟨_, _, h⟩ := Res.bind_eq_ok.1 h
      obtain ⟨_, _, h⟩ := Res.bind_eq_ok.1 h
      exact KeepsRecords.modifyAt (KeepsRecords.emplace _ _) path p key j j1 hp h hrec

/-- The dispatcher, `parseFunction` and `parseUnion` keep every record whose path goes through
no overlay key. -/
theorem parse_keeps : ∀ (fuel : Nat),
    (∀ (env : Env) (compileUnit : CU) (DIE : DieRef),
      KeepsRecords (parseDIE fuel env compileUnit DIE)) ∧
    (∀ (env : Env) (compileUnit : CU) (DIE : DieRef),
      KeepsRecords (parseFunction fuel env compileUnit DIE)) ∧
    (∀ (env : Env) (compileUnit : CU) (DIE : DieRef),
      KeepsRecords (parseUnion fuel env compileUnit DIE)) := by
  intro fuel
  induction fuel with
  | zero =>
    refine ⟨?_, ?_, ?_⟩ <;> intro env compileUnit DIE p key j j1 _ h _
    · simp [parseDIE] at h
    · simp [parseFunction] at h
    · simp [parseUnion] at h
  | succ n ih =>
    obtain ⟨ihD, ihF, ihU⟩ := ih
    have hdesc : ∀ (env : Env) (compileUnit : CU) (DIE : DieRef) (l : List Die),
        KeepsRecords (fun j =>
          Res.foldl (fun o childDIE => parseDIE n env compileUnit (DIE.child childDIE) o) j l) :=
      fun env compileUnit DIE l =>
        KeepsRecords.foldl (fun a => ihD env compileUnit (DIE.child a)) l
    refine ⟨?_, ?_, ?_⟩ <;> intro env compileUnit DIE p key j j1 hp h hrec
    · rw [parseDIE] at h
      by_cases c1 : DIE.die.getTAG = DW_TAG_namespace
      · rw [if_pos c1] at h
        obtain ⟨dieName, _, h⟩ := Res.bind_eq_ok.1 h
        split_ifs at h
        · cases h; exact hrec
        · exact hdesc env compileUnit DIE _ p key j j1 hp h hrec
      rw [if_neg c1] at h
      by_cases c2 : DIE.die.getTAG = DW_TAG_class_type ∨ DIE.die.getTAG = DW_TAG_structure_type ∨
          DIE.die.getTAG = DW_TAG_lexical_block
      · rw [if_pos c2] at h
        exact hdesc env compileUnit DIE _ p key j j1 hp h hrec
      rw [if_neg c2] at h
      by_cases c3 : DIE.die.getTAG = DW_TAG_subprogram
      · rw [if_pos c3] at h
        exact ihF env compileUnit DIE p key j j1 hp h hrec
      rw [if_neg c3] at h
      by_cases c4 : DIE.die.getTAG = DW_TAG_enumeration_type
      · rw [if_pos c4] at h
        exact parseEnum_keeps n env compileUnit DIE p key j j1 hp h hrec
      rw [if_neg c4] at h
      by_cases c5 : DIE.die.getTAG = DW_TAG_union_type
      · rw [if_pos c5] at h
        exact ihU env compileUnit DIE p key j j1 hp h hrec
      rw [if_neg c5] at h
      by_cases c6 : DIE.die.getTAG = DW_TAG_variable
      · rw [if_pos c6] at h
        exact parseVariable_keeps n env compileUnit DIE false p key j j1 hp h hrec
      rw [if_neg c6] at h
      by_cases c7 : DIE.die.getTAG = DW_TAG_member
      · rw [if_pos c7] at h
        exact parseVariable_keeps n env compileUnit DIE true p key j j1 hp h hrec
      rw [if_neg c7] at h
      by_cases c8 : DIE.die.getTAG = DW_TAG_typedef
      · rw [if_pos c8] at h
        exact parseTypedef_keeps n env compileUnit DIE p key j j1 hp h hrec
      rw [if_neg c8] at h
      by_cases c9 : DIE.die.getTAG = DW_TAG_inheritance
      · rw [if_pos c9] at h
        exact parseInheritance_keeps n env compileUnit DIE p key j j1 hp h hrec
      rw [if_neg c9] at h
      by_cases c10 : DIE.die.getTAG = DW_TAG_GNU_template_parameter_pack ∨
          DIE.die.getTAG = DW_TAG_template_type_param ∨
          DIE.die.getTAG = DW_TAG_template_value_param
      · rw [if_pos c10] at h
        exact parseClassTemplateParams_keeps n env compileUnit DIE p key j j1 hp h hrec
      rw [if_neg c10] at h
      cases h; exact hrec
    · rw [parseFunction] at h
      obtain ⟨ownName, _, h⟩ := Res.bind_eq_ok.1 h
      split_ifs at h
      · cases h; exact hrec
      split at h
      · obtain ⟨off, _, h⟩ := Res.bind_eq_ok.1 h
        obtain ⟨found, _, h⟩ := Res.bind_eq_ok.1 h
        cases found with
        | none => cases h; exact hrec
        | some specificFunc =>
          simp only at h
          obtain ⟨path, _, h⟩ := Res.bind_eq_ok.1 h
          split_ifs at h
          · cases h; exact hrec
          obtain ⟨line, _, h⟩ := Res.bind_eq_ok.1 h
          obtain ⟨nm, _, h⟩ := Res.bind_eq_ok.1 h
          obtain ⟨scan, _, h⟩ := Res.bind_eq_ok.1 h
          obtain ⟨out1, h1, h⟩ := Res.bind_eq_ok.1 h
          obtain ⟨out2, h2, h⟩ := Res.bind_eq_ok.1 h
          obtain ⟨out3, h3, h⟩ := Res.bind_eq_ok.1 h
          have r1 : hasRecord out1 p key = true :=
            KeepsRecords.modifyAt KeepsRecords.ok path p key j out1 hp h1 hrec
          have r2 : hasRecord out2 p key = true := by
            split_ifs at h2
            · cases h2; exact r1
            · exact ihF _ _ _ p key out1 out2 hp h2 r1
          have r3 : hasRecord out3 p key = true :=
            KeepsRecords.modifyAt (funcOverlay_keeps _ _) _ p key out2 out3 hp h3 r2
          exact hdesc env compileUnit DIE _ p key out3 j1 hp h r3
      · obtain ⟨path, _, h⟩ := Res.bind_eq_ok.1 h
        split_ifs at h
        · cases h; exact hrec
        obtain ⟨line, _, h⟩ := Res.bind_eq_ok.1 h
        obtain ⟨nm, _, h⟩ := Res.bind_eq_ok.1 h
        obtain ⟨built, _, h⟩ := Res.bind_eq_ok.1 h
        obtain ⟨out1, h1, h⟩ := Res.bind_eq_ok.1 h
        have r1 : hasRecord out1 p key = true :=
          KeepsRecords.modifyAt (KeepsRecords.emplace _ _) path p key j out1 hp h1 hrec
        exact hdesc env compileUnit DIE _ p key out1 j1 hp h r1
    · rw [parseUnion] at h
      obtain ⟨path, _, h⟩ := Res.bind_eq_ok.1 h
      split_ifs at h
      · cases h; exact hrec
      obtain ⟨u0, _, h⟩ := Res.bind_eq_ok.1 h
      obtain ⟨unionInfo, _, h⟩ := Res.bind_eq_ok.1 h
      obtain ⟨nm, _, h⟩ := Res.bind_eq_ok.1 h
      obtain ⟨out1, h1, h⟩ := Res.bind_eq_ok.1 h
      have r1 : hasRecord out1 p key = true :=
        KeepsRecords.modifyAt (KeepsRecords.emplace _ _) path p key j out1 hp h1 hrec
      exact hdesc env compileUnit DIE _ p key out1 j1 hp h r1

/-! ## Lemmas: qualified names -/

theorem intercalate_cons_cons (sep x y : Str) (ys : List Str) :
    sep.intercalate (x :: y :: ys) = x ++ sep ++ sep.intercalate (y :: ys) := by
  simp [List.intercalate, List.intersperse]

theorem qualifiedName_nil (name : Str) : qualifiedName [] name = name := by
  simp [qualifiedName, List.intercalate]

theorem qualifiedName_cons (s : Str) (scopes : List Str) (name : Str) :
    qualifiedName (scopes ++ [s]) name = s ++ "::".toList ++ qualifiedName scopes name := by
  obtain ⟨y, ys, h⟩ : ∃ y ys, scopes.reverse ++ [name] = y :: ys := by
    cases h : scopes.reverse ++ [name] with
    | nil => simp at h
    | cons y ys => exact ⟨y, ys, rfl⟩
  simp only [qualifiedName, List.reverse_append, List.reverse_singleton, List.singleton_append,
    List.cons_append, List.nil_append]
  rw [h, intercalate_cons_cons]

/-- The ancestor loop of `completeNameScope` below a compile unit, started with a name
that is not empty: every ancestor that is no compile unit puts its own name and `::` in
front. -/
theorem completeNameScopeLoop_named (dieName : Str) (cuDie : Die) (rest : List Die)
    (hcu : cuDie.getTAG = DW_TAG_compile_unit) (hcun : (cuDie.getName []).isOk = true) :
    ∀ (scopes : List (Die × Str)) (acc : Str), acc ≠ [] →
      (∀ s ∈ scopes, s.1.getTAG ≠ DW_TAG_compile_unit ∧ s.1.getName [] = .ok s.2) →
      completeNameScopeLoop dieName (scopes.map Prod.fst ++ cuDie :: rest) acc =
        .ok (scopes.foldl (fun a s => s.2 ++ "::".toList ++ a) acc) := by
  obtain ⟨cn, hcn⟩ : ∃ cn, cuDie.getName [] = .ok cn := by
    revert hcun
    cases cuDie.getName [] <;> simp [Res.isOk]
  intro scopes
  induction scopes with
  | nil =>
    intro acc _ _
    simp only [List.map_nil, List.nil_append, completeNameScopeLoop, hcn, Res.bind_ok, hcu,
      if_true, List.foldl_nil]
  | cons s ss ih =>
    intro acc hacc hs
    obtain ⟨htag, hname⟩ := hs s (List.mem_cons_self _ _)
    simp only [List.map_cons, List.cons_append, completeNameScopeLoop, hname, Res.bind_ok,
      htag, if_false, hacc, List.foldl_cons]
    have hstep : (if s.1.getTAG = DW_TAG_namespace then acc
        else if s.1.getTAG = DW_TAG_class_type then acc
        else if s.1.getTAG = DW_TAG_structure_type then acc
        else if s.1.getTAG = DW_TAG_union_type then acc
        else if s.1.getTAG = DW_TAG_enumeration_type then acc else acc) = acc := by
      split_ifs <;> rfl
    rw [hstep]
    exact ih _ (by simp) (fun x hx => hs x (List.mem_cons_of_mem _ hx))

theorem foldl_scope_eq_qualifiedName :
    ∀ (scopes : List (Die × Str)) (name : Str),
      scopes.foldl (fun a s => s.2 ++ "::".toList ++ a) name =
        qualifiedName (scopes.map Prod.snd) name := by
  intro scopes
  induction scopes using List.reverseRecOn with
  | nil => intro name; rw [List.map_nil, qualifiedName_nil]; rfl
  | append_singleton ss s ih =>
    intro name
    rw [List.foldl_append, List.map_append, List.map_singleton, qualifiedName_cons, ← ih]
    rfl

/-! ## Lemmas: the const flag -/

/-- One round of the tag dispatch sets the const flag for a const DIE and leaves it as it is
for every other DIE. -/
theorem typeStep_isConst {env : Env} {d : DieRef} {st st1 : TypeState} {sub : Str → Res Str}
    {noVoidType : Bool} (h : typeStep env d st sub = .ok (st1, noVoidType)) :
    st1.isConst = (st.isConst || decide (d.die.getTAG = DW_TAG_const_type)) := by
  unfold typeStep at h
  dsimp only at h
  by_cases c : d.die.getTAG = DW_TAG_const_type
  · rw [if_pos c] at h
    rw [← (Prod.mk.inj (Res.ok.inj h)).1]
    simp [c]
  rw [if_neg c] at h
  have hc : decide (d.die.getTAG = DW_TAG_const_type) = false := by simpa using c
  rw [hc, Bool.or_false]
  clear c
  by_cases c : d.die.getTAG = DW_TAG_volatile_type
  · rw [if_pos c] at h
    rw [← (Prod.mk.inj (Res.ok.inj h)).1]
  rw [if_neg c] at h
  clear c
  by_cases c : d.die.getTAG = DW_TAG_pointer_type
  · rw [if_pos c] at h
    rw [← (Prod.mk.inj (Res.ok.inj h)).1]
  rw [if_neg c] at h
  clear c
  by_cases c : d.die.getTAG = DW_TAG_reference_type
  · rw [if_pos c] at h
    rw [← (Prod.mk.inj (Res.ok.inj h)).1]
  rw [if_neg c] at h
  clear c
  by_cases c : d.die.getTAG = DW_TAG_rvalue_reference_type
  · rw [if_pos c] at h
    rw [← (Prod.mk.inj (Res.ok.inj h)).1]
  rw [if_neg c] at h
  clear c
  by_cases c : d.die.getTAG = DW_TAG_restrict_type
  · rw [if_pos c] at h
    rw [← (Prod.mk.inj (Res.ok.inj h)).1]
  rw [if_neg c] at h
  clear c
  by_cases c : d.die.getTAG = DW_TAG_array_type
  · rw [if_pos c] at h
    obtain ⟨_, _, ht⟩ := Res.bind_eq_ok.mp h
    rw [← (Prod.mk.inj (Res.ok.inj ht)).1]
  rw [if_neg c] at h
  clear c
  by_cases c : d.die.getTAG = DW_TAG_ptr_to_member_type
  · rw [if_pos c] at h
    obtain ⟨_, _, ht⟩ := Res.bind_eq_ok.mp h
    rw [← (Prod.mk.inj (Res.ok.inj ht)).1]
  rw [if_neg c] at h
  clear c
  by_cases c : d.die.getTAG = DW_TAG_subroutine_type
  · rw [if_pos c] at h
    obtain ⟨_, _, ht⟩ := Res.bind_eq_ok.mp h
    rw [← (Prod.mk.inj (Res.ok.inj ht)).1]
  rw [if_neg c] at h
  clear c
  by_cases c : d.die.getTAG = DW_TAG_union_type
  · rw [if_pos c] at h
    rw [← (Prod.mk.inj (Res.ok.inj h)).1]
  rw [if_neg c] at h
  clear c
  by_cases c : d.die.getTAG = DW_TAG_class_type
  · rw [if_pos c] at h
    rw [← (Prod.mk.inj (Res.ok.inj h)).1]
  rw [if_neg c] at h
  clear c
  by_cases c : d.die.getTAG = DW_TAG_structure_type
  · rw [if_pos c] at h
    rw [← (Prod.mk.inj (Res.ok.inj h)).1]
  rw [if_neg c] at h
  clear c
  by_cases c : d.die.getTAG = DW_TAG_enumeration_type
  · rw [if_pos c] at h
    rw [← (Prod.mk.inj (Res.ok.inj h)).1]
  rw [if_neg c] at h
  clear c
  rw [← (Prod.mk.inj (Res.ok.inj h)).1]

/-- The const flag at the end of the loop: the flag at its start, or a const DIE among the
DIEs without name that the loop visits. -/
theorem getTypeInfoLoop_isConst (env : Env) (terminal : Option DieRef)
    (hterm : ∀ t, terminal = some t → HasName t) :
    ∀ (ms : List DieRef) (fuel : Nat) (st st1 : TypeState), UnnamedChain env ms terminal →
      getTypeInfoLoop fuel env (chainStart ms terminal) st = .ok st1 →
      st1.isConst =
        (st.isConst || ms.any (fun m => decide (m.die.getTAG = DW_TAG_const_type))) := by
  intro ms
  induction ms with
  | nil =>
    intro fuel st st1 _ h
    simp only [chainStart] at h
    rw [List.any_nil, Bool.or_false]
    cases terminal with
    | none =>
      cases fuel <;> simp only [getTypeInfoLoop, Res.ok.injEq] at h <;> rw [← h]
    | some t =>
      obtain ⟨n, hn, hname⟩ := hterm t rfl
      cases fuel with
      | zero => simp [getTypeInfoLoop] at h
      | succ k =>
        rw [getTypeInfoLoop] at h
        simp only [hname, Res.bind_ok, ne_eq, hn, not_false_eq_true, if_true] at h
        obtain ⟨scope, _, h⟩ := Res.bind_eq_ok.1 h
        simp only [Res.ok.injEq] at h
        rw [← h]
  | cons m rest ih =>
    intro fuel st st1 hchain h
    obtain ⟨hname, hnext, hrest⟩ := hchain
    simp only [chainStart] at h
    cases fuel with
    | zero => simp [getTypeInfoLoop] at h
    | succ k =>
      rw [getTypeInfoLoop] at h
      simp only [hname, Res.bind_ok, ne_eq, not_true_eq_false, if_false] at h
      obtain ⟨p, hstep, h⟩ := Res.bind_eq_ok.1 h
      obtain ⟨st2, noVoidType⟩ := p
      have hc := typeStep_isConst hstep
      simp only at h
      rw [List.any_cons, ← Bool.or_assoc, ← hc]
      cases hcs : chainStart rest terminal with
      | none =>
        rw [hcs] at hnext
        have hnil : rest = [] := by
          cases rest with
          | nil => rfl
          | cons _ _ => simp [chainStart] at hcs
        simp only [NextType] at hnext
        rw [hnext] at h
        subst hnil
        rw [List.any_nil, Bool.or_false]
        simp only at h
        split_ifs at h <;> simp only [Res.ok.injEq] at h <;> rw [← h]
      | some t =>
        rw [hcs] at hnext
        obtain ⟨a, off, ha, hoff, hfind⟩ := hnext
        simp only [ha, hoff, hfind, Res.bind_ok] at h
        rw [← hcs] at h
        exact ih k st2 st1 hrest h

/-- The value written through `constOrVolatile` is odd exactly when a const DIE is among the
DIEs without name on the type chain. -/
theorem getTypeInfo_const_flag {env : Env} {die : DieRef} {ms : List DieRef}
    {terminal : Option DieRef} {fuel : Nat} {varName : Str} {r : Str × Nat}
    (hterm : ∀ t, terminal = some t → HasName t)
    (hstart : NextType env die.die (chainStart ms terminal))
    (hchain : UnnamedChain env ms terminal)
    (h : getTypeInfo fuel env die varName = .ok r) :
    r.2 % 2 = 1 ↔ ∃ m ∈ ms, m.die.getTAG = DW_TAG_const_type := by
  have hany : (ms.any (fun m => decide (m.die.getTAG = DW_TAG_const_type)) = true) ↔
      ∃ m ∈ ms, m.die.getTAG = DW_TAG_const_type := by simp
  rw [← hany]
  cases fuel with
  | zero => simp [getTypeInfo] at h
  | succ k =>
    rw [getTypeInfo] at h
    cases hcs : chainStart ms terminal with
    | none =>
      rw [hcs] at hstart
      have hnil : ms = [] := by
        cases ms with
        | nil => rfl
        | cons _ _ => simp [chainStart] at hcs
      simp only [NextType] at hstart
      simp only [hstart, Res.ok.injEq] at h
      subst hnil
      rw [← h]
      simp
    | some t =>
      rw [hcs] at hstart
      obtain ⟨a, off, ha, hoff, hfind⟩ := hstart
      simp only [ha, hoff, hfind, Res.bind_ok] at h
      obtain ⟨st1, hloop, h⟩ := Res.bind_eq_ok.1 h
      rw [← hcs] at hloop
      have hc := getTypeInfoLoop_isConst env terminal hterm ms k _ st1 hchain hloop
      simp only [Bool.false_or] at hc
      simp only [Res.ok.injEq] at h
      rw [← h, ← hc]
      cases st1.isConst <;> cases st1.isVolatile <;> simp

/-- The attribute loop of `parseFunction` leaves every key outside `funcAttrKeys` alone. -/
theorem funcAttr_other {j j1 : Json} {a : Attr} {k : Str} (h : funcAttr j a = .ok j1)
    (hk : ∀ s ∈ funcAttrKeys, k ≠ s) : j1.getKey k = j.getKey k := by
  unfold funcAttr setDeclPos at h
  dsimp only at h
  by_cases c : a.mType = DW_AT_name
  · rw [if_pos c] at h
    obtain ⟨_, _, h⟩ := Res.bind_eq_ok.1 h
    exact Json.setKey_getKey_other h (hk "0-name".toList (by decide))
  rw [if_neg c] at h
  clear c
  by_cases c : a.mType = DW_AT_linkage_name
  · rw [if_pos c] at h
    obtain ⟨_, _, h⟩ := Res.bind_eq_ok.1 h
    exact Json.setKey_getKey_other h (hk "0-linkage".toList (by decide))
  rw [if_neg c] at h
  clear c
  by_cases c : a.mType = DW_AT_external
  · rw [if_pos c] at h
    exact Json.setKey_getKey_other h (hk "0-external".toList (by decide))
  rw [if_neg c] at h
  clear c
  by_cases c : a.mType = DW_AT_accessibility
  · rw [if_pos c] at h
    obtain ⟨_, _, h⟩ := Res.bind_eq_ok.1 h
    exact Json.setKey_getKey_other h (hk "1-accessibility".toList (by decide))
  rw [if_neg c] at h
  clear c
  by_cases c : a.mType = DW_AT_defaulted
  · rw [if_pos c] at h
    obtain ⟨_, _, h⟩ := Res.bind_eq_ok.1 h
    exact Json.setKey_getKey_other h (hk "1-default".toList (by decide))
  rw [if_neg c] at h
  clear c
  by_cases c : a.mType = DW_AT_deleted
  · rw [if_pos c] at h
    exact Json.setKey_getKey_other h (hk "1-deleted".toList (by decide))
  rw [if_neg c] at h
  clear c
  by_cases c : a.mType = DW_AT_decl_line
  · rw [if_pos c] at h
    obtain ⟨_, _, h⟩ := Res.bind_eq_ok.1 h
    exact Json.modifyKey_getKey_other h (hk "0-decl_pos".toList (by decide))
  rw [if_neg c] at h
  clear c
  by_cases c : a.mType = DW_AT_decl_column
  · rw [if_pos c] at h
    obtain ⟨_, _, h⟩ := Res.bind_eq_ok.1 h
    exact Json.modifyKey_getKey_other h (hk "0-decl_pos".toList (by decide))
  rw [if_neg c] at h
  clear c
  by_cases c : a.mType = DW_AT_virtuality
  · rw [if_pos c] at h
    obtain ⟨_, _, h⟩ := Res.bind_eq_ok.1 h
    exact Json.setKey_getKey_other h (hk "1-virtual".toList (by decide))
  rw [if_neg c] at h
  clear c
  by_cases c : a.mType = DW_AT_inline
  · rw [if_pos c] at h
    obtain ⟨_, _, h⟩ := Res.bind_eq_ok.1 h
    exact Json.setKey_getKey_other h (hk "1-inline".toList (by decide))
  rw [if_neg c] at h
  clear c
  by_cases c : a.mType = DW_AT_vtable_elem_location
  · rw [if_pos c] at h
    obtain ⟨_, _, h⟩ := Res.bind_eq_ok.1 h
    exact Json.setKey_getKey_other h (hk "1-vtable_loc".toList (by decide))
  rw [if_neg c] at h
  clear c
  by_cases c : a.mType = DW_AT_reference
  · rw [if_pos c] at h
    exact Json.setKey_getKey_other h (hk "1-ref_decorate".toList (by decide))
  rw [if_neg c] at h
  clear c
  by_cases c : a.mType = DW_AT_rvalue_reference
  · rw [if_pos c] at h
    exact Json.setKey_getKey_other h (hk "1-r_ref_decorate".toList (by decide))
  rw [if_neg c] at h
  clear c
  by_cases c : a.mType = DW_AT_artificial
  · rw [if_pos c] at h
    exact Json.setKey_getKey_other h (hk "1-artificial".toList (by decide))
  rw [if_neg c] at h
  clear c
  simp only [Res.ok.injEq] at h
  rw [h]

theorem funcAttr_foldl_other {k : Str} (hk : ∀ s ∈ funcAttrKeys, k ≠ s) :
    ∀ (attrs : List Attr) (j j1 : Json), Res.foldl funcAttr j attrs = .ok j1 →
      j1.getKey k = j.getKey k := by
  intro attrs
  induction attrs with
  | nil => intro j j1 h; simp only [Res.foldl, Res.ok.injEq] at h; rw [h]
  | cons a rest ih =>
    intro j j1 h
    simp only [Res.foldl] at h
    obtain ⟨j0, h0, h⟩ := Res.bind_eq_ok.1 h
    rw [ih j0 j1 h, funcAttr_other h0 hk]

/-- One round of the child loop of `parseFunction`: `const_decorate` is set to 1 for an
artificial formal parameter with the const flag and left alone otherwise. -/
theorem funcChild_const_decorate {fuel : Nat} {env : Env} {F : DieRef} {sc sc1 : FuncScan}
    {c : Die} (h : funcChild fuel env F sc c = .ok sc1) :
    (ConstThis fuel env F c →
      sc1.funcInfo.getKey "const_decorate".toList = some Json.one) ∧
    (¬ ConstThis fuel env F c →
      sc1.funcInfo.getKey "const_decorate".toList =
        sc.funcInfo.getKey "const_decorate".toList) := by
  unfold funcChild at h
  simp only [DieRef.child] at h
  by_cases t1 : c.getTAG = DW_TAG_formal_parameter
  · rw [if_pos t1] at h
    by_cases t2 : (c.findAttrByType DW_AT_artificial).isSome = true
    · rw [if_pos t2] at h
      obtain ⟨r, hr, h⟩ := Res.bind_eq_ok.1 h
      obtain ⟨fi, hfi, h⟩ := Res.bind_eq_ok.1 h
      obtain ⟨nm, _, h⟩ := Res.bind_eq_ok.1 h
      simp only [Res.ok.injEq] at h
      rw [← h]
      constructor
      · rintro ⟨_, _, r1, hr1, hodd⟩
        simp only [DieRef.child] at hr1
        rw [hr] at hr1
        simp only [Res.ok.injEq] at hr1
        subst hr1
        rw [if_pos hodd] at hfi
        exact Json.setKey_getKey hfi
      · intro hno
        have hodd : ¬ r.2 % 2 = 1 := fun hodd => hno ⟨t1, t2, r, by simpa [DieRef.child] using hr, hodd⟩
        rw [if_neg hodd] at hfi
        simp only [Res.ok.injEq] at hfi
        rw [hfi]
    · rw [if_neg t2] at h
      obtain ⟨r, _, h⟩ := Res.bind_eq_ok.1 h
      obtain ⟨nm, _, h⟩ := Res.bind_eq_ok.1 h
      simp only [Res.ok.injEq] at h
      rw [← h]
      exact ⟨fun hc => absurd hc.2.1 t2, fun _ => rfl⟩
  · rw [if_neg t1] at h
    have hno : ¬ ConstThis fuel env F c := fun hc => t1 hc.1
    refine ⟨fun hc => absurd hc hno, fun _ => ?_⟩
    split_ifs at h
    · obtain ⟨nm, _, h⟩ := Res.bind_eq_ok.1 h
      simp only [Res.ok.injEq] at h
      rw [← h]
    · simp only [Res.ok.injEq] at h
      rw [← h]
    · obtain ⟨nm, _, h⟩ := Res.bind_eq_ok.1 h
      simp only [Res.ok.injEq] at h
      rw [← h]
    · obtain ⟨nm, _, h⟩ := Res.bind_eq_ok.1 h
      obtain ⟨r, _, h⟩ := Res.bind_eq_ok.1 h
      simp only [Res.ok.injEq] at h
      rw [← h]
    · obtain ⟨nm, _, h⟩ := Res.bind_eq_ok.1 h
      simp only [Res.ok.injEq] at h
      rw [← h]
    · simp only [Res.ok.injEq] at h
      rw [← h]

theorem funcChild_foldl_const_decorate {fuel : Nat} {env : Env} {F : DieRef} :
    ∀ (children : List Die) (sc sc1 : FuncScan),
      Res.foldl (funcChild fuel env F) sc children = .ok sc1 →
      ((∃ c ∈ children, ConstThis fuel env F c) →
        sc1.funcInfo.getKey "const_decorate".toList = some Json.one) ∧
      ((¬ ∃ c ∈ children, ConstThis fuel env F c) →
        sc1.funcInfo.getKey "const_decorate".toList =
          sc.funcInfo.getKey "const_decorate".toList) := by
  intro children
  induction children using List.reverseRecOn with
  | nil =>
    intro sc sc1 h
    simp only [Res.foldl, Res.ok.injEq] at h
    rw [h]
    constructor
    · rintro ⟨c, hc, _⟩
      cases hc
    · intro _
      rfl
  | append_singleton cs c ih =>
    intro sc sc1 h
    rw [Res.foldl_append] at h
    obtain ⟨sc0, h0, h⟩ := Res.bind_eq_ok.1 h
    simp only [Res.foldl] at h
    obtain ⟨sc2, h2, h⟩ := Res.bind_eq_ok.1 h
    simp only [Res.ok.injEq] at h
    subst h
    obtain ⟨hyes, hno⟩ := funcChild_const_decorate h2
    obtain ⟨ihyes, ihno⟩ := ih sc sc0 h0
    by_cases hc : ConstThis fuel env F c
    · exact ⟨fun _ => hyes hc, fun hn => absurd ⟨c, by simp, hc⟩ hn⟩
    · constructor
      · rintro ⟨d, hd, hdc⟩
        rw [hno hc]
        rcases List.mem_append.1 hd with hd | hd
        · exact ihyes ⟨d, hd, hdc⟩
        · simp only [List.mem_singleton] at hd
          subst hd
          exact absurd hdc hc
      · intro hn
        rw [hno hc]
        exact ihno (fun ⟨d, hd, hdc⟩ => hn ⟨d, List.mem_append_left _ hd, hdc⟩)

/-- The record that `parseFunction` builds carries `const_decorate` = 1 exactly when one of
the children is an artificial formal parameter with the const flag. -/
theorem funcRecord_const_decorate {fuel : Nat} {env : Env} {F : DieRef} {built : Json × List Die}
    (h : funcRecord fuel env F = .ok built) :
    built.1.getKey "const_decorate".toList = some Json.one ↔
      ∃ c ∈ F.die.getChildren, ConstThis fuel env F c := by
  unfold funcRecord at h
  obtain ⟨fi0, h0, h⟩ := Res.bind_eq_ok.1 h
  obtain ⟨fi1, h1, h⟩ := Res.bind_eq_ok.1 h
  obtain ⟨rt, _, h⟩ := Res.bind_eq_ok.1 h
  obtain ⟨fi2, h2, h⟩ := Res.bind_eq_ok.1 h
  obtain ⟨sc, hsc, h⟩ := Res.bind_eq_ok.1 h
  obtain ⟨fi3, h3, h⟩ := Res.bind_eq_ok.1 h
  obtain ⟨fi4, h4, h⟩ := Res.bind_eq_ok.1 h
  obtain ⟨fi5, h5, h⟩ := Res.bind_eq_ok.1 h
  simp only [Res.ok.injEq] at h
  rw [← h]
  have e0 : fi0.getKey "const_decorate".toList = none := by
    simp only [Json.setKey, Json.modifyKey, Res.bind_ok, Res.ok.injEq] at h0
    rw [← h0]
    simp [Json.getKey, mapFind]
  have e1 : fi1.getKey "const_decorate".toList = none := by
    rw [funcAttr_foldl_other (by decide) _ _ _ h1, e0]
  have e2 : fi2.getKey "const_decorate".toList = none := by
    rw [Json.emplace_getKey_other h2 (by decide), e1]
  have e3 : fi3.getKey "const_decorate".toList = sc.funcInfo.getKey "const_decorate".toList := by
    split_ifs at h3
    · exact Json.emplace_getKey_other h3 (by decide)
    · simp only [Res.ok.injEq] at h3; rw [h3]
  have e4 : fi4.getKey "const_decorate".toList = fi3.getKey "const_decorate".toList := by
    split_ifs at h4
    · exact Json.emplace_getKey_other h4 (by decide)
    · simp only [Res.ok.injEq] at h4; rw [h4]
  have e5 : fi5.getKey "const_decorate".toList = fi4.getKey "const_decorate".toList := by
    split_ifs at h5
    · simp only [Res.ok.injEq] at h5; rw [h5]
    · exact Json.emplace_getKey_other h5 (by decide)
  obtain ⟨hyes, hno⟩ := funcChild_foldl_const_decorate _ _ _ hsc
  show fi5.getKey "const_decorate".toList = some Json.one ↔ _
  rw [e5, e4, e3]
  constructor
  · intro hk
    by_contra hn
    rw [hno hn] at hk
    simp only at hk
    rw [e2] at hk
    cases hk
  · exact hyes

/-! ## Lemmas: values are kept -/

theorem Json.getAt_cons (k : Str) (q : List Str) (j : Json) :
    Json.getAt (k :: q) j = (j.getKey k).bind (Json.getAt q) := by
  simp only [Json.getAt]
  cases j.getKey k <;> rfl

theorem Json.getKey_of_isScalar {j : Json} (h : j.isScalar = true) (k : Str) :
    j.getKey k = none := by
  cases j <;> first | rfl | cases h

theorem Json.modifyKey_of_isScalar {j : Json} (h : j.isScalar = true) (k : Str)
    (f : Json → Res Json) : j.modifyKey k f = .fault := by
  cases j <;> first | rfl | cases h

theorem Json.emplace_of_isScalar {j : Json} (h : j.isScalar = true) (k : Str) (v : Json) :
    j.emplace k v = .fault := by
  cases j <;> first | rfl | cases h

theorem Die.quiet_iff (d : Die) :
    d.quiet = true ↔
      ¬ (d.getTAG = DW_TAG_subprogram ∧ (d.findAttrByType DW_AT_specification).isSome = true) ∧
        Die.quietAll d.getChildren = true := by
  cases d with
  | mk o t a cs =>
    simp [Die.quiet, Die.getTAG, Die.findAttrByType, Die.getAttrs, Die.getChildren]
    intro _
    tauto

theorem Die.quietAll_mem : ∀ (cs : List Die), Die.quietAll cs = true → ∀ c ∈ cs, c.quiet = true := by
  intro cs
  induction cs with
  | nil => intro _ c hc; cases hc
  | cons d ds ih =>
    intro h c hc
    simp only [Die.quietAll, Bool.and_eq_true] at h
    rcases List.mem_cons.1 hc with e | e
    · rw [e]; exact h.1
    · exact ih h.2 c e

theorem keepsValues_ok {bad : List Str} {L : Json → Prop} : KeepsValues bad L Res.ok := by
  intro q v j j1 _ _ h hget
  cases h
  exact hget

theorem keepsValues_modifyKey {bad : List Str} {L : Json → Prop}
    (hL : ∀ v, L v → v.isScalar = true) {g : Json → Res Json} (hg : KeepsValues bad L g)
    (k : Str) : KeepsValues bad L (fun j => j.modifyKey k g) := by
  intro q v j j1 hq hv h hget
  have h : j.modifyKey k g = .ok j1 := h
  cases q with
  | nil =>
    simp only [Json.getAt, Option.some.injEq] at hget
    subst hget
    rw [Json.modifyKey_of_isScalar (hL _ hv)] at h
    cases h
  | cons k0 q1 =>
    rw [Json.getAt_cons] at hget ⊢
    by_cases e : k0 = k
    · subst e
      obtain ⟨w, hw, hgetw⟩ := Json.modifyKey_getKey h
      rw [hgetw]
      cases hold : j.getKey k0 with
      | none => rw [hold] at hget; cases hget
      | some old =>
        rw [hold] at hget hw
        exact hg q1 v old w (fun x hx => hq x (List.mem_cons_of_mem _ hx)) hv hw hget
    · rw [Json.modifyKey_getKey_other h e]; exact hget

theorem KeepsValues.modifyKey_bad {bad : List Str} {L : Json → Prop}
    (hL : ∀ v, L v → v.isScalar = true) (g : Json → Res Json) {k : Str} (hk : k ∈ bad) :
    KeepsValues bad L (fun j => j.modifyKey k g) := by
  intro q v j j1 hq hv h hget
  have h : j.modifyKey k g = .ok j1 := h
  cases q with
  | nil =>
    simp only [Json.getAt, Option.some.injEq] at hget
    subst hget
    rw [Json.modifyKey_of_isScalar (hL _ hv)] at h
    cases h
  | cons k0 q1 =>
    rw [Json.getAt_cons] at hget ⊢
    have e : k0 ≠ k := fun e => hq k0 (List.mem_cons_self _ _) (e ▸ hk)
    rw [Json.modifyKey_getKey_other h e]; exact hget

theorem KeepsValues.setKey_bad {bad : List Str} {L : Json → Prop}
    (hL : ∀ v, L v → v.isScalar = true) (w : Json) {k : Str}
    (hk : k ∈ bad) : KeepsValues bad L (fun j => j.setKey k w) :=
  KeepsValues.modifyKey_bad hL _ hk

theorem keepsValues_emplace {bad : List Str} {L : Json → Prop}
    (hL : ∀ v, L v → v.isScalar = true) (k : Str) (w : Json) :
    KeepsValues bad L (fun j => j.emplace k w) := by
  intro q v j j1 hq hv h hget
  have h : j.emplace k w = .ok j1 := h
  cases q with
  | nil =>
    simp only [Json.getAt, Option.some.injEq] at hget
    subst hget
    rw [Json.emplace_of_isScalar (hL _ hv)] at h
    cases h
  | cons k0 q1 =>
    rw [Json.getAt_cons] at hget ⊢
    by_cases e : k0 = k
    · subst e
      by_cases hh : j.hasKey k0 = true
      · have : j1 = j := by
          cases j with
          | obj kvs =>
            simp only [Json.hasKey] at hh
            simp only [Json.emplace, hh, if_true, Res.ok.injEq] at h
            exact h.symm
          | null => cases hh
          | uint _ => cases hh
          | int _ => cases hh
          | str _ => cases hh
          | arr _ => cases hh
        rw [this]; exact hget
      · rw [Json.hasKey_eq] at hh
        cases hold : j.getKey k0 with
        | none => rw [hold] at hget; cases hget
        | some old => rw [hold] at hh; exact absurd rfl hh
    · rw [Json.emplace_getKey_other h e]; exact hget

theorem keepsValues_modifyAt {bad : List Str} {L : Json → Prop}
    (hL : ∀ v, L v → v.isScalar = true) {f : Json → Res Json}
    (hf : KeepsValues bad L f) : ∀ (path : List Str), KeepsValues bad L (Json.modifyAt path f) := by
  intro path
  induction path with
  | nil => exact hf
  | cons k rest ih => exact keepsValues_modifyKey hL ih k

theorem keepsValues_foldl {bad : List Str} {L : Json → Prop} {α : Type}
    {step : Json → α → Res Json}
    (hstep : ∀ a, KeepsValues bad L (fun j => step j a)) :
    ∀ (l : List α), KeepsValues bad L (fun j => Res.foldl step j l) := by
  intro l
  induction l with
  | nil => intro q v j j1 _ _ h hget; cases h; exact hget
  | cons a rest ih =>
    intro q v j j1 hq hv h hget
    simp only [Res.foldl] at h
    obtain ⟨j0, h0, h1⟩ := Res.bind_eq_ok.1 h
    exact ih q v j0 j1 hq hv h1 (hstep a q v j j0 hq hv h0 hget)

/-- A value for which `empty()` holds has nothing below it. -/
theorem Json.getAt_of_empty {j : Json} (h : j.empty = true) (k : Str) (q : List Str) :
    Json.getAt (k :: q) j = none := by
  cases j with
  | obj kvs =>
    cases kvs with
    | nil => rfl
    | cons _ _ => cases h
  | null => rfl
  | arr _ => rfl
  | uint _ => cases h
  | int _ => cases h
  | str _ => cases h

/-- The update of the slot `0-template_param`, reached through that key. -/
theorem KeepsValues.templateSlot {bad : List Str} {L : Json → Prop}
    (hF : FrameOk bad L) (g : Json → Res Json) :
    KeepsValues bad L
      (fun j => j.modifyKey "0-template_param".toList
        (fun o => if o.empty then g o else .ok o)) := by
  obtain ⟨hL, _, hT⟩ := hF
  rcases hT with hT | hT
  · exact KeepsValues.modifyKey_bad hL _ hT
  · refine keepsValues_modifyKey hL ?_ _
    intro q v j j1 hq hv h hget
    by_cases he : j.empty = true
    · cases q with
      | nil =>
        simp only [Json.getAt, Option.some.injEq] at hget
        subst hget
        rw [hT _ hv] at he
        cases he
      | cons k q1 => rw [Json.getAt_of_empty he] at hget; cases hget
    · simp only [he] at h
      cases h; exact hget

theorem parseEnum_keepsValues {bad : List Str} {L : Json → Prop}
    (hL : ∀ v, L v → v.isScalar = true) (fuel : Nat) (env : Env) (compileUnit : CU)
    (enumDIE : DieRef) : KeepsValues bad L (parseEnum fuel env compileUnit enumDIE) := by
  intro q v j j1 hq hv h hget
  unfold parseEnum at h
  obtain ⟨path, _, h⟩ := Res.bind_eq_ok.1 h
  split_ifs at h
  · cases h; exact hget
  obtain ⟨_, _, h⟩ := Res.bind_eq_ok.1 h
  obtain ⟨_, _, h⟩ := Res.bind_eq_ok.1 h
  obtain ⟨_, _, h⟩ := Res.bind_eq_ok.1 h
  obtain ⟨_, _, h⟩ := Res.bind_eq_ok.1 h
  obtain ⟨_, _, h⟩ := Res.bind_eq_ok.1 h
  obtain ⟨_, _, h⟩ := Res.bind_eq_ok.1 h
  obtain ⟨_, _, h⟩ := Res.bind_eq_ok.1 h
  exact keepsValues_modifyAt hL (keepsValues_emplace hL _ _) path q v j j1 hq hv h hget

theorem parseTypedef_keepsValues {bad : List Str} {L : Json → Prop}
    (hL : ∀ v, L v → v.isScalar = true) (fuel : Nat) (env : Env) (compileUnit : CU)
    (typedefDIE : DieRef) : KeepsValues bad L (parseTypedef fuel env compileUnit typedefDIE) := by
  intro q v j j1 hq hv h hget
  unfold parseTypedef at h
  obtain ⟨path, _, h⟩ := Res.bind_eq_ok.1 h
  split_ifs at h
  · cases h; exact hget
  obtain ⟨_, _, h⟩ := Res.bind_eq_ok.1 h
  obtain ⟨_, _, h⟩ := Res.bind_eq_ok.1 h
  obtain ⟨_, _, h⟩ := Res.bind_eq_ok.1 h
  obtain ⟨_, _, h⟩ := Res.bind_eq_ok.1 h
  obtain ⟨_, _, h⟩ := Res.bind_eq_ok.1 h
  obtain ⟨_, _, h⟩ := Res.bind_eq_ok.1 h
  exact keepsValues_modifyAt hL (keepsValues_emplace hL _ _) path q v j j1 hq hv h hget

theorem parseInheritance_keepsValues {bad : List Str} {L : Json → Prop}
    (hL : ∀ v, L v → v.isScalar = true) (fuel : Nat) (env : Env) (compileUnit : CU)
    (inheriDIE : DieRef) :
    KeepsValues bad L (parseInheritance fuel env compileUnit inheriDIE) := by
  intro q v j j1 hq hv h hget
  unfold parseInheritance at h
  split at h
  · cases h
  obtain ⟨path, _, h⟩ := Res.bind_eq_ok.1 h
  split_ifs at h
  · cases h; exact hget
  obtain ⟨_, _, h⟩ := Res.bind_eq_ok.1 h
  obtain ⟨_, _, h⟩ := Res.bind_eq_ok.1 h
  obtain ⟨_, _, h⟩ := Res.bind_eq_ok.1 h
  obtain ⟨_, _, h⟩ := Res.bind_eq_ok.1 h
  exact keepsValues_modifyAt hL (keepsValues_emplace hL _ _) _ q v j j1 hq hv h hget

theorem parseClassTemplateParams_keepsValues {bad : List Str} {L : Json → Prop}
    (hF : FrameOk bad L) (fuel : Nat) (env : Env) (compileUnit : CU) (templateDIE : DieRef) :
    KeepsValues bad L (parseClassTemplateParams fuel env compileUnit templateDIE) := by
  intro q v j j1 hq hv h hget
  unfold parseClassTemplateParams at h
  split at h
  · cases h
  obtain ⟨path, _, h⟩ := Res.bind_eq_ok.1 h
  split_ifs at h
  · cases h; exact hget
  obtain ⟨_, _, h⟩ := Res.bind_eq_ok.1 h
  rw [Json.modifyAt_append] at h
  exact keepsValues_modifyAt hF.1 (KeepsValues.templateSlot hF _) _ q v j j1 hq hv h hget

theorem varOverlayAttr_keepsValues {bad : List Str} {L : Json → Prop} (hF : FrameOk bad L)
    (env : Env) (attr : Attr) : KeepsValues bad L (fun j => varOverlayAttr env j attr) := by
  intro q v j j1 hq hv h hget
  have h : varOverlayAttr env j attr = .ok j1 := h
  unfold varOverlayAttr at h
  dsimp only at h
  split_ifs at h
  · obtain ⟨_, _, h⟩ := Res.bind_eq_ok.1 h
    exact keepsValues_emplace hF.1 _ _ q v j j1 hq hv h hget
  · obtain ⟨_, _, h⟩ := Res.bind_eq_ok.1 h
    exact KeepsValues.setKey_bad hF.1 _ hF.2.1 q v j j1 hq hv h hget
  · cases h; exact hget

theorem funcOverlay_keepsValues {bad : List Str} {L : Json → Prop}
    (hL : ∀ v, L v → v.isScalar = true) (hov : ∀ k ∈ funcOverlayKeys, k ∈ bad) (funcDIE : Die)
    (paramNames : List Str) : KeepsValues bad L (funcOverlay funcDIE paramNames) := by
  intro q v j j1 hq hv h hget
  unfold funcOverlay at h
  obtain ⟨fi1, h1, h⟩ := Res.bind_eq_ok.1 h
  obtain ⟨fi2, h2, h⟩ := Res.bind_eq_ok.1 h
  have r1 : Json.getAt q fi1 = some v := by
    split_ifs at h1
    · exact KeepsValues.setKey_bad hL _ (hov _ (by decide)) q v j fi1 hq hv h1 hget
    · cases h1; exact hget
  have r2 : Json.getAt q fi2 = some v := by
    split at h2
    · obtain ⟨_, _, h2⟩ := Res.bind_eq_ok.1 h2
      exact KeepsValues.setKey_bad hL _ (hov _ (by decide)) q v fi1 fi2 hq hv h2 r1
    · cases h2; exact r1
  exact KeepsValues.setKey_bad hL _ (hov _ (by decide)) q v fi2 j1 hq hv h r2

theorem parseVariable_keepsValues {bad : List Str} {L : Json → Prop} (hF : FrameOk bad L) :
    ∀ (fuel : Nat) (env : Env) (compileUnit : CU) (varDIE : DieRef) (memberVariable : Bool),
      KeepsValues bad L (parseVariable fuel env compileUnit varDIE memberVariable) := by
  intro fuel
  induction fuel with
  | zero =>
    intro env compileUnit varDIE memberVariable q v j j1 _ _ h _
    simp [parseVariable] at h
  | succ n ih =>
    intro env compileUnit varDIE memberVariable q v j j1 hq hv h hget
    rw [parseVariable] at h
    split at h
    · obtain ⟨off, _, h⟩ := Res.bind_eq_ok.1 h
      obtain ⟨found, _, h⟩ := Res.bind_eq_ok.1 h
      cases found with
      | none => cases h; exact hget
      | some specificVar =>
        simp only at h
        obtain ⟨path, _, h⟩ := Res.bind_eq_ok.1 h
        split_ifs at h
        · cases h; exact hget
        obtain ⟨line, _, h⟩ := Res.bind_eq_ok.1 h
        obtain ⟨nm, _, h⟩ := Res.bind_eq_ok.1 h
        obtain ⟨out1, h1, h⟩ := Res.bind_eq_ok.1 h
        obtain ⟨out2, h2, h⟩ := Res.bind_eq_ok.1 h
        have r1 : Json.getAt q out1 = some v :=
          keepsValues_modifyAt hF.1 keepsValues_ok path q v j out1 hq hv h1 hget
        have r2 : Json.getAt q out2 = some v := by
          split_ifs at h2
          · cases h2; exact r1
          · exact ih _ _ _ _ q v out1 out2 hq hv h2 r1
        exact keepsValues_modifyAt hF.1
          (keepsValues_foldl (varOverlayAttr_keepsValues hF env) _) _ q v out2 j1 hq hv h r2
    · obtain ⟨path, _, h⟩ := Res.bind_eq_ok.1 h
      split_ifs at h
      · cases h; exact hget
      obtain ⟨_, _, h⟩ := Res.bind_eq_ok.1 h
      obtain ⟨_, _, h⟩ := Res.bind_eq_ok.1 h
      obtain ⟨_, _, h⟩ := Res.bind_eq_ok.1 h
      exact keepsValues_modifyAt hF.1 (keepsValues_emplace hF.1 _ _) path q v j j1 hq hv h hget

/-- The children left for later dispatch are children of the function. -/
theorem funcChild_later_mem {fuel : Nat} {env : Env} {funcDIE : DieRef} {sc sc1 : FuncScan}
    {c : Die} (h : funcChild fuel env funcDIE sc c = .ok sc1) :
    ∀ d ∈ sc1.laterToParse, d ∈ sc.laterToParse ∨ d = c := by
  unfold funcChild at h
  simp only at h
  split_ifs at h
  · obtain ⟨r, _, h⟩ := Res.bind_eq_ok.1 h
    obtain ⟨fi, _, h⟩ := Res.bind_eq_ok.1 h
    obtain ⟨nm, _, h⟩ := Res.bind_eq_ok.1 h
    simp only [Res.ok.injEq] at h
    rw [← h]; exact fun d hd => Or.inl hd
  · obtain ⟨r, _, h⟩ := Res.bind_eq_ok.1 h
    obtain ⟨nm, _, h⟩ := Res.bind_eq_ok.1 h
    simp only [Res.ok.injEq] at h
    rw [← h]; exact fun d hd => Or.inl hd
  · obtain ⟨nm, _, h⟩ := Res.bind_eq_ok.1 h
    simp only [Res.ok.injEq] at h
    rw [← h]; exact fun d hd => Or.inl hd
  · simp only [Res.ok.injEq] at h
    rw [← h]; exact fun d hd => Or.inl hd
  · obtain ⟨nm, _, h⟩ := Res.bind_eq_ok.1 h
    simp only [Res.ok.injEq] at h
    rw [← h]; exact fun d hd => Or.inl hd
  · obtain ⟨nm, _, h⟩ := Res.bind_eq_ok.1 h
    obtain ⟨r, _, h⟩ := Res.bind_eq_ok.1 h
    simp only [Res.ok.injEq] at h
    rw [← h]; exact fun d hd => Or.inl hd
  · obtain ⟨nm, _, h⟩ := Res.bind_eq_ok.1 h
    simp only [Res.ok.injEq] at h
    rw [← h]; exact fun d hd => Or.inl hd
  · simp only [Res.ok.injEq] at h
    rw [← h]
    intro d hd
    rcases List.mem_append.1 hd with e | e
    · exact Or.inl e
    · exact Or.inr (List.mem_singleton.1 e)

theorem funcChild_foldl_later_mem {fuel : Nat} {env : Env} {funcDIE : DieRef} :
    ∀ (children : List Die) (sc sc1 : FuncScan),
      Res.foldl (funcChild fuel env funcDIE) sc children = .ok sc1 →
      ∀ d ∈ sc1.laterToParse, d ∈ sc.laterToParse ∨ d ∈ children := by
  intro children
  induction children with
  | nil =>
    intro sc sc1 h d hd
    simp only [Res.foldl, Res.ok.injEq] at h
    rw [← h] at hd
    exact Or.inl hd
  | cons c cs ih =>
    intro sc sc1 h d hd
    simp only [Res.foldl] at h
    obtain ⟨sc2, h2, h⟩ := Res.bind_eq_ok.1 h
    rcases ih sc2 sc1 h d hd with e | e
    · rcases funcChild_later_mem h2 d e with e1 | e1
      · exact Or.inl e1
      · exact Or.inr (e1 ▸ List.mem_cons_self _ _)
    · exact Or.inr (List.mem_cons_of_mem _ e)

theorem funcRecord_later_mem {fuel : Nat} {env : Env} {funcDIE : DieRef}
    {built : Json × List Die} (h : funcRecord fuel env funcDIE = .ok built) :
    ∀ d ∈ built.2, d ∈ funcDIE.die.getChildren := by
  unfold funcRecord at h
  obtain ⟨fi0, _, h⟩ := Res.bind_eq_ok.1 h
  obtain ⟨fi1, _, h⟩ := Res.bind_eq_ok.1 h
  obtain ⟨rt, _, h⟩ := Res.bind_eq_ok.1 h
  obtain ⟨fi2, _, h⟩ := Res.bind_eq_ok.1 h
  obtain ⟨sc, hsc, h⟩ := Res.bind_eq_ok.1 h
  obtain ⟨fi3, _, h⟩ := Res.bind_eq_ok.1 h
  obtain ⟨fi4, _, h⟩ := Res.bind_eq_ok.1 h
  obtain ⟨fi5, _, h⟩ := Res.bind_eq_ok.1 h
  simp only [Res.ok.injEq] at h
  rw [← h]
  intro d hd
  rcases funcChild_foldl_later_mem _ _ _ hsc d hd with e | e
  · cases e
  · exact e

/-- The dispatcher, `parseFunction` and `parseUnion` keep the values of the kind `L` that are
reached through no key of `bad`, provided `bad` holds the keys of the function overlay or the
subtree dispatched has no subprogram with a specification. -/
theorem parse_keepsValues {bad : List Str} {L : Json → Prop} (hF : FrameOk bad L) :
    ∀ (fuel : Nat),
      (∀ (env : Env) (compileUnit : CU) (DIE : DieRef),
        ((∀ k ∈ funcOverlayKeys, k ∈ bad) ∨ DIE.die.quiet = true) →
        KeepsValues bad L (parseDIE fuel env compileUnit DIE)) ∧
      (∀ (env : Env) (compileUnit : CU) (DIE : DieRef),
        ((∀ k ∈ funcOverlayKeys, k ∈ bad) ∨
          (DIE.die.findAttrByType DW_AT_specification = none ∧
            Die.quietAll DIE.die.getChildren = true)) →
        KeepsValues bad L (parseFunction fuel env compileUnit DIE)) ∧
      (∀ (env : Env) (compileUnit : CU) (DIE : DieRef),
        ((∀ k ∈ funcOverlayKeys, k ∈ bad) ∨ Die.quietAll DIE.die.getChildren = true) →
        KeepsValues bad L (parseUnion fuel env compileUnit DIE)) := by
  have hL := hF.1
  intro fuel
  induction fuel with
  | zero =>
    refine ⟨?_, ?_, ?_⟩ <;> intro env compileUnit DIE _ q v j j1 _ _ h _
    · simp [parseDIE] at h
    · simp [parseFunction] at h
    · simp [parseUnion] at h
  | succ n ih =>
    obtain ⟨ihD, ihF, ihU⟩ := ih
    have hdesc : ∀ (env : Env) (compileUnit : CU) (DIE : DieRef) (l : List Die),
        ((∀ k ∈ funcOverlayKeys, k ∈ bad) ∨ ∀ c ∈ l, c.quiet = true) →
        KeepsValues bad L (fun j =>
          Res.foldl (fun o childDIE => parseDIE n env compileUnit (DIE.child childDIE) o) j l) := by
      intro env compileUnit DIE l
      induction l with
      | nil => intro _ q v j j1 _ _ h hget; cases h; exact hget
      | cons a rest ihl =>
        intro hc q v j j1 hq hv h hget
        simp only [Res.foldl] at h
        obtain ⟨j0, h0, h1⟩ := Res.bind_eq_ok.1 h
        have ha : (∀ k ∈ funcOverlayKeys, k ∈ bad) ∨ (DIE.child a).die.quiet = true :=
          hc.imp id (fun hall => hall a (List.mem_cons_self _ _))
        have hr : (∀ k ∈ funcOverlayKeys, k ∈ bad) ∨ ∀ c ∈ rest, c.quiet = true :=
          hc.imp id (fun hall c hmem => hall c (List.mem_cons_of_mem _ hmem))
        exact ihl hr q v j0 j1 hq hv h1 (ihD env compileUnit (DIE.child a) ha q v j j0 hq hv h0 hget)
    refine ⟨?_, ?_, ?_⟩ <;> intro env compileUnit DIE hc q v j j1 hq hv h hget
    · have hkids : (∀ k ∈ funcOverlayKeys, k ∈ bad) ∨ ∀ c ∈ DIE.die.getChildren, c.quiet = true :=
        hc.imp id (fun hqt => Die.quietAll_mem _ ((Die.quiet_iff _).1 hqt).2)
      rw [parseDIE] at h
      by_cases c1 : DIE.die.getTAG = DW_TAG_namespace
      · rw [if_pos c1] at h
        obtain ⟨dieName, _, h⟩ := Res.bind_eq_ok.1 h
        split_ifs at h
        · cases h; exact hget
        · exact hdesc env compileUnit DIE _ hkids q v j j1 hq hv h hget
      rw [if_neg c1] at h
      by_cases c2 : DIE.die.getTAG = DW_TAG_class_type ∨ DIE.die.getTAG = DW_TAG_structure_type ∨
          DIE.die.getTAG = DW_TAG_lexical_block
      · rw [if_pos c2] at h
        exact hdesc env compileUnit DIE _ hkids q v j j1 hq hv h hget
      rw [if_neg c2] at h
      by_cases c3 : DIE.die.getTAG = DW_TAG_subprogram
      · rw [if_pos c3] at h
        refine ihF env compileUnit DIE (hc.imp id (fun hqt => ?_)) q v j j1 hq hv h hget
        obtain ⟨hns, hall⟩ := (Die.quiet_iff _).1 hqt
        refine ⟨?_, hall⟩
        cases hs : DIE.die.findAttrByType DW_AT_specification with
        | none => rfl
        | some a => exact absurd ⟨c3, by rw [hs]; rfl⟩ hns
      rw [if_neg c3] at h
      by_cases c4 : DIE.die.getTAG = DW_TAG_enumeration_type
      · rw [if_pos c4] at h
        exact parseEnum_keepsValues hL n env compileUnit DIE q v j j1 hq hv h hget
      rw [if_neg c4] at h
      by_cases c5 : DIE.die.getTAG = DW_TAG_union_type
      · rw [if_pos c5] at h
        exact ihU env compileUnit DIE (hc.imp id (fun hqt => ((Die.quiet_iff _).1 hqt).2))
          q v j j1 hq hv h hget
      rw [if_neg c5] at h
      by_cases c6 : DIE.die.getTAG = DW_TAG_variable
      · rw [if_pos c6] at h
        exact parseVariable_keepsValues hF n env compileUnit DIE false q v j j1 hq hv h hget
      rw [if_neg c6] at h
      by_cases c7 : DIE.die.getTAG = DW_TAG_member
      · rw [if_pos c7] at h
        exact parseVariable_keepsValues hF n env compileUnit DIE true q v j j1 hq hv h hget
      rw [if_neg c7] at h
      by_cases c8 : DIE.die.getTAG = DW_TAG_typedef
      · rw [if_pos c8] at h
        exact parseTypedef_keepsValues hL n env compileUnit DIE q v j j1 hq hv h hget
      rw [if_neg c8] at h
      by_cases c9 : DIE.die.getTAG = DW_TAG_inheritance
      · rw [if_pos c9] at h
        exact parseInheritance_keepsValues hL n env compileUnit DIE q v j j1 hq hv h hget
      rw [if_neg c9] at h
      by_cases c10 : DIE.die.getTAG = DW_TAG_GNU_template_parameter_pack ∨
          DIE.die.getTAG = DW_TAG_template_type_param ∨
          DIE.die.getTAG = DW_TAG_template_value_param
      · rw [if_pos c10] at h
        exact parseClassTemplateParams_keepsValues hF n env compileUnit DIE q v j j1 hq hv h hget
      rw [if_neg c10] at h
      cases h; exact hget
    · rw [parseFunction] at h
      obtain ⟨ownName, _, h⟩ := Res.bind_eq_ok.1 h
      split_ifs at h
      · cases h; exact hget
      split at h
      · rename_i hasSpec hsome
        have hov : ∀ k ∈ funcOverlayKeys, k ∈ bad := by
          rcases hc with hov | ⟨hnone, _⟩
          · exact hov
          · rw [hnone] at hsome; cases hsome
        obtain ⟨off, _, h⟩ := Res.bind_eq_ok.1 h
        obtain ⟨found, _, h⟩ := Res.bind_eq_ok.1 h
        cases found with
        | none => cases h; exact hget
        | some specificFunc =>
          simp only at h
          obtain ⟨path, _, h⟩ := Res.bind_eq_ok.1 h
          split_ifs at h
          · cases h; exact hget
          obtain ⟨line, _, h⟩ := Res.bind_eq_ok.1 h
          obtain ⟨nm, _, h⟩ := Res.bind_eq_ok.1 h
          obtain ⟨scan, _, h⟩ := Res.bind_eq_ok.1 h
          obtain ⟨out1, h1, h⟩ := Res.bind_eq_ok.1 h
          obtain ⟨out2, h2, h⟩ := Res.bind_eq_ok.1 h
          obtain ⟨out3, h3, h⟩ := Res.bind_eq_ok.1 h
          have r1 : Json.getAt q out1 = some v :=
            keepsValues_modifyAt hL keepsValues_ok path q v j out1 hq hv h1 hget
          have r2 : Json.getAt q out2 = some v := by
            split_ifs at h2
            · cases h2; exact r1
            · exact ihF _ _ _ (Or.inl hov) q v out1 out2 hq hv h2 r1
          have r3 : Json.getAt q out3 = some v :=
            keepsValues_modifyAt hL (funcOverlay_keepsValues hL hov _ _) _ q v out2 out3 hq hv
              h3 r2
          exact hdesc env compileUnit DIE _ (Or.inl hov) q v out3 j1 hq hv h r3
      · obtain ⟨path, _, h⟩ := Res.bind_eq_ok.1 h
        split_ifs at h
        · cases h; exact hget
        obtain ⟨line, _, h⟩ := Res.bind_eq_ok.1 h
        obtain ⟨nm, _, h⟩ := Res.bind_eq_ok.1 h
        obtain ⟨built, hbuilt, h⟩ := Res.bind_eq_ok.1 h
        obtain ⟨out1, h1, h⟩ := Res.bind_eq_ok.1 h
        have r1 : Json.getAt q out1 = some v :=
          keepsValues_modifyAt hL (keepsValues_emplace hL _ _) path q v j out1 hq hv h1 hget
        have hlater : (∀ k ∈ funcOverlayKeys, k ∈ bad) ∨ ∀ c ∈ built.2, c.quiet = true :=
          hc.imp id (fun hqt c hmem =>
            Die.quietAll_mem _ hqt.2 c (funcRecord_later_mem hbuilt c hmem))
        exact hdesc env compileUnit DIE _ hlater q v out1 j1 hq hv h r1
    · rw [parseUnion] at h
      obtain ⟨path, _, h⟩ := Res.bind_eq_ok.1 h
      split_ifs at h
      · cases h; exact hget
      obtain ⟨u0, _, h⟩ := Res.bind_eq_ok.1 h
      obtain ⟨unionInfo, _, h⟩ := Res.bind_eq_ok.1 h
      obtain ⟨nm, _, h⟩ := Res.bind_eq_ok.1 h
      obtain ⟨out1, h1, h⟩ := Res.bind_eq_ok.1 h
      have r1 : Json.getAt q out1 = some v :=
        keepsValues_modifyAt hL (keepsValues_emplace hL _ _) path q v j out1 hq hv h1 hget
      exact hdesc env compileUnit DIE _ (hc.imp id (fun hqt => Die.quietAll_mem _ hqt))
        q v out1 j1 hq hv h r1

/-! ## Lemmas: template parameters -/

theorem frameOk_nonEmptyList : FrameOk overlayKeys IsNonEmptyList := by
  refine ⟨?_, by decide, Or.inr ?_⟩
  · rintro v ⟨l, _, rfl⟩; rfl
  · rintro v ⟨l, hl, rfl⟩
    cases l with
    | nil => exact absurd rfl hl
    | cons _ _ => rfl

theorem overlayKeys_holds_funcOverlayKeys : ∀ k ∈ funcOverlayKeys, k ∈ overlayKeys := by
  decide

theorem aggregateKey_not_overlay (d : Die) (name : Str) : aggregateKey d name ∉ overlayKeys := by
  unfold aggregateKey overlayKeys
  split_ifs <;> simp

/-- What the update of the slot `0-template_param` returns: a list of one string for an
empty slot, the old value otherwise. -/
theorem templateSlot_value {fuel : Nat} {env : Env} {templateDIE : DieRef} {old v : Json}
    (htag : IsTemplateParamTag templateDIE.die.getTAG)
    (h : (if old.empty then
            if templateDIE.die.getTAG = DW_TAG_template_type_param then
              Res.bind (templateDIE.die.getName unnamedParam) fun nm => .ok (Json.ofStrs [nm])
            else if templateDIE.die.getTAG = DW_TAG_template_value_param then
              Res.bind (templateDIE.die.getName unnamedParam) fun nm =>
              Res.bind (getTypeInfo fuel env templateDIE nm) fun ty => .ok (Json.ofStrs [ty.1])
            else if templateDIE.die.getTAG = DW_TAG_GNU_template_parameter_pack then
              Res.bind (templateDIE.die.getName unnamedParam) fun _ =>
              .ok (Json.ofStrs ["...".toList])
            else .ok (Json.ofStrs [])
          else .ok old) = .ok v) :
    v.empty = false ∧ (old.empty = true → ∃ s, v = Json.ofStrs [s]) ∧
      (old.empty = false → v = old) := by
  by_cases he : old.empty = true
  · rw [if_pos he] at h
    have hv : ∃ s, v = Json.ofStrs [s] := by
      split_ifs at h with t1 t2 t3
      · obtain ⟨nm, _, h⟩ := Res.bind_eq_ok.1 h
        exact ⟨nm, (Res.ok.inj h).symm⟩
      · obtain ⟨nm, _, h⟩ := Res.bind_eq_ok.1 h
        obtain ⟨ty, _, h⟩ := Res.bind_eq_ok.1 h
        exact ⟨ty.1, (Res.ok.inj h).symm⟩
      · obtain ⟨nm, _, h⟩ := Res.bind_eq_ok.1 h
        exact ⟨"...".toList, (Res.ok.inj h).symm⟩
      · rcases htag with e | e | e
        · exact absurd e t3
        · exact absurd e t1
        · exact absurd e t2
    obtain ⟨s, rfl⟩ := hv
    exact ⟨rfl, ⟨fun _ => ⟨s, rfl⟩, fun hf => by rw [he] at hf; cases hf⟩⟩
  · rw [if_neg he] at h
    cases h
    have he0 : old.empty = false := by simpa using he
    exact ⟨he0, ⟨fun ht => absurd ht he, fun _ => rfl⟩⟩

/-! ## Lemmas: the overlay of an out-of-line definition -/

theorem Json.getAt_append : ∀ (p q : List Str) (j : Json),
    Json.getAt (p ++ q) j = (Json.getAt p j).bind (Json.getAt q) := by
  intro p
  induction p with
  | nil => intro q j; rfl
  | cons k rest ih =>
    intro q j
    rw [List.cons_append, Json.getAt_cons, Json.getAt_cons]
    cases j.getKey k with
    | none => rfl
    | some w => exact ih q w

theorem Json.getAt_singleton (k : Str) (j : Json) : Json.getAt [k] j = j.getKey k := by
  rw [Json.getAt_cons]
  cases j.getKey k <;> rfl

/-- The overlay assigns the parameter names when there are any and leaves `2-param_name`
alone otherwise. -/
theorem funcOverlay_param_name {funcDIE : Die} {paramNames : List Str} {r0 r : Json}
    (h : funcOverlay funcDIE paramNames r0 = .ok r) :
    (paramNames ≠ [] → r.getKey "2-param_name".toList = some (Json.ofStrs paramNames)) ∧
    (paramNames = [] → r.getKey "2-param_name".toList = r0.getKey "2-param_name".toList) := by
  unfold funcOverlay at h
  obtain ⟨fi1, h1, h⟩ := Res.bind_eq_ok.1 h
  obtain ⟨fi2, h2, h3⟩ := Res.bind_eq_ok.1 h
  have e3 : r.getKey "2-param_name".toList = fi2.getKey "2-param_name".toList :=
    Json.setKey_getKey_other h3 (by decide)
  have e2 : fi2.getKey "2-param_name".toList = fi1.getKey "2-param_name".toList := by
    split at h2
    · obtain ⟨v, _, h2⟩ := Res.bind_eq_ok.1 h2
      exact Json.setKey_getKey_other h2 (by decide)
    · simp only [Res.ok.injEq] at h2
      rw [h2]
  rw [e3, e2]
  constructor
  · intro hne
    rw [if_pos hne] at h1
    exact Json.setKey_getKey h1
  · intro he
    rw [if_neg (not_not.2 he)] at h1
    simp only [Res.ok.injEq] at h1
    rw [h1]

/-- The child loop of an out-of-line definition: the names are those of the name children in
child order, the children left for later dispatch are the other children in child order. -/
theorem specChild_foldl_spec : ∀ (children : List Die) (acc scan : List Str × List Die),
    Res.foldl specChild acc children = .ok scan →
    (children.filter IsNameChild).map paramNameOf =
        (scan.1.drop acc.1.length).map Res.ok ∧
      scan.1.take acc.1.length = acc.1 ∧
      scan.2 = acc.2 ++ children.filter (fun c => !IsNameChild c) := by
  intro children
  induction children with
  | nil =>
    intro acc scan h
    simp only [Res.foldl, Res.ok.injEq] at h
    subst h
    simp
  | cons c cs ih =>
    intro acc scan h
    simp only [Res.foldl] at h
    obtain ⟨acc1, hc, h⟩ := Res.bind_eq_ok.1 h
    obtain ⟨i1, i2, i3⟩ := ih acc1 scan h
    unfold specChild at hc
    dsimp only at hc
    by_cases t1 : c.getTAG = DW_TAG_formal_parameter ∨ c.getTAG = DW_TAG_unspecified_parameters
    · rw [if_pos t1] at hc
      obtain ⟨nm, hnm, hc⟩ := Res.bind_eq_ok.1 hc
      simp only [Res.ok.injEq] at hc
      subst hc
      have hn : IsNameChild c = true := by
        unfold IsNameChild
        rcases t1 with e | e <;> simp [e]
      have hpk : c.getTAG ≠ DW_TAG_GNU_formal_parameter_pack := by
        rcases t1 with e | e <;> rw [e] <;> decide
      have hpn : paramNameOf c = .ok nm := by
        unfold paramNameOf
        rw [if_neg hpk]
        exact hnm
      simp only [List.length_append, List.length_singleton] at i1 i2
      have htake : scan.1.take acc.1.length = acc.1 := by
        have := congrArg (List.take acc.1.length) i2
        simpa [List.take_take] using this
      have hnth : scan.1.drop acc.1.length = nm :: scan.1.drop (acc.1.length + 1) := by
        have h5 : scan.1 = scan.1.take (acc.1.length + 1) ++ scan.1.drop (acc.1.length + 1) :=
          (List.take_append_drop _ _).symm
        rw [i2] at h5
        conv_lhs => rw [h5]
        simp [List.drop_append_eq_append_drop]
      refine ⟨?_, htake, ?_⟩
      · rw [List.filter_cons_of_pos hn, List.map_cons, hpn, i1, hnth]
        rfl
      · rw [i3]
        simp [hn]
    · rw [if_neg t1] at hc
      by_cases t2 : c.getTAG = DW_TAG_GNU_formal_parameter_pack
      · rw [if_pos t2] at hc
        simp only [Res.ok.injEq] at hc
        subst hc
        have hn : IsNameChild c = true := by
          unfold IsNameChild
          simp [t2]
        have hpn : paramNameOf c = .ok "...args".toList := by
          unfold paramNameOf
          rw [if_pos t2]
        simp only [List.length_append, List.length_singleton] at i1 i2
        have htake : scan.1.take acc.1.length = acc.1 := by
          have := congrArg (List.take acc.1.length) i2
          simpa [List.take_take] using this
        have hnth : scan.1.drop acc.1.length =
            "...args".toList :: scan.1.drop (acc.1.length + 1) := by
          have h5 : scan.1 = scan.1.take (acc.1.length + 1) ++ scan.1.drop (acc.1.length + 1) :=
            (List.take_append_drop _ _).symm
          rw [i2] at h5
          conv_lhs => rw [h5]
          simp [List.drop_append_eq_append_drop]
        refine ⟨?_, htake, ?_⟩
        · rw [List.filter_cons_of_pos hn, List.map_cons, hpn, i1, hnth]
          rfl
        · rw [i3]
          simp [hn]
      · rw [if_neg t2] at hc
        simp only [Res.ok.injEq] at hc
        subst hc
        have hn : IsNameChild c = false := by
          unfold IsNameChild
          simp only [decide_eq_false_iff_not]
          rintro (e | e | e)
          · exact t1 (Or.inl e)
          · exact t1 (Or.inr e)
          · exact t2 e
        refine ⟨?_, i2, ?_⟩
        · rw [List.filter_cons_of_neg (by simp [hn])]
          exact i1
        · rw [i3]
          simp [hn]

theorem frameOk_overwritten : FrameOk overwrittenKeys IsScalar :=
  ⟨fun _ h => h, by decide, Or.inl (by decide)⟩

theorem frameOk_variableOverlay : FrameOk variableOverlayKeys IsScalar :=
  ⟨fun _ h => h, by decide, Or.inl (by decide)⟩

theorem storeKeyOf_func_not_overwritten (line : Nat) (name : Str) :
    storeKeyOf line "func" name ∉ overwrittenKeys := by
  have hsp : ' ' ∈ storeKeyOf line "func" name := by
    unfold storeKeyOf
    simp
  have hno : ∀ k ∈ overwrittenKeys, ' ' ∉ k := by decide
  exact fun hmem => hno _ hmem hsp

theorem variableOverlayKeys_sub : ∀ k, k ∉ overwrittenKeys → k ∉ variableOverlayKeys := by
  intro k hk hmem
  apply hk
  have hsub : ∀ x ∈ variableOverlayKeys, x ∈ overwrittenKeys := by decide
  exact hsub k hmem

/-- The dispatch of a list of children keeps the values of the kind `L`, provided `bad` holds
the keys of the function overlay or no subprogram below the children has a specification. -/
theorem parseDIE_foldl_keepsValues {bad : List Str} {L : Json → Prop} (hF : FrameOk bad L)
    (n : Nat) (env : Env) (compileUnit : CU) (DIE : DieRef) :
    ∀ (l : List Die), ((∀ k ∈ funcOverlayKeys, k ∈ bad) ∨ Die.quietAll l = true) →
      KeepsValues bad L (fun j =>
        Res.foldl (fun o childDIE => parseDIE n env compileUnit (DIE.child childDIE) o) j l) := by
  intro l
  induction l with
  | nil => intro _ q v j j1 _ _ h hget; cases h; exact hget
  | cons a rest ihl =>
    intro hc q v j j1 hq hv h hget
    simp only [Res.foldl] at h
    obtain ⟨j0, h0, h1⟩ := Res.bind_eq_ok.1 h
    have ha : (∀ k ∈ funcOverlayKeys, k ∈ bad) ∨ (DIE.child a).die.quiet = true :=
      hc.imp id (fun hall => Die.quietAll_mem _ hall a (List.mem_cons_self _ _))
    have hr : (∀ k ∈ funcOverlayKeys, k ∈ bad) ∨ Die.quietAll rest = true :=
      hc.imp id (fun hall => by
        simp only [Die.quietAll, Bool.and_eq_true] at hall
        exact hall.2)
    exact ihl hr q v j0 j1 hq hv h1
      ((parse_keepsValues hF n).1 env compileUnit (DIE.child a) ha q v j j0 hq hv h0 hget)

/-! ## The offset lookup -/

mutual
/-- A search below a DIE that returns normally returns a DIE, and that DIE has the offset
asked for. -/
theorem findChildByOffset_found : ∀ (d : Die) (parents : List Die) (off : Nat)
    (r : Option DieRef), d.findChildByOffset parents off = .ok r →
    ∃ x, r = some x ∧ x.die.getOffset = off
  | .mk o t a children, parents, off, r, h => by
    rw [Die.findChildByOffset] at h
    exact findChildAt_found children _ _ off r h
/-- The same for the search at a position of a child list. -/
theorem findChildAt_found : ∀ (cs : List Die) (i : Nat) (parents : List Die) (off : Nat)
    (r : Option DieRef), Die.findChildAt cs i parents off = .ok r →
    ∃ x, r = some x ∧ x.die.getOffset = off
  | _, 0, _, _, _, h => by simp [Die.findChildAt] at h
  | [], _ + 1, _, _, _, h => by simp [Die.findChildAt] at h
  | c :: _, 1, parents, off, r, h => by
    rw [Die.findChildAt] at h
    by_cases hc : c.getOffset = off
    · rw [if_pos hc] at h
      cases h
      exact ⟨_, rfl, hc⟩
    · rw [if_neg hc] at h
      exact findChildByOffset_found c parents off r h
  | _ :: cs, i + 2, parents, off, r, h => by
    rw [Die.findChildAt] at h
    exact findChildAt_found cs (i + 1) parents off r h
end

/-- A lookup that returns normally returns a DIE, and that DIE has the offset asked for: the
null pointer is never returned. -/
theorem findDIEbyOffset_found (f : File) (off : Nat) (r : Option DieRef)
    (h : f.findDIEbyOffset off = .ok r) : ∃ x, r = some x ∧ x.die.getOffset = off := by
  unfold File.findDIEbyOffset at h
  simp only at h
  split at h
  · cases h
  · split at h
    · cases h
    · rename_i it _
      by_cases hc : it.getOffset = off
      · rw [if_pos hc] at h
        cases h
        exact ⟨_, rfl, hc⟩
      · rw [if_neg hc] at h
        exact findChildByOffset_found it [] off r h

mutual
/-- The DIEs that `Die.refsBelow` points to are the descendants. -/
theorem refsBelow_dies : ∀ (d : Die) (parents : List Die),
    (d.refsBelow parents).map DieRef.die = d.descendants
  | .mk o t a children, parents => by
    rw [Die.refsBelow, Die.descendants]
    exact refsOf_dies children _
/-- The DIEs that `refsOf` points to. -/
theorem refsOf_dies : ∀ (cs : List Die) (parents : List Die),
    (refsOf cs parents).map DieRef.die = descendantsOf cs
  | [], _ => by simp [refsOf, descendantsOf]
  | c :: cs, parents => by
    rw [refsOf, descendantsOf]
    simp only [List.map_cons, List.map_append]
    rw [refsBelow_dies c parents, refsOf_dies cs parents]
end

/-- The search position in a list whose first offset is greater than the offset sought. -/
theorem upperBound_of_lt (cs : List Die) (off : Nat)
    (h : ∀ c ∈ cs.head?, off < c.getOffset) : upperBound cs off = 0 := by
  cases cs with
  | nil => rfl
  | cons c rest =>
    have := h c (by simp)
    simp [upperBound, this]

/-- In an ordered list of siblings every DIE at or below them has an offset that is at least
the first offset of the list. -/
theorem head_le_of_ordered : ∀ (cs : List Die), siblingsOrdered cs = true →
    ∀ x ∈ descendantsOf cs, ∀ c ∈ cs.head?, c.getOffset ≤ x.getOffset
  | [], _, x, hx, _, _ => by simp [descendantsOf] at hx
  | [d], h, x, hx, c, hc => by
    simp only [List.head?_cons, Option.mem_def, Option.some.injEq] at hc
    subst hc
    simp only [siblingsOrdered, List.all_eq_true, decide_eq_true_eq] at h
    simp only [descendantsOf, List.append_nil, List.mem_cons] at hx
    rcases hx with hx | hx
    · rw [hx]
    · exact Nat.le_of_lt (h x hx)
  | d :: s :: rest, h, x, hx, c, hc => by
    simp only [List.head?_cons, Option.mem_def, Option.some.injEq] at hc
    subst hc
    simp only [siblingsOrdered, Bool.and_eq_true, decide_eq_true_eq, List.all_eq_true] at h
    obtain ⟨⟨h1, h2⟩, h3⟩ := h
    rw [descendantsOf] at hx
    simp only [List.mem_cons, List.mem_append] at hx
    rcases hx with hx | hx | hx
    · rw [hx]
    · exact Nat.le_of_lt (h2 x hx).1
    · have := head_le_of_ordered (s :: rest) h3 x hx s (by simp)
      omega

mutual
/-- In a DIE whose child lists are ordered, the search below it finds every DIE below it. -/
theorem findChildByOffset_of_ordered : ∀ (d : Die) (parents : List Die) (r : DieRef),
    d.orderedBelow = true → r ∈ d.refsBelow parents →
    d.findChildByOffset parents r.die.getOffset = .ok (some r)
  | .mk o t a children, parents, r, hord, hr => by
    rw [Die.orderedBelow, Bool.and_eq_true] at hord
    rw [Die.refsBelow] at hr
    rw [Die.findChildByOffset]
    exact findChildAt_of_ordered children _ r hord.1 hord.2 hr
/-- In an ordered list of siblings whose child lists are ordered, the search from the
position given by the upper bound finds every DIE at or below the siblings. -/
theorem findChildAt_of_ordered : ∀ (cs : List Die) (parents : List Die) (r : DieRef),
    siblingsOrdered cs = true → allOrderedBelow cs = true → r ∈ refsOf cs parents →
    Die.findChildAt cs (upperBound cs r.die.getOffset) parents r.die.getOffset = .ok (some r)
  | [], _, r, _, _, hr => by simp [refsOf] at hr
  | c :: rest, parents, r, hs, ha, hr => by
    rw [allOrderedBelow, Bool.and_eq_true] at ha
    rw [refsOf] at hr
    simp only [List.mem_cons, List.mem_append] at hr
    have hrest : siblingsOrdered rest = true := by
      cases rest with
      | nil => rfl
      | cons s rest2 =>
        simp only [siblingsOrdered, Bool.and_eq_true] at hs
        exact hs.2
    have hbelow : ∀ x ∈ c.descendants, c.getOffset < x.getOffset ∧
        ∀ s ∈ rest.head?, x.getOffset < s.getOffset := by
      intro x hx
      cases rest with
      | nil =>
        simp only [siblingsOrdered, List.all_eq_true, decide_eq_true_eq] at hs
        exact ⟨hs x hx, by simp⟩
      | cons s rest2 =>
        simp only [siblingsOrdered, Bool.and_eq_true, decide_eq_true_eq, List.all_eq_true] at hs
        refine ⟨(hs.1.2 x hx).1, ?_⟩
        intro s2 hs2
        simp only [List.head?_cons, Option.mem_def, Option.some.injEq] at hs2
        subst hs2
        exact (hs.1.2 x hx).2
    have hnext : ∀ s ∈ rest.head?, c.getOffset < s.getOffset := by
      intro s hs2
      cases rest with
      | nil => simp at hs2
      | cons s1 rest2 =>
        simp only [List.head?_cons, Option.mem_def, Option.some.injEq] at hs2
        subst hs2
        simp only [siblingsOrdered, Bool.and_eq_true, decide_eq_true_eq] at hs
        exact hs.1.1
    rcases hr with hr | hr | hr
    · subst hr
      show Die.findChildAt (c :: rest) (upperBound (c :: rest) c.getOffset) parents c.getOffset = _
      rw [upperBound, if_neg (Nat.lt_irrefl _), upperBound_of_lt rest c.getOffset hnext]
      rw [Die.findChildAt, if_pos rfl]
    · have hmem : r.die ∈ c.descendants := by
        rw [← refsBelow_dies c parents]
        exact List.mem_map_of_mem _ hr
      obtain ⟨hlt, hnx⟩ := hbelow r.die hmem
      rw [upperBound, if_neg (by omega), upperBound_of_lt rest r.die.getOffset hnx]
      rw [Die.findChildAt, if_neg (by omega)]
      exact findChildByOffset_of_ordered c parents r ha.1 hr
    · have ih := findChildAt_of_ordered rest parents r hrest ha.2 hr
      have hmem : r.die ∈ descendantsOf rest := by
        rw [← refsOf_dies rest parents]
        exact List.mem_map_of_mem _ hr
      have hge : c.getOffset < r.die.getOffset := by
        cases rest with
        | nil => simp [descendantsOf] at hmem
        | cons s rest2 =>
          have h1 := head_le_of_ordered (s :: rest2) hrest r.die hmem s (by simp)
          have h2 := hnext s (by simp)
          omega
      rw [upperBound, if_neg (by omega)]
      cases hub : upperBound rest r.die.getOffset with
      | zero =>
        rw [hub] at ih
        cases rest <;> simp [Die.findChildAt] at ih
      | succ j =>
        rw [hub] at ih
        rw [Die.findChildAt]
        exact ih
end

/-- The search at a position of a child list, read as an access by index. -/
theorem findChildAt_eq_get : ∀ (cs : List Die) (i : Nat) (parents : List Die) (off : Nat),
    Die.findChildAt cs (i + 1) parents off =
      match cs.get? i with
      | none => .fault
      | some it =>
        if it.getOffset = off then .ok (some ⟨it, parents⟩)
        else Die.findChildByOffset it parents off
  | [], _, _, _ => by simp [Die.findChildAt]
  | c :: _, 0, _, _ => by simp [Die.findChildAt]
  | _ :: cs, i + 1, parents, off => by
    rw [Die.findChildAt, findChildAt_eq_get cs i parents off]
    simp

/-- The lookup in a file is the search in the list of the compile units. -/
theorem findDIEbyOffset_eq_findChildAt (f : File) (off : Nat) :
    f.findDIEbyOffset off =
      Die.findChildAt (f.mCompileUnits.map CU.die)
        (upperBound (f.mCompileUnits.map CU.die) off) [] off := by
  unfold File.findDIEbyOffset
  simp only
  cases upperBound (f.mCompileUnits.map CU.die) off with
  | zero => cases f.mCompileUnits.map CU.die <;> simp [Die.findChildAt]
  | succ i => rw [findChildAt_eq_get]

/-- In an ordered forest the lookup of the offset of a DIE of the forest returns that DIE. -/
theorem findDIEbyOffset_of_ordered (f : File) (r : DieRef) (hord : f.ordered = true)
    (hr : r ∈ f.refs) : f.findDIEbyOffset r.die.getOffset = .ok (some r) := by
  unfold File.ordered at hord
  rw [Bool.and_eq_true] at hord
  rw [findDIEbyOffset_eq_findChildAt]
  exact findChildAt_of_ordered (f.mCompileUnits.map CU.die) [] r hord.1 hord.2 hr
/-! ## Termination of the type reconstructor -/

/-- Sequencing ends when both parts end. -/
theorem bind_ne_timeout {α β : Type} {x : Res α} {f : α → Res β} (hx : x ≠ .timeout)
    (hf : ∀ a, x = .ok a → f a ≠ .timeout) : Res.bind x f ≠ .timeout := by
  cases x with
  | ok a => exact hf a rfl
  | fault => simp
  | timeout => exact absurd rfl hx

/-- A loop ends when every round ends. -/
theorem foldl_ne_timeout {α β : Type} (f : β → α → Res β) :
    ∀ (l : List α), (∀ b, ∀ a ∈ l, f b a ≠ .timeout) → ∀ b, Res.foldl f b l ≠ .timeout
  | [], _, b => by simp [Res.foldl]
  | a :: as, h, b => by
    rw [Res.foldl]
    exact bind_ne_timeout (h b a (List.mem_cons_self _ _))
      (fun b1 _ => foldl_ne_timeout f as (fun b2 a2 ha2 => h b2 a2 (List.mem_cons_of_mem _ ha2)) b1)

theorem getU64_ne_timeout (a : Attr) : a.getU64 ≠ .timeout := by
  unfold Attr.getU64
  cases a.mValue <;> simp

theorem getStr_ne_timeout (a : Attr) : a.getStr ≠ .timeout := by
  unfold Attr.getStr
  cases a.mValue <;> simp

theorem getName_ne_timeout (d : Die) (whenNull : Str) : d.getName whenNull ≠ .timeout := by
  unfold Die.getName
  cases d.findAttrByType DW_AT_name with
  | none => simp
  | some a => exact getStr_ne_timeout a

mutual
/-- The search below a DIE needs no fuel. -/
theorem findChildByOffset_ne_timeout : ∀ (d : Die) (parents : List Die) (off : Nat),
    d.findChildByOffset parents off ≠ .timeout
  | .mk o t a children, parents, off => by
    rw [Die.findChildByOffset]
    exact findChildAt_ne_timeout children _ _ off
/-- The search at a position of a child list needs no fuel. -/
theorem findChildAt_ne_timeout : ∀ (cs : List Die) (i : Nat) (parents : List Die) (off : Nat),
    Die.findChildAt cs i parents off ≠ .timeout
  | _, 0, _, _ => by simp [Die.findChildAt]
  | [], _ + 1, _, _ => by simp [Die.findChildAt]
  | c :: _, 1, parents, off => by
    rw [Die.findChildAt]
    by_cases hc : c.getOffset = off
    · rw [if_pos hc]; simp
    · rw [if_neg hc]; exact findChildByOffset_ne_timeout c parents off
  | _ :: cs, i + 2, parents, off => by
    rw [Die.findChildAt]
    exact findChildAt_ne_timeout cs (i + 1) parents off
end

theorem findDIEbyOffset_ne_timeout (f : File) (off : Nat) : f.findDIEbyOffset off ≠ .timeout := by
  rw [findDIEbyOffset_eq_findChildAt]
  exact findChildAt_ne_timeout _ _ _ _

mutual
/-- The search below a DIE returns a pointer to a DIE below it. -/
theorem findChildByOffset_mem : ∀ (d : Die) (parents : List Die) (off : Nat) (x : DieRef),
    d.findChildByOffset parents off = .ok (some x) → x ∈ d.refsBelow parents
  | .mk o t a children, parents, off, x, h => by
    rw [Die.findChildByOffset] at h
    rw [Die.refsBelow]
    exact findChildAt_mem children _ _ off x h
/-- The search at a position of a child list returns a pointer to a DIE of the list or to
one below it. -/
theorem findChildAt_mem : ∀ (cs : List Die) (i : Nat) (parents : List Die) (off : Nat)
    (x : DieRef), Die.findChildAt cs i parents off = .ok (some x) → x ∈ refsOf cs parents
  | _, 0, _, _, _, h => by simp [Die.findChildAt] at h
  | [], _ + 1, _, _, _, h => by simp [Die.findChildAt] at h
  | c :: _, 1, parents, off, x, h => by
    rw [Die.findChildAt] at h
    rw [refsOf]
    by_cases hc : c.getOffset = off
    · rw [if_pos hc] at h
      cases h
      exact List.mem_cons_self _ _
    · rw [if_neg hc] at h
      exact List.mem_cons_of_mem _ (List.mem_append_left _ (findChildByOffset_mem c parents off x h))
  | c :: cs, i + 2, parents, off, x, h => by
    rw [Die.findChildAt] at h
    rw [refsOf]
    exact List.mem_cons_of_mem _ (List.mem_append_right _ (findChildAt_mem cs (i + 1) parents off x h))
end

/-- The lookup returns a pointer to a DIE of the forest. -/
theorem findDIEbyOffset_mem (f : File) (off : Nat) (x : DieRef)
    (h : f.findDIEbyOffset off = .ok (some x)) : x ∈ f.refs := by
  rw [findDIEbyOffset_eq_findChildAt] at h
  exact findChildAt_mem _ _ _ _ x h

theorem completeNameScopeLoop_ne_timeout (dieName : Str) :
    ∀ (parents : List Die) (nameStr : Str),
      completeNameScopeLoop dieName parents nameStr ≠ .timeout
  | [], _ => by simp [completeNameScopeLoop]
  | p :: up, nameStr => by
    rw [completeNameScopeLoop]
    apply bind_ne_timeout (getName_ne_timeout _ _)
    intro name _
    dsimp only
    by_cases hc : p.getTAG = DW_TAG_compile_unit
    · rw [if_pos hc]; simp
    · rw [if_neg hc]
      exact completeNameScopeLoop_ne_timeout dieName up _

theorem completeNameScope_ne_timeout (d : DieRef) : completeNameScope d ≠ .timeout := by
  unfold completeNameScope
  exact bind_ne_timeout (getName_ne_timeout _ _)
    (fun _ _ => completeNameScopeLoop_ne_timeout _ _ _)

theorem arraySuffix_ne_timeout : ∀ (cs : List Die) (t : Str), arraySuffix cs t ≠ .timeout
  | [], _ => by simp [arraySuffix]
  | c :: rest, t => by
    rw [arraySuffix]
    by_cases hc : c.getTAG = DW_TAG_subrange_type
    · rw [if_pos hc]
      split
      · exact bind_ne_timeout (getU64_ne_timeout _) (fun _ _ => arraySuffix_ne_timeout rest _)
      · exact bind_ne_timeout (getU64_ne_timeout _) (fun _ _ => arraySuffix_ne_timeout rest _)
      · exact arraySuffix_ne_timeout rest _
    · rw [if_neg hc]
      exact arraySuffix_ne_timeout rest _

theorem parsePtrToMemberType_ne_timeout (env : Env) (d : DieRef) (t : Str) :
    parsePtrToMemberType env d t ≠ .timeout := by
  unfold parsePtrToMemberType
  split
  · simp
  · apply bind_ne_timeout (getU64_ne_timeout _)
    intro off _
    apply bind_ne_timeout (findDIEbyOffset_ne_timeout _ _)
    intro found _
    cases found with
    | none => simp
    | some ct => exact bind_ne_timeout (completeNameScope_ne_timeout _) (fun _ _ => by simp)

/-- One round of the tag dispatch ends when the call for a subroutine type ends. -/
theorem typeStep_ne_timeout (env : Env) (d : DieRef) (st : TypeState) (sub : Str → Res Str)
    (hsub : d.die.getTAG = DW_TAG_subroutine_type → ∀ t, sub t ≠ .timeout) :
    typeStep env d st sub ≠ .timeout := by
  unfold typeStep
  dsimp only
  by_cases c : d.die.getTAG = DW_TAG_const_type
  · rw [if_pos c]
    simp
  rw [if_neg c]
  clear c
  by_cases c : d.die.getTAG = DW_TAG_volatile_type
  · rw [if_pos c]
    simp
  rw [if_neg c]
  clear c
  by_cases c : d.die.getTAG = DW_TAG_pointer_type
  · rw [if_pos c]
    simp
  rw [if_neg c]
  clear c
  by_cases c : d.die.getTAG = DW_TAG_reference_type
  · rw [if_pos c]
    simp
  rw [if_neg c]
  clear c
  by_cases c : d.die.getTAG = DW_TAG_rvalue_reference_type
  · rw [if_pos c]
    simp
  rw [if_neg c]
  clear c
  by_cases c : d.die.getTAG = DW_TAG_restrict_type
  · rw [if_pos c]
    simp
  rw [if_neg c]
  clear c
  by_cases c : d.die.getTAG = DW_TAG_array_type
  · rw [if_pos c]
    exact bind_ne_timeout (arraySuffix_ne_timeout _ _) (fun _ _ => by simp)
  rw [if_neg c]
  clear c
  by_cases c : d.die.getTAG = DW_TAG_ptr_to_member_type
  · rw [if_pos c]
    exact bind_ne_timeout (parsePtrToMemberType_ne_timeout _ _ _) (fun _ _ => by simp)
  rw [if_neg c]
  clear c
  by_cases c : d.die.getTAG = DW_TAG_subroutine_type
  · rw [if_pos c]
    exact bind_ne_timeout (hsub c _) (fun _ _ => by simp)
  rw [if_neg c]
  clear c
  by_cases c : d.die.getTAG = DW_TAG_union_type
  · rw [if_pos c]
    simp
  rw [if_neg c]
  clear c
  by_cases c : d.die.getTAG = DW_TAG_class_type
  · rw [if_pos c]
    simp
  rw [if_neg c]
  clear c
  by_cases c : d.die.getTAG = DW_TAG_structure_type
  · rw [if_pos c]
    simp
  rw [if_neg c]
  clear c
  by_cases c : d.die.getTAG = DW_TAG_enumeration_type
  · rw [if_pos c]
    simp
  rw [if_neg c]
  clear c
  simp

/-- The offset read from the `type` attribute is the one `typeOffsetOf` gives. -/
theorem typeOffsetOf_of_getU64 {d : Die} {a : Attr} {off : Nat}
    (ha : d.findAttrByType DW_AT_type = some a) (hoff : a.getU64 = .ok off) :
    typeOffsetOf d = some off := by
  unfold typeOffsetOf
  rw [ha]
  unfold Attr.getU64 at hoff
  cases hv : a.mValue <;> rw [hv] at hoff <;> simp at hoff
  dsimp only
  rw [hv, hoff]

/-- The steps that `typesRanked` checks. -/
theorem typesRanked_step {f : File} {rank : Nat → Nat} (h : typesRanked f rank = true)
    {x : DieRef} (hx : x ∈ f.refs) :
    (∀ o, typeOffsetOf x.die = some o → rank o < rank x.die.getOffset) ∧
    (x.die.getTAG = DW_TAG_subroutine_type → ∀ c ∈ x.die.getChildren,
      c.getTAG = DW_TAG_formal_parameter → ∀ o, typeOffsetOf c = some o →
      rank o < rank x.die.getOffset) := by
  unfold typesRanked at h
  rw [List.all_eq_true] at h
  have hx1 := h x hx
  rw [List.all_eq_true] at hx1
  constructor
  · intro o ho
    have := hx1 o (by simp [ho])
    simpa using this
  · intro htag c hc hct o ho
    have hmem : o ∈ paramTypeOffsets x.die := by
      unfold paramTypeOffsets
      rw [if_pos htag, List.mem_filterMap]
      exact ⟨c, by simp [hc, hct], ho⟩
    have := hx1 o (List.mem_append_right _ hmem)
    simpa using this

/-- A call of `getTypeInfo` ends when the loop ends for the DIE that the `type` attribute
refers to. -/
theorem getTypeInfo_ne_timeout_of_loop (env : Env) (d : DieRef) (varName : Str) (fuel : Nat)
    (hloop : ∀ (y : DieRef) (off : Nat), typeOffsetOf d.die = some off → y ∈ env.mDbg.refs →
      y.die.getOffset = off → ∀ st, getTypeInfoLoop fuel env (some y) st ≠ .timeout) :
    getTypeInfo (fuel + 1) env d varName ≠ .timeout := by
  rw [getTypeInfo]
  cases ha : d.die.findAttrByType DW_AT_type with
  | none => simp
  | some a =>
    dsimp only
    apply bind_ne_timeout (getU64_ne_timeout _)
    intro off hoff
    apply bind_ne_timeout (findDIEbyOffset_ne_timeout _ _)
    intro found hfound
    refine bind_ne_timeout ?_ (fun _ _ => by simp)
    cases found with
    | none => cases fuel <;> simp [getTypeInfoLoop]
    | some y =>
      obtain ⟨z, hz, hzoff⟩ := findDIEbyOffset_found _ _ _ hfound
      cases hz
      exact hloop y off (typeOffsetOf_of_getU64 ha hoff) (findDIEbyOffset_mem _ _ _ hfound) hzoff _

/-- With a rank that every step lowers, the loop of `getTypeInfo` started at a DIE of rank
at most `k` ends with any fuel of at least `3 * k + 3`. -/
theorem getTypeInfoLoop_ne_timeout (env : Env) (rank : Nat → Nat)
    (hrank : typesRanked env.mDbg rank = true) :
    ∀ (k : Nat) (x : DieRef), x ∈ env.mDbg.refs → rank x.die.getOffset ≤ k →
      ∀ fuel, 3 * k + 3 ≤ fuel → ∀ st, getTypeInfoLoop fuel env (some x) st ≠ .timeout := by
  intro k
  induction k using Nat.strong_induction_on with
  | _ k ih =>
    intro x hx hk fuel hfuel st
    obtain ⟨hty, hpar⟩ := typesRanked_step hrank hx
    obtain ⟨f, rfl⟩ : ∃ f, fuel = f + 1 := ⟨fuel - 1, by omega⟩
    rw [getTypeInfoLoop]
    apply bind_ne_timeout (getName_ne_timeout _ _)
    intro name _
    by_cases hn : name ≠ []
    · rw [if_pos hn]
      exact bind_ne_timeout (completeNameScope_ne_timeout _) (fun _ _ => by simp)
    rw [if_neg hn]
    dsimp only
    have hsub : x.die.getTAG = DW_TAG_subroutine_type →
        ∀ t, parseSubroutineType f env x t ≠ .timeout := by
      intro htag t
      obtain ⟨g, rfl⟩ : ∃ g, f = g + 1 := ⟨f - 1, by omega⟩
      obtain ⟨g1, rfl⟩ : ∃ g1, g = g1 + 1 := ⟨g - 1, by omega⟩
      have hcall : ∀ c ∈ x.die.getChildren, c.getTAG = DW_TAG_formal_parameter →
          ∀ v, getTypeInfo (g1 + 1) env (x.child c) v ≠ .timeout := by
        intro c hc hct v
        apply getTypeInfo_ne_timeout_of_loop
        intro y off hoff hy hyoff st1
        have hlt : rank off < rank x.die.getOffset := hpar htag c hc hct off hoff
        exact ih (rank off) (by omega) y hy (by rw [hyoff]) g1 (by omega) st1
      rw [parseSubroutineType]
      dsimp only
      refine bind_ne_timeout ?_ ?_
      · apply foldl_ne_timeout
        intro acc c hc
        dsimp only
        by_cases hct : c.getTAG = DW_TAG_formal_parameter
        · rw [if_pos hct]
          split
          · exact bind_ne_timeout (hcall c hc hct _) (fun _ _ => by simp)
          · exact bind_ne_timeout (hcall c hc hct _) (fun _ _ => by simp)
        · rw [if_neg hct]
          split <;> simp
      · intro r _
        split <;> simp
    apply bind_ne_timeout (typeStep_ne_timeout env x st _ hsub)
    intro r _
    cases ha : x.die.findAttrByType DW_AT_type with
    | none =>
      dsimp only
      split <;> simp
    | some a =>
      dsimp only
      apply bind_ne_timeout (getU64_ne_timeout _)
      intro off hoff
      apply bind_ne_timeout (findDIEbyOffset_ne_timeout _ _)
      intro next hnext
      cases next with
      | none => cases f <;> simp [getTypeInfoLoop]
      | some y =>
        obtain ⟨z, hz, hzoff⟩ := findDIEbyOffset_found _ _ _ hnext
        cases hz
        have hlt : rank off < rank x.die.getOffset := hty off (typeOffsetOf_of_getU64 ha hoff)
        exact ih (rank off) (by omega) y (findDIEbyOffset_mem _ _ _ hnext) (by rw [hzoff]) f
          (by omega) _

/-- With a rank that every step lowers, a call of `getTypeInfo` ends as soon as the fuel
exceeds three times the rank of the DIE that the `type` attribute refers to by four. -/
theorem getTypeInfo_ne_timeout (env : Env) (rank : Nat → Nat)
    (hrank : typesRanked env.mDbg rank = true) (d : DieRef) (varName : Str) (fuel : Nat)
    (h1 : 1 ≤ fuel) (hfuel : ∀ o, typeOffsetOf d.die = some o → 3 * rank o + 4 ≤ fuel) :
    getTypeInfo fuel env d varName ≠ .timeout := by
  obtain ⟨f, rfl⟩ : ∃ f, fuel = f + 1 := ⟨fuel - 1, by omega⟩
  apply getTypeInfo_ne_timeout_of_loop
  intro y off hoff hy hyoff st
  have := hfuel off hoff
  exact getTypeInfoLoop_ne_timeout env rank hrank (rank off) y hy (by rw [hyoff]) f (by omega) st

/-- The call of `parseSubroutineType` for the function type that takes a pointer to itself
runs out of every fuel, when the loop does so for all smaller fuels. -/
theorem selfType_subroutine (f : Nat)
    (ih : ∀ m, m < f → ∀ st, getTypeInfoLoop m Sample.envX
      (some ⟨Sample.selfFuncType, [Sample.cuDieX]⟩) st = .timeout) (t : Str) :
    parseSubroutineType f Sample.envX ⟨Sample.selfFuncType, [Sample.cuDieX]⟩ t = .timeout := by
  match f, ih with
  | 0, _ => rfl
  | 1, _ => rfl
  | 2, _ => rfl
  | h + 3, ih =>
    have hx := ih h (by omega)
    have hp : ∀ st, getTypeInfoLoop (h + 1) Sample.envX
        (some ⟨Sample.modifier 7530 DW_TAG_pointer_type (some 7510) [], [Sample.cuDieX]⟩) st =
          .timeout := by
      intro st
      rw [getTypeInfoLoop]
      show getTypeInfoLoop h Sample.envX (some ⟨Sample.selfFuncType, [Sample.cuDieX]⟩) _ = _
      exact hx _
    have hc : getTypeInfo (h + 2) Sample.envX
        (DieRef.child ⟨Sample.selfFuncType, [Sample.cuDieX]⟩ (Sample.param 7520 7530)) [] =
          .timeout := by
      rw [getTypeInfo]
      show Res.bind (getTypeInfoLoop (h + 1) Sample.envX
        (some ⟨Sample.modifier 7530 DW_TAG_pointer_type (some 7510) [], [Sample.cuDieX]⟩) _) _ = _
      rw [hp]
      rfl
    rw [parseSubroutineType]
    show Res.bind (Res.bind (Res.bind (getTypeInfo (h + 2) Sample.envX _ []) _) _) _ = _
    rw [hc]
    rfl

/-- The loop of `getTypeInfo` started at the function type that takes a pointer to itself
runs out of every fuel. -/
theorem selfType_loop : ∀ (fuel : Nat) (st : TypeState),
    getTypeInfoLoop fuel Sample.envX (some ⟨Sample.selfFuncType, [Sample.cuDieX]⟩) st =
      .timeout := by
  intro fuel
  induction fuel using Nat.strong_induction_on with
  | _ fuel ih =>
    intro st
    match fuel, ih with
    | 0, _ => rfl
    | f + 1, ih =>
      have hs := selfType_subroutine f (fun m hm => ih m (by omega))
      rw [getTypeInfoLoop]
      show Res.bind (Res.bind (parseSubroutineType f Sample.envX
        ⟨Sample.selfFuncType, [Sample.cuDieX]⟩ _) _) _ = _
      rw [hs]
      rfl

/-- With a rank that every step lowers, the call of `parseSubroutineType` for a subroutine
type of the forest ends with any fuel of at least three times its rank plus two. -/
theorem parseSubroutineType_ne_timeout (env : Env) (rank : Nat → Nat)
    (hrank : typesRanked env.mDbg rank = true) (x : DieRef) (hx : x ∈ env.mDbg.refs)
    (htag : x.die.getTAG = DW_TAG_subroutine_type) (fuel : Nat)
    (hfuel : 3 * rank x.die.getOffset + 2 ≤ fuel) (t : Str) :
    parseSubroutineType fuel env x t ≠ .timeout := by
  obtain ⟨g, rfl⟩ : ∃ g, fuel = g + 1 := ⟨fuel - 1, by omega⟩
  have hpar := (typesRanked_step hrank hx).2 htag
  have hcall : ∀ c ∈ x.die.getChildren, c.getTAG = DW_TAG_formal_parameter →
      ∀ v, getTypeInfo g env (x.child c) v ≠ .timeout := by
    intro c hc hct v
    apply getTypeInfo_ne_timeout env rank hrank _ _ _ (by omega)
    intro o ho
    have := hpar c hc hct o ho
    omega
  rw [parseSubroutineType]
  dsimp only
  refine bind_ne_timeout ?_ ?_
  · apply foldl_ne_timeout
    intro acc c hc
    dsimp only
    by_cases hct : c.getTAG = DW_TAG_formal_parameter
    · rw [if_pos hct]
      split
      · exact bind_ne_timeout (hcall c hc hct _) (fun _ _ => by simp)
      · exact bind_ne_timeout (hcall c hc hct _) (fun _ _ => by simp)
    · rw [if_neg hct]
      split <;> simp
  · intro r _
    split <;> simp
/-! ## Lemmas: the order of a declaration and its definition -/

/-- Walking along a path before an update along the same path changes nothing. -/
theorem modifyAt_after_touch (path : List Str) (f : Json → Res Json) (j : Json) :
    Res.bind (Json.touch path j) (Json.modifyAt path f) = Json.modifyAt path f j := by
  unfold Json.touch
  rw [Json.modifyAt_comp]
  rfl

/-- Walking along a path adds no key to the value that the path reaches. -/
theorem hasRecord_touch {path : List Str} {j o1 : Json} (key : Str)
    (h : Json.touch path j = .ok o1) : hasRecord o1 path key = hasRecord j path key := by
  obtain ⟨v, hv, hget⟩ := Json.modifyAt_getAt _ _ _ _ h
  cases hv
  unfold hasRecord
  rw [hget]
  cases Json.getAt path j <;> rfl

/-- An insertion under a key that is present leaves the document as it is. -/
theorem modifyAt_emplace_present : ∀ (path : List Str) (key : Str) (v j : Json),
    hasRecord j path key = true → Json.modifyAt path (fun o => o.emplace key v) j = .ok j := by
  intro path
  induction path with
  | nil =>
    intro key v j h
    rw [hasRecord_nil] at h
    cases j with
    | obj kvs =>
      simp only [Json.hasKey] at h
      simp [Json.modifyAt, Json.emplace, h]
    | null => cases h
    | uint _ => cases h
    | int _ => cases h
    | str _ => cases h
    | arr _ => cases h
  | cons k rest ih =>
    intro key v j h
    rw [hasRecord_cons] at h
    cases j with
    | obj kvs =>
      cases hk : mapFind kvs k with
      | none => simp [Json.getKey, hk] at h
      | some x =>
        simp only [Json.getKey, hk] at h
        simp only [Json.modifyAt, Json.modifyKey, hk, ih key v x h, Res.bind_ok]
        rw [mapReplace_same_value kvs k x hk]
    | null => simp [Json.getKey] at h
    | uint _ => simp [Json.getKey] at h
    | int _ => simp [Json.getKey] at h
    | str _ => simp [Json.getKey] at h
    | arr _ => simp [Json.getKey] at h

/-- After an update of the entry under a key the key is present. -/
theorem hasRecord_of_modifyAt_append {path : List Str} {key : Str} {g : Json → Res Json}
    {j j1 : Json} (h : Json.modifyAt (path ++ [key]) g j = .ok j1) :
    hasRecord j1 path key = true := by
  obtain ⟨v, _, hget⟩ := Json.modifyAt_getAt _ _ _ _ h
  rw [Json.getAt_append] at hget
  unfold hasRecord
  cases hr : Json.getAt path j1 with
  | none => rw [hr] at hget; cases hget
  | some r =>
    rw [hr] at hget
    change Json.getAt [key] r = some v at hget
    rw [Json.getAt_singleton] at hget
    simp [Json.hasKey_eq, hget]

/-- The two orders of a declaration and its definition, in the shape that `parseFunction`
and `parseVariable` share: `E` stores the record of the declaration unless its key is
present; the definition walks the path, stores the record if it is missing, lays `g` over
it and goes on with `C`, which keeps the record. Starting without the record, storing first
and storing last give the same document. -/
theorem store_then_overlay (path : List Str) (key : Str) (record : Json)
    (g C : Json → Res Json) (T : Json) (habs : hasRecord T path key = false)
    (hC : ∀ x y, C x = .ok y → hasRecord x path key = true → hasRecord y path key = true)
    (R : Json) :
    Res.bind (Json.modifyAt path (fun o => o.emplace key record) T)
        (fun x => Res.bind (Json.touch path x) fun o1 =>
          Res.bind (if hasRecord o1 path key then .ok o1
                    else Json.modifyAt path (fun o => o.emplace key record) o1) fun o2 =>
          Res.bind (Json.modifyAt (path ++ [key]) g o2) C) = .ok R ↔
    Res.bind
        (Res.bind (Json.touch path T) fun o1 =>
          Res.bind (if hasRecord o1 path key then .ok o1
                    else Json.modifyAt path (fun o => o.emplace key record) o1) fun o2 =>
          Res.bind (Json.modifyAt (path ++ [key]) g o2) C)
        (Json.modifyAt path (fun o => o.emplace key record)) = .ok R := by
  have hfirst : (Res.bind (Json.touch path T) fun o1 =>
      Res.bind (if hasRecord o1 path key then .ok o1
                else Json.modifyAt path (fun o => o.emplace key record) o1) fun o2 =>
      Res.bind (Json.modifyAt (path ++ [key]) g o2) C) =
      Res.bind (Json.modifyAt path (fun o => o.emplace key record) T) fun o2 =>
        Res.bind (Json.modifyAt (path ++ [key]) g o2) C := by
    have ht := modifyAt_after_touch path (fun o => o.emplace key record) T
    cases hto : Json.touch path T with
    | ok o1 =>
      rw [hto] at ht
      simp only [Res.bind_ok] at ht ⊢
      rw [hasRecord_touch key hto, habs]
      simp only [Bool.false_eq_true, if_false]
      rw [ht]
    | fault => rw [hto] at ht; simp only [Res.bind_fault] at ht ⊢; rw [← ht]; rfl
    | timeout => rw [hto] at ht; simp only [Res.bind_timeout] at ht ⊢; rw [← ht]; rfl
  rw [hfirst]
  cases hE : Json.modifyAt path (fun o => o.emplace key record) T with
  | ok Ts =>
    simp only [Res.bind_ok]
    rw [touch_after_modifyAt _ _ _ _ hE]
    simp only [Res.bind_ok, hasRecord_of_emplace hE, if_true]
    cases hO : Json.modifyAt (path ++ [key]) g Ts with
    | ok o3 =>
      simp only [Res.bind_ok]
      cases hc : C o3 with
      | ok R1 =>
        have hrec := hC o3 R1 hc (hasRecord_of_modifyAt_append hO)
        simp only [Res.bind_ok, modifyAt_emplace_present path key record R1 hrec]
      | fault => simp
      | timeout => simp
    | fault => simp
    | timeout => simp
  | fault => simp
  | timeout => simp

/-- The dispatcher hands a subprogram to `parseFunction`. -/
theorem parseDIE_subprogram (fuel : Nat) (env : Env) (compileUnit : CU) (DIE : DieRef)
    (out : Json) (htag : DIE.die.getTAG = DW_TAG_subprogram) :
    parseDIE (fuel + 1) env compileUnit DIE out = parseFunction fuel env compileUnit DIE out := by
  rw [parseDIE]
  simp [htag]

/-- The dispatcher hands a variable to `parseVariable`. -/
theorem parseDIE_variable (fuel : Nat) (env : Env) (compileUnit : CU) (DIE : DieRef)
    (out : Json) (htag : DIE.die.getTAG = DW_TAG_variable) :
    parseDIE (fuel + 1) env compileUnit DIE out =
      parseVariable fuel env compileUnit DIE false out := by
  rw [parseDIE]
  simp [htag]

/-- The dispatcher hands a member to `parseVariable`, as a member variable. -/
theorem parseDIE_member (fuel : Nat) (env : Env) (compileUnit : CU) (DIE : DieRef)
    (out : Json) (htag : DIE.die.getTAG = DW_TAG_member) :
    parseDIE (fuel + 1) env compileUnit DIE out =
      parseVariable fuel env compileUnit DIE true out := by
  rw [parseDIE]
  simp [htag]

/-- What `parseFunction` does with a declaration that has only parameter children: it fails
for every document, or it leaves every document as it is, or it stores one record, which
does not depend on the document, under the key of the declaration. -/
theorem parseFunction_declaration_shape (m : Nat) (env : Env) (compileUnit : CU) (S : DieRef)
    (hspec : S.die.findAttrByType DW_AT_specification = none)
    (hchildren : ∀ c ∈ S.die.getChildren, IsParamTag c.getTAG) :
    (∀ x r, parseFunction m env compileUnit S x ≠ .ok r) ∨
    (∀ x, parseFunction m env compileUnit S x = .ok x) ∨
    (∃ (m1 : Nat) (path : List Str) (line : Nat) (nm : Str) (record : Json),
      m = m1 + 1 ∧ path ≠ [] ∧ findWhereToStore m1 env compileUnit S = .ok path ∧
      declLineOf S.die = .ok line ∧ S.die.getName anonymousName = .ok nm ∧
      ∀ x, parseFunction m env compileUnit S x =
        Json.modifyAt path (fun o => o.emplace (storeKeyOf line "func" nm) record) x) := by
  cases m with
  | zero => exact Or.inl (fun x r h => by simp [parseFunction] at h)
  | succ m1 =>
    cases hown : S.die.getName [] with
    | fault =>
      exact Or.inl (fun x r h => by
        rw [parseFunction] at h; simp only [hown, Res.bind_fault] at h; cases h)
    | timeout =>
      exact Or.inl (fun x r h => by
        rw [parseFunction] at h; simp only [hown, Res.bind_timeout] at h; cases h)
    | ok own =>
      cases hfil : startsWith own "__".toList with
      | true =>
        exact Or.inr (Or.inl (fun x => by
          rw [parseFunction]; simp only [hown, Res.bind_ok, hfil, if_true]))
      | false =>
      cases hpath : findWhereToStore m1 env compileUnit S with
      | fault =>
        exact Or.inl (fun x r h => by
          rw [parseFunction] at h
          simp only [hown, Res.bind_ok, hfil, Bool.false_eq_true, if_false, hspec, hpath,
            Res.bind_fault] at h
          cases h)
      | timeout =>
        exact Or.inl (fun x r h => by
          rw [parseFunction] at h
          simp only [hown, Res.bind_ok, hfil, Bool.false_eq_true, if_false, hspec, hpath,
            Res.bind_timeout] at h
          cases h)
      | ok path =>
        by_cases hne : path = []
        · exact Or.inr (Or.inl (fun x => by
            rw [parseFunction]
            simp only [hown, Res.bind_ok, hfil, Bool.false_eq_true, if_false, hspec, hpath,
              if_pos hne]))
        cases hline : declLineOf S.die with
        | fault =>
          exact Or.inl (fun x r h => by
            rw [parseFunction] at h
            simp only [hown, Res.bind_ok, hfil, Bool.false_eq_true, if_false, hspec, hpath,
              if_neg hne, hline, Res.bind_fault] at h
            cases h)
        | timeout =>
          exact Or.inl (fun x r h => by
            rw [parseFunction] at h
            simp only [hown, Res.bind_ok, hfil, Bool.false_eq_true, if_false, hspec, hpath,
              if_neg hne, hline, Res.bind_timeout] at h
            cases h)
        | ok line =>
          cases hnm : S.die.getName anonymousName with
          | fault =>
            exact Or.inl (fun x r h => by
              rw [parseFunction] at h
              simp only [hown, Res.bind_ok, hfil, Bool.false_eq_true, if_false, hspec, hpath,
                if_neg hne, hline, hnm, Res.bind_fault] at h
              cases h)
          | timeout =>
            exact Or.inl (fun x r h => by
              rw [parseFunction] at h
              simp only [hown, Res.bind_ok, hfil, Bool.false_eq_true, if_false, hspec, hpath,
                if_neg hne, hline, hnm, Res.bind_timeout] at h
              cases h)
          | ok nm =>
            cases hrec : funcRecord m1 env S with
            | fault =>
              exact Or.inl (fun x r h => by
                rw [parseFunction] at h
                simp only [hown, Res.bind_ok, hfil, Bool.false_eq_true, if_false, hspec, hpath,
                  if_neg hne, hline, hnm, hrec, Res.bind_fault] at h
                cases h)
            | timeout =>
              exact Or.inl (fun x r h => by
                rw [parseFunction] at h
                simp only [hown, Res.bind_ok, hfil, Bool.false_eq_true, if_false, hspec, hpath,
                  if_neg hne, hline, hnm, hrec, Res.bind_timeout] at h
                cases h)
            | ok built =>
              refine Or.inr (Or.inr ⟨m1, path, line, nm, built.1, rfl, hne, hpath, rfl, rfl, ?_⟩)
              intro x
              have hl := funcRecord_later hchildren hrec
              rw [parseFunction]
              simp only [hown, Res.bind_ok, hfil, Bool.false_eq_true, if_false, hspec, hpath,
                if_neg hne, hline, hnm, hrec, hl, Res.foldl]
              exact Res.bind_ok_right _

/-- What `parseFunction` does with a definition whose specification is found: it fails for
every document, or it leaves every document as it is, or it walks the path of the
declaration, has the declaration parsed if its key is missing, lays an overlay that does not
depend on the document over the record, and dispatches the remaining children. -/
theorem parseFunction_definition_shape (m : Nat) (env : Env) (compileUnit : CU) (D S : DieRef)
    (specAttr : Attr) (off : Nat) (path : List Str) (line : Nat) (nm : Str)
    (hspec : D.die.findAttrByType DW_AT_specification = some specAttr)
    (hoff : specAttr.getU64 = .ok off) (hS : env.mDbg.findDIEbyOffset off = .ok (some S))
    (hpath : findWhereToStore m env compileUnit S = .ok path)
    (hline : declLineOf S.die = .ok line) (hnm : S.die.getName anonymousName = .ok nm) :
    (∀ x r, parseFunction (m + 1) env compileUnit D x ≠ .ok r) ∨
    (∀ x, parseFunction (m + 1) env compileUnit D x = .ok x) ∨
    (path ≠ [] ∧ ∃ (g : Json → Res Json) (later : List Die),
      ∀ x, parseFunction (m + 1) env compileUnit D x =
        Res.bind (Json.touch path x) fun o1 =>
        Res.bind (if hasRecord o1 path (storeKeyOf line "func" nm) then .ok o1
                  else parseFunction m env compileUnit S o1) fun o2 =>
        Res.bind (Json.modifyAt (path ++ [storeKeyOf line "func" nm]) g o2) fun o3 =>
        Res.foldl (fun o die => parseDIE m env compileUnit (D.child die) o) o3 later) := by
  cases hown : D.die.getName [] with
  | fault =>
    exact Or.inl (fun x r h => by
      rw [parseFunction] at h; simp only [hown, Res.bind_fault] at h; cases h)
  | timeout =>
    exact Or.inl (fun x r h => by
      rw [parseFunction] at h; simp only [hown, Res.bind_timeout] at h; cases h)
  | ok own =>
    cases hfil : startsWith own "__".toList with
    | true =>
      exact Or.inr (Or.inl (fun x => by
        rw [parseFunction]; simp only [hown, Res.bind_ok, hfil, if_true]))
    | false =>
      by_cases hne : path = []
      · exact Or.inr (Or.inl (fun x => by
          rw [parseFunction]
          simp only [hown, Res.bind_ok, hfil, Bool.false_eq_true, if_false, hspec, hoff, hS,
            hpath, if_pos hne]))
      cases hscan : Res.foldl specChild ([], []) D.die.getChildren with
      | fault =>
        exact Or.inl (fun x r h => by
          rw [parseFunction] at h
          simp only [hown, Res.bind_ok, hfil, Bool.false_eq_true, if_false, hspec, hoff, hS,
            hpath, if_neg hne, hline, hnm, hscan, Res.bind_fault] at h
          cases h)
      | timeout =>
        exact Or.inl (fun x r h => by
          rw [parseFunction] at h
          simp only [hown, Res.bind_ok, hfil, Bool.false_eq_true, if_false, hspec, hoff, hS,
            hpath, if_neg hne, hline, hnm, hscan, Res.bind_timeout] at h
          cases h)
      | ok scan =>
        refine Or.inr (Or.inr ⟨hne, funcOverlay D.die scan.1, scan.2, ?_⟩)
        intro x
        rw [parseFunction]
        simp only [hown, Res.bind_ok, hfil, Bool.false_eq_true, if_false, hspec, hoff, hS,
          hpath, if_neg hne, hline, hnm, hscan]

/-- What `parseVariable` does with a declaration: it fails for every document, or it leaves
every document as it is, or it stores one record, which does not depend on the document,
under the key of the declaration. -/
theorem parseVariable_declaration_shape (m : Nat) (env : Env) (compileUnit : CU) (S : DieRef)
    (memberVariable : Bool) (hspec : S.die.findAttrByType DW_AT_specification = none) :
    (∀ x r, parseVariable m env compileUnit S memberVariable x ≠ .ok r) ∨
    (∀ x, parseVariable m env compileUnit S memberVariable x = .ok x) ∨
    (∃ (m1 : Nat) (path : List Str) (line : Nat) (nm : Str) (record : Json),
      m = m1 + 1 ∧ path ≠ [] ∧ findWhereToStore m1 env compileUnit S = .ok path ∧
      declLineOf S.die = .ok line ∧ S.die.getName unnamedVar = .ok nm ∧
      ∀ x, parseVariable m env compileUnit S memberVariable x =
        Json.modifyAt path
          (fun o => o.emplace (storeKeyOf line (varKind memberVariable) nm) record) x) := by
  cases m with
  | zero => exact Or.inl (fun x r h => by simp [parseVariable] at h)
  | succ m1 =>
    cases hpath : findWhereToStore m1 env compileUnit S with
    | fault =>
      exact Or.inl (fun x r h => by
        rw [parseVariable] at h; simp only [hspec, hpath, Res.bind_fault] at h; cases h)
    | timeout =>
      exact Or.inl (fun x r h => by
        rw [parseVariable] at h; simp only [hspec, hpath, Res.bind_timeout] at h; cases h)
    | ok path =>
      by_cases hne : path = []
      · exact Or.inr (Or.inl (fun x => by
          rw [parseVariable]; simp only [hspec, hpath, Res.bind_ok, if_pos hne]))
      cases hrec : varRecord m1 env S with
      | fault =>
        exact Or.inl (fun x r h => by
          rw [parseVariable] at h
          simp only [hspec, hpath, Res.bind_ok, if_neg hne, hrec, Res.bind_fault] at h
          cases h)
      | timeout =>
        exact Or.inl (fun x r h => by
          rw [parseVariable] at h
          simp only [hspec, hpath, Res.bind_ok, if_neg hne, hrec, Res.bind_timeout] at h
          cases h)
      | ok record =>
        cases hline : declLineOf S.die with
        | fault =>
          exact Or.inl (fun x r h => by
            rw [parseVariable] at h
            simp only [hspec, hpath, Res.bind_ok, if_neg hne, hrec, hline, Res.bind_fault] at h
            cases h)
        | timeout =>
          exact Or.inl (fun x r h => by
            rw [parseVariable] at h
            simp only [hspec, hpath, Res.bind_ok, if_neg hne, hrec, hline,
              Res.bind_timeout] at h
            cases h)
        | ok line =>
          cases hnm : S.die.getName unnamedVar with
          | fault =>
            exact Or.inl (fun x r h => by
              rw [parseVariable] at h
              simp only [hspec, hpath, Res.bind_ok, if_neg hne, hrec, hline, hnm,
                Res.bind_fault] at h
              cases h)
          | timeout =>
            exact Or.inl (fun x r h => by
              rw [parseVariable] at h
              simp only [hspec, hpath, Res.bind_ok, if_neg hne, hrec, hline, hnm,
                Res.bind_timeout] at h
              cases h)
          | ok nm =>
            refine Or.inr (Or.inr ⟨m1, path, line, nm, record, rfl, hne, hpath, rfl, rfl, ?_⟩)
            intro x
            rw [parseVariable]
            simp only [hspec, hpath, Res.bind_ok, if_neg hne, hrec, hline, hnm]

/-- What `parseVariable` does with a definition whose specification is found: it leaves
every document as it is, or it walks the path of the declaration, has the declaration parsed
if its key is missing, and lays an overlay that does not depend on the document over the
record. -/
theorem parseVariable_definition_shape (m : Nat) (env : Env) (compileUnit : CU) (D S : DieRef)
    (memberVariable : Bool) (specAttr : Attr) (off : Nat) (path : List Str) (line : Nat)
    (nm : Str) (hspec : D.die.findAttrByType DW_AT_specification = some specAttr)
    (hoff : specAttr.getU64 = .ok off) (hS : env.mDbg.findDIEbyOffset off = .ok (some S))
    (hpath : findWhereToStore m env compileUnit S = .ok path)
    (hline : declLineOf S.die = .ok line) (hnm : S.die.getName unnamedVar = .ok nm) :
    (∀ x, parseVariable (m + 1) env compileUnit D memberVariable x = .ok x) ∨
    (path ≠ [] ∧ ∃ (g : Json → Res Json),
      ∀ x, parseVariable (m + 1) env compileUnit D memberVariable x =
        Res.bind (Json.touch path x) fun o1 =>
        Res.bind (if hasRecord o1 path
              (storeKeyOf line (varKind (decide (S.die.getTAG = DW_TAG_member))) nm) then .ok o1
            else parseVariable m env compileUnit S (decide (S.die.getTAG = DW_TAG_member)) o1)
          fun o2 =>
        Res.bind (Json.modifyAt
          (path ++ [storeKeyOf line (varKind (decide (S.die.getTAG = DW_TAG_member))) nm]) g o2)
          Res.ok) := by
  by_cases hne : path = []
  · exact Or.inl (fun x => by
      rw [parseVariable]
      simp only [hspec, hoff, hS, hpath, Res.bind_ok, if_pos hne])
  refine Or.inr ⟨hne, fun varJson => Res.foldl (varOverlayAttr env) varJson D.die.getAttrs, ?_⟩
  intro x
  rw [parseVariable]
  simp only [hspec, hoff, hS, hpath, Res.bind_ok, if_neg hne, hline, hnm]
  cases Json.touch path x with
  | ok o1 =>
    simp only [Res.bind_ok]
    cases (if hasRecord o1 path
          (storeKeyOf line (varKind (decide (S.die.getTAG = DW_TAG_member))) nm) = true
        then Res.ok o1
        else parseVariable m env compileUnit S (decide (S.die.getTAG = DW_TAG_member)) o1) with
    | ok o2 => simp only [Res.bind_ok]; exact (Res.bind_ok_right _).symm
    | fault => rfl
    | timeout => rfl
  | fault => rfl
  | timeout => rfl

/-- Both orders fail when one of the two steps fails for every document. -/
theorem bind_order_of_never_ok {f g : Json → Res Json} (hf : ∀ x r, f x ≠ .ok r) (T R : Json) :
    (Res.bind (f T) g = .ok R ↔ Res.bind (g T) f = .ok R) ∧
    (Res.bind (g T) f = .ok R ↔ Res.bind (f T) g = .ok R) := by
  have h1 : Res.bind (f T) g ≠ .ok R := by
    intro h
    obtain ⟨y, hy, _⟩ := Res.bind_eq_ok.1 h
    exact hf T y hy
  have h2 : Res.bind (g T) f ≠ .ok R := by
    intro h
    obtain ⟨y, _, hy⟩ := Res.bind_eq_ok.1 h
    exact hf y R hy
  exact ⟨⟨fun h => absurd h h1, fun h => absurd h h2⟩, ⟨fun h => absurd h h2, fun h => absurd h h1⟩⟩

/-- Both orders agree when one of the two steps leaves every document as it is. -/
theorem bind_order_of_identity {f g : Json → Res Json} (hf : ∀ x, f x = .ok x) (T : Json) :
    Res.bind (f T) g = Res.bind (g T) f := by
  have : f = Res.ok := funext hf
  rw [this, Res.bind_ok, Res.bind_ok_right]

/-- A declaration of a variable and its definition may be parsed in either order, when the
document holds no record under the key of the declaration. -/
theorem parseVariable_order (m : Nat) (env : Env) (compileUnit : CU) (S D : DieRef)
    (memberVariable : Bool) (specAttr : Attr) (off : Nat) (path : List Str) (line : Nat)
    (nm : Str) (T R : Json)
    (hspecS : S.die.findAttrByType DW_AT_specification = none)
    (hspec : D.die.findAttrByType DW_AT_specification = some specAttr)
    (hoff : specAttr.getU64 = .ok off) (hS : env.mDbg.findDIEbyOffset off = .ok (some S))
    (hpath : findWhereToStore m env compileUnit S = .ok path)
    (hline : declLineOf S.die = .ok line) (hnm : S.die.getName unnamedVar = .ok nm)
    (habs : hasRecord T path
      (storeKeyOf line (varKind (decide (S.die.getTAG = DW_TAG_member))) nm) = false) :
    Res.bind (parseVariable m env compileUnit S (decide (S.die.getTAG = DW_TAG_member)) T)
        (parseVariable (m + 1) env compileUnit D memberVariable) = .ok R ↔
      Res.bind (parseVariable (m + 1) env compileUnit D memberVariable T)
        (parseVariable m env compileUnit S (decide (S.die.getTAG = DW_TAG_member))) = .ok R := by
  rcases parseVariable_declaration_shape m env compileUnit S
      (decide (S.die.getTAG = DW_TAG_member)) hspecS with
    hs | hs | ⟨m1, path1, line1, nm1, record, hm, _, hpath1, hline1, hnm1, hs⟩
  · exact (bind_order_of_never_ok hs T R).1
  · rw [bind_order_of_identity hs T]
  · have e1 : path1 = path := findWhereToStore_fuel env compileUnit S m1 m path1 path hpath1 hpath
    have e2 : line1 = line := Res.ok.inj (hline1.symm.trans hline)
    have e3 : nm1 = nm := Res.ok.inj (hnm1.symm.trans hnm)
    subst e1 e2 e3
    rcases parseVariable_definition_shape m env compileUnit D S memberVariable specAttr off
      path1 line1 nm1 hspec hoff hS hpath hline hnm with hd | ⟨_, g, hd⟩
    · rw [← bind_order_of_identity hd T]
    · have hSf : parseVariable m env compileUnit S (decide (S.die.getTAG = DW_TAG_member)) =
          Json.modifyAt path1 (fun o => o.emplace
            (storeKeyOf line1 (varKind (decide (S.die.getTAG = DW_TAG_member))) nm1) record) :=
        funext hs
      have hDf : parseVariable (m + 1) env compileUnit D memberVariable = fun x =>
          Res.bind (Json.touch path1 x) fun o1 =>
          Res.bind (if hasRecord o1 path1
                (storeKeyOf line1 (varKind (decide (S.die.getTAG = DW_TAG_member))) nm1)
              then .ok o1
              else Json.modifyAt path1 (fun o => o.emplace
                (storeKeyOf line1 (varKind (decide (S.die.getTAG = DW_TAG_member))) nm1)
                  record) o1) fun o2 =>
          Res.bind (Json.modifyAt
            (path1 ++ [storeKeyOf line1 (varKind (decide (S.die.getTAG = DW_TAG_member))) nm1])
            g o2) Res.ok := by
        funext x
        rw [hd x, hSf]
      rw [hSf, hDf]
      exact store_then_overlay path1 _ record g Res.ok T habs
        (fun x y hxy hrec => by cases hxy; exact hrec) R
/-! ## Lemmas: documents that extend one another -/

theorem mapFind_head (k : Str) (v : Json) (rest : List (Str × Json)) :
    mapFind ((k, v) :: rest) k = some v := by
  simp [mapFind]

theorem Json.getKey_of_empty {j : Json} (h : j.empty = true) (k : Str) : j.getKey k = none := by
  cases j with
  | obj kvs =>
    cases kvs with
    | nil => rfl
    | cons _ _ => cases h
  | null => rfl
  | arr _ => rfl
  | uint _ => rfl
  | int _ => rfl
  | str _ => rfl

/-- Extension is transitive. -/
theorem Ext.trans {bad : List Str} {a b c : Json} (h1 : Ext bad a b) (h2 : Ext bad b c) :
    Ext bad a c := by
  induction h1 generalizing c with
  | refl bad t => exact h2
  | empty bad s t h => exact Ext.empty bad s c h
  | obj bad kvs kvs1 hk hv ih =>
    cases h2 with
    | refl => exact Ext.obj bad kvs kvs1 hk hv
    | empty _ _ _ h =>
      have hnil : kvs1 = [] := by
        cases kvs1 with
        | nil => rfl
        | cons _ _ => cases h
      subst hnil
      apply Ext.empty
      cases kvs with
      | nil => rfl
      | cons e rest =>
        have := hk e.1 (by rw [mapFind_head e.1 e.2 rest]; rfl)
        simp [mapFind] at this
    | obj _ _ kvs2 hk2 hv2 =>
      refine Ext.obj bad kvs kvs2 (fun k h => hk2 k (hk k h)) ?_
      intro k v v2 hkv hkv2 hbad
      have hs := hk k (by rw [hkv]; rfl)
      cases hv1 : mapFind kvs1 k with
      | none => rw [hv1] at hs; cases hs
      | some v1 => exact ih k v v1 hkv hv1 hbad (hv2 k v1 v2 hv1 hkv2 hbad)

/-- A key of a document is a key of every extension, with an extended value. -/
theorem Ext.getKey {bad : List Str} {s t : Json} (h : Ext bad s t) {k : Str} {v : Json}
    (hv : s.getKey k = some v) :
    ∃ v1, t.getKey k = some v1 ∧ (k ∈ bad ∨ Ext overlayKeys v v1) := by
  cases h with
  | refl => exact ⟨v, hv, Or.inr (Ext.refl _ _)⟩
  | empty _ _ _ he => rw [Json.getKey_of_empty he] at hv; cases hv
  | obj _ kvs kvs1 hk hvv =>
    simp only [Json.getKey] at hv ⊢
    have hs := hk k (by rw [hv]; rfl)
    cases hv1 : mapFind kvs1 k with
    | none => rw [hv1] at hs; cases hs
    | some v1 =>
      refine ⟨v1, rfl, ?_⟩
      by_cases hb : k ∈ bad
      · exact Or.inl hb
      · exact Or.inr (hvv k v v1 hv hv1 hb)

theorem Ext.hasKey {bad : List Str} {s t : Json} (h : Ext bad s t) {k : Str}
    (hk : s.hasKey k = true) : t.hasKey k = true := by
  rw [Json.hasKey_eq] at hk ⊢
  cases hv : s.getKey k with
  | none => rw [hv] at hk; cases hk
  | some v =>
    obtain ⟨v1, hv1, _⟩ := h.getKey hv
    rw [hv1]; rfl

/-- A value that is not empty has no empty extension. -/
theorem Ext.nonempty {bad : List Str} {s t : Json} (h : Ext bad s t) (hs : s.empty = false) :
    t.empty = false := by
  cases h with
  | refl => exact hs
  | empty _ _ _ he => rw [he] at hs; cases hs
  | obj _ kvs kvs1 hk hvv =>
    cases kvs with
    | nil => cases hs
    | cons e rest =>
      have := hk e.1 (by rw [mapFind_head e.1 e.2 rest]; rfl)
      cases kvs1 with
      | nil => simp [mapFind] at this
      | cons _ _ => rfl

/-- A path that is in order stays in order below its first key. -/
theorem PathOk.tail {bad : List Str} {k : Str} {rest : List Str} (h : PathOk bad (k :: rest)) :
    PathOk overlayKeys rest := by
  cases rest with
  | nil => trivial
  | cons k1 r => exact ⟨h.2 k1 (List.mem_cons_self _ _), fun x hx => h.2 x (List.mem_cons_of_mem _ hx)⟩

/-- What a path reaches in a document, it reaches in every extension, with an extended
value. -/
theorem Ext.getAt : ∀ (path : List Str) {bad : List Str} {s t : Json} {v : Json},
    Ext bad s t → PathOk bad path → path ≠ [] → Json.getAt path s = some v →
    ∃ v1, Json.getAt path t = some v1 ∧ Ext overlayKeys v v1
  | [], _, _, _, _, _, _, hne, _ => absurd rfl hne
  | k :: rest, bad, s, t, v, h, hp, _, hg => by
    rw [Json.getAt_cons] at hg ⊢
    cases hk : s.getKey k with
    | none => rw [hk] at hg; cases hg
    | some w =>
      rw [hk] at hg
      obtain ⟨w1, hw1, hor⟩ := h.getKey hk
      rcases hor with hb | hext
      · exact absurd hb hp.1
      rw [hw1]
      cases rest with
      | nil =>
        simp only [Option.bind_some, Json.getAt, Option.some.injEq] at hg ⊢
        subst hg
        exact ⟨w1, rfl, hext⟩
      | cons k1 r => exact Ext.getAt (k1 :: r) hext hp.tail (List.cons_ne_nil _ _) hg

/-- The update of the entry under a key extends the document, when the key is in `bad` or
the new value extends the old one. -/
theorem Ext.of_modifyKey {bad : List Str} {j j1 : Json} {k : Str} {f : Json → Res Json}
    (h : j.modifyKey k f = .ok j1)
    (hf : ∀ w, f ((j.getKey k).getD .null) = .ok w →
      k ∈ bad ∨ Ext overlayKeys ((j.getKey k).getD .null) w) : Ext bad j j1 := by
  cases j with
  | null => exact Ext.empty _ _ _ rfl
  | obj kvs =>
    simp only [Json.modifyKey] at h
    simp only [Json.getKey] at hf
    cases hold : mapFind kvs k with
    | some old =>
      rw [hold] at h hf
      obtain ⟨w, hw, h⟩ := Res.bind_eq_ok.1 h
      cases h
      refine Ext.obj _ _ _ ?_ ?_
      · intro k1 hk1
        by_cases e : k1 = k
        · rw [e, mapFind_mapReplace_same kvs k w (by rw [hold]; rfl)]; rfl
        · rw [mapFind_mapReplace_other kvs k k1 w e]; exact hk1
      · intro k1 v v1 hv hv1 hb
        by_cases e : k1 = k
        · subst e
          rw [mapFind_mapReplace_same kvs k1 w (by rw [hold]; rfl)] at hv1
          rw [hold] at hv
          cases hv; cases hv1
          rcases hf w hw with hbad | hext
          · exact absurd hbad hb
          · exact hext
        · rw [mapFind_mapReplace_other kvs k k1 w e, hv] at hv1
          cases hv1
          exact Ext.refl _ _
    | none =>
      rw [hold] at h
      obtain ⟨w, hw, h⟩ := Res.bind_eq_ok.1 h
      cases h
      refine Ext.obj _ _ _ ?_ ?_
      · intro k1 hk1
        by_cases e : k1 = k
        · rw [e, mapFind_mapInsert_same kvs k w hold]; rfl
        · rw [mapFind_mapInsert_other kvs k k1 w e]; exact hk1
      · intro k1 v v1 hv hv1 hb
        by_cases e : k1 = k
        · subst e; rw [hold] at hv; cases hv
        · rw [mapFind_mapInsert_other kvs k k1 w e, hv] at hv1
          cases hv1
          exact Ext.refl _ _
  | uint _ => cases h
  | int _ => cases h
  | str _ => cases h
  | arr _ => cases h

/-- An insertion extends the document. -/
theorem Ext.of_emplace {bad : List Str} {j j1 : Json} {key : Str} {v : Json}
    (h : j.emplace key v = .ok j1) : Ext bad j j1 := by
  cases j with
  | null => exact Ext.empty _ _ _ rfl
  | obj kvs =>
    simp only [Json.emplace] at h
    by_cases hh : mapHas kvs key = true
    · rw [if_pos hh] at h; cases h; exact Ext.refl _ _
    · rw [if_neg hh] at h
      cases h
      have hnone : mapFind kvs key = none := by
        unfold mapHas at hh
        cases hm : mapFind kvs key with
        | none => rfl
        | some _ => rw [hm] at hh; exact absurd rfl hh
      refine Ext.obj _ _ _ ?_ ?_
      · intro k1 hk1
        by_cases e : k1 = key
        · rw [e, mapFind_mapInsert_same kvs key v hnone]; rfl
        · rw [mapFind_mapInsert_other kvs key k1 v e]; exact hk1
      · intro k1 w w1 hw hw1 _
        by_cases e : k1 = key
        · subst e; rw [hnone] at hw; cases hw
        · rw [mapFind_mapInsert_other kvs key k1 v e, hw] at hw1
          cases hw1
          exact Ext.refl _ _
  | uint _ => cases h
  | int _ => cases h
  | str _ => cases h
  | arr _ => cases h

/-- An update along a path extends the document when the update at the end extends the
value it finds. -/
theorem Ext.of_modifyAt : ∀ (path : List Str) {bad : List Str} {f : Json → Res Json}
    {j j1 : Json}, (∀ bad1 x w, f x = .ok w → Ext bad1 x w) → PathOk bad path →
    Json.modifyAt path f j = .ok j1 → Ext bad j j1
  | [], _, _, _, _, hf, _, h => hf _ _ _ h
  | k :: rest, bad, f, j, j1, hf, hp, h => by
    simp only [Json.modifyAt] at h
    exact Ext.of_modifyKey h (fun w hw => Or.inr (Ext.of_modifyAt rest hf hp.tail hw))

/-! ## Lemmas: updates that have nothing left to do -/

/-- An update of the entry under a key that leaves the entry as it is leaves the document as
it is. -/
theorem Json.modifyKey_fixed {u w : Json} {k : Str} {g : Json → Res Json}
    (hk : u.getKey k = some w) (hg : g w = .ok w) : u.modifyKey k g = .ok u := by
  cases u with
  | obj kvs =>
    simp only [Json.getKey] at hk
    simp only [Json.modifyKey, hk, hg, Res.bind_ok]
    rw [mapReplace_same_value kvs k w hk]
  | null => cases hk
  | uint _ => cases hk
  | int _ => cases hk
  | str _ => cases hk
  | arr _ => cases hk

/-- An update along a path has nothing left to do on an extension of its result, when the
update at the end has nothing left to do on an extension of its result. -/
theorem settles_modifyAt : ∀ (path : List Str) {bad : List Str} {f : Json → Res Json}
    {j j1 u : Json}, (∀ bad1 x w w1, f x = .ok w → Ext bad1 w w1 → f w1 = .ok w1) →
    PathOk bad path → Json.modifyAt path f j = .ok j1 → Ext bad j1 u →
    Json.modifyAt path f u = .ok u
  | [], _, _, _, _, _, hf, _, h, he => hf _ _ _ _ h he
  | k :: rest, bad, f, j, j1, u, hf, hp, h, he => by
    simp only [Json.modifyAt] at h ⊢
    obtain ⟨w, hw, hg⟩ := Json.modifyKey_getKey h
    obtain ⟨w1, hw1, hor⟩ := he.getKey hg
    rcases hor with hb | hext
    · exact absurd hb hp.1
    exact Json.modifyKey_fixed hw1 (settles_modifyAt rest hf hp.tail hw hext)

/-- An insertion has nothing left to do on an extension of its result. -/
theorem settles_emplace (key : Str) (v : Json) (bad : List Str) (x w w1 : Json)
    (h : x.emplace key v = .ok w) (he : Ext bad w w1) : w1.emplace key v = .ok w1 := by
  have hk := he.hasKey (Json.emplace_hasKey h)
  cases w1 with
  | obj kvs =>
    simp only [Json.hasKey] at hk
    simp only [Json.emplace, hk, if_true]
  | null => cases hk
  | uint _ => cases hk
  | int _ => cases hk
  | str _ => cases hk
  | arr _ => cases hk

/-- Filling an empty value with a value that is not empty has nothing left to do on an
extension of its result. -/
theorem settles_fill (c : Res Json) (hc : ∀ v, c = .ok v → v.empty = false)
    (bad : List Str) (x w w1 : Json)
    (h : (if x.empty then c else .ok x) = .ok w) (he : Ext bad w w1) :
    (if w1.empty then c else .ok w1) = .ok w1 := by
  have hw : w.empty = false := by
    by_cases hx : x.empty = true
    · rw [if_pos hx] at h; exact hc w h
    · rw [if_neg hx] at h; cases h; simpa using hx
  rw [he.nonempty hw]
  rfl

/-! ## Lemmas: updates that keep the fields of the overlays -/

theorem keepsSlots_ok (bad : List Str) : KeepsSlots bad Res.ok := by
  intro σ v s s1 _ h hg
  cases h
  exact hg

theorem keepsSlots_modifyKey {bad : List Str} {k : Str} {g : Json → Res Json}
    (hk : k ∉ bad) (hg : KeepsSlots overlayKeys g) :
    KeepsSlots bad (fun j => j.modifyKey k g) := by
  intro σ v s s1 hσ h hget
  have h : s.modifyKey k g = .ok s1 := h
  match σ, hσ with
  | [k0], hσ =>
    have hne : k0 ≠ k := fun e => hk (e ▸ hσ)
    rw [Json.getAt_singleton] at hget ⊢
    rw [Json.modifyKey_getKey_other h hne]
    exact hget
  | k0 :: k1 :: r, hσ =>
    rw [Json.getAt_cons] at hget ⊢
    by_cases e : k0 = k
    · subst e
      obtain ⟨w, hw, hgk⟩ := Json.modifyKey_getKey h
      rw [hgk]
      cases hold : s.getKey k0 with
      | none => rw [hold] at hget; cases hget
      | some old =>
        rw [hold] at hget hw
        exact hg (k1 :: r) v old w hσ.2 hw hget
    · rw [Json.modifyKey_getKey_other h e]
      exact hget

theorem keepsSlots_emplace (bad : List Str) (key : Str) (v : Json) :
    KeepsSlots bad (fun j => j.emplace key v) := by
  intro σ x s s1 hσ h hget
  have h : s.emplace key v = .ok s1 := h
  match σ, hσ with
  | k0 :: r, _ =>
    rw [Json.getAt_cons] at hget ⊢
    by_cases e : k0 = key
    · subst e
      cases s with
      | obj kvs =>
        simp only [Json.emplace] at h
        by_cases hh : mapHas kvs k0 = true
        · rw [if_pos hh] at h; cases h; exact hget
        · have hnone : mapFind kvs k0 = none := by
            unfold mapHas at hh
            cases hm : mapFind kvs k0 with
            | none => rfl
            | some _ => rw [hm] at hh; exact absurd rfl hh
          simp only [Json.getKey, hnone] at hget
          cases hget
      | null => cases hget
      | uint _ => cases hget
      | int _ => cases hget
      | str _ => cases hget
      | arr _ => cases hget
    · rw [Json.emplace_getKey_other h e]
      exact hget

theorem keepsSlots_fill (bad : List Str) (c : Res Json) :
    KeepsSlots bad (fun x => if x.empty then c else .ok x) := by
  intro σ v s s1 hσ h hget
  have h : (if s.empty then c else .ok s) = .ok s1 := h
  by_cases hx : s.empty = true
  · match σ, hσ with
    | k0 :: r, _ => rw [Json.getAt_of_empty hx] at hget; cases hget
  · rw [if_neg hx] at h; cases h; exact hget

theorem keepsSlots_modifyAt : ∀ (path : List Str) {bad : List Str} {f : Json → Res Json},
    (∀ bad1, KeepsSlots bad1 f) → PathOk bad path →
    KeepsSlots bad (fun j => Json.modifyAt path f j)
  | [], bad, f, hf, _ => hf bad
  | k :: rest, bad, f, hf, hp => by
    have ih := keepsSlots_modifyAt rest hf hp.tail
    exact keepsSlots_modifyKey hp.1 ih

/-! ## Lemmas: assignments to the fields of the overlays -/

/-- A field of a document is a field of every extension. -/
theorem slot_of_ext : ∀ (σ : List Str) {bad : List Str} {s t : Json} {v : Json},
    Ext bad s t → Slot bad σ → Json.getAt σ s = some v → ∃ v1, Json.getAt σ t = some v1
  | [], _, _, _, _, _, hσ, _ => absurd hσ (by simp [Slot])
  | [k], bad, s, t, v, he, _, hg => by
    rw [Json.getAt_singleton] at hg ⊢
    obtain ⟨v1, hv1, _⟩ := he.getKey hg
    exact ⟨v1, hv1⟩
  | k0 :: k1 :: r, bad, s, t, v, he, hσ, hg => by
    rw [Json.getAt_cons] at hg ⊢
    cases hk : s.getKey k0 with
    | none => rw [hk] at hg; cases hg
    | some w =>
      rw [hk] at hg
      obtain ⟨w1, hw1, hor⟩ := he.getKey hk
      rw [hw1]
      rcases hor with hb | hext
      · exact absurd hb hσ.1
      · exact slot_of_ext (k1 :: r) hext hσ.2 hg

/-- An update at the end of a walk that finds every key completes when the update of the
value found does. -/
theorem modifyAt_exists : ∀ (σ : List Str) {g : Json → Res Json} {u x : Json},
    Json.getAt σ u = some x → (∃ y, g x = .ok y) → ∃ u1, Json.modifyAt σ g u = .ok u1
  | [], g, u, x, hg, hy => by
    simp only [Json.getAt, Option.some.injEq] at hg
    subst hg
    exact hy
  | k :: r, g, u, x, hg, hy => by
    rw [Json.getAt_cons] at hg
    cases u with
    | obj kvs =>
      simp only [Json.getKey] at hg
      cases hk : mapFind kvs k with
      | none => rw [hk] at hg; cases hg
      | some w =>
        rw [hk] at hg
        obtain ⟨w1, hw1⟩ := modifyAt_exists r hg hy
        exact ⟨.obj (mapReplace kvs k w1),
          by simp only [Json.modifyAt, Json.modifyKey, hk, hw1, Res.bind_ok]⟩
    | null => cases hg
    | uint _ => cases hg
    | int _ => cases hg
    | str _ => cases hg
    | arr _ => cases hg

/-- An assignment to a field extends the document. -/
theorem Ext.of_setSlot : ∀ (σ : List Str) {bad : List Str} {v j j1 : Json},
    Slot bad σ → Json.modifyAt σ (fun _ => .ok v) j = .ok j1 → Ext bad j j1
  | [], _, _, _, _, hσ, _ => absurd hσ (by simp [Slot])
  | [k], bad, v, j, j1, hσ, h => by
    simp only [Json.modifyAt] at h
    exact Ext.of_modifyKey h (fun _ _ => Or.inl hσ)
  | k0 :: k1 :: r, bad, v, j, j1, hσ, h => by
    rw [Json.modifyAt] at h
    exact Ext.of_modifyKey h (fun w hw => Or.inr (Ext.of_setSlot (k1 :: r) hσ.2 hw))

/-- An assignment to a field leaves the other fields alone. -/
theorem setSlot_frame : ∀ (σ σ2 : List Str) {bad : List Str} {v s s1 : Json},
    Slot bad σ → Slot bad σ2 → σ ≠ σ2 → Json.modifyAt σ (fun _ => .ok v) s = .ok s1 →
    Json.getAt σ2 s1 = Json.getAt σ2 s
  | [], _, _, _, _, _, hσ, _, _, _ => absurd hσ (by simp [Slot])
  | _ :: _, [], _, _, _, _, _, hσ2, _, _ => absurd hσ2 (by simp [Slot])
  | k :: r, k2 :: r2, bad, v, s, s1, hσ, hσ2, hne, h => by
    rw [Json.modifyAt] at h
    rw [Json.getAt_cons, Json.getAt_cons]
    by_cases e : k2 = k
    · subst e
      match r, r2, hσ, hσ2, hne, h with
      | [], [], _, _, hne, _ => exact absurd rfl hne
      | [], _ :: _, hσ, hσ2, _, _ => exact absurd hσ hσ2.1
      | _ :: _, [], hσ, hσ2, _, _ => exact absurd hσ2 hσ.1
      | k1 :: r, k3 :: r2, hσ, hσ2, hne, h =>
        obtain ⟨w, hw, hgk⟩ := Json.modifyKey_getKey h
        have hne2 : k1 :: r ≠ k3 :: r2 := fun e => hne (by rw [e])
        have ih := setSlot_frame (k1 :: r) (k3 :: r2) hσ.2 hσ2.2 hne2 hw
        rw [hgk]
        cases hold : s.getKey k2 with
        | none =>
          rw [hold] at ih
          simp only [Option.getD_none] at ih
          change Json.getAt (k3 :: r2) w = none
          rw [ih]
          rfl
        | some old =>
          rw [hold] at ih
          exact ih
    · rw [Json.modifyKey_getKey_other h e]

theorem Json.strip_obj (bad : List Str) (kvs : List (Str × Json)) :
    Json.strip bad (.obj kvs) = .obj (stripL bad [] kvs) := by
  rw [Json.strip]

theorem stripL_cons (bad seen : List Str) (k : Str) (v : Json) (rest : List (Str × Json)) :
    stripL bad seen ((k, v) :: rest) =
      (k, if k ∈ seen then v else if k ∈ bad then .null else v.strip overlayKeys) ::
        stripL bad (k :: seen) rest := by
  rw [stripL]

/-- Blanking hides what is stored under a key of `bad`. -/
theorem stripL_mapReplace_bad {bad : List Str} {k : Str} (v : Json) (hk : k ∈ bad) :
    ∀ (kvs : List (Str × Json)) (seen : List Str), k ∉ seen →
      stripL bad seen (mapReplace kvs k v) = stripL bad seen kvs
  | [], _, _ => rfl
  | (k1, v1) :: rest, seen, hs => by
    by_cases e : k1 = k
    · subst e
      simp only [mapReplace, if_true, stripL_cons, if_neg hs, if_pos hk]
    · simp only [mapReplace, if_neg e, stripL_cons]
      rw [stripL_mapReplace_bad v hk rest (k1 :: seen)
        (by simp only [List.mem_cons, not_or]; exact ⟨fun h => e h.symm, hs⟩)]

/-- Blanking does not see the replacement of a value by one that differs in blanked places
only. -/
theorem stripL_mapReplace_inner {bad : List Str} {k : Str} {old w : Json}
    (hw : w.strip overlayKeys = old.strip overlayKeys) :
    ∀ (kvs : List (Str × Json)) (seen : List Str), k ∉ seen → mapFind kvs k = some old →
      stripL bad seen (mapReplace kvs k w) = stripL bad seen kvs
  | [], _, _, h => by cases h
  | (k1, v1) :: rest, seen, hs, h => by
    by_cases e : k1 = k
    · subst e
      simp only [mapFind, if_true, Option.some.injEq] at h
      subst h
      simp only [mapReplace, if_true, stripL_cons, if_neg hs, hw]
    · simp only [mapFind, if_neg e] at h
      simp only [mapReplace, if_neg e, stripL_cons]
      rw [stripL_mapReplace_inner hw rest (k1 :: seen)
        (by simp only [List.mem_cons, not_or]; exact ⟨fun h => e h.symm, hs⟩) h]

/-- Blanking does not see an assignment to a field that is present. -/
theorem strip_setSlot : ∀ (σ : List Str) {bad : List Str} {v u u1 x : Json},
    Slot bad σ → Json.getAt σ u = some x → Json.modifyAt σ (fun _ => .ok v) u = .ok u1 →
    Json.strip bad u1 = Json.strip bad u
  | [], _, _, _, _, _, hσ, _, _ => absurd hσ (by simp [Slot])
  | [k], bad, v, u, u1, x, hσ, hg, h => by
    rw [Json.getAt_singleton] at hg
    cases u with
    | obj kvs =>
      simp only [Json.getKey] at hg
      simp only [Json.modifyAt, Json.modifyKey, hg, Res.bind_ok, Res.ok.injEq] at h
      subst h
      rw [Json.strip_obj, Json.strip_obj, stripL_mapReplace_bad v hσ kvs [] (by simp)]
    | null => cases hg
    | uint _ => cases hg
    | int _ => cases hg
    | str _ => cases hg
    | arr _ => cases hg
  | k0 :: k1 :: r, bad, v, u, u1, x, hσ, hg, h => by
    rw [Json.getAt_cons] at hg
    cases u with
    | obj kvs =>
      simp only [Json.getKey] at hg
      cases hk : mapFind kvs k0 with
      | none => rw [hk] at hg; cases hg
      | some old =>
        rw [hk] at hg
        rw [Json.modifyAt] at h
        simp only [Json.modifyKey, hk] at h
        obtain ⟨w, hw, h⟩ := Res.bind_eq_ok.1 h
        cases h
        have ih := strip_setSlot (k1 :: r) hσ.2 hg hw
        rw [Json.strip_obj, Json.strip_obj, stripL_mapReplace_inner ih kvs [] (by simp) hk]
    | null => cases hg
    | uint _ => cases hg
    | int _ => cases hg
    | str _ => cases hg
    | arr _ => cases hg

/-! ## Lemmas: a document is determined by its blanked form and its fields -/

theorem mapFind_cons_ne {k k1 : Str} (v : Json) (rest : List (Str × Json)) (h : k ≠ k1) :
    mapFind ((k, v) :: rest) k1 = mapFind rest k1 := by
  simp only [mapFind, if_neg h]

mutual
/-- Two documents with the same blanked form and the same fields are equal. -/
theorem strip_ext : ∀ (u t : Json) (bad : List Str), Json.strip bad u = Json.strip bad t →
    (∀ σ v, Slot bad σ → Json.getAt σ u = some v → Json.getAt σ t = some v) → u = t
  | .obj kvs, t, bad, hs, hslot => by
    cases t with
    | obj kvs1 =>
      rw [Json.strip_obj, Json.strip_obj] at hs
      have hl : stripL bad [] kvs = stripL bad [] kvs1 := by injection hs
      have := stripL_ext kvs kvs1 bad [] hl
        (fun k _ hb v hv => by
          have := hslot [k] v hb (by rw [Json.getAt_singleton]; exact hv)
          rw [Json.getAt_singleton] at this
          exact this)
        (fun k _ hb w w1 hw hw1 σ v hσ hg => by
          match σ, hσ with
          | k1 :: r, hσ =>
            have := hslot (k :: k1 :: r) v ⟨hb, hσ⟩
              (by rw [Json.getAt_cons]; simp only [Json.getKey, hw]; exact hg)
            rw [Json.getAt_cons] at this
            simp only [Json.getKey, hw1] at this
            exact this)
      rw [this]
    | null => rw [Json.strip_obj] at hs; cases hs
    | uint _ => rw [Json.strip_obj] at hs; cases hs
    | int _ => rw [Json.strip_obj] at hs; cases hs
    | str _ => rw [Json.strip_obj] at hs; cases hs
    | arr _ => rw [Json.strip_obj] at hs; cases hs
  | .null, t, bad, hs, _ => by
    cases t with
    | obj kvs1 => rw [Json.strip_obj] at hs; cases hs
    | null => rfl
    | uint _ => cases hs
    | int _ => cases hs
    | str _ => cases hs
    | arr _ => cases hs
  | .uint n, t, bad, hs, _ => by
    cases t with
    | obj kvs1 => rw [Json.strip_obj] at hs; cases hs
    | null => cases hs
    | uint _ => exact hs
    | int _ => cases hs
    | str _ => cases hs
    | arr _ => cases hs
  | .int n, t, bad, hs, _ => by
    cases t with
    | obj kvs1 => rw [Json.strip_obj] at hs; cases hs
    | null => cases hs
    | uint _ => cases hs
    | int _ => exact hs
    | str _ => cases hs
    | arr _ => cases hs
  | .str n, t, bad, hs, _ => by
    cases t with
    | obj kvs1 => rw [Json.strip_obj] at hs; cases hs
    | null => cases hs
    | uint _ => cases hs
    | int _ => cases hs
    | str _ => exact hs
    | arr _ => cases hs
  | .arr n, t, bad, hs, _ => by
    cases t with
    | obj kvs1 => rw [Json.strip_obj] at hs; cases hs
    | null => cases hs
    | uint _ => cases hs
    | int _ => cases hs
    | str _ => cases hs
    | arr _ => exact hs
/-- Two lists of entries with the same blanked form and the same fields are equal. -/
theorem stripL_ext : ∀ (kvs kvs1 : List (Str × Json)) (bad seen : List Str),
    stripL bad seen kvs = stripL bad seen kvs1 →
    (∀ k, k ∉ seen → k ∈ bad → ∀ v, mapFind kvs k = some v → mapFind kvs1 k = some v) →
    (∀ k, k ∉ seen → k ∉ bad → ∀ w w1, mapFind kvs k = some w → mapFind kvs1 k = some w1 →
      ∀ σ v, Slot overlayKeys σ → Json.getAt σ w = some v → Json.getAt σ w1 = some v) →
    kvs = kvs1
  | [], kvs1, bad, seen, hs, _, _ => by
    cases kvs1 with
    | nil => rfl
    | cons e rest => cases e; rw [stripL_cons] at hs; cases hs
  | (k, v) :: rest, kvs1, bad, seen, hs, h1, h2 => by
    cases kvs1 with
    | nil => rw [stripL_cons] at hs; cases hs
    | cons e rest1 =>
      obtain ⟨k1, v1⟩ := e
      rw [stripL_cons, stripL_cons] at hs
      injection hs with hhead htail
      injection hhead with hk hv
      subst hk
      have hval : v = v1 := by
        by_cases c1 : k ∈ seen
        · simpa only [if_pos c1] using hv
        · by_cases c2 : k ∈ bad
          · have := h1 k c1 c2 v (mapFind_head k v rest)
            rw [mapFind_head] at this
            exact (Option.some.inj this).symm
          · simp only [if_neg c1, if_neg c2] at hv
            exact strip_ext v v1 overlayKeys hv
              (fun σ x hσ hg => h2 k c1 c2 v v1 (mapFind_head k v rest)
                (mapFind_head k v1 rest1) σ x hσ hg)
      subst hval
      have htl : rest = rest1 := by
        apply stripL_ext rest rest1 bad (k :: seen) htail
        · intro k2 hk2 hb x hx
          simp only [List.mem_cons, not_or] at hk2
          have hne : k ≠ k2 := fun e => hk2.1 e.symm
          have := h1 k2 hk2.2 hb x (by rw [mapFind_cons_ne v rest hne]; exact hx)
          rw [mapFind_cons_ne v rest1 hne] at this
          exact this
        · intro k2 hk2 hb w w1 hw hw1
          simp only [List.mem_cons, not_or] at hk2
          have hne : k ≠ k2 := fun e => hk2.1 e.symm
          exact h2 k2 hk2.2 hb w w1 (by rw [mapFind_cons_ne v rest hne]; exact hw)
            (by rw [mapFind_cons_ne v rest1 hne]; exact hw1)
      rw [htl]
end

/-! ## Lemmas: the second run in step with the first -/

theorem pathOk_nil_bad {path : List Str} (h : ∀ x ∈ path.tail, x ∉ overlayKeys) :
    PathOk [] path := by
  cases path with
  | nil => trivial
  | cons k rest => exact ⟨by simp, h⟩

/-- A record of a document is a record of every extension. -/
theorem hasRecord_of_ext {s u : Json} {path : List Str} {key : Str} (he : Ext [] s u)
    (hp : PathOk [] path) (h : hasRecord s path key = true) : hasRecord u path key = true := by
  unfold hasRecord at h ⊢
  cases path with
  | nil =>
    simp only [Json.getAt] at h ⊢
    exact he.hasKey h
  | cons k rest =>
    cases hg : Json.getAt (k :: rest) s with
    | none => rw [hg] at h; cases h
    | some j =>
      rw [hg] at h
      obtain ⟨j1, hj1, hext⟩ := Ext.getAt (k :: rest) he hp (List.cons_ne_nil _ _) hg
      rw [hj1]
      exact hext.hasKey h

theorem tame_ok : Tame Res.ok := by
  refine ⟨?_, ?_, keepsSlots_ok []⟩
  · intro s s1 h; cases h; exact Ext.refl _ _
  · intro s s1 u h _; rfl

/-- The insertion of a record at the end of a path only adds. -/
theorem tame_emplaceAt {path : List Str} (hp : PathOk [] path) (key : Str) (v : Json) :
    Tame (fun o => Json.modifyAt path (fun x => x.emplace key v) o) := by
  refine ⟨?_, ?_, ?_⟩
  · intro s s1 h
    exact Ext.of_modifyAt path (fun _ _ _ hx => Ext.of_emplace hx) hp h
  · intro s s1 u h he
    exact settles_modifyAt path (settles_emplace key v) hp h he
  · exact keepsSlots_modifyAt path (fun b => keepsSlots_emplace b key v) hp

/-- The walk along a path only adds. -/
theorem tame_touch {path : List Str} (hp : PathOk [] path) :
    Tame (fun o => Json.touch path o) := by
  refine ⟨?_, ?_, ?_⟩
  · intro s s1 h
    exact Ext.of_modifyAt path (fun _ _ _ hx => by cases hx; exact Ext.refl _ _) hp h
  · intro s s1 u h he
    exact settles_modifyAt path (fun _ _ _ _ _ _ => rfl) hp h he
  · exact keepsSlots_modifyAt path (fun b => keepsSlots_ok b) hp

/-- Filling the value at the end of a path, if it is empty, only adds. -/
theorem tame_fillAt {path : List Str} (hp : PathOk [] path) (c : Res Json)
    (hc : ∀ v, c = .ok v → v.empty = false) :
    Tame (fun o => Json.modifyAt path (fun x => if x.empty then c else .ok x) o) := by
  refine ⟨?_, ?_, ?_⟩
  · intro s s1 h
    refine Ext.of_modifyAt path (fun b x w hx => ?_) hp h
    by_cases he : x.empty = true
    · exact Ext.empty _ _ _ he
    · rw [if_neg he] at hx; cases hx; exact Ext.refl _ _
  · intro s s1 u h he
    exact settles_modifyAt path (settles_fill c hc) hp h he
  · exact keepsSlots_modifyAt path (fun b => keepsSlots_fill b c) hp

/-- Parsing a declaration unless its record is there only adds, when parsing the declaration
only adds or never completes. -/
theorem tame_unlessRecord {path : List Str} (hp : PathOk [] path) (key : Str)
    {P : Json → Res Json} (hP : (∀ x r, P x ≠ .ok r) ∨ Tame P) :
    Tame (fun o => if hasRecord o path key then .ok o else P o) := by
  refine ⟨?_, ?_, ?_⟩
  · intro s s1 h
    by_cases c : hasRecord s path key = true
    · simp only [c, if_true] at h; cases h; exact Ext.refl _ _
    · simp only [c] at h
      rcases hP with hn | ht
      · exact absurd h (hn _ _)
      · exact ht.1 s s1 h
  · intro s s1 u h he
    by_cases cu : hasRecord u path key = true
    · simp only [cu, if_true]
    · simp only [cu]
      by_cases c : hasRecord s path key = true
      · simp only [c, if_true] at h; cases h
        exact absurd (hasRecord_of_ext he hp c) cu
      · simp only [c] at h
        rcases hP with hn | ht
        · exact absurd h (hn _ _)
        · exact ht.2.1 s s1 u h he
  · intro σ v s s1 hσ h hg
    by_cases c : hasRecord s path key = true
    · simp only [c, if_true] at h; cases h; exact hg
    · simp only [c] at h
      rcases hP with hn | ht
      · exact absurd h (hn _ _)
      · exact ht.2.2 σ v s s1 hσ h hg

theorem good_never {T1 : Json} {f : Json → Res Json} (h : ∀ s s1, f s ≠ .ok s1) :
    Good T1 f :=
  ⟨fun s s1 hs => absurd hs (h s s1), fun s s1 _ hs => absurd hs (h s s1)⟩

/-- An update that only adds can be repeated in the second run, where it changes
nothing. -/
theorem good_of_tame {T1 : Json} {f : Json → Res Json} (h : Tame f) : Good T1 f := by
  refine ⟨h.1, ?_⟩
  intro s s1 u hs he1 hinv
  obtain ⟨hTu, hstrip, hslots⟩ := hinv
  refine ⟨u, h.2.1 s s1 u hs (he1.trans hTu), hTu, hstrip, ?_⟩
  intro σ v hσ hg
  rcases hslots σ v hσ hg with e | e
  · exact Or.inl e
  · exact Or.inr (h.2.2 σ v s s1 hσ hs e)

theorem good_ok {T1 : Json} : Good T1 (fun o => Res.ok o) := good_of_tame tame_ok

/-- Two updates in a row. -/
theorem good_seq {T1 : Json} {f g : Json → Res Json} (hf : Good T1 f) (hg : Good T1 g) :
    Good T1 (fun o => Res.bind (f o) g) := by
  refine ⟨?_, ?_⟩
  · intro s s2 h
    obtain ⟨s1, h1, h2⟩ := Res.bind_eq_ok.1 h
    exact (hf.1 s s1 h1).trans (hg.1 s1 s2 h2)
  · intro s s2 u h he hinv
    obtain ⟨s1, h1, h2⟩ := Res.bind_eq_ok.1 h
    obtain ⟨u1, hu1, hinv1⟩ := hf.2 s s1 u h1 ((hg.1 s1 s2 h2).trans he) hinv
    obtain ⟨u2, hu2, hinv2⟩ := hg.2 s1 s2 u1 h2 he hinv1
    exact ⟨u2, by simp only [hu1, Res.bind_ok, hu2], hinv2⟩

/-- An update after a computation that does not read the document. -/
theorem good_pure {T1 : Json} {α : Type} (x : Res α) (F : α → Json → Res Json)
    (h : ∀ a, x = .ok a → Good T1 (F a)) : Good T1 (fun o => Res.bind x (fun a => F a o)) := by
  cases x with
  | ok a => exact h a rfl
  | fault => exact good_never (fun s s1 hs => by cases hs)
  | timeout => exact good_never (fun s s1 hs => by cases hs)

theorem good_ite {T1 : Json} (c : Prop) [Decidable c] {f g : Json → Res Json}
    (hf : c → Good T1 f) (hg : ¬ c → Good T1 g) : Good T1 (fun o => if c then f o else g o) := by
  by_cases hc : c
  · simp only [if_pos hc]; exact hf hc
  · simp only [if_neg hc]; exact hg hc

/-- A loop of updates. -/
theorem good_foldl {T1 : Json} {α : Type} (step : Json → α → Res Json) :
    ∀ (l : List α), (∀ a ∈ l, Good T1 (fun o => step o a)) →
      Good T1 (fun o => Res.foldl step o l)
  | [], _ => good_ok
  | a :: rest, h => by
    have h1 := h a (List.mem_cons_self _ _)
    have h2 := good_foldl step rest (fun b hb => h b (List.mem_cons_of_mem _ hb))
    exact good_seq h1 h2

/-- An assignment to a field that an overlay assigns to can be repeated in the second
run. -/
theorem good_setSlot {T1 : Json} {σ : List Str} (hσ : Slot [] σ) (v : Json) :
    Good T1 (fun o => Json.modifyAt σ (fun _ => .ok v) o) := by
  refine ⟨fun s s1 h => Ext.of_setSlot σ hσ h, ?_⟩
  intro s s1 u hs he1 hinv
  obtain ⟨hTu, hstrip, hslots⟩ := hinv
  obtain ⟨w, hw, hget⟩ := Json.modifyAt_getAt σ _ s s1 hs
  cases hw
  obtain ⟨x, hx⟩ := slot_of_ext σ (he1.trans hTu) hσ hget
  obtain ⟨u1, hu1⟩ := @modifyAt_exists σ (fun _ => .ok v) u x hx ⟨v, rfl⟩
  refine ⟨u1, hu1, hTu.trans (Ext.of_setSlot σ hσ hu1), ?_, ?_⟩
  · rw [strip_setSlot σ hσ hx hu1]; exact hstrip
  · intro σ2 v2 hσ2 hg
    by_cases e : σ2 = σ
    · subst e
      obtain ⟨w2, hw2, hget2⟩ := Json.modifyAt_getAt σ2 _ u u1 hu1
      cases hw2
      rw [hget2] at hg
      rw [hget]
      exact Or.inr hg
    · have hne : σ ≠ σ2 := fun h => e h.symm
      rw [setSlot_frame σ σ2 hσ hσ2 hne hu1] at hg
      rw [setSlot_frame σ σ2 hσ hσ2 hne hs]
      exact hslots σ2 v2 hσ2 hg

/-- The path to a field of a record. -/
theorem slot_append {k : Str} (hk : k ∈ overlayKeys) : ∀ (p : List Str) (bad : List Str),
    p ≠ [] → PathOk bad p → Slot bad (p ++ [k])
  | [], _, hne, _ => absurd rfl hne
  | [_], _, _, hp => ⟨hp.1, hk⟩
  | _ :: k1 :: r, _, _, hp =>
    ⟨hp.1, slot_append hk (k1 :: r) overlayKeys (List.cons_ne_nil _ _) hp.tail⟩

/-- The assignment of a field of the record at the end of a path. -/
theorem good_setKeyAt {T1 : Json} {p : List Str} (hne : p ≠ []) (hp : PathOk [] p) {k : Str}
    (hk : k ∈ overlayKeys) (v : Json) :
    Good T1 (fun o => Json.modifyAt p (fun x => x.setKey k v) o) := by
  have h := @good_setSlot T1 (p ++ [k]) (slot_append hk p [] hne hp) v
  have e : (fun o => Json.modifyAt (p ++ [k]) (fun _ => .ok v) o) =
      fun o => Json.modifyAt p (fun x => x.setKey k v) o := by
    funext o
    rw [Json.modifyAt_append]
    rfl
  rw [e] at h
  exact h

/-- The final document of a run that can be repeated is reproduced by the second run. -/
theorem good_idempotent {T1 T : Json} {f : Json → Res Json} (h : Good T1 f)
    (hrun : f T = .ok T1) : f T1 = .ok T1 := by
  obtain ⟨u1, hu1, hTu, hstrip, hslots⟩ := h.2 T T1 T1 hrun (Ext.refl _ _)
    ⟨Ext.refl _ _, rfl, fun σ v _ hg => Or.inl hg⟩
  have : u1 = T1 := strip_ext u1 T1 [] hstrip (fun σ v hσ hg => (hslots σ v hσ hg).elim id id)
  rw [this] at hu1
  exact hu1

/-! ## Lemmas: the keys of a storage path are no overlay keys -/

theorem not_overlay_of_space {k : Str} (h : ' ' ∈ k) : k ∉ overlayKeys := by
  intro hk
  have : ∀ o ∈ overlayKeys, ' ' ∉ o := by decide
  exact this k hk h

theorem not_overlay_of_x {k : Str} (h : 'x' ∈ k) : k ∉ overlayKeys := by
  intro hk
  have : ∀ o ∈ overlayKeys, 'x' ∉ o := by decide
  exact this k hk h

theorem storeKeyOf_not_overlay (line : Nat) (kind : String) (name : Str) :
    storeKeyOf line kind name ∉ overlayKeys := by
  apply not_overlay_of_space
  unfold storeKeyOf
  simp

theorem not_overlay_append {ret : List Str} {k : Str} (hret : ∀ x ∈ ret, x ∉ overlayKeys)
    (hk : k ∉ overlayKeys) : ∀ x ∈ ret ++ [k], x ∉ overlayKeys := by
  intro x hx
  rcases List.mem_append.1 hx with h | h
  · exact hret x h
  · rw [List.mem_singleton.1 h]; exact hk

/-- The keys that the ancestor loop emits are no overlay keys. -/
theorem findWhereToStoreLoop_keys (env : Env) (declFiles : List Str) :
    ∀ (fuel : Nat) (parents : List Die) (idx : Nat) (declFile : Str) (ret path : List Str),
      findWhereToStoreLoop env declFiles fuel parents idx declFile ret = .ok path →
      (∀ x ∈ ret, x ∉ overlayKeys) → ∀ x ∈ path.tail, x ∉ overlayKeys := by
  intro fuel
  induction fuel with
  | zero =>
    intro parents idx declFile ret path h hret
    cases parents with
    | nil =>
      simp only [findWhereToStoreLoop, Res.ok.injEq] at h
      subst h
      intro x hx
      simp only [List.reverse_append, List.reverse_cons, List.reverse_nil, List.nil_append,
        List.singleton_append, List.tail_cons, List.mem_reverse] at hx
      exact hret x hx
    | cons p up => simp [findWhereToStoreLoop] at h
  | succ n ih =>
    intro parents idx declFile ret path h hret
    cases parents with
    | nil =>
      simp only [findWhereToStoreLoop, Res.ok.injEq] at h
      subst h
      intro x hx
      simp only [List.reverse_append, List.reverse_cons, List.reverse_nil, List.nil_append,
        List.singleton_append, List.tail_cons, List.mem_reverse] at hx
      exact hret x hx
    | cons p up =>
      rw [findWhereToStoreLoop] at h
      obtain ⟨name, _, h⟩ := Res.bind_eq_ok.1 h
      have hsp : ∀ (pre : String) (s : Str), ' ' ∈ pre.toList → (pre.toList ++ s) ∉ overlayKeys :=
        fun pre s hp => not_overlay_of_space (List.mem_append_left _ hp)
      split_ifs at h
      · exact ih _ _ _ _ _ h (not_overlay_append hret (hsp "namespace: " name (by decide)))
      · exact ih _ _ _ _ _ h (not_overlay_append hret (hsp "class: " name (by decide)))
      · exact ih _ _ _ _ _ h (not_overlay_append hret (hsp "struct: " name (by decide)))
      · exact ih _ _ _ _ _ h (not_overlay_append (not_overlay_append hret (by decide))
          (hsp "union: " name (by decide)))
      · have hfunc : ∀ (line : Nat) (s : Str),
            (fmt05 line ++ "-func: ".toList ++ s) ∉ overlayKeys := fun line s =>
          not_overlay_of_space (List.mem_append_left _ (List.mem_append_right _ (by decide)))
        split at h
        · obtain ⟨off, _, h⟩ := Res.bind_eq_ok.1 h
          obtain ⟨found, _, h⟩ := Res.bind_eq_ok.1 h
          cases found with
          | none => exact ih _ _ _ _ _ h hret
          | some s =>
            simp only at h
            obtain ⟨line, _, h⟩ := Res.bind_eq_ok.1 h
            obtain ⟨sn, _, h⟩ := Res.bind_eq_ok.1 h
            obtain ⟨file, _, h⟩ := Res.bind_eq_ok.1 h
            exact ih _ _ _ _ _ h (not_overlay_append (not_overlay_append hret (by decide))
              (hfunc line sn))
        · obtain ⟨line, _, h⟩ := Res.bind_eq_ok.1 h
          obtain ⟨fn, _, h⟩ := Res.bind_eq_ok.1 h
          exact ih _ _ _ _ _ h (not_overlay_append (not_overlay_append hret (by decide))
            (hfunc line fn))
      · exact ih _ _ _ _ _ h (not_overlay_append hret
          (not_overlay_of_x (List.mem_append_right _ (by decide))))
      · exact ih _ _ _ _ _ h hret

/-- A storage path goes through no overlay key below its first key. -/
theorem findWhereToStore_pathOk {fuel : Nat} {env : Env} {compileUnit : CU} {DIE : DieRef}
    {path : List Str} (h : findWhereToStore fuel env compileUnit DIE = .ok path) :
    PathOk [] path := by
  apply pathOk_nil_bad
  unfold findWhereToStore at h
  split at h
  · cases h; intro x hx; cases hx
  · dsimp only at h
    split_ifs at h
    · cases h; intro x hx; cases hx
    · obtain ⟨file, _, h⟩ := Res.bind_eq_ok.1 h
      split_ifs at h
      · cases h; intro x hx; cases hx
      · exact findWhereToStoreLoop_keys env _ _ _ _ _ _ _ h (fun x hx => by cases hx)

/-- A path that is in order, followed by a key that is no overlay key. -/
theorem pathOk_append {p : List Str} (hp : PathOk [] p) {k : Str} (hk : k ∉ overlayKeys) :
    PathOk [] (p ++ [k]) := by
  cases p with
  | nil => exact ⟨by simp, fun x hx => by cases hx⟩
  | cons k0 rest =>
    refine ⟨by simp, ?_⟩
    intro x hx
    rcases List.mem_append.1 hx with h | h
    · exact hp.2 x h
    · rw [List.mem_singleton.1 h]; exact hk

/-! ## Lemmas: the parsers in the second run -/

theorem parseEnum_good (T1 : Json) (fuel : Nat) (env : Env) (compileUnit : CU)
    (enumDIE : DieRef) : Good T1 (parseEnum fuel env compileUnit enumDIE) := by
  show Good T1 (fun out => parseEnum fuel env compileUnit enumDIE out)
  unfold parseEnum
  refine good_pure _ _ (fun path hpath => ?_)
  refine good_ite _ (fun _ => good_ok) (fun _ => ?_)
  refine good_pure _ _ (fun e0 _ => ?_)
  refine good_pure _ _ (fun e1 _ => ?_)
  refine good_pure _ _ (fun ty _ => ?_)
  refine good_pure _ _ (fun e2 _ => ?_)
  refine good_pure _ _ (fun enumInfo _ => ?_)
  refine good_pure _ _ (fun line _ => ?_)
  refine good_pure _ _ (fun nm _ => ?_)
  exact good_of_tame (tame_emplaceAt (findWhereToStore_pathOk hpath) _ _)

theorem parseTypedef_good (T1 : Json) (fuel : Nat) (env : Env) (compileUnit : CU)
    (typedefDIE : DieRef) : Good T1 (parseTypedef fuel env compileUnit typedefDIE) := by
  show Good T1 (fun out => parseTypedef fuel env compileUnit typedefDIE out)
  unfold parseTypedef
  refine good_pure _ _ (fun path hpath => ?_)
  refine good_ite _ (fun _ => good_ok) (fun _ => ?_)
  refine good_pure _ _ (fun t0 _ => ?_)
  refine good_pure _ _ (fun t1 _ => ?_)
  refine good_pure _ _ (fun ty _ => ?_)
  refine good_pure _ _ (fun typedefInfo _ => ?_)
  refine good_pure _ _ (fun line _ => ?_)
  refine good_pure _ _ (fun nm _ => ?_)
  exact good_of_tame (tame_emplaceAt (findWhereToStore_pathOk hpath) _ _)

theorem parseInheritance_good (T1 : Json) (fuel : Nat) (env : Env) (compileUnit : CU)
    (inheriDIE : DieRef) : Good T1 (parseInheritance fuel env compileUnit inheriDIE) := by
  show Good T1 (fun out => parseInheritance fuel env compileUnit inheriDIE out)
  unfold parseInheritance
  cases inheriDIE.getParentDIE with
  | none => exact good_never (fun s s1 h => by cases h)
  | some parentDIE =>
    dsimp only
    refine good_pure _ _ (fun path hpath => ?_)
    refine good_ite _ (fun _ => good_ok) (fun _ => ?_)
    refine good_pure _ _ (fun pname _ => ?_)
    refine good_pure _ _ (fun loc _ => ?_)
    refine good_pure _ _ (fun ty _ => ?_)
    refine good_pure _ _ (fun acc _ => ?_)
    exact good_of_tame (tame_emplaceAt
      (pathOk_append (pathOk_append (findWhereToStore_pathOk hpath)
        (aggregateKey_not_overlay _ _)) (by decide)) _ _)

theorem parseClassTemplateParams_good (T1 : Json) (fuel : Nat) (env : Env) (compileUnit : CU)
    (templateDIE : DieRef) (htag : IsTemplateParamTag templateDIE.die.getTAG) :
    Good T1 (parseClassTemplateParams fuel env compileUnit templateDIE) := by
  show Good T1 (fun out => parseClassTemplateParams fuel env compileUnit templateDIE out)
  unfold parseClassTemplateParams
  cases templateDIE.getParentDIE with
  | none => exact good_never (fun s s1 h => by cases h)
  | some parent =>
    dsimp only
    refine good_pure _ _ (fun path hpath => ?_)
    refine good_ite _ (fun _ => good_ok) (fun _ => ?_)
    refine good_pure _ _ (fun pname _ => ?_)
    refine good_of_tame (tame_fillAt
      (pathOk_append (pathOk_append (findWhereToStore_pathOk hpath)
        (aggregateKey_not_overlay _ _)) (by decide)) _ ?_)
    intro v hv
    exact (@templateSlot_value fuel env templateDIE .null v htag hv).1

theorem tame_never {f : Json → Res Json} (h : ∀ x r, f x ≠ .ok r) : Tame f :=
  ⟨fun s s1 hs => absurd hs (h s s1), fun s s1 _ hs _ => absurd hs (h s s1),
    fun _ _ s s1 _ hs _ => absurd hs (h s s1)⟩

/-- A declaration of a variable only adds to the document. -/
theorem parseVariable_declaration_tame (m : Nat) (env : Env) (compileUnit : CU) (S : DieRef)
    (memberVariable : Bool) (hspec : S.die.findAttrByType DW_AT_specification = none) :
    Tame (parseVariable m env compileUnit S memberVariable) := by
  rcases parseVariable_declaration_shape m env compileUnit S memberVariable hspec with
    h | h | ⟨m1, path, line, nm, record, _, _, hpath, _, _, h⟩
  · exact tame_never h
  · rw [show parseVariable m env compileUnit S memberVariable = Res.ok from funext h]
    exact tame_ok
  · rw [show parseVariable m env compileUnit S memberVariable = _ from funext h]
    exact tame_emplaceAt (findWhereToStore_pathOk hpath) _ _

/-- A declaration of a function with only parameter children only adds to the document. -/
theorem parseFunction_declaration_tame (m : Nat) (env : Env) (compileUnit : CU) (S : DieRef)
    (hspec : S.die.findAttrByType DW_AT_specification = none)
    (hchildren : ∀ c ∈ S.die.getChildren, IsParamTag c.getTAG) :
    Tame (parseFunction m env compileUnit S) := by
  rcases parseFunction_declaration_shape m env compileUnit S hspec hchildren with
    h | h | ⟨m1, path, line, nm, record, _, _, hpath, _, _, h⟩
  · exact tame_never h
  · rw [show parseFunction m env compileUnit S = Res.ok from funext h]
    exact tame_ok
  · rw [show parseFunction m env compileUnit S = _ from funext h]
    exact tame_emplaceAt (findWhereToStore_pathOk hpath) _ _

theorem modifyAt_never {p : List Str} {f : Json → Res Json} (h : ∀ x y, f x ≠ .ok y)
    (j j1 : Json) : Json.modifyAt p f j ≠ .ok j1 := by
  intro hm
  obtain ⟨v, hv, _⟩ := Json.modifyAt_getAt p f j j1 hm
  exact h _ _ hv

/-- Two updates of the value at the end of the same path, one after the other. -/
theorem good_modifyAt_seq {T1 : Json} {p : List Str} {f g : Json → Res Json}
    (hf : Good T1 (fun o => Json.modifyAt p f o)) (hg : Good T1 (fun o => Json.modifyAt p g o)) :
    Good T1 (fun o => Json.modifyAt p (fun x => Res.bind (f x) g) o) := by
  have e : (fun o => Json.modifyAt p (fun x => Res.bind (f x) g) o) =
      fun o => Res.bind (Json.modifyAt p f o) (fun o1 => Json.modifyAt p g o1) := by
    funext o
    exact (Json.modifyAt_comp p f g o).symm
  rw [e]
  exact good_seq hf hg

theorem good_touch {T1 : Json} {p : List Str} (hp : PathOk [] p) :
    Good T1 (fun o => Json.modifyAt p (fun x => Res.ok x) o) :=
  good_of_tame (tame_touch hp)

/-- One round of the overlay of a variable, laid over the record at the end of a path. -/
theorem good_varOverlayAttrAt {T1 : Json} {p : List Str} (hne : p ≠ []) (hp : PathOk [] p)
    (env : Env) (attr : Attr) :
    Good T1 (fun o => Json.modifyAt p (fun x => varOverlayAttr env x attr) o) := by
  unfold varOverlayAttr
  dsimp only
  by_cases c1 : attr.mType = DW_AT_location
  · simp only [if_pos c1]
    cases attr.getLoc0 with
    | ok op => exact good_of_tame (tame_emplaceAt hp _ _)
    | fault => exact good_never (modifyAt_never (fun x y h => by cases h))
    | timeout => exact good_never (modifyAt_never (fun x y h => by cases h))
  · simp only [if_neg c1]
    by_cases c2 : attr.mType = DW_AT_linkage_name
    · simp only [if_pos c2]
      cases attr.getStr with
      | ok v => exact good_setKeyAt hne hp (by decide) _
      | fault => exact good_never (modifyAt_never (fun x y h => by cases h))
      | timeout => exact good_never (modifyAt_never (fun x y h => by cases h))
    · simp only [if_neg c2]
      exact good_touch hp

/-- The overlay of a variable, laid over the record at the end of a path. -/
theorem good_varOverlayAt {T1 : Json} {p : List Str} (hne : p ≠ []) (hp : PathOk [] p)
    (env : Env) : ∀ (attrs : List Attr),
    Good T1 (fun o => Json.modifyAt p (fun x => Res.foldl (varOverlayAttr env) x attrs) o)
  | [] => good_touch hp
  | a :: rest => by
    simp only [Res.foldl]
    exact good_modifyAt_seq (good_varOverlayAttrAt hne hp env a) (good_varOverlayAt hne hp env rest)

/-- The overlay of a function, laid over the record at the end of a path. -/
theorem good_funcOverlayAt {T1 : Json} {p : List Str} (hne : p ≠ []) (hp : PathOk [] p)
    (funcDIE : Die) (paramNames : List Str) :
    Good T1 (fun o => Json.modifyAt p (funcOverlay funcDIE paramNames) o) := by
  unfold funcOverlay
  refine good_modifyAt_seq ?_ (good_modifyAt_seq ?_ ?_)
  · by_cases c : paramNames ≠ []
    · simp only [if_pos c]
      exact good_setKeyAt hne hp (by decide) _
    · simp only [if_neg c]
      exact good_touch hp
  · cases funcDIE.findAttrByType DW_AT_linkage_name with
    | none => exact good_touch hp
    | some attr =>
      dsimp only
      cases attr.getStr with
      | ok v => exact good_setKeyAt hne hp (by decide) _
      | fault => exact good_never (modifyAt_never (fun x y h => by cases h))
      | timeout => exact good_never (modifyAt_never (fun x y h => by cases h))
  · exact good_setKeyAt hne hp (by decide) _

theorem good_unlessRecord {T1 : Json} {path : List Str} (hp : PathOk [] path) (key : Str)
    {P : Json → Res Json} (hP : Tame P) :
    Good T1 (fun o => if hasRecord o path key then .ok o else P o) :=
  good_of_tame (tame_unlessRecord hp key (Or.inr hP))

/-- The specification found for a DIE whose specification is a declaration. -/
theorem specIsDeclaration_found {env : Env} {x : Die} {a : Attr} {off : Nat} {S : DieRef}
    (h : specIsDeclaration env x = true)
    (ha : x.findAttrByType DW_AT_specification = some a) (hoff : a.getU64 = .ok off)
    (hS : env.mDbg.findDIEbyOffset off = .ok (some S)) :
    S.die.findAttrByType DW_AT_specification = none ∧
      (x.getTAG = DW_TAG_subprogram → ∀ c ∈ S.die.getChildren, IsParamTag c.getTAG) := by
  unfold specIsDeclaration at h
  simp only [ha, hoff, hS, Bool.and_eq_true, Bool.or_eq_true, decide_eq_true_eq,
    List.all_eq_true, Option.isNone_iff_eq_none] at h
  refine ⟨h.1, fun ht c hc => ?_⟩
  rcases h.2 with h2 | h2
  · exact absurd ht h2
  · exact h2 c hc

theorem parseVariable_good (T1 : Json) (fuel : Nat) (env : Env) (compileUnit : CU)
    (varDIE : DieRef) (memberVariable : Bool)
    (hd : specIsDeclaration env varDIE.die = true) :
    Good T1 (parseVariable fuel env compileUnit varDIE memberVariable) := by
  cases fuel with
  | zero => exact good_never (fun s s1 h => by simp [parseVariable] at h)
  | succ n =>
    show Good T1 (fun out => parseVariable (n + 1) env compileUnit varDIE memberVariable out)
    simp only [parseVariable]
    cases ha : varDIE.die.findAttrByType DW_AT_specification with
    | none =>
      dsimp only
      refine good_pure _ _ (fun path hpath => ?_)
      refine good_ite _ (fun _ => good_ok) (fun _ => ?_)
      refine good_pure _ _ (fun variableInfo _ => ?_)
      refine good_pure _ _ (fun line _ => ?_)
      refine good_pure _ _ (fun nm _ => ?_)
      exact good_of_tame (tame_emplaceAt (findWhereToStore_pathOk hpath) _ _)
    | some a =>
      dsimp only
      refine good_pure _ _ (fun off hoff => ?_)
      refine good_pure _ _ (fun found hfound => ?_)
      cases found with
      | none => exact good_ok
      | some S =>
        dsimp only
        have hS := specIsDeclaration_found hd ha hoff hfound
        refine good_pure _ _ (fun path hpath => ?_)
        refine good_ite _ (fun _ => good_ok) (fun hne => ?_)
        refine good_pure _ _ (fun line _ => ?_)
        refine good_pure _ _ (fun nm _ => ?_)
        have hp := findWhereToStore_pathOk hpath
        refine good_seq (good_of_tame (tame_touch hp)) ?_
        refine good_seq (good_unlessRecord hp _
          (parseVariable_declaration_tame n env compileUnit S _ hS.1)) ?_
        exact good_varOverlayAt (by simp) (pathOk_append hp (storeKeyOf_not_overlay _ _ _)) env _

theorem mem_descendantsOf : ∀ (cs : List Die) (c : Die), c ∈ cs →
    c ∈ descendantsOf cs ∧ ∀ x ∈ c.descendants, x ∈ descendantsOf cs
  | [], _, h => by cases h
  | c0 :: rest, c, h => by
    rw [descendantsOf]
    rcases List.mem_cons.1 h with e | e
    · subst e
      exact ⟨List.mem_cons_self _ _,
        fun x hx => List.mem_cons_of_mem _ (List.mem_append_left _ hx)⟩
    · obtain ⟨h1, h2⟩ := mem_descendantsOf rest c e
      exact ⟨List.mem_cons_of_mem _ (List.mem_append_right _ h1),
        fun x hx => List.mem_cons_of_mem _ (List.mem_append_right _ (h2 x hx))⟩

theorem Die.descendants_eq (d : Die) : d.descendants = descendantsOf d.getChildren := by
  cases d with
  | mk o t a cs => rw [Die.descendants]; rfl

/-- The condition on specifications is inherited by the children. -/
theorem specsOk_child {env : Env} {d c : Die} (h : SpecsOk env d) (hc : c ∈ d.getChildren) :
    SpecsOk env c := by
  intro x hx
  apply h x
  rw [Die.descendants_eq]
  obtain ⟨h1, h2⟩ := mem_descendantsOf d.getChildren c hc
  rcases List.mem_cons.1 hx with e | e
  · rw [e]; exact List.mem_cons_of_mem _ h1
  · exact List.mem_cons_of_mem _ (h2 x e)

theorem specsOk_self {env : Env} {d : Die} (h : SpecsOk env d) :
    specIsDeclaration env d = true := h d (List.mem_cons_self _ _)

/-- The dispatcher, `parseFunction` and `parseUnion` can be repeated in the second run, when
the specifications named at or below the DIE are declarations. -/
theorem parse_good (T1 : Json) : ∀ (fuel : Nat),
    (∀ (env : Env) (compileUnit : CU) (DIE : DieRef), SpecsOk env DIE.die →
      Good T1 (parseDIE fuel env compileUnit DIE)) ∧
    (∀ (env : Env) (compileUnit : CU) (DIE : DieRef), DIE.die.getTAG = DW_TAG_subprogram →
      SpecsOk env DIE.die → Good T1 (parseFunction fuel env compileUnit DIE)) ∧
    (∀ (env : Env) (compileUnit : CU) (DIE : DieRef), SpecsOk env DIE.die →
      Good T1 (parseUnion fuel env compileUnit DIE)) := by
  intro fuel
  induction fuel with
  | zero =>
    refine ⟨?_, ?_, ?_⟩
    · intro env compileUnit DIE _
      exact good_never (fun s s1 h => by simp [parseDIE] at h)
    · intro env compileUnit DIE _ _
      exact good_never (fun s s1 h => by simp [parseFunction] at h)
    · intro env compileUnit DIE _
      exact good_never (fun s s1 h => by simp [parseUnion] at h)
  | succ n ih =>
    obtain ⟨ihD, ihF, ihU⟩ := ih
    have hdesc : ∀ (env : Env) (compileUnit : CU) (DIE : DieRef) (l : List Die),
        SpecsOk env DIE.die → (∀ c ∈ l, c ∈ DIE.die.getChildren) →
        Good T1 (fun j =>
          Res.foldl (fun o childDIE => parseDIE n env compileUnit (DIE.child childDIE) o) j l) :=
      fun env compileUnit DIE l hok hl =>
        good_foldl _ l (fun a ha => ihD env compileUnit (DIE.child a) (specsOk_child hok (hl a ha)))
    refine ⟨?_, ?_, ?_⟩
    · intro env compileUnit DIE hok
      show Good T1 (fun out => parseDIE (n + 1) env compileUnit DIE out)
      simp only [parseDIE]
      by_cases c1 : DIE.die.getTAG = DW_TAG_namespace
      · simp only [if_pos c1]
        refine good_pure _ _ (fun dieName _ => ?_)
        exact good_ite _ (fun _ => good_ok) (fun _ => hdesc env compileUnit DIE _ hok (fun _ h => h))
      simp only [if_neg c1]
      by_cases c2 : DIE.die.getTAG = DW_TAG_class_type ∨ DIE.die.getTAG = DW_TAG_structure_type ∨
          DIE.die.getTAG = DW_TAG_lexical_block
      · simp only [if_pos c2]
        exact hdesc env compileUnit DIE _ hok (fun _ h => h)
      simp only [if_neg c2]
      by_cases c3 : DIE.die.getTAG = DW_TAG_subprogram
      · simp only [if_pos c3]
        exact ihF env compileUnit DIE c3 hok
      simp only [if_neg c3]
      by_cases c4 : DIE.die.getTAG = DW_TAG_enumeration_type
      · simp only [if_pos c4]
        exact parseEnum_good T1 n env compileUnit DIE
      simp only [if_neg c4]
      by_cases c5 : DIE.die.getTAG = DW_TAG_union_type
      · simp only [if_pos c5]
        exact ihU env compileUnit DIE hok
      simp only [if_neg c5]
      by_cases c6 : DIE.die.getTAG = DW_TAG_variable
      · simp only [if_pos c6]
        exact parseVariable_good T1 n env compileUnit DIE false (specsOk_self hok)
      simp only [if_neg c6]
      by_cases c7 : DIE.die.getTAG = DW_TAG_member
      · simp only [if_pos c7]
        exact parseVariable_good T1 n env compileUnit DIE true (specsOk_self hok)
      simp only [if_neg c7]
      by_cases c8 : DIE.die.getTAG = DW_TAG_typedef
      · simp only [if_pos c8]
        exact parseTypedef_good T1 n env compileUnit DIE
      simp only [if_neg c8]
      by_cases c9 : DIE.die.getTAG = DW_TAG_inheritance
      · simp only [if_pos c9]
        exact parseInheritance_good T1 n env compileUnit DIE
      simp only [if_neg c9]
      by_cases c10 : DIE.die.getTAG = DW_TAG_GNU_template_parameter_pack ∨
          DIE.die.getTAG = DW_TAG_template_type_param ∨
          DIE.die.getTAG = DW_TAG_template_value_param
      · simp only [if_pos c10]
        exact parseClassTemplateParams_good T1 n env compileUnit DIE c10
      simp only [if_neg c10]
      exact good_ok
    · intro env compileUnit DIE htag hok
      show Good T1 (fun out => parseFunction (n + 1) env compileUnit DIE out)
      simp only [parseFunction]
      refine good_pure _ _ (fun ownName _ => ?_)
      refine good_ite _ (fun _ => good_ok) (fun _ => ?_)
      cases ha : DIE.die.findAttrByType DW_AT_specification with
      | none =>
        dsimp only
        refine good_pure _ _ (fun path hpath => ?_)
        refine good_ite _ (fun _ => good_ok) (fun _ => ?_)
        refine good_pure _ _ (fun line _ => ?_)
        refine good_pure _ _ (fun nm _ => ?_)
        refine good_pure _ _ (fun built hbuilt => ?_)
        refine good_seq (good_of_tame (tame_emplaceAt (findWhereToStore_pathOk hpath) _ _)) ?_
        exact hdesc env compileUnit DIE _ hok (funcRecord_later_mem hbuilt)
      | some a =>
        dsimp only
        refine good_pure _ _ (fun off hoff => ?_)
        refine good_pure _ _ (fun found hfound => ?_)
        cases found with
        | none => exact good_ok
        | some S =>
          dsimp only
          have hS := specIsDeclaration_found (specsOk_self hok) ha hoff hfound
          refine good_pure _ _ (fun path hpath => ?_)
          refine good_ite _ (fun _ => good_ok) (fun hne => ?_)
          refine good_pure _ _ (fun line _ => ?_)
          refine good_pure _ _ (fun nm _ => ?_)
          refine good_pure _ _ (fun scan hscan => ?_)
          have hp := findWhereToStore_pathOk hpath
          refine good_seq (good_of_tame (tame_touch hp)) ?_
          refine good_seq (good_unlessRecord hp _
            (parseFunction_declaration_tame n env compileUnit S hS.1 (hS.2 htag))) ?_
          refine good_seq (good_funcOverlayAt (by simp)
            (pathOk_append hp (storeKeyOf_not_overlay _ _ _)) _ _) ?_
          refine hdesc env compileUnit DIE _ hok ?_
          intro c hc
          rw [(specChild_foldl_spec _ _ _ hscan).2.2] at hc
          exact (List.mem_filter.1 hc).1
    · intro env compileUnit DIE hok
      show Good T1 (fun out => parseUnion (n + 1) env compileUnit DIE out)
      simp only [parseUnion]
      refine good_pure _ _ (fun path hpath => ?_)
      refine good_ite _ (fun _ => good_ok) (fun _ => ?_)
      refine good_pure _ _ (fun u0 _ => ?_)
      refine good_pure _ _ (fun unionInfo _ => ?_)
      refine good_pure _ _ (fun nm _ => ?_)
      refine good_seq (good_of_tame (tame_emplaceAt (findWhereToStore_pathOk hpath) _ _)) ?_
      exact hdesc env compileUnit DIE _ hok (fun _ h => h)

theorem specsOk_iff (env : Env) (d : Die) :
    specsAreDeclarations env d = true ↔ SpecsOk env d := by
  unfold specsAreDeclarations SpecsOk
  rw [List.all_eq_true]

/-! ## Lemmas: every dispatch extends the document -/

theorem infl_never {f : Json → Res Json} (h : ∀ s s1, f s ≠ .ok s1) : Infl f :=
  fun s s1 hs => absurd hs (h s s1)

theorem infl_ok : Infl (fun o => Res.ok o) := tame_ok.1

theorem infl_seq {f g : Json → Res Json} (hf : Infl f) (hg : Infl g) :
    Infl (fun o => Res.bind (f o) g) := by
  intro s s2 h
  obtain ⟨s1, h1, h2⟩ := Res.bind_eq_ok.1 h
  exact (hf s s1 h1).trans (hg s1 s2 h2)

theorem infl_pure {α : Type} (x : Res α) (F : α → Json → Res Json)
    (h : ∀ a, x = .ok a → Infl (F a)) : Infl (fun o => Res.bind x (fun a => F a o)) := by
  cases x with
  | ok a => exact h a rfl
  | fault => exact infl_never (fun s s1 hs => by cases hs)
  | timeout => exact infl_never (fun s s1 hs => by cases hs)

theorem infl_ite (c : Prop) [Decidable c] {f g : Json → Res Json}
    (hf : c → Infl f) (hg : ¬ c → Infl g) : Infl (fun o => if c then f o else g o) := by
  by_cases hc : c
  · simp only [if_pos hc]; exact hf hc
  · simp only [if_neg hc]; exact hg hc

theorem infl_foldl {α : Type} (step : Json → α → Res Json) :
    ∀ (l : List α), (∀ a ∈ l, Infl (fun o => step o a)) → Infl (fun o => Res.foldl step o l)
  | [], _ => infl_ok
  | a :: rest, h =>
    infl_seq (h a (List.mem_cons_self _ _))
      (infl_foldl step rest (fun b hb => h b (List.mem_cons_of_mem _ hb)))

theorem infl_unlessRecord (path : List Str) (key : Str) {P : Json → Res Json} (hP : Infl P) :
    Infl (fun o => if hasRecord o path key then .ok o else P o) := by
  intro s s1 h
  by_cases c : hasRecord s path key = true
  · simp only [c, if_true] at h; cases h; exact Ext.refl _ _
  · simp only [c] at h
    exact hP s s1 h

/-- The parser of variables extends the document. -/
theorem parseVariable_infl : ∀ (fuel : Nat) (env : Env) (compileUnit : CU) (varDIE : DieRef)
    (memberVariable : Bool), Infl (parseVariable fuel env compileUnit varDIE memberVariable) := by
  intro fuel
  induction fuel with
  | zero =>
    intro env compileUnit varDIE memberVariable
    exact infl_never (fun s s1 h => by simp [parseVariable] at h)
  | succ n ih =>
    intro env compileUnit varDIE memberVariable
    show Infl (fun out => parseVariable (n + 1) env compileUnit varDIE memberVariable out)
    simp only [parseVariable]
    cases varDIE.die.findAttrByType DW_AT_specification with
    | none =>
      dsimp only
      refine infl_pure _ _ (fun path hpath => ?_)
      refine infl_ite _ (fun _ => infl_ok) (fun _ => ?_)
      refine infl_pure _ _ (fun variableInfo _ => ?_)
      refine infl_pure _ _ (fun line _ => ?_)
      refine infl_pure _ _ (fun nm _ => ?_)
      exact (tame_emplaceAt (findWhereToStore_pathOk hpath) _ _).1
    | some a =>
      dsimp only
      refine infl_pure _ _ (fun off _ => ?_)
      refine infl_pure _ _ (fun found _ => ?_)
      cases found with
      | none => exact infl_ok
      | some S =>
        dsimp only
        refine infl_pure _ _ (fun path hpath => ?_)
        refine infl_ite _ (fun _ => infl_ok) (fun hne => ?_)
        refine infl_pure _ _ (fun line _ => ?_)
        refine infl_pure _ _ (fun nm _ => ?_)
        have hp := findWhereToStore_pathOk hpath
        refine infl_seq (tame_touch hp).1 ?_
        refine infl_seq (infl_unlessRecord _ _ (ih env compileUnit S _)) ?_
        exact (@good_varOverlayAt .null _ (by simp)
          (pathOk_append hp (storeKeyOf_not_overlay _ _ _)) env _).1

/-- The dispatcher, `parseFunction` and `parseUnion` extend the document: every key stays, a
value outside the fields of the overlays changes only by additions. -/
theorem parse_infl : ∀ (fuel : Nat),
    (∀ (env : Env) (compileUnit : CU) (DIE : DieRef), Infl (parseDIE fuel env compileUnit DIE)) ∧
    (∀ (env : Env) (compileUnit : CU) (DIE : DieRef),
      Infl (parseFunction fuel env compileUnit DIE)) ∧
    (∀ (env : Env) (compileUnit : CU) (DIE : DieRef),
      Infl (parseUnion fuel env compileUnit DIE)) := by
  intro fuel
  induction fuel with
  | zero =>
    refine ⟨?_, ?_, ?_⟩ <;> intro env compileUnit DIE
    · exact infl_never (fun s s1 h => by simp [parseDIE] at h)
    · exact infl_never (fun s s1 h => by simp [parseFunction] at h)
    · exact infl_never (fun s s1 h => by simp [parseUnion] at h)
  | succ n ih =>
    obtain ⟨ihD, ihF, ihU⟩ := ih
    have hdesc : ∀ (env : Env) (compileUnit : CU) (DIE : DieRef) (l : List Die),
        Infl (fun j =>
          Res.foldl (fun o childDIE => parseDIE n env compileUnit (DIE.child childDIE) o) j l) :=
      fun env compileUnit DIE l => infl_foldl _ l (fun a _ => ihD env compileUnit (DIE.child a))
    refine ⟨?_, ?_, ?_⟩ <;> intro env compileUnit DIE
    · show Infl (fun out => parseDIE (n + 1) env compileUnit DIE out)
      simp only [parseDIE]
      by_cases c1 : DIE.die.getTAG = DW_TAG_namespace
      · simp only [if_pos c1]
        refine infl_pure _ _ (fun dieName _ => ?_)
        exact infl_ite _ (fun _ => infl_ok) (fun _ => hdesc env compileUnit DIE _)
      simp only [if_neg c1]
      by_cases c2 : DIE.die.getTAG = DW_TAG_class_type ∨ DIE.die.getTAG = DW_TAG_structure_type ∨
          DIE.die.getTAG = DW_TAG_lexical_block
      · simp only [if_pos c2]
        exact hdesc env compileUnit DIE _
      simp only [if_neg c2]
      by_cases c3 : DIE.die.getTAG = DW_TAG_subprogram
      · simp only [if_pos c3]
        exact ihF env compileUnit DIE
      simp only [if_neg c3]
      by_cases c4 : DIE.die.getTAG = DW_TAG_enumeration_type
      · simp only [if_pos c4]
        exact (parseEnum_good .null n env compileUnit DIE).1
      simp only [if_neg c4]
      by_cases c5 : DIE.die.getTAG = DW_TAG_union_type
      · simp only [if_pos c5]
        exact ihU env compileUnit DIE
      simp only [if_neg c5]
      by_cases c6 : DIE.die.getTAG = DW_TAG_variable
      · simp only [if_pos c6]
        exact parseVariable_infl n env compileUnit DIE false
      simp only [if_neg c6]
      by_cases c7 : DIE.die.getTAG = DW_TAG_member
      · simp only [if_pos c7]
        exact parseVariable_infl n env compileUnit DIE true
      simp only [if_neg c7]
      by_cases c8 : DIE.die.getTAG = DW_TAG_typedef
      · simp only [if_pos c8]
        exact (parseTypedef_good .null n env compileUnit DIE).1
      simp only [if_neg c8]
      by_cases c9 : DIE.die.getTAG = DW_TAG_inheritance
      · simp only [if_pos c9]
        exact (parseInheritance_good .null n env compileUnit DIE).1
      simp only [if_neg c9]
      by_cases c10 : DIE.die.getTAG = DW_TAG_GNU_template_parameter_pack ∨
          DIE.die.getTAG = DW_TAG_template_type_param ∨
          DIE.die.getTAG = DW_TAG_template_value_param
      · simp only [if_pos c10]
        exact (parseClassTemplateParams_good .null n env compileUnit DIE c10).1
      simp only [if_neg c10]
      exact infl_ok
    · show Infl (fun out => parseFunction (n + 1) env compileUnit DIE out)
      simp only [parseFunction]
      refine infl_pure _ _ (fun ownName _ => ?_)
      refine infl_ite _ (fun _ => infl_ok) (fun _ => ?_)
      cases DIE.die.findAttrByType DW_AT_specification with
      | none =>
        dsimp only
        refine infl_pure _ _ (fun path hpath => ?_)
        refine infl_ite _ (fun _ => infl_ok) (fun _ => ?_)
        refine infl_pure _ _ (fun line _ => ?_)
        refine infl_pure _ _ (fun nm _ => ?_)
        refine infl_pure _ _ (fun built _ => ?_)
        refine infl_seq (tame_emplaceAt (findWhereToStore_pathOk hpath) _ _).1 ?_
        exact hdesc env compileUnit DIE _
      | some a =>
        dsimp only
        refine infl_pure _ _ (fun off _ => ?_)
        refine infl_pure _ _ (fun found _ => ?_)
        cases found with
        | none => exact infl_ok
        | some S =>
          dsimp only
          refine infl_pure _ _ (fun path hpath => ?_)
          refine infl_ite _ (fun _ => infl_ok) (fun hne => ?_)
          refine infl_pure _ _ (fun line _ => ?_)
          refine infl_pure _ _ (fun nm _ => ?_)
          refine infl_pure _ _ (fun scan _ => ?_)
          have hp := findWhereToStore_pathOk hpath
          refine infl_seq (tame_touch hp).1 ?_
          refine infl_seq (infl_unlessRecord _ _ (ihF env compileUnit S)) ?_
          refine infl_seq (@good_funcOverlayAt .null _ (by simp)
            (pathOk_append hp (storeKeyOf_not_overlay _ _ _)) _ _).1 ?_
          exact hdesc env compileUnit DIE _
    · show Infl (fun out => parseUnion (n + 1) env compileUnit DIE out)
      simp only [parseUnion]
      refine infl_pure _ _ (fun path hpath => ?_)
      refine infl_ite _ (fun _ => infl_ok) (fun _ => ?_)
      refine infl_pure _ _ (fun u0 _ => ?_)
      refine infl_pure _ _ (fun unionInfo _ => ?_)
      refine infl_pure _ _ (fun nm _ => ?_)
      refine infl_seq (tame_emplaceAt (findWhereToStore_pathOk hpath) _ _).1 ?_
      exact hdesc env compileUnit DIE _

/-- A record whose path is a storage path is kept by every dispatch. -/
theorem parseDIE_keeps_stored {fuel : Nat} {env : Env} {compileUnit : CU} {DIE : DieRef}
    {x y : Json} {path : List Str} (hp : PathOk [] path) (key : Str)
    (h : parseDIE fuel env compileUnit DIE x = .ok y) (hrec : hasRecord x path key = true) :
    hasRecord y path key = true :=
  hasRecord_of_ext ((parse_infl fuel).1 env compileUnit DIE x y h) hp hrec

/-! ## Lemmas: a declaration and its definition, in either order -/

/-- A declaration of a function with only parameter children and its definition may be
parsed in either order, when the document holds no record under the key of the
declaration. -/
theorem parseFunction_order (m : Nat) (env : Env) (compileUnit : CU) (S D : DieRef)
    (specAttr : Attr) (off : Nat) (path : List Str) (line : Nat) (nm : Str) (T R : Json)
    (hspecS : S.die.findAttrByType DW_AT_specification = none)
    (hchildren : ∀ c ∈ S.die.getChildren, IsParamTag c.getTAG)
    (hspec : D.die.findAttrByType DW_AT_specification = some specAttr)
    (hoff : specAttr.getU64 = .ok off) (hS : env.mDbg.findDIEbyOffset off = .ok (some S))
    (hpath : findWhereToStore m env compileUnit S = .ok path)
    (hline : declLineOf S.die = .ok line) (hnm : S.die.getName anonymousName = .ok nm)
    (habs : hasRecord T path (storeKeyOf line "func" nm) = false) :
    Res.bind (parseFunction m env compileUnit S T) (parseFunction (m + 1) env compileUnit D) =
        .ok R ↔
      Res.bind (parseFunction (m + 1) env compileUnit D T) (parseFunction m env compileUnit S) =
        .ok R := by
  rcases parseFunction_declaration_shape m env compileUnit S hspecS hchildren with
    hs | hs | ⟨m1, path1, line1, nm1, record, hm, _, hpath1, hline1, hnm1, hs⟩
  · exact (bind_order_of_never_ok hs T R).1
  · rw [bind_order_of_identity hs T]
  · have e1 : path1 = path := findWhereToStore_fuel env compileUnit S m1 m path1 path hpath1 hpath
    have e2 : line1 = line := Res.ok.inj (hline1.symm.trans hline)
    have e3 : nm1 = nm := Res.ok.inj (hnm1.symm.trans hnm)
    subst e1 e2 e3
    rcases parseFunction_definition_shape m env compileUnit D S specAttr off path1 line1 nm1
      hspec hoff hS hpath hline hnm with hd | hd | ⟨_, g, later, hd⟩
    · exact (bind_order_of_never_ok hd T R).2
    · rw [← bind_order_of_identity hd T]
    · have hSf : parseFunction m env compileUnit S =
          Json.modifyAt path1 (fun o => o.emplace (storeKeyOf line1 "func" nm1) record) :=
        funext hs
      have hDf : parseFunction (m + 1) env compileUnit D = fun x =>
          Res.bind (Json.touch path1 x) fun o1 =>
          Res.bind (if hasRecord o1 path1 (storeKeyOf line1 "func" nm1) then .ok o1
                    else Json.modifyAt path1
                      (fun o => o.emplace (storeKeyOf line1 "func" nm1) record) o1) fun o2 =>
          Res.bind (Json.modifyAt (path1 ++ [storeKeyOf line1 "func" nm1]) g o2) fun o3 =>
          Res.foldl (fun o die => parseDIE m env compileUnit (D.child die) o) o3 later := by
        funext x
        rw [hd x, hSf]
      rw [hSf, hDf]
      exact store_then_overlay path1 (storeKeyOf line1 "func" nm1) record g _ T habs
        (fun x y hxy hrec =>
          hasRecord_of_ext
            (infl_foldl _ later (fun a _ => (parse_infl m).1 env compileUnit (D.child a)) x y hxy)
            (findWhereToStore_pathOk hpath) hrec) R


/-! ## Lemmas: the record that an out-of-line definition leaves -/

theorem hasRecord_of_getAt_append {j r : Json} {p : List Str} {k : Str}
    (h : Json.getAt (p ++ [k]) j = some r) : hasRecord j p k = true := by
  rw [Json.getAt_append] at h
  unfold hasRecord
  cases hg : Json.getAt p j with
  | none => rw [hg] at h; cases h
  | some x =>
    rw [hg] at h
    change Json.getAt [k] x = some r at h
    rw [Json.getAt_singleton] at h
    show x.hasKey k = true
    rw [Json.hasKey_eq, h]
    rfl

theorem getAt_field {j r : Json} {p : List Str} {k field : Str}
    (h : Json.getAt (p ++ [k]) j = some r) :
    Json.getAt (p ++ [k, field]) j = r.getKey field := by
  have e : p ++ [k, field] = (p ++ [k]) ++ [field] := by simp
  rw [e, Json.getAt_append, h]
  exact Json.getAt_singleton field r

/-- One round of the child loop of `parseFunction` writes no field but `const_decorate`. -/
theorem funcChild_getKey_other {fuel : Nat} {env : Env} {F : DieRef} {sc sc1 : FuncScan}
    {c : Die} {k : Str} (hk : k ≠ "const_decorate".toList)
    (h : funcChild fuel env F sc c = .ok sc1) :
    sc1.funcInfo.getKey k = sc.funcInfo.getKey k := by
  unfold funcChild at h
  simp only [DieRef.child] at h
  by_cases t1 : c.getTAG = DW_TAG_formal_parameter
  · rw [if_pos t1] at h
    by_cases t2 : (c.findAttrByType DW_AT_artificial).isSome = true
    · rw [if_pos t2] at h
      obtain ⟨r, _, h⟩ := Res.bind_eq_ok.1 h
      obtain ⟨fi, hfi, h⟩ := Res.bind_eq_ok.1 h
      obtain ⟨nm, _, h⟩ := Res.bind_eq_ok.1 h
      cases h
      show fi.getKey k = sc.funcInfo.getKey k
      by_cases t3 : r.2 % 2 = 1
      · rw [if_pos t3] at hfi
        exact Json.setKey_getKey_other hfi hk
      · rw [if_neg t3] at hfi
        cases hfi
        rfl
    · rw [if_neg t2] at h
      obtain ⟨r, _, h⟩ := Res.bind_eq_ok.1 h
      obtain ⟨nm, _, h⟩ := Res.bind_eq_ok.1 h
      cases h
      rfl
  rw [if_neg t1] at h
  by_cases t4 : c.getTAG = DW_TAG_unspecified_parameters
  · rw [if_pos t4] at h
    obtain ⟨nm, _, h⟩ := Res.bind_eq_ok.1 h
    cases h
    rfl
  rw [if_neg t4] at h
  by_cases t5 : c.getTAG = DW_TAG_GNU_formal_parameter_pack
  · rw [if_pos t5] at h
    cases h
    rfl
  rw [if_neg t5] at h
  by_cases t6 : c.getTAG = DW_TAG_template_type_param
  · rw [if_pos t6] at h
    obtain ⟨nm, _, h⟩ := Res.bind_eq_ok.1 h
    cases h
    rfl
  rw [if_neg t6] at h
  by_cases t7 : c.getTAG = DW_TAG_template_value_param
  · rw [if_pos t7] at h
    obtain ⟨nm, _, h⟩ := Res.bind_eq_ok.1 h
    obtain ⟨r, _, h⟩ := Res.bind_eq_ok.1 h
    cases h
    rfl
  rw [if_neg t7] at h
  by_cases t8 : c.getTAG = DW_TAG_GNU_template_parameter_pack
  · rw [if_pos t8] at h
    obtain ⟨nm, _, h⟩ := Res.bind_eq_ok.1 h
    cases h
    rfl
  rw [if_neg t8] at h
  cases h
  rfl

theorem funcChild_foldl_getKey_other {fuel : Nat} {env : Env} {F : DieRef} {k : Str}
    (hk : k ≠ "const_decorate".toList) :
    ∀ (children : List Die) (sc sc1 : FuncScan),
      Res.foldl (funcChild fuel env F) sc children = .ok sc1 →
      sc1.funcInfo.getKey k = sc.funcInfo.getKey k
  | [], sc, sc1, h => by
    simp only [Res.foldl, Res.ok.injEq] at h
    rw [h]
  | c :: cs, sc, sc1, h => by
    simp only [Res.foldl] at h
    obtain ⟨sc2, h2, h⟩ := Res.bind_eq_ok.1 h
    rw [funcChild_foldl_getKey_other hk cs sc2 sc1 h, funcChild_getKey_other hk h2]

/-- The record that `parseFunction` builds for a DIE holds the offset of the DIE. -/
theorem funcRecord_offset {fuel : Nat} {env : Env} {F : DieRef} {built : Json × List Die}
    (h : funcRecord fuel env F = .ok built) :
    built.1.getKey "offset".toList = some (.uint F.die.getOffset) := by
  unfold funcRecord at h
  obtain ⟨fi0, h0, h⟩ := Res.bind_eq_ok.1 h
  obtain ⟨fi1, h1, h⟩ := Res.bind_eq_ok.1 h
  obtain ⟨rt, _, h⟩ := Res.bind_eq_ok.1 h
  obtain ⟨fi2, h2, h⟩ := Res.bind_eq_ok.1 h
  obtain ⟨sc, hsc, h⟩ := Res.bind_eq_ok.1 h
  obtain ⟨fi3, h3, h⟩ := Res.bind_eq_ok.1 h
  obtain ⟨fi4, h4, h⟩ := Res.bind_eq_ok.1 h
  obtain ⟨fi5, h5, h⟩ := Res.bind_eq_ok.1 h
  cases h
  have e0 : fi0.getKey "offset".toList = some (.uint F.die.getOffset) := Json.setKey_getKey h0
  have e1 : fi1.getKey "offset".toList = fi0.getKey "offset".toList :=
    funcAttr_foldl_other (by decide) _ _ _ h1
  have e2 : fi2.getKey "offset".toList = fi1.getKey "offset".toList :=
    Json.emplace_getKey_other h2 (by decide)
  have e3 : sc.funcInfo.getKey "offset".toList = fi2.getKey "offset".toList :=
    funcChild_foldl_getKey_other (by decide) _ _ _ hsc
  have e4 : fi3.getKey "offset".toList = sc.funcInfo.getKey "offset".toList := by
    split_ifs at h3
    · exact Json.emplace_getKey_other h3 (by decide)
    · cases h3; rfl
  have e5 : fi4.getKey "offset".toList = fi3.getKey "offset".toList := by
    split_ifs at h4
    · exact Json.emplace_getKey_other h4 (by decide)
    · cases h4; rfl
  have e6 : fi5.getKey "offset".toList = fi4.getKey "offset".toList := by
    split_ifs at h5
    · cases h5; rfl
    · exact Json.emplace_getKey_other h5 (by decide)
  show fi5.getKey "offset".toList = _
  rw [e6, e5, e4, e3, e2, e1, e0]


/-! ## Lemmas: a definition with parameters only completes on the empty document -/

theorem Json.modifyKey_obj {j j1 : Json} {k : Str} {f : Json → Res Json}
    (h : j.modifyKey k f = .ok j1) : ∃ kvs, j1 = .obj kvs := by
  cases j with
  | null =>
    simp only [Json.modifyKey] at h
    obtain ⟨v, _, h⟩ := Res.bind_eq_ok.1 h
    cases h
    exact ⟨_, rfl⟩
  | obj kvs =>
    simp only [Json.modifyKey] at h
    cases hm : mapFind kvs k with
    | some old =>
      rw [hm] at h
      obtain ⟨v, _, h⟩ := Res.bind_eq_ok.1 h
      cases h
      exact ⟨_, rfl⟩
    | none =>
      rw [hm] at h
      obtain ⟨v, _, h⟩ := Res.bind_eq_ok.1 h
      cases h
      exact ⟨_, rfl⟩
  | uint _ => cases h
  | int _ => cases h
  | str _ => cases h
  | arr _ => cases h

theorem Json.emplace_obj {j j1 : Json} {k : Str} {v : Json}
    (h : j.emplace k v = .ok j1) : ∃ kvs, j1 = .obj kvs := by
  cases j with
  | null => cases h; exact ⟨_, rfl⟩
  | obj kvs =>
    simp only [Json.emplace] at h
    split_ifs at h <;> cases h <;> exact ⟨_, rfl⟩
  | uint _ => cases h
  | int _ => cases h
  | str _ => cases h
  | arr _ => cases h

theorem Json.setKey_obj_ok (kvs : List (Str × Json)) (k : Str) (v : Json) :
    ∃ kvs1, (Json.obj kvs).setKey k v = .ok (.obj kvs1) := by
  unfold Json.setKey
  cases hm : mapFind kvs k with
  | some old => exact ⟨mapReplace kvs k v, by simp only [Json.modifyKey, hm, Res.bind_ok]⟩
  | none => exact ⟨mapInsert kvs k v, by simp only [Json.modifyKey, hm, Res.bind_ok]⟩

/-- One round of the attribute loop of `parseFunction` leaves an object. -/
theorem funcAttr_obj {j j1 : Json} {a : Attr} (hj : ∃ kvs, j = .obj kvs)
    (h : funcAttr j a = .ok j1) : ∃ kvs, j1 = .obj kvs := by
  unfold funcAttr at h
  dsimp only at h
  by_cases c : a.mType = DW_AT_name
  · rw [if_pos c] at h
    obtain ⟨_, _, h⟩ := Res.bind_eq_ok.1 h
    exact Json.modifyKey_obj h
  rw [if_neg c] at h
  clear c
  by_cases c : a.mType = DW_AT_linkage_name
  · rw [if_pos c] at h
    obtain ⟨_, _, h⟩ := Res.bind_eq_ok.1 h
    exact Json.modifyKey_obj h
  rw [if_neg c] at h
  clear c
  by_cases c : a.mType = DW_AT_external
  · rw [if_pos c] at h
    exact Json.modifyKey_obj h
  rw [if_neg c] at h
  clear c
  by_cases c : a.mType = DW_AT_accessibility
  · rw [if_pos c] at h
    obtain ⟨_, _, h⟩ := Res.bind_eq_ok.1 h
    exact Json.modifyKey_obj h
  rw [if_neg c] at h
  clear c
  by_cases c : a.mType = DW_AT_defaulted
  · rw [if_pos c] at h
    obtain ⟨_, _, h⟩ := Res.bind_eq_ok.1 h
    exact Json.modifyKey_obj h
  rw [if_neg c] at h
  clear c
  by_cases c : a.mType = DW_AT_deleted
  · rw [if_pos c] at h
    exact Json.modifyKey_obj h
  rw [if_neg c] at h
  clear c
  by_cases c : a.mType = DW_AT_decl_line
  · rw [if_pos c] at h
    obtain ⟨_, _, h⟩ := Res.bind_eq_ok.1 h
    exact Json.modifyKey_obj h
  rw [if_neg c] at h
  clear c
  by_cases c : a.mType = DW_AT_decl_column
  · rw [if_pos c] at h
    obtain ⟨_, _, h⟩ := Res.bind_eq_ok.1 h
    exact Json.modifyKey_obj h
  rw [if_neg c] at h
  clear c
  by_cases c : a.mType = DW_AT_virtuality
  · rw [if_pos c] at h
    obtain ⟨_, _, h⟩ := Res.bind_eq_ok.1 h
    exact Json.modifyKey_obj h
  rw [if_neg c] at h
  clear c
  by_cases c : a.mType = DW_AT_inline
  · rw [if_pos c] at h
    obtain ⟨_, _, h⟩ := Res.bind_eq_ok.1 h
    exact Json.modifyKey_obj h
  rw [if_neg c] at h
  clear c
  by_cases c : a.mType = DW_AT_vtable_elem_location
  · rw [if_pos c] at h
    obtain ⟨_, _, h⟩ := Res.bind_eq_ok.1 h
    exact Json.modifyKey_obj h
  rw [if_neg c] at h
  clear c
  by_cases c : a.mType = DW_AT_reference
  · rw [if_pos c] at h
    exact Json.modifyKey_obj h
  rw [if_neg c] at h
  clear c
  by_cases c : a.mType = DW_AT_rvalue_reference
  · rw [if_pos c] at h
    exact Json.modifyKey_obj h
  rw [if_neg c] at h
  clear c
  by_cases c : a.mType = DW_AT_artificial
  · rw [if_pos c] at h
    exact Json.modifyKey_obj h
  rw [if_neg c] at h
  clear c
  cases h
  exact hj

theorem funcAttr_foldl_obj : ∀ (attrs : List Attr) (j j1 : Json), (∃ kvs, j = .obj kvs) →
    Res.foldl funcAttr j attrs = .ok j1 → ∃ kvs, j1 = .obj kvs
  | [], j, j1, hj, h => by
    simp only [Res.foldl, Res.ok.injEq] at h
    rw [← h]; exact hj
  | a :: rest, j, j1, hj, h => by
    simp only [Res.foldl] at h
    obtain ⟨j0, h0, h⟩ := Res.bind_eq_ok.1 h
    exact funcAttr_foldl_obj rest j0 j1 (funcAttr_obj hj h0) h

/-- One round of the child loop of `parseFunction` leaves an object in `funcInfo`. -/
theorem funcChild_obj {fuel : Nat} {env : Env} {F : DieRef} {sc sc1 : FuncScan} {c : Die}
    (hj : ∃ kvs, sc.funcInfo = .obj kvs) (h : funcChild fuel env F sc c = .ok sc1) :
    ∃ kvs, sc1.funcInfo = .obj kvs := by
  unfold funcChild at h
  simp only [DieRef.child] at h
  by_cases t1 : c.getTAG = DW_TAG_formal_parameter
  · rw [if_pos t1] at h
    by_cases t2 : (c.findAttrByType DW_AT_artificial).isSome = true
    · rw [if_pos t2] at h
      obtain ⟨r, _, h⟩ := Res.bind_eq_ok.1 h
      obtain ⟨fi, hfi, h⟩ := Res.bind_eq_ok.1 h
      obtain ⟨nm, _, h⟩ := Res.bind_eq_ok.1 h
      cases h
      show ∃ kvs, fi = .obj kvs
      by_cases t3 : r.2 % 2 = 1
      · rw [if_pos t3] at hfi
        exact Json.modifyKey_obj hfi
      · rw [if_neg t3] at hfi
        cases hfi
        exact hj
    · rw [if_neg t2] at h
      obtain ⟨r, _, h⟩ := Res.bind_eq_ok.1 h
      obtain ⟨nm, _, h⟩ := Res.bind_eq_ok.1 h
      cases h
      exact hj
  rw [if_neg t1] at h
  by_cases t4 : c.getTAG = DW_TAG_unspecified_parameters
  · rw [if_pos t4] at h
    obtain ⟨nm, _, h⟩ := Res.bind_eq_ok.1 h
    cases h
    exact hj
  rw [if_neg t4] at h
  by_cases t5 : c.getTAG = DW_TAG_GNU_formal_parameter_pack
  · rw [if_pos t5] at h
    cases h
    exact hj
  rw [if_neg t5] at h
  by_cases t6 : c.getTAG = DW_TAG_template_type_param
  · rw [if_pos t6] at h
    obtain ⟨nm, _, h⟩ := Res.bind_eq_ok.1 h
    cases h
    exact hj
  rw [if_neg t6] at h
  by_cases t7 : c.getTAG = DW_TAG_template_value_param
  · rw [if_pos t7] at h
    obtain ⟨nm, _, h⟩ := Res.bind_eq_ok.1 h
    obtain ⟨r, _, h⟩ := Res.bind_eq_ok.1 h
    cases h
    exact hj
  rw [if_neg t7] at h
  by_cases t8 : c.getTAG = DW_TAG_GNU_template_parameter_pack
  · rw [if_pos t8] at h
    obtain ⟨nm, _, h⟩ := Res.bind_eq_ok.1 h
    cases h
    exact hj
  rw [if_neg t8] at h
  cases h
  exact hj

theorem funcChild_foldl_obj {fuel : Nat} {env : Env} {F : DieRef} :
    ∀ (children : List Die) (sc sc1 : FuncScan), (∃ kvs, sc.funcInfo = .obj kvs) →
      Res.foldl (funcChild fuel env F) sc children = .ok sc1 → ∃ kvs, sc1.funcInfo = .obj kvs
  | [], sc, sc1, hj, h => by
    simp only [Res.foldl, Res.ok.injEq] at h
    rw [← h]; exact hj
  | c :: cs, sc, sc1, hj, h => by
    simp only [Res.foldl] at h
    obtain ⟨sc2, h2, h⟩ := Res.bind_eq_ok.1 h
    exact funcChild_foldl_obj cs sc2 sc1 (funcChild_obj hj h2) h

/-- The record that `parseFunction` builds is an object. -/
theorem funcRecord_obj {fuel : Nat} {env : Env} {F : DieRef} {built : Json × List Die}
    (h : funcRecord fuel env F = .ok built) : ∃ kvs, built.1 = .obj kvs := by
  unfold funcRecord at h
  obtain ⟨fi0, h0, h⟩ := Res.bind_eq_ok.1 h
  obtain ⟨fi1, h1, h⟩ := Res.bind_eq_ok.1 h
  obtain ⟨rt, _, h⟩ := Res.bind_eq_ok.1 h
  obtain ⟨fi2, h2, h⟩ := Res.bind_eq_ok.1 h
  obtain ⟨sc, hsc, h⟩ := Res.bind_eq_ok.1 h
  obtain ⟨fi3, h3, h⟩ := Res.bind_eq_ok.1 h
  obtain ⟨fi4, h4, h⟩ := Res.bind_eq_ok.1 h
  obtain ⟨fi5, h5, h⟩ := Res.bind_eq_ok.1 h
  cases h
  have e2 : ∃ kvs, fi2 = .obj kvs := Json.emplace_obj h2
  have e3 : ∃ kvs, sc.funcInfo = .obj kvs := funcChild_foldl_obj _ _ _ e2 hsc
  have e4 : ∃ kvs, fi3 = .obj kvs := by
    split_ifs at h3
    · exact Json.emplace_obj h3
    · cases h3; exact e3
  have e5 : ∃ kvs, fi4 = .obj kvs := by
    split_ifs at h4
    · exact Json.emplace_obj h4
    · cases h4; exact e4
  show ∃ kvs, fi5 = .obj kvs
  split_ifs at h5
  · cases h5; exact e5
  · exact Json.emplace_obj h5

/-- The overlay of a definition completes on an object when the linkage name of the
definition, if it has one, is a string. -/
theorem funcOverlay_ok (funcDIE : Die) (paramNames : List Str)
    (hlink : ∀ la, funcDIE.findAttrByType DW_AT_linkage_name = some la → ∃ l, la.getStr = .ok l)
    (kvs : List (Str × Json)) : ∃ w, funcOverlay funcDIE paramNames (.obj kvs) = .ok w := by
  unfold funcOverlay
  have s1 : ∃ kvs1, (if paramNames ≠ [] then
      (Json.obj kvs).setKey "2-param_name".toList (Json.ofStrs paramNames)
      else .ok (.obj kvs)) = .ok (.obj kvs1) := by
    by_cases c : paramNames ≠ []
    · rw [if_pos c]; exact Json.setKey_obj_ok _ _ _
    · rw [if_neg c]; exact ⟨_, rfl⟩
  obtain ⟨kvs1, h1⟩ := s1
  rw [h1]
  simp only [Res.bind_ok]
  cases hla : funcDIE.findAttrByType DW_AT_linkage_name with
  | none =>
    simp only [Res.bind_ok]
    obtain ⟨kvs3, h3⟩ := Json.setKey_obj_ok kvs1 "otherOffset".toList (.uint funcDIE.getOffset)
    exact ⟨_, h3⟩
  | some la =>
    obtain ⟨l, hl⟩ := hlink la hla
    simp only [hl, Res.bind_ok]
    obtain ⟨kvs2, h2⟩ := Json.setKey_obj_ok kvs1 "0-linkage".toList (.str l)
    rw [h2]
    simp only [Res.bind_ok]
    obtain ⟨kvs3, h3⟩ := Json.setKey_obj_ok kvs2 "otherOffset".toList (.uint funcDIE.getOffset)
    exact ⟨_, h3⟩

/-- The walk along a path completes on the empty document and ends at an empty value. -/
theorem touch_null : ∀ (path : List Str),
    ∃ o, Json.touch path .null = .ok o ∧ Json.getAt path o = some .null
  | [] => ⟨.null, rfl, rfl⟩
  | k :: rest => by
    obtain ⟨o, ho, hg⟩ := touch_null rest
    unfold Json.touch at ho
    refine ⟨.obj [(k, o)], ?_, ?_⟩
    · unfold Json.touch
      simp only [Json.modifyAt, Json.modifyKey, ho, Res.bind_ok]
    · rw [Json.getAt_cons]
      simp only [Json.getKey, mapFind, if_true, Option.bind_some]
      exact hg

/-- A definition with parameter children only completes on the empty document when the names
of its parameters can be read, its linkage name (if any) is a string, and the record of its
specification, a declaration with parameter children only, can be built. -/
theorem parseFunction_definition_completes (m : Nat) (env : Env) (compileUnit : CU)
    (D S : DieRef) (specAttr : Attr) (ownName sname : Str) (off line : Nat) (path : List Str)
    (nm : Str) (names : List Str) (built : Json)
    (hown : D.die.getName [] = .ok ownName) (hown2 : startsWith ownName "__".toList = false)
    (hspec : D.die.findAttrByType DW_AT_specification = some specAttr)
    (hoff : specAttr.getU64 = .ok off) (hS : env.mDbg.findDIEbyOffset off = .ok (some S))
    (hpath1 : findWhereToStore (m + 1) env compileUnit S = .ok path)
    (hpath0 : findWhereToStore m env compileUnit S = .ok path) (hne : path ≠ [])
    (hline : declLineOf S.die = .ok line) (hnm : S.die.getName anonymousName = .ok nm)
    (hsn : S.die.getName [] = .ok sname) (hsn2 : startsWith sname "__".toList = false)
    (hSspec : S.die.findAttrByType DW_AT_specification = none)
    (hscan : Res.foldl specChild ([], []) D.die.getChildren = .ok (names, []))
    (hlink : ∀ la, D.die.findAttrByType DW_AT_linkage_name = some la → ∃ l, la.getStr = .ok l)
    (hbuilt : funcRecord m env S = .ok (built, [])) :
    ∃ out1, parseFunction (m + 2) env compileUnit D .null = .ok out1 := by
  obtain ⟨o1, ho1, hg1⟩ := touch_null path
  have hab1 : hasRecord o1 path (storeKeyOf line "func" nm) = false := by
    unfold hasRecord
    rw [hg1]
    rfl
  obtain ⟨o2, ho2⟩ := @modifyAt_exists path
    (fun o => o.emplace (storeKeyOf line "func" nm) built) o1 .null hg1 ⟨_, rfl⟩
  have hSrun : parseFunction (m + 1) env compileUnit S o1 = .ok o2 := by
    rw [parseFunction]
    simp only [hsn, Res.bind_ok, hsn2, Bool.false_eq_true, if_false, hSspec, hpath0, if_neg hne,
      hline, hnm, hbuilt, ho2, Res.foldl]
  have hg2 : Json.getAt (path ++ [storeKeyOf line "func" nm]) o2 = some built := by
    rw [modifyAt_emplace_absent _ _ _ _ hab1] at ho2
    obtain ⟨v, hv, hgetv⟩ := Json.modifyAt_getAt _ _ _ _ ho2
    cases hv
    exact hgetv
  obtain ⟨kvs, hkvs⟩ := funcRecord_obj hbuilt
  have hkvs : built = .obj kvs := hkvs
  obtain ⟨w, hw⟩ := funcOverlay_ok D.die names hlink kvs
  obtain ⟨o3, ho3⟩ := @modifyAt_exists (path ++ [storeKeyOf line "func" nm])
    (funcOverlay D.die names) o2 built hg2 ⟨w, by rw [hkvs]; exact hw⟩
  refine ⟨o3, ?_⟩
  rw [parseFunction]
  simp only [hown, Res.bind_ok, hown2, Bool.false_eq_true, if_false, hspec, hoff, hS, hpath1,
    if_neg hne, hline, hnm, hscan, ho1, hab1, hSrun, ho3, Res.foldl]
/-! ## Lemmas: values are kept below the first key of a path -/

theorem keepsBelow_modifyAt {bad : List Str} {L : Json → Prop}
    (hL : ∀ v, L v → v.isScalar = true) {g : Json → Res Json} (hg : KeepsValues bad L g)
    (path : List Str) (hne : path ≠ []) : KeepsBelow bad L (Json.modifyAt path g) := by
  cases path with
  | nil => exact absurd rfl hne
  | cons k rest =>
    have hrest := keepsValues_modifyAt hL hg rest
    intro q v j j1 hq hv h hget
    have h : j.modifyKey k (Json.modifyAt rest g) = .ok j1 := h
    cases q with
    | nil =>
      simp only [Json.getAt, Option.some.injEq] at hget
      subst hget
      rw [Json.modifyKey_of_isScalar (hL _ hv)] at h
      cases h
    | cons k0 q1 =>
      rw [Json.getAt_cons] at hget ⊢
      by_cases e : k0 = k
      · subst e
        obtain ⟨w, hw, hgetw⟩ := Json.modifyKey_getKey h
        rw [hgetw]
        cases hold : j.getKey k0 with
        | none => rw [hold] at hget; cases hget
        | some old =>
          rw [hold] at hget hw
          exact hrest q1 v old w hq hv hw hget
      · rw [Json.modifyKey_getKey_other h e]; exact hget

theorem parseEnum_keepsBelow {bad : List Str} {L : Json → Prop}
    (hL : ∀ v, L v → v.isScalar = true) (fuel : Nat) (env : Env) (compileUnit : CU)
    (enumDIE : DieRef) : KeepsBelow bad L (parseEnum fuel env compileUnit enumDIE) := by
  intro q v j j1 hq hv h hget
  unfold parseEnum at h
  obtain ⟨path, _, h⟩ := Res.bind_eq_ok.1 h
  split_ifs at h with hpe
  · cases h; exact hget
  obtain ⟨_, _, h⟩ := Res.bind_eq_ok.1 h
  obtain ⟨_, _, h⟩ := Res.bind_eq_ok.1 h
  obtain ⟨_, _, h⟩ := Res.bind_eq_ok.1 h
  obtain ⟨_, _, h⟩ := Res.bind_eq_ok.1 h
  obtain ⟨_, _, h⟩ := Res.bind_eq_ok.1 h
  obtain ⟨_, _, h⟩ := Res.bind_eq_ok.1 h
  obtain ⟨_, _, h⟩ := Res.bind_eq_ok.1 h
  exact keepsBelow_modifyAt hL (keepsValues_emplace hL _ _) path hpe q v j j1 hq hv h hget

theorem parseTypedef_keepsBelow {bad : List Str} {L : Json → Prop}
    (hL : ∀ v, L v → v.isScalar = true) (fuel : Nat) (env : Env) (compileUnit : CU)
    (typedefDIE : DieRef) : KeepsBelow bad L (parseTypedef fuel env compileUnit typedefDIE) := by
  intro q v j j1 hq hv h hget
  unfold parseTypedef at h
  obtain ⟨path, _, h⟩ := Res.bind_eq_ok.1 h
  split_ifs at h with hpe
  · cases h; exact hget
  obtain ⟨_, _, h⟩ := Res.bind_eq_ok.1 h
  obtain ⟨_, _, h⟩ := Res.bind_eq_ok.1 h
  obtain ⟨_, _, h⟩ := Res.bind_eq_ok.1 h
  obtain ⟨_, _, h⟩ := Res.bind_eq_ok.1 h
  obtain ⟨_, _, h⟩ := Res.bind_eq_ok.1 h
  obtain ⟨_, _, h⟩ := Res.bind_eq_ok.1 h
  exact keepsBelow_modifyAt hL (keepsValues_emplace hL _ _) path hpe q v j j1 hq hv h hget

theorem parseInheritance_keepsBelow {bad : List Str} {L : Json → Prop}
    (hL : ∀ v, L v → v.isScalar = true) (fuel : Nat) (env : Env) (compileUnit : CU)
    (inheriDIE : DieRef) :
    KeepsBelow bad L (parseInheritance fuel env compileUnit inheriDIE) := by
  intro q v j j1 hq hv h hget
  unfold parseInheritance at h
  split at h
  · cases h
  obtain ⟨path, _, h⟩ := Res.bind_eq_ok.1 h
  split_ifs at h with hpe
  · cases h; exact hget
  obtain ⟨_, _, h⟩ := Res.bind_eq_ok.1 h
  obtain ⟨_, _, h⟩ := Res.bind_eq_ok.1 h
  obtain ⟨_, _, h⟩ := Res.bind_eq_ok.1 h
  obtain ⟨_, _, h⟩ := Res.bind_eq_ok.1 h
  exact keepsBelow_modifyAt hL (keepsValues_emplace hL _ _) _ (by simp) q v j j1 hq hv h hget

theorem parseClassTemplateParams_keepsBelow {bad : List Str} {L : Json → Prop}
    (hF : FrameOk bad L) (fuel : Nat) (env : Env) (compileUnit : CU) (templateDIE : DieRef) :
    KeepsBelow bad L (parseClassTemplateParams fuel env compileUnit templateDIE) := by
  intro q v j j1 hq hv h hget
  unfold parseClassTemplateParams at h
  split at h
  · cases h
  obtain ⟨path, _, h⟩ := Res.bind_eq_ok.1 h
  split_ifs at h with hpe
  · cases h; exact hget
  obtain ⟨_, _, h⟩ := Res.bind_eq_ok.1 h
  rw [Json.modifyAt_append] at h
  exact keepsBelow_modifyAt hF.1 (KeepsValues.templateSlot hF _) _ (by simp) q v j j1 hq hv h hget

theorem parseVariable_keepsBelow {bad : List Str} {L : Json → Prop} (hF : FrameOk bad L) :
    ∀ (fuel : Nat) (env : Env) (compileUnit : CU) (varDIE : DieRef) (memberVariable : Bool),
      KeepsBelow bad L (parseVariable fuel env compileUnit varDIE memberVariable) := by
  intro fuel
  induction fuel with
  | zero =>
    intro env compileUnit varDIE memberVariable q v j j1 _ _ h _
    simp [parseVariable] at h
  | succ n ih =>
    intro env compileUnit varDIE memberVariable q v j j1 hq hv h hget
    rw [parseVariable] at h
    split at h
    · obtain ⟨off, _, h⟩ := Res.bind_eq_ok.1 h
      obtain ⟨found, _, h⟩ := Res.bind_eq_ok.1 h
      cases found with
      | none => cases h; exact hget
      | some specificVar =>
        simp only at h
        obtain ⟨path, _, h⟩ := Res.bind_eq_ok.1 h
        split_ifs at h with hpe
        · cases h; exact hget
        obtain ⟨line, _, h⟩ := Res.bind_eq_ok.1 h
        obtain ⟨nm, _, h⟩ := Res.bind_eq_ok.1 h
        obtain ⟨out1, h1, h⟩ := Res.bind_eq_ok.1 h
        obtain ⟨out2, h2, h⟩ := Res.bind_eq_ok.1 h
        have r1 : Json.getAt q out1 = some v :=
          keepsBelow_modifyAt hF.1 keepsValues_ok path hpe q v j out1 hq hv h1 hget
        have r2 : Json.getAt q out2 = some v := by
          split_ifs at h2
          · cases h2; exact r1
          · exact ih _ _ _ _ q v out1 out2 hq hv h2 r1
        exact keepsBelow_modifyAt hF.1
          (keepsValues_foldl (varOverlayAttr_keepsValues hF env) _) _ (by simp) q v out2 j1 hq hv h r2
    · obtain ⟨path, _, h⟩ := Res.bind_eq_ok.1 h
      split_ifs at h with hpe
      · cases h; exact hget
      obtain ⟨_, _, h⟩ := Res.bind_eq_ok.1 h
      obtain ⟨_, _, h⟩ := Res.bind_eq_ok.1 h
      obtain ⟨_, _, h⟩ := Res.bind_eq_ok.1 h
      exact keepsBelow_modifyAt hF.1 (keepsValues_emplace hF.1 _ _) path hpe q v j j1 hq hv h hget

/-- The dispatcher, `parseFunction` and `parseUnion` keep the values of the kind `L` that are
reached through no key of `bad` below the first key, provided `bad` holds the keys of the
function overlay or the subtree dispatched has no subprogram with a specification. -/
theorem parse_keepsBelow {bad : List Str} {L : Json → Prop} (hF : FrameOk bad L) :
    ∀ (fuel : Nat),
      (∀ (env : Env) (compileUnit : CU) (DIE : DieRef),
        ((∀ k ∈ funcOverlayKeys, k ∈ bad) ∨ DIE.die.quiet = true) →
        KeepsBelow bad L (parseDIE fuel env compileUnit DIE)) ∧
      (∀ (env : Env) (compileUnit : CU) (DIE : DieRef),
        ((∀ k ∈ funcOverlayKeys, k ∈ bad) ∨
          (DIE.die.findAttrByType DW_AT_specification = none ∧
            Die.quietAll DIE.die.getChildren = true)) →
        KeepsBelow bad L (parseFunction fuel env compileUnit DIE)) ∧
      (∀ (env : Env) (compileUnit : CU) (DIE : DieRef),
        ((∀ k ∈ funcOverlayKeys, k ∈ bad) ∨ Die.quietAll DIE.die.getChildren = true) →
        KeepsBelow bad L (parseUnion fuel env compileUnit DIE)) := by
  have hL := hF.1
  intro fuel
  induction fuel with
  | zero =>
    refine ⟨?_, ?_, ?_⟩ <;> intro env compileUnit DIE _ q v j j1 _ _ h _
    · simp [parseDIE] at h
    · simp [parseFunction] at h
    · simp [parseUnion] at h
  | succ n ih =>
    obtain ⟨ihD, ihF, ihU⟩ := ih
    have hdesc : ∀ (env : Env) (compileUnit : CU) (DIE : DieRef) (l : List Die),
        ((∀ k ∈ funcOverlayKeys, k ∈ bad) ∨ ∀ c ∈ l, c.quiet = true) →
        KeepsBelow bad L (fun j =>
          Res.foldl (fun o childDIE => parseDIE n env compileUnit (DIE.child childDIE) o) j l) := by
      intro env compileUnit DIE l
      induction l with
      | nil => intro _ q v j j1 _ _ h hget; cases h; exact hget
      | cons a rest ihl =>
        intro hc q v j j1 hq hv h hget
        simp only [Res.foldl] at h
        obtain ⟨j0, h0, h1⟩ := Res.bind_eq_ok.1 h
        have ha : (∀ k ∈ funcOverlayKeys, k ∈ bad) ∨ (DIE.child a).die.quiet = true :=
          hc.imp id (fun hall => hall a (List.mem_cons_self _ _))
        have hr : (∀ k ∈ funcOverlayKeys, k ∈ bad) ∨ ∀ c ∈ rest, c.quiet = true :=
          hc.imp id (fun hall c hmem => hall c (List.mem_cons_of_mem _ hmem))
        exact ihl hr q v j0 j1 hq hv h1 (ihD env compileUnit (DIE.child a) ha q v j j0 hq hv h0 hget)
    refine ⟨?_, ?_, ?_⟩ <;> intro env compileUnit DIE hc q v j j1 hq hv h hget
    · have hkids : (∀ k ∈ funcOverlayKeys, k ∈ bad) ∨ ∀ c ∈ DIE.die.getChildren, c.quiet = true :=
        hc.imp id (fun hqt => Die.quietAll_mem _ ((Die.quiet_iff _).1 hqt).2)
      rw [parseDIE] at h
      by_cases c1 : DIE.die.getTAG = DW_TAG_namespace
      · rw [if_pos c1] at h
        obtain ⟨dieName, _, h⟩ := Res.bind_eq_ok.1 h
        split_ifs at h with hpe
        · cases h; exact hget
        · exact hdesc env compileUnit DIE _ hkids q v j j1 hq hv h hget
      rw [if_neg c1] at h
      by_cases c2 : DIE.die.getTAG = DW_TAG_class_type ∨ DIE.die.getTAG = DW_TAG_structure_type ∨
          DIE.die.getTAG = DW_TAG_lexical_block
      · rw [if_pos c2] at h
        exact hdesc env compileUnit DIE _ hkids q v j j1 hq hv h hget
      rw [if_neg c2] at h
      by_cases c3 : DIE.die.getTAG = DW_TAG_subprogram
      · rw [if_pos c3] at h
        refine ihF env compileUnit DIE (hc.imp id (fun hqt => ?_)) q v j j1 hq hv h hget
        obtain ⟨hns, hall⟩ := (Die.quiet_iff _).1 hqt
        refine ⟨?_, hall⟩
        cases hs : DIE.die.findAttrByType DW_AT_specification with
        | none => rfl
        | some a => exact absurd ⟨c3, by rw [hs]; rfl⟩ hns
      rw [if_neg c3] at h
      by_cases c4 : DIE.die.getTAG = DW_TAG_enumeration_type
      · rw [if_pos c4] at h
        exact parseEnum_keepsBelow hL n env compileUnit DIE q v j j1 hq hv h hget
      rw [if_neg c4] at h
      by_cases c5 : DIE.die.getTAG = DW_TAG_union_type
      · rw [if_pos c5] at h
        exact ihU env compileUnit DIE (hc.imp id (fun hqt => ((Die.quiet_iff _).1 hqt).2))
          q v j j1 hq hv h hget
      rw [if_neg c5] at h
      by_cases c6 : DIE.die.getTAG = DW_TAG_variable
      · rw [if_pos c6] at h
        exact parseVariable_keepsBelow hF n env compileUnit DIE false q v j j1 hq hv h hget
      rw [if_neg c6] at h
      by_cases c7 : DIE.die.getTAG = DW_TAG_member
      · rw [if_pos c7] at h
        exact parseVariable_keepsBelow hF n env compileUnit DIE true q v j j1 hq hv h hget
      rw [if_neg c7] at h
      by_cases c8 : DIE.die.getTAG = DW_TAG_typedef
      · rw [if_pos c8] at h
        exact parseTypedef_keepsBelow hL n env compileUnit DIE q v j j1 hq hv h hget
      rw [if_neg c8] at h
      by_cases c9 : DIE.die.getTAG = DW_TAG_inheritance
      · rw [if_pos c9] at h
        exact parseInheritance_keepsBelow hL n env compileUnit DIE q v j j1 hq hv h hget
      rw [if_neg c9] at h
      by_cases c10 : DIE.die.getTAG = DW_TAG_GNU_template_parameter_pack ∨
          DIE.die.getTAG = DW_TAG_template_type_param ∨
          DIE.die.getTAG = DW_TAG_template_value_param
      · rw [if_pos c10] at h
        exact parseClassTemplateParams_keepsBelow hF n env compileUnit DIE q v j j1 hq hv h hget
      rw [if_neg c10] at h
      cases h; exact hget
    · rw [parseFunction] at h
      obtain ⟨ownName, _, h⟩ := Res.bind_eq_ok.1 h
      split_ifs at h with hpe
      · cases h; exact hget
      split at h
      · rename_i hasSpec hsome
        have hov : ∀ k ∈ funcOverlayKeys, k ∈ bad := by
          rcases hc with hov | ⟨hnone, _⟩
          · exact hov
          · rw [hnone] at hsome; cases hsome
        obtain ⟨off, _, h⟩ := Res.bind_eq_ok.1 h
        obtain ⟨found, _, h⟩ := Res.bind_eq_ok.1 h
        cases found with
        | none => cases h; exact hget
        | some specificFunc =>
          simp only at h
          obtain ⟨path, _, h⟩ := Res.bind_eq_ok.1 h
          split_ifs at h with hpe
          · cases h; exact hget
          obtain ⟨line, _, h⟩ := Res.bind_eq_ok.1 h
          obtain ⟨nm, _, h⟩ := Res.bind_eq_ok.1 h
          obtain ⟨scan, _, h⟩ := Res.bind_eq_ok.1 h
          obtain ⟨out1, h1, h⟩ := Res.bind_eq_ok.1 h
          obtain ⟨out2, h2, h⟩ := Res.bind_eq_ok.1 h
          obtain ⟨out3, h3, h⟩ := Res.bind_eq_ok.1 h
          have r1 : Json.getAt q out1 = some v :=
            keepsBelow_modifyAt hL keepsValues_ok path hpe q v j out1 hq hv h1 hget
          have r2 : Json.getAt q out2 = some v := by
            split_ifs at h2
            · cases h2; exact r1
            · exact ihF _ _ _ (Or.inl hov) q v out1 out2 hq hv h2 r1
          have r3 : Json.getAt q out3 = some v :=
            keepsBelow_modifyAt hL (funcOverlay_keepsValues hL hov _ _) _ (by simp) q v out2 out3 hq hv
              h3 r2
          exact hdesc env compileUnit DIE _ (Or.inl hov) q v out3 j1 hq hv h r3
      · obtain ⟨path, _, h⟩ := Res.bind_eq_ok.1 h
        split_ifs at h with hpe
        · cases h; exact hget
        obtain ⟨line, _, h⟩ := Res.bind_eq_ok.1 h
        obtain ⟨nm, _, h⟩ := Res.bind_eq_ok.1 h
        obtain ⟨built, hbuilt, h⟩ := Res.bind_eq_ok.1 h
        obtain ⟨out1, h1, h⟩ := Res.bind_eq_ok.1 h
        have r1 : Json.getAt q out1 = some v :=
          keepsBelow_modifyAt hL (keepsValues_emplace hL _ _) path hpe q v j out1 hq hv h1 hget
        have hlater : (∀ k ∈ funcOverlayKeys, k ∈ bad) ∨ ∀ c ∈ built.2, c.quiet = true :=
          hc.imp id (fun hqt c hmem =>
            Die.quietAll_mem _ hqt.2 c (funcRecord_later_mem hbuilt c hmem))
        exact hdesc env compileUnit DIE _ hlater q v out1 j1 hq hv h r1
    · rw [parseUnion] at h
      obtain ⟨path, _, h⟩ := Res.bind_eq_ok.1 h
      split_ifs at h with hpe
      · cases h; exact hget
      obtain ⟨u0, _, h⟩ := Res.bind_eq_ok.1 h
      obtain ⟨unionInfo, _, h⟩ := Res.bind_eq_ok.1 h
      obtain ⟨nm, _, h⟩ := Res.bind_eq_ok.1 h
      obtain ⟨out1, h1, h⟩ := Res.bind_eq_ok.1 h
      have r1 : Json.getAt q out1 = some v :=
        keepsBelow_modifyAt hL (keepsValues_emplace hL _ _) path hpe q v j out1 hq hv h1 hget
      exact hdesc env compileUnit DIE _ (hc.imp id (fun hqt => Die.quietAll_mem _ hqt))
        q v out1 j1 hq hv h r1


/-- The dispatch of a list of children keeps the values of the kind `L`, provided `bad` holds
the keys of the function overlay or no subprogram below the children has a specification. -/
theorem parseDIE_foldl_keepsBelow {bad : List Str} {L : Json → Prop} (hF : FrameOk bad L)
    (n : Nat) (env : Env) (compileUnit : CU) (DIE : DieRef) :
    ∀ (l : List Die), ((∀ k ∈ funcOverlayKeys, k ∈ bad) ∨ Die.quietAll l = true) →
      KeepsBelow bad L (fun j =>
        Res.foldl (fun o childDIE => parseDIE n env compileUnit (DIE.child childDIE) o) j l) := by
  intro l
  induction l with
  | nil => intro _ q v j j1 _ _ h hget; cases h; exact hget
  | cons a rest ihl =>
    intro hc q v j j1 hq hv h hget
    simp only [Res.foldl] at h
    obtain ⟨j0, h0, h1⟩ := Res.bind_eq_ok.1 h
    have ha : (∀ k ∈ funcOverlayKeys, k ∈ bad) ∨ (DIE.child a).die.quiet = true :=
      hc.imp id (fun hall => Die.quietAll_mem _ hall a (List.mem_cons_self _ _))
    have hr : (∀ k ∈ funcOverlayKeys, k ∈ bad) ∨ Die.quietAll rest = true :=
      hc.imp id (fun hall => by
        simp only [Die.quietAll, Bool.and_eq_true] at hall
        exact hall.2)
    exact ihl hr q v j0 j1 hq hv h1
      ((parse_keepsBelow hF n).1 env compileUnit (DIE.child a) ha q v j j0 hq hv h0 hget)


/-! ## Lemmas: the keys of a storage path below the file -/

theorem not_bad_append {bad ret : List Str} {k : Str} (hret : ∀ x ∈ ret, x ∉ bad)
    (hk : k ∉ bad) : ∀ x ∈ ret ++ [k], x ∉ bad := by
  intro x hx
  rcases List.mem_append.1 hx with h | h
  · exact hret x h
  · rw [List.mem_singleton.1 h]; exact hk

/-- The keys that the ancestor loop emits are in no list of keys that have neither a blank nor
the letter `x` and are neither `content` nor `local_info`. -/
theorem findWhereToStoreLoop_tail_keys {bad : List Str} (hsp : ∀ o ∈ bad, ' ' ∉ o)
    (hx : ∀ o ∈ bad, 'x' ∉ o) (hc : "content".toList ∉ bad) (hl : "local_info".toList ∉ bad)
    (env : Env) (declFiles : List Str) :
    ∀ (fuel : Nat) (parents : List Die) (idx : Nat) (declFile : Str) (ret path : List Str),
      findWhereToStoreLoop env declFiles fuel parents idx declFile ret = .ok path →
      (∀ x ∈ ret, x ∉ bad) → ∀ x ∈ path.tail, x ∉ bad := by
  have ofSpace : ∀ {k : Str}, ' ' ∈ k → k ∉ bad := fun h hk => hsp _ hk h
  have ofX : ∀ {k : Str}, 'x' ∈ k → k ∉ bad := fun h hk => hx _ hk h
  intro fuel
  induction fuel with
  | zero =>
    intro parents idx declFile ret path h hret
    cases parents with
    | nil =>
      simp only [findWhereToStoreLoop, Res.ok.injEq] at h
      subst h
      intro x hx
      simp only [List.reverse_append, List.reverse_cons, List.reverse_nil, List.nil_append,
        List.singleton_append, List.tail_cons, List.mem_reverse] at hx
      exact hret x hx
    | cons p up => simp [findWhereToStoreLoop] at h
  | succ n ih =>
    intro parents idx declFile ret path h hret
    cases parents with
    | nil =>
      simp only [findWhereToStoreLoop, Res.ok.injEq] at h
      subst h
      intro x hx
      simp only [List.reverse_append, List.reverse_cons, List.reverse_nil, List.nil_append,
        List.singleton_append, List.tail_cons, List.mem_reverse] at hx
      exact hret x hx
    | cons p up =>
      rw [findWhereToStoreLoop] at h
      obtain ⟨name, _, h⟩ := Res.bind_eq_ok.1 h
      have hpre : ∀ (pre : String) (s : Str), ' ' ∈ pre.toList → (pre.toList ++ s) ∉ bad :=
        fun pre s hp => ofSpace (List.mem_append_left _ hp)
      split_ifs at h
      · exact ih _ _ _ _ _ h (not_bad_append hret (hpre "namespace: " name (by decide)))
      · exact ih _ _ _ _ _ h (not_bad_append hret (hpre "class: " name (by decide)))
      · exact ih _ _ _ _ _ h (not_bad_append hret (hpre "struct: " name (by decide)))
      · exact ih _ _ _ _ _ h (not_bad_append (not_bad_append hret hc)
          (hpre "union: " name (by decide)))
      · have hfunc : ∀ (line : Nat) (s : Str),
            (fmt05 line ++ "-func: ".toList ++ s) ∉ bad := fun line s =>
          ofSpace (List.mem_append_left _ (List.mem_append_right _ (by decide)))
        split at h
        · obtain ⟨off, _, h⟩ := Res.bind_eq_ok.1 h
          obtain ⟨found, _, h⟩ := Res.bind_eq_ok.1 h
          cases found with
          | none => exact ih _ _ _ _ _ h hret
          | some s =>
            simp only at h
            obtain ⟨line, _, h⟩ := Res.bind_eq_ok.1 h
            obtain ⟨sn, _, h⟩ := Res.bind_eq_ok.1 h
            obtain ⟨file, _, h⟩ := Res.bind_eq_ok.1 h
            exact ih _ _ _ _ _ h (not_bad_append (not_bad_append hret hl) (hfunc line sn))
        · obtain ⟨line, _, h⟩ := Res.bind_eq_ok.1 h
          obtain ⟨fn, _, h⟩ := Res.bind_eq_ok.1 h
          exact ih _ _ _ _ _ h (not_bad_append (not_bad_append hret hl) (hfunc line fn))
      · exact ih _ _ _ _ _ h (not_bad_append hret (ofX (List.mem_append_right _ (by decide))))
      · exact ih _ _ _ _ _ h hret

/-- Below its first key, the name of a file, a storage path goes through none of the keys that
an overlay or a template parameter assigns to. -/
theorem findWhereToStore_tail_keys {fuel : Nat} {env : Env} {compileUnit : CU} {DIE : DieRef}
    {path : List Str} (h : findWhereToStore fuel env compileUnit DIE = .ok path) :
    ∀ x ∈ path.tail, x ∉ overwrittenKeys := by
  unfold findWhereToStore at h
  split at h
  · cases h; intro x hx; cases hx
  · dsimp only at h
    split_ifs at h
    · cases h; intro x hx; cases hx
    · obtain ⟨file, _, h⟩ := Res.bind_eq_ok.1 h
      split_ifs at h
      · cases h; intro x hx; cases hx
      · exact findWhereToStoreLoop_tail_keys (by decide) (by decide) (by decide) (by decide)
          env _ _ _ _ _ _ _ h (fun x hx => by cases hx)

/-- The keys below the first key of the path of a field of a function record. -/
theorem fieldPath_tail_keys {bad : List Str} (hsub : ∀ k, k ∉ overwrittenKeys → k ∉ bad)
    {fuel : Nat} {env : Env} {compileUnit : CU} {DIE : DieRef} {path : List Str}
    (h : findWhereToStore fuel env compileUnit DIE = .ok path) (hne : path ≠ []) (line : Nat)
    (nm field : Str) (hf : field ∉ bad) :
    ∀ k ∈ (path ++ [storeKeyOf line "func" nm, field]).tail, k ∉ bad := by
  cases path with
  | nil => exact absurd rfl hne
  | cons k0 rest =>
    intro k hk
    simp only [List.cons_append, List.tail_cons] at hk
    rcases List.mem_append.1 hk with e | e
    · exact hsub k (findWhereToStore_tail_keys h k e)
    · simp only [List.mem_cons, List.mem_singleton, List.not_mem_nil, or_false] at e
      rcases e with e | e
      · rw [e]; exact hsub _ (storeKeyOf_func_not_overwritten line nm)
      · rw [e]; exact hf
/-! ## Lemmas: the fields of the record of a function -/

theorem scalarFields_null : ScalarFields .null := by
  intro field v h
  cases h

theorem scalarFields_modifyKey {j j1 : Json} {k : Str} {f : Json → Res Json}
    (hj : ScalarFields j) (hf : ∀ x y, f x = .ok y → y.isScalar = true)
    (h : j.modifyKey k f = .ok j1) : ScalarFields j1 := by
  intro field v hg
  by_cases e : field = k
  · subst e
    obtain ⟨w, hw, hgw⟩ := Json.modifyKey_getKey h
    rw [hgw] at hg
    cases hg
    exact hf _ _ hw
  · rw [Json.modifyKey_getKey_other h e] at hg
    exact hj field v hg

theorem scalarFields_setKey {j j1 : Json} {k : Str} {w : Json} (hj : ScalarFields j)
    (h : j.setKey k w = .ok j1) (hw : w.isScalar = true) : ScalarFields j1 :=
  scalarFields_modifyKey hj (fun _ y e => by cases e; exact hw) h

theorem scalarFields_emplace {j j1 : Json} {k : Str} {w : Json} (hj : ScalarFields j)
    (h : j.emplace k w = .ok j1) (hw : w.isScalar = true) : ScalarFields j1 := by
  by_cases hk : j.hasKey k = true
  · have e : j1 = j := by
      cases j with
      | obj kvs =>
        simp only [Json.hasKey] at hk
        simp only [Json.emplace, hk, if_true, Res.ok.injEq] at h
        exact h.symm
      | null => cases hk
      | uint _ => cases hk
      | int _ => cases hk
      | str _ => cases hk
      | arr _ => cases hk
    rw [e]
    exact hj
  · rw [Json.emplace_eq_modifyKey _ _ _ (by simpa using hk)] at h
    exact scalarFields_setKey hj h hw

theorem Json.setIdx_isScalar {p p1 : Json} {idx : Nat} {w : Json}
    (h : p.setIdx idx w = .ok p1) : p1.isScalar = true := by
  cases p with
  | null => simp only [Json.setIdx, Res.ok.injEq] at h; rw [← h]; rfl
  | arr l =>
    simp only [Json.setIdx] at h
    split_ifs at h <;> (simp only [Res.ok.injEq] at h; rw [← h]; rfl)
  | obj _ => cases h
  | uint _ => cases h
  | int _ => cases h
  | str _ => cases h

/-- One round of the attribute loop of `parseFunction` writes a number, a string or an
array. -/
theorem funcAttr_scalarFields {j j1 : Json} {a : Attr} (hj : ScalarFields j)
    (h : funcAttr j a = .ok j1) : ScalarFields j1 := by
  unfold funcAttr setDeclPos at h
  dsimp only at h
  by_cases c : a.mType = DW_AT_name
  · rw [if_pos c] at h
    obtain ⟨_, _, h⟩ := Res.bind_eq_ok.1 h
    exact scalarFields_setKey hj h rfl
  rw [if_neg c] at h
  clear c
  by_cases c : a.mType = DW_AT_linkage_name
  · rw [if_pos c] at h
    obtain ⟨_, _, h⟩ := Res.bind_eq_ok.1 h
    exact scalarFields_setKey hj h rfl
  rw [if_neg c] at h
  clear c
  by_cases c : a.mType = DW_AT_external
  · rw [if_pos c] at h
    exact scalarFields_setKey hj h rfl
  rw [if_neg c] at h
  clear c
  by_cases c : a.mType = DW_AT_accessibility
  · rw [if_pos c] at h
    obtain ⟨_, _, h⟩ := Res.bind_eq_ok.1 h
    exact scalarFields_setKey hj h rfl
  rw [if_neg c] at h
  clear c
  by_cases c : a.mType = DW_AT_defaulted
  · rw [if_pos c] at h
    obtain ⟨_, _, h⟩ := Res.bind_eq_ok.1 h
    exact scalarFields_setKey hj h rfl
  rw [if_neg c] at h
  clear c
  by_cases c : a.mType = DW_AT_deleted
  · rw [if_pos c] at h
    exact scalarFields_setKey hj h rfl
  rw [if_neg c] at h
  clear c
  by_cases c : a.mType = DW_AT_decl_line
  · rw [if_pos c] at h
    obtain ⟨_, _, h⟩ := Res.bind_eq_ok.1 h
    exact scalarFields_modifyKey hj (fun _ _ e => Json.setIdx_isScalar e) h
  rw [if_neg c] at h
  clear c
  by_cases c : a.mType = DW_AT_decl_column
  · rw [if_pos c] at h
    obtain ⟨_, _, h⟩ := Res.bind_eq_ok.1 h
    exact scalarFields_modifyKey hj (fun _ _ e => Json.setIdx_isScalar e) h
  rw [if_neg c] at h
  clear c
  by_cases c : a.mType = DW_AT_virtuality
  · rw [if_pos c] at h
    obtain ⟨_, _, h⟩ := Res.bind_eq_ok.1 h
    exact scalarFields_setKey hj h rfl
  rw [if_neg c] at h
  clear c
  by_cases c : a.mType = DW_AT_inline
  · rw [if_pos c] at h
    obtain ⟨_, _, h⟩ := Res.bind_eq_ok.1 h
    exact scalarFields_setKey hj h rfl
  rw [if_neg c] at h
  clear c
  by_cases c : a.mType = DW_AT_vtable_elem_location
  · rw [if_pos c] at h
    obtain ⟨_, _, h⟩ := Res.bind_eq_ok.1 h
    exact scalarFields_setKey hj h rfl
  rw [if_neg c] at h
  clear c
  by_cases c : a.mType = DW_AT_reference
  · rw [if_pos c] at h
    exact scalarFields_setKey hj h rfl
  rw [if_neg c] at h
  clear c
  by_cases c : a.mType = DW_AT_rvalue_reference
  · rw [if_pos c] at h
    exact scalarFields_setKey hj h rfl
  rw [if_neg c] at h
  clear c
  by_cases c : a.mType = DW_AT_artificial
  · rw [if_pos c] at h
    exact scalarFields_setKey hj h rfl
  rw [if_neg c] at h
  clear c
  simp only [Res.ok.injEq] at h
  rw [← h]
  exact hj

theorem funcAttr_foldl_scalarFields :
    ∀ (attrs : List Attr) (j j1 : Json), ScalarFields j → Res.foldl funcAttr j attrs = .ok j1 →
      ScalarFields j1 := by
  intro attrs
  induction attrs with
  | nil => intro j j1 hj h; simp only [Res.foldl, Res.ok.injEq] at h; rw [← h]; exact hj
  | cons a rest ih =>
    intro j j1 hj h
    simp only [Res.foldl] at h
    obtain ⟨j0, h0, h⟩ := Res.bind_eq_ok.1 h
    exact ih j0 j1 (funcAttr_scalarFields hj h0) h

/-- One round of the child loop of `parseFunction` writes no field but the number
`const_decorate`. -/
theorem funcChild_scalarFields {fuel : Nat} {env : Env} {F : DieRef} {sc sc1 : FuncScan}
    {c : Die} (hj : ScalarFields sc.funcInfo) (h : funcChild fuel env F sc c = .ok sc1) :
    ScalarFields sc1.funcInfo := by
  unfold funcChild at h
  simp only [DieRef.child] at h
  by_cases t1 : c.getTAG = DW_TAG_formal_parameter
  · rw [if_pos t1] at h
    by_cases t2 : (c.findAttrByType DW_AT_artificial).isSome = true
    · rw [if_pos t2] at h
      obtain ⟨r, _, h⟩ := Res.bind_eq_ok.1 h
      obtain ⟨fi, hfi, h⟩ := Res.bind_eq_ok.1 h
      obtain ⟨nm, _, h⟩ := Res.bind_eq_ok.1 h
      cases h
      show ScalarFields fi
      by_cases t3 : r.2 % 2 = 1
      · rw [if_pos t3] at hfi
        exact scalarFields_setKey hj hfi rfl
      · rw [if_neg t3] at hfi
        cases hfi
        exact hj
    · rw [if_neg t2] at h
      obtain ⟨r, _, h⟩ := Res.bind_eq_ok.1 h
      obtain ⟨nm, _, h⟩ := Res.bind_eq_ok.1 h
      cases h
      exact hj
  rw [if_neg t1] at h
  by_cases t4 : c.getTAG = DW_TAG_unspecified_parameters
  · rw [if_pos t4] at h
    obtain ⟨nm, _, h⟩ := Res.bind_eq_ok.1 h
    cases h
    exact hj
  rw [if_neg t4] at h
  by_cases t5 : c.getTAG = DW_TAG_GNU_formal_parameter_pack
  · rw [if_pos t5] at h
    cases h
    exact hj
  rw [if_neg t5] at h
  by_cases t6 : c.getTAG = DW_TAG_template_type_param
  · rw [if_pos t6] at h
    obtain ⟨nm, _, h⟩ := Res.bind_eq_ok.1 h
    cases h
    exact hj
  rw [if_neg t6] at h
  by_cases t7 : c.getTAG = DW_TAG_template_value_param
  · rw [if_pos t7] at h
    obtain ⟨nm, _, h⟩ := Res.bind_eq_ok.1 h
    obtain ⟨r, _, h⟩ := Res.bind_eq_ok.1 h
    cases h
    exact hj
  rw [if_neg t7] at h
  by_cases t8 : c.getTAG = DW_TAG_GNU_template_parameter_pack
  · rw [if_pos t8] at h
    obtain ⟨nm, _, h⟩ := Res.bind_eq_ok.1 h
    cases h
    exact hj
  rw [if_neg t8] at h
  cases h
  exact hj

theorem funcChild_foldl_scalarFields {fuel : Nat} {env : Env} {F : DieRef} :
    ∀ (children : List Die) (sc sc1 : FuncScan), ScalarFields sc.funcInfo →
      Res.foldl (funcChild fuel env F) sc children = .ok sc1 → ScalarFields sc1.funcInfo
  | [], sc, sc1, hj, h => by
    simp only [Res.foldl, Res.ok.injEq] at h
    rw [← h]
    exact hj
  | c :: cs, sc, sc1, hj, h => by
    simp only [Res.foldl] at h
    obtain ⟨sc2, h2, h⟩ := Res.bind_eq_ok.1 h
    exact funcChild_foldl_scalarFields cs sc2 sc1 (funcChild_scalarFields hj h2) h

/-- Every field of the record that `parseFunction` builds for a DIE is a number, a string or
an array. -/
theorem funcRecord_scalarFields {fuel : Nat} {env : Env} {F : DieRef}
    {built : Json × List Die} (h : funcRecord fuel env F = .ok built) :
    ScalarFields built.1 := by
  unfold funcRecord at h
  obtain ⟨fi0, h0, h⟩ := Res.bind_eq_ok.1 h
  obtain ⟨fi1, h1, h⟩ := Res.bind_eq_ok.1 h
  obtain ⟨rt, _, h⟩ := Res.bind_eq_ok.1 h
  obtain ⟨fi2, h2, h⟩ := Res.bind_eq_ok.1 h
  obtain ⟨sc, hsc, h⟩ := Res.bind_eq_ok.1 h
  obtain ⟨fi3, h3, h⟩ := Res.bind_eq_ok.1 h
  obtain ⟨fi4, h4, h⟩ := Res.bind_eq_ok.1 h
  obtain ⟨fi5, h5, h⟩ := Res.bind_eq_ok.1 h
  cases h
  have e0 : ScalarFields fi0 := scalarFields_setKey scalarFields_null h0 rfl
  have e1 : ScalarFields fi1 := funcAttr_foldl_scalarFields _ _ _ e0 h1
  have e2 : ScalarFields fi2 := scalarFields_emplace e1 h2 rfl
  have e3 : ScalarFields sc.funcInfo := funcChild_foldl_scalarFields _ _ _ e2 hsc
  have e4 : ScalarFields fi3 := by
    split_ifs at h3
    · exact scalarFields_emplace e3 h3 rfl
    · cases h3; exact e3
  have e5 : ScalarFields fi4 := by
    split_ifs at h4
    · exact scalarFields_emplace e4 h4 rfl
    · cases h4; exact e4
  show ScalarFields fi5
  split_ifs at h5
  · cases h5; exact e5
  · exact scalarFields_emplace e5 h5 rfl

/-- The record that `parseFunction` builds for a DIE has no field under a key that the
declaration form never assigns to. -/
theorem funcRecord_no_field {fuel : Nat} {env : Env} {F : DieRef} {built : Json × List Die}
    (h : funcRecord fuel env F = .ok built) {k : Str} (hk : ∀ s ∈ funcAttrKeys, k ≠ s)
    (hk2 : k ∉ ["offset".toList, "1-type".toList, "const_decorate".toList,
      "2-param_type".toList, "2-template_param".toList, "2-param_name".toList]) :
    built.1.getKey k = none := by
  simp only [List.mem_cons, List.mem_singleton, List.not_mem_nil, or_false, not_or] at hk2
  obtain ⟨k1, k2, k3, k4, k5, k6⟩ := hk2
  unfold funcRecord at h
  obtain ⟨fi0, h0, h⟩ := Res.bind_eq_ok.1 h
  obtain ⟨fi1, h1, h⟩ := Res.bind_eq_ok.1 h
  obtain ⟨rt, _, h⟩ := Res.bind_eq_ok.1 h
  obtain ⟨fi2, h2, h⟩ := Res.bind_eq_ok.1 h
  obtain ⟨sc, hsc, h⟩ := Res.bind_eq_ok.1 h
  obtain ⟨fi3, h3, h⟩ := Res.bind_eq_ok.1 h
  obtain ⟨fi4, h4, h⟩ := Res.bind_eq_ok.1 h
  obtain ⟨fi5, h5, h⟩ := Res.bind_eq_ok.1 h
  cases h
  have e0 : fi0.getKey k = none := by
    rw [Json.setKey_getKey_other h0 k1]
    rfl
  have e1 : fi1.getKey k = fi0.getKey k := funcAttr_foldl_other hk _ _ _ h1
  have e2 : fi2.getKey k = fi1.getKey k := Json.emplace_getKey_other h2 k2
  have e3 : sc.funcInfo.getKey k = fi2.getKey k := funcChild_foldl_getKey_other k3 _ _ _ hsc
  have e4 : fi3.getKey k = sc.funcInfo.getKey k := by
    split_ifs at h3
    · exact Json.emplace_getKey_other h3 k4
    · cases h3; rfl
  have e5 : fi4.getKey k = fi3.getKey k := by
    split_ifs at h4
    · exact Json.emplace_getKey_other h4 k5
    · cases h4; rfl
  have e6 : fi5.getKey k = fi4.getKey k := by
    split_ifs at h5
    · cases h5; rfl
    · exact Json.emplace_getKey_other h5 k6
  show fi5.getKey k = none
  rw [e6, e5, e4, e3, e2, e1, e0]

/-- A field that `parseFunction` writes from a declaration is a number, a string or an array,
and its key is `2-param_name`, `0-linkage` or a key that no overlay and no template parameter
assigns to. -/
theorem funcRecord_field {fuel : Nat} {env : Env} {F : DieRef} {built : Json × List Die}
    (h : funcRecord fuel env F = .ok built) {field : Str} {v : Json}
    (hg : built.1.getKey field = some v) (h1 : field ≠ "2-param_name".toList)
    (h2 : field ≠ "0-linkage".toList) : field ∉ overwrittenKeys ∧ IsScalar v := by
  refine ⟨?_, funcRecord_scalarFields h field v hg⟩
  intro hmem
  simp only [overwrittenKeys, overlayKeys, List.cons_append, List.nil_append, List.mem_cons,
    List.mem_singleton, List.not_mem_nil, or_false] at hmem
  rcases hmem with e | e | e | e | e
  · exact h1 e
  · exact h2 e
  · rw [e, funcRecord_no_field h (by decide) (by decide)] at hg; cases hg
  · rw [e, funcRecord_no_field h (by decide) (by decide)] at hg; cases hg
  · rw [e, funcRecord_no_field h (by decide) (by decide)] at hg; cases hg
/-! ## Lemmas: the entry that an out-of-line definition leaves -/

/-- Every completed run of `parseFunction` on a definition whose specification is stored at
`path` leaves an entry under the key of the specification, and the entry holds the field
`otherOffset`. When the document held no entry under that key and the specification is a
declaration that is not filtered by its name, the entry is the record built from the
specification: every field of that record other than `2-param_name` and `0-linkage` is in
the entry. -/
theorem parseFunction_definition_record (n : Nat) (env : Env) (compileUnit : CU) (D S : DieRef)
    (specAttr : Attr) (ownName : Str) (off line : Nat) (path : List Str) (nm : Str)
    (out out1 : Json)
    (hown : D.die.getName [] = .ok ownName) (hown2 : startsWith ownName "__".toList = false)
    (hspec : D.die.findAttrByType DW_AT_specification = some specAttr)
    (hoff : specAttr.getU64 = .ok off) (hS : env.mDbg.findDIEbyOffset off = .ok (some S))
    (hpath : findWhereToStore n env compileUnit S = .ok path) (hne : path ≠ [])
    (hline : declLineOf S.die = .ok line) (hnm : S.die.getName anonymousName = .ok nm)
    (hparse : parseFunction (n + 1) env compileUnit D out = .ok out1) :
    hasRecord out1 path (storeKeyOf line "func" nm) = true ∧
    hasRecord out1 (path ++ [storeKeyOf line "func" nm]) "otherOffset".toList = true ∧
    (∀ sname, S.die.getName [] = .ok sname → startsWith sname "__".toList = false →
      S.die.findAttrByType DW_AT_specification = none →
      hasRecord out path (storeKeyOf line "func" nm) = false →
      ∃ (m : Nat) (built : Json × List Die), funcRecord m env S = .ok built ∧
        ∀ (field : Str) (v : Json), built.1.getKey field = some v →
          field ≠ "2-param_name".toList → field ≠ "0-linkage".toList →
          Json.getAt (path ++ [storeKeyOf line "func" nm, field]) out1 = some v) := by
  rw [parseFunction] at hparse
  simp only [hown, Res.bind_ok, hown2, Bool.false_eq_true, if_false, hspec, hoff, hS, hpath,
    if_neg hne, hline, hnm] at hparse
  obtain ⟨scan, hscan, hp1⟩ := Res.bind_eq_ok.1 hparse
  obtain ⟨o1, h1, hp2⟩ := Res.bind_eq_ok.1 hp1
  obtain ⟨o2, h2, hp3⟩ := Res.bind_eq_ok.1 hp2
  obtain ⟨o3, h3, hlater⟩ := Res.bind_eq_ok.1 hp3
  clear hparse hp1 hp2 hp3
  have hp0 : PathOk [] path := findWhereToStore_pathOk hpath
  have hp : PathOk [] (path ++ [storeKeyOf line "func" nm]) :=
    pathOk_append hp0 (storeKeyOf_not_overlay _ _ _)
  have hX3 : Ext [] o3 out1 :=
    infl_foldl _ scan.2 (fun a _ => (parse_infl n).1 env compileUnit (D.child a)) o3 out1 hlater
  have hX2 : Ext [] o2 o3 :=
    (@good_funcOverlayAt .null _ (by simp) hp D.die scan.1).1 o2 o3 h3
  obtain ⟨w, hw, hgetw⟩ := Json.modifyAt_getAt _ _ _ _ h3
  obtain ⟨r, hr, hext⟩ := Ext.getAt _ hX3 hp (by simp) hgetw
  refine ⟨hasRecord_of_getAt_append hr, ?_, ?_⟩
  · unfold hasRecord
    rw [hr]
    apply hext.hasKey
    rw [Json.hasKey_eq, (funcOverlay_fields hw).1]
    rfl
  · intro sname hsn hsn2 hSspec habs
    have hab1 : hasRecord o1 path (storeKeyOf line "func" nm) = false := by
      rw [hasRecord_touch _ h1]; exact habs
    rw [hab1] at h2
    simp only [Bool.false_eq_true, if_false] at h2
    cases n with
    | zero => simp [parseFunction] at h2
    | succ m =>
      rw [parseFunction] at h2
      simp only [hsn, Res.bind_ok, hsn2, Bool.false_eq_true, if_false, hSspec] at h2
      obtain ⟨path2, hpath2, h2⟩ := Res.bind_eq_ok.1 h2
      have hpe := findWhereToStore_fuel env compileUnit S _ _ _ _ hpath2 hpath
      subst hpe
      rw [if_neg hne] at h2
      simp only [hline, hnm, Res.bind_ok] at h2
      obtain ⟨built, hbuilt, h2⟩ := Res.bind_eq_ok.1 h2
      obtain ⟨o1b, h1b, h2⟩ := Res.bind_eq_ok.1 h2
      rw [modifyAt_emplace_absent _ _ _ _ hab1] at h1b
      obtain ⟨v, hv, hgetv⟩ := Json.modifyAt_getAt _ _ _ _ h1b
      cases hv
      refine ⟨m, built, hbuilt, ?_⟩
      intro field v hg hf1 hf2
      obtain ⟨hf, hv⟩ := funcRecord_field hbuilt hg hf1 hf2
      have htail := fieldPath_tail_keys (fun _ hk => hk) hpath hne line nm field hf
      have hfield : Json.getAt (path2 ++ [storeKeyOf line "func" nm, field]) o1b = some v := by
        rw [getAt_field hgetv, hg]
      have s1 := parseDIE_foldl_keepsBelow frameOk_overwritten m env compileUnit S built.2
        (Or.inl (by decide)) _ v o1b o2 htail hv h2 hfield
      have s2 := keepsBelow_modifyAt frameOk_overwritten.1
        (funcOverlay_keepsValues frameOk_overwritten.1 (by decide) D.die scan.1)
        (path2 ++ [storeKeyOf line "func" nm]) (by simp) _ v o2 o3 htail hv h3 s1
      exact parseDIE_foldl_keepsBelow frameOk_overwritten (m + 1) env compileUnit D scan.2
        (Or.inl (by decide)) _ v o3 out1 htail hv hlater s2
/-! ## Claims on the path normalizer and the storage keys -/

/-- C6: normalizing a normalized path changes nothing. -/
theorem simplifyPath_idempotent (p : Str) : simplifyPath (simplifyPath p) = simplifyPath p := by
  by_cases hp : p = []
  · subst hp; rfl
  · have hq : simplifyPath p ≠ [] := by
      rw [simplifyPath_eq p hp]
      split_ifs <;> simp
      exact (intercalate_eq_nil_iff _ (fun c hc => ((survivors_good p).1 c hc).1)).not.2 ‹_›
    rw [simplifyPath_eq _ hq, survivors_simplifyPath]
    by_cases hs : survivors p = []
    · rw [if_pos hs, simplifyPath_eq p hp, if_pos hs]
    · rw [if_neg hs]
      conv_rhs => rw [simplifyPath_eq p hp, if_neg hs]
      congr 1
      rw [simplifyPath_eq p hp, if_neg hs]
      by_cases hh : p.head? = some '/'
      · simp [hh]
      · have := head_intercalate_ne_slash _ (survivors_good p)
        simp [hh, this]

/-- C7, as the claim states it, fails: the relative path `a/..` is normalized to `/`. -/
theorem simplifyPath_leading_slash_counterexample :
    "a/..".toList ≠ [] ∧ (simplifyPath "a/..".toList).head? = some '/' ∧
      ("a/..".toList).head? ≠ some '/' := by
  decide

/-- C7 (amended): for a non-empty path `p`, `simplifyPath p` begins with `/` exactly
when `p` begins with `/` or no component of `p` survives (the result is then `/`). -/
theorem simplifyPath_leading_slash (p : Str) (hp : p ≠ []) :
    ((simplifyPath p).head? = some '/' ↔ (p.head? = some '/' ∨ survivors p = [])) ∧
      (survivors p = [] → simplifyPath p = ['/']) := by
  rw [simplifyPath_eq p hp]
  by_cases hs : survivors p = []
  · simp [hs]
  · simp only [hs, if_false, or_false, false_implies, and_true]
    by_cases hh : p.head? = some '/'
    · simp [hh]
    · have := head_intercalate_ne_slash _ (survivors_good p)
      simp [hh, this]

/-- Witness for C7: the absolute path `/a/b`. -/
theorem simplifyPath_leading_slash_witness :
    "/a/b".toList ≠ [] ∧
    (((simplifyPath "/a/b".toList).head? = some '/' ↔
        (("/a/b".toList).head? = some '/' ∨ survivors "/a/b".toList = [])) ∧
      (survivors "/a/b".toList = [] → simplifyPath "/a/b".toList = ['/'])) :=
  ⟨by decide, simplifyPath_leading_slash "/a/b".toList (by decide)⟩

/-- C8, as the claim states it, fails: `..` against an empty stack is kept, so
`simplifyPath "../a"` is `../a` (not `a`) and has the component `..`. -/
theorem simplifyPath_dotdot_counterexample :
    simplifyPath "../a".toList = "../a".toList ∧ simplifyPath "../a".toList ≠ "a".toList ∧
      "..".toList ∈ pieces (simplifyPath "../a".toList) ∧
      simplifyPath "/../a".toList = "/../a".toList := by
  decide

/-- C8 (amended): a `..` that meets an empty component stack is kept; hence in
`simplifyPath p` no component after the first equals `..`, and no component at
all is empty or `.`. -/
theorem simplifyPath_dotdot_only_first (p : Str) :
    (∀ c ∈ (pieces (simplifyPath p)).tail, c ≠ "..".toList) ∧
      (∀ c ∈ pieces (simplifyPath p), c ≠ [] ∧ c ≠ ".".toList) := by
  rw [pieces_simplifyPath]
  have hg := survivors_good p
  exact ⟨hg.2, fun c hc => ⟨(hg.1 c hc).1, (hg.1 c hc).2.1⟩⟩

/-- Witness for C8: the component `c` of `../b/./c` comes after the first one. -/
theorem simplifyPath_dotdot_only_first_witness :
    "c".toList ∈ (pieces (simplifyPath "../b/./c".toList)).tail ∧ "c".toList ≠ "..".toList :=
  ⟨by decide,
   (simplifyPath_dotdot_only_first "../b/./c".toList).1 "c".toList (by decide)⟩

/-- C9: the empty path stays empty; a non-empty path without surviving component
becomes `/`; otherwise the result is the surviving components joined by single
`/`, behind the leading `/` of the input when it has one. -/
theorem simplifyPath_shape :
    simplifyPath [] = [] ∧
    (∀ p : Str, p ≠ [] → survivors p = [] → simplifyPath p = "/".toList) ∧
    (∀ p : Str, survivors p ≠ [] →
      simplifyPath p =
        (if p.head? = some '/' then "/".toList else []) ++
          List.intercalate "/".toList (survivors p)) ∧
    simplifyPath "/".toList = "/".toList ∧ simplifyPath "//".toList = "/".toList ∧
    simplifyPath "a/..".toList = "/".toList ∧
    survivors "/a/./b/../c".toList = ["a".toList, "c".toList] ∧
    simplifyPath "/a/./b/../c".toList = "/a/c".toList := by
  refine ⟨rfl, ?_, ?_, by decide, by decide, by decide, by decide, by decide⟩
  · intro p hp hs
    rw [simplifyPath_eq p hp, if_pos hs]
    rfl
  · intro p hs
    have hp : p ≠ [] := by
      rintro rfl
      exact hs (by decide)
    rw [simplifyPath_eq p hp, if_neg hs]
    rfl

/-- Witness for C9: `./.` has no surviving component, `x//y/` has two. -/
theorem simplifyPath_shape_witness :
    ("./.".toList ≠ [] ∧ survivors "./.".toList = [] ∧ simplifyPath "./.".toList = "/".toList) ∧
    (survivors "x//y/".toList ≠ [] ∧
      simplifyPath "x//y/".toList =
        (if ("x//y/".toList).head? = some '/' then "/".toList else []) ++
          List.intercalate "/".toList (survivors "x//y/".toList)) :=
  ⟨⟨by decide, by decide, simplifyPath_shape.2.1 "./.".toList (by decide) (by decide)⟩,
   ⟨by decide, simplifyPath_shape.2.2.1 "x//y/".toList (by decide)⟩⟩

/-- C3, as the claim states it, fails: line 99999 sorts after line 100000. -/
theorem storeKey_order_counterexample :
    (99999 : Nat) < 100000 ∧
      strLt (storeKeyOf 99999 "func" "f".toList) (storeKeyOf 100000 "func" "f".toList) = false := by
  decide

/-- C3 (amended): for line numbers `l1 < l2` that fit the five digits of the key
(`l2 < 100000`), the key built for `l1` is smaller than the key built for `l2`,
whatever the kinds and names. -/
theorem storeKey_order (l1 l2 : Nat) (kind1 kind2 : String) (name1 name2 : Str)
    (h : l1 < l2) (h5 : l2 < 100000) :
    strLt (storeKeyOf l1 kind1 name1) (storeKeyOf l2 kind2 name2) = true := by
  unfold storeKeyOf
  simp only [List.append_assoc]
  exact strLt_fmt05 l1 l2 h h5 _ _

/-- Witness for C3: lines 7 and 12. -/
theorem storeKey_order_witness :
    (7 : Nat) < 12 ∧ (12 : Nat) < 100000 ∧
      strLt (storeKeyOf 7 "func" "zeta".toList) (storeKeyOf 12 "var" "alpha".toList) = true :=
  ⟨by decide, by decide, storeKey_order 7 12 "func" "var" "zeta".toList "alpha".toList
    (by decide) (by decide)⟩

/-! ## Claims on the scope resolver -/

/-- C1, as the claim states it, fails: with the filter `/src`, the declaration of
`m` (file `/src/a.cpp`) sits in a class local to the body of `g`, whose
specification is declared in `/inc/h.h`; the path returned for it starts with
`/inc/h.h`, and the run stores the record of `m` under that top-level key. -/
theorem findWhereToStore_filter_counterexample :
    findWhereToStore 10 Sample.env Sample.cu
        ⟨Sample.mDecl, [Sample.localClass, Sample.gDef, Sample.cuDie]⟩ =
      .ok ["/inc/h.h".toList, "00003-func: g".toList, "local_info".toList, "class: L".toList] ∧
    startsWith "/inc/h.h".toList Sample.env.mDeclFileFilter = false ∧
    topKeys (start 10 Sample.env .null) = ["/inc/h.h".toList] := by
  decide

/-- C1 (amended): whenever `findWhereToStore` returns a non-empty path for a DIE,
the DIE has a `decl_file` attribute whose normalized source-file path starts with
the filter; and when no ancestor of the DIE is a subprogram with a specification
attribute, that path is the first element of the result. -/
theorem findWhereToStore_filter (fuel : Nat) (env : Env) (compileUnit : CU) (DIE : DieRef)
    (path : List Str) (h : findWhereToStore fuel env compileUnit DIE = .ok path)
    (hne : path ≠ []) :
    ∃ attr file, DIE.die.findAttrByType DW_AT_decl_file = some attr ∧
      srcfileAt compileUnit.mSrcfiles attr.getValueAsU64 = .ok file ∧
      startsWith (simplifyPath file) env.mDeclFileFilter = true ∧
      (NoSpecAncestor DIE.parents → path.head? = some (simplifyPath file)) := by
  unfold findWhereToStore at h
  cases ha : DIE.die.findAttrByType DW_AT_decl_file with
  | none =>
    rw [ha] at h
    simp only [Res.ok.injEq] at h
    exact absurd h.symm hne
  | some attr =>
    rw [ha] at h
    simp only at h
    split_ifs at h with h1
    · simp only [Res.ok.injEq] at h
      exact absurd h.symm hne
    · obtain ⟨file, hfile, h⟩ := Res.bind_eq_ok.1 h
      split_ifs at h with h2
      · simp only [Res.ok.injEq] at h
        exact absurd h.symm hne
      · refine ⟨attr, file, rfl, hfile, by simpa using h2, ?_⟩
        intro hno
        exact findWhereToStoreLoop_head env _ _ _ _ _ _ _ h hno

/-- Witness for C1: the member of the anonymous union in `/src/b.c`, filter `/src`. -/
theorem findWhereToStore_filter_witness :
    findWhereToStore 10 Sample.envB Sample.cuB
        ⟨Sample.member, [Sample.anonUnion, Sample.structS, Sample.cuDieB]⟩ =
      .ok ["/src/b.c".toList, "struct: S".toList, "union: `anonymous`".toList, "content".toList] ∧
    ∃ attr file, Sample.member.findAttrByType DW_AT_decl_file = some attr ∧
      srcfileAt Sample.cuB.mSrcfiles attr.getValueAsU64 = .ok file ∧
      startsWith (simplifyPath file) Sample.envB.mDeclFileFilter = true ∧
      ["/src/b.c".toList, "struct: S".toList, "union: `anonymous`".toList,
        "content".toList].head? = some (simplifyPath file) :=
  ⟨by decide,
   match findWhereToStore_filter 10 Sample.envB Sample.cuB
      ⟨Sample.member, [Sample.anonUnion, Sample.structS, Sample.cuDieB]⟩
      ["/src/b.c".toList, "struct: S".toList, "union: `anonymous`".toList, "content".toList]
      (by decide) (by decide) with
   | ⟨attr, file, h1, h2, h3, h4⟩ =>
     ⟨attr, file, h1, h2, h3, h4 (by unfold NoSpecAncestor; decide)⟩⟩

/-- C4: `findWhereToStore` returns the empty path for a DIE without `decl_file`,
for a `decl_file` index beyond the source-file table, and for a source file whose
normalized path does not start with the filter. -/
theorem findWhereToStore_skip (fuel : Nat) (env : Env) (compileUnit : CU) (DIE : DieRef) :
    (DIE.die.findAttrByType DW_AT_decl_file = none →
      findWhereToStore fuel env compileUnit DIE = .ok []) ∧
    (∀ attr, DIE.die.findAttrByType DW_AT_decl_file = some attr →
      attr.getValueAsU64 > compileUnit.mSrcfiles.length →
      findWhereToStore fuel env compileUnit DIE = .ok []) ∧
    (∀ attr file, DIE.die.findAttrByType DW_AT_decl_file = some attr →
      srcfileAt compileUnit.mSrcfiles attr.getValueAsU64 = .ok file →
      startsWith (simplifyPath file) env.mDeclFileFilter = false →
      findWhereToStore fuel env compileUnit DIE = .ok []) := by
  refine ⟨?_, ?_, ?_⟩
  · intro h
    simp [findWhereToStore, h]
  · intro attr h hgt
    simp [findWhereToStore, h, hgt]
  · intro attr file h hfile hfilter
    unfold findWhereToStore
    rw [h]
    simp only
    split_ifs
    · rfl
    · simp [hfile, hfilter]

/-- Witness for C4: a class without `decl_file`, an index beyond a table of one file, and a header
outside the filter `/src`. -/
theorem findWhereToStore_skip_witness :
    (Sample.localClass.findAttrByType DW_AT_decl_file = none ∧
      findWhereToStore 0 Sample.env Sample.cu ⟨Sample.localClass, [Sample.gDef, Sample.cuDie]⟩ =
        .ok []) ∧
    (Sample.gDecl.findAttrByType DW_AT_decl_file = some (Attr.ofU64 22 DW_AT_decl_file 2) ∧
      (Attr.ofU64 22 DW_AT_decl_file 2).getValueAsU64 > Sample.cuB.mSrcfiles.length ∧
      findWhereToStore 0 Sample.env Sample.cuB ⟨Sample.gDecl, [Sample.cuDie]⟩ = .ok []) ∧
    (Sample.gDecl.findAttrByType DW_AT_decl_file = some (Attr.ofU64 22 DW_AT_decl_file 2) ∧
      srcfileAt Sample.cu.mSrcfiles (Attr.ofU64 22 DW_AT_decl_file 2).getValueAsU64 =
        .ok "/inc/h.h".toList ∧
      startsWith (simplifyPath "/inc/h.h".toList) Sample.env.mDeclFileFilter = false ∧
      findWhereToStore 0 Sample.env Sample.cu ⟨Sample.gDecl, [Sample.cuDie]⟩ = .ok []) :=
  ⟨⟨by decide,
    (findWhereToStore_skip 0 Sample.env Sample.cu ⟨Sample.localClass, [Sample.gDef, Sample.cuDie]⟩).1
      (by decide)⟩,
   ⟨by decide, by decide,
    (findWhereToStore_skip 0 Sample.env Sample.cuB ⟨Sample.gDecl, [Sample.cuDie]⟩).2.1
      (Attr.ofU64 22 DW_AT_decl_file 2) (by decide) (by decide)⟩,
   ⟨by decide, by decide, by decide,
    (findWhereToStore_skip 0 Sample.env Sample.cu ⟨Sample.gDecl, [Sample.cuDie]⟩).2.2
      (Attr.ofU64 22 DW_AT_decl_file 2) "/inc/h.h".toList (by decide) (by decide) (by decide)⟩⟩

/-- C10, as the claim states it, fails: the path of the member has the `union:`
key before the `content` key. -/
theorem member_in_union_path_counterexample :
    findWhereToStore 10 Sample.envB Sample.cuB
        ⟨Sample.member, [Sample.anonUnion, Sample.structS, Sample.cuDieB]⟩ =
      .ok ["/src/b.c".toList, "struct: S".toList, "union: `anonymous`".toList, "content".toList] ∧
    ["/src/b.c".toList, "struct: S".toList, "union: `anonymous`".toList, "content".toList] ≠
      ["/src/b.c".toList, "struct: S".toList, "content".toList, "union: `anonymous`".toList] := by
  decide

/-- C10 (amended): for a member whose parent is an anonymous union whose parent is
a structure named `S` directly under the CU, with `decl_file` resolving to
`/src/b.c` and a filter that is a prefix of it, the scope resolver returns
`["/src/b.c", "struct: S", "union: anonymous", "content"]` (the `union:` key comes
before `content`), and `parseVariable` leaves the record of the member at that
path under its `<line>-memb: <name>` key. -/
theorem member_in_union_path (fuel : Nat) (env : Env) (compileUnit : CU) (m u s : Die)
    (attr nameAttr : Attr) (file sName : Str)
    (hfile : m.findAttrByType DW_AT_decl_file = some attr)
    (hidx : attr.getValueAsU64 ≤ compileUnit.mSrcfiles.length)
    (hsrc : srcfileAt compileUnit.mSrcfiles attr.getValueAsU64 = .ok file)
    (hnorm : simplifyPath file = "/src/b.c".toList)
    (hfilter : startsWith "/src/b.c".toList env.mDeclFileFilter = true)
    (hu : u.getTAG = DW_TAG_union_type) (hun : u.findAttrByType DW_AT_name = none)
    (hs : s.getTAG = DW_TAG_structure_type)
    (hsn : s.findAttrByType DW_AT_name = some nameAttr) (hsv : nameAttr.mValue = .str sName)
    (hcu : compileUnit.die.getTAG = DW_TAG_compile_unit)
    (hcun : (compileUnit.die.getName anonymousName).isOk = true) :
    findWhereToStore (fuel + 3) env compileUnit ⟨m, [u, s, compileUnit.die]⟩ =
      .ok ["/src/b.c".toList, "struct: ".toList ++ sName, "union: `anonymous`".toList,
        "content".toList] ∧
    ∀ out out1 : Json, m.findAttrByType DW_AT_specification = none →
      parseVariable (fuel + 4) env compileUnit ⟨m, [u, s, compileUnit.die]⟩ true out = .ok out1 →
      ∃ line name, declLineOf m = .ok line ∧ m.getName unnamedVar = .ok name ∧
        hasRecord out1
          ["/src/b.c".toList, "struct: ".toList ++ sName, "union: `anonymous`".toList,
            "content".toList]
          (storeKeyOf line "memb" name) = true := by
  have hpath : findWhereToStore (fuel + 3) env compileUnit ⟨m, [u, s, compileUnit.die]⟩ =
      .ok ["/src/b.c".toList, "struct: ".toList ++ sName, "union: `anonymous`".toList,
        "content".toList] := by
    have hnu : u.getName "`anonymous`".toList = .ok "`anonymous`".toList := by
      simp [Die.getName, hun]
    have hns : s.getName "`anonymous`".toList = .ok sName := by
      simp [Die.getName, hsn, Attr.getStr, hsv]
    obtain ⟨cn, hcn⟩ : ∃ cn, compileUnit.die.getName "`anonymous`".toList = .ok cn := by
      revert hcun
      cases compileUnit.die.getName anonymousName <;> simp [Res.isOk]
    have hgt : ¬ attr.getValueAsU64 > compileUnit.mSrcfiles.length := by omega
    simp at hnu hns hcn hfilter
    simp [findWhereToStore, hfile, hgt, hsrc, hnorm, hfilter, findWhereToStoreLoop, hu, hs, hcu,
      hnu, hns, hcn]
  refine ⟨hpath, ?_⟩
  intro out out1 hspec hparse
  rw [parseVariable] at hparse
  simp only [hspec, hpath, Res.bind_ok] at hparse
  rw [if_neg (by simp)] at hparse
  obtain ⟨info, _, hparse⟩ := Res.bind_eq_ok.1 hparse
  obtain ⟨line, hline, hparse⟩ := Res.bind_eq_ok.1 hparse
  obtain ⟨name, hname, hparse⟩ := Res.bind_eq_ok.1 hparse
  exact ⟨line, name, hline, hname, hasRecord_of_emplace hparse⟩

/-- Witness for C10: the member `v` of the sample `/src/b.c`, parsed into an empty document. -/
theorem member_in_union_path_witness :
    findWhereToStore (0 + 3) Sample.envB Sample.cuB
        ⟨Sample.member, [Sample.anonUnion, Sample.structS, Sample.cuB.die]⟩ =
      .ok ["/src/b.c".toList, "struct: ".toList ++ "S".toList, "union: `anonymous`".toList,
        "content".toList] ∧
    parseVariable (0 + 4) Sample.envB Sample.cuB
        ⟨Sample.member, [Sample.anonUnion, Sample.structS, Sample.cuB.die]⟩ true .null =
      .ok Sample.memberOut ∧
    ∃ line name, declLineOf Sample.member = .ok line ∧
      Sample.member.getName unnamedVar = .ok name ∧
      hasRecord Sample.memberOut
        ["/src/b.c".toList, "struct: ".toList ++ "S".toList, "union: `anonymous`".toList,
          "content".toList]
        (storeKeyOf line "memb" name) = true :=
  have h := member_in_union_path 0 Sample.envB Sample.cuB Sample.member Sample.anonUnion
    Sample.structS (Attr.ofU64 132 DW_AT_decl_file 1) (Attr.ofStr 111 DW_AT_name "S")
    "/src/./b.c".toList "S".toList (by decide) (by decide) (by decide) (by decide) (by decide)
    (by decide) (by decide) (by decide) (by decide) (by decide) (by decide) (by decide)
  ⟨h.1, rfl, h.2 .null Sample.memberOut (by decide) rfl⟩

/-! ## Claims on the entity parsers -/

/-- C2, as the claim states it, fails for variables: after the declaration and the
definition of the static member `x` have been dispatched, its one record has no
`otherOffset` and no `0-linkage`; the linkage name of the definition is stored
under `1-linkage`. -/
theorem decl_def_one_record_counterexample :
    Sample.xDef.findAttrByType DW_AT_specification =
      some (Attr.ofU64 451 DW_AT_specification 350) ∧
    Sample.envA.mDbg.findDIEbyOffset 350 = .ok (some Sample.xDeclRef) ∧
    findWhereToStore 5 Sample.envA Sample.cuA Sample.xDeclRef = .ok Sample.pathC ∧
    parseDIE 7 Sample.envA Sample.cuA Sample.xDeclRef .null = .ok Sample.xOut1 ∧
    parseDIE 7 Sample.envA Sample.cuA ⟨Sample.xDef, [Sample.cuDieA]⟩ Sample.xOut1 =
      .ok Sample.xOut2 ∧
    (Json.getAt (Sample.pathC ++ ["00009-memb: x".toList, "otherOffset".toList])
      Sample.xOut2).isSome = false ∧
    (Json.getAt (Sample.pathC ++ ["00009-memb: x".toList, "0-linkage".toList])
      Sample.xOut2).isSome = false ∧
    Json.getAt (Sample.pathC ++ ["00009-memb: x".toList, "1-linkage".toList]) Sample.xOut2 =
      some (.str "_ZN1n1C1xE".toList) :=
  ⟨by decide, rfl, by decide, rfl, rfl, by decide, by decide, rfl⟩

/-- C2 (amended): declaration `S` parsed first, definition `D` (whose specification
is `S`, not skipped by the scope resolver) parsed second, no record under the key
of `S` before. For a function (names not starting with `__`, `S` with parameter
children only): the tree is the old one with one record `r` put under the key of
`S`, to which only the dispatch of the non-parameter children of `D` is then
applied; `r` keeps the `0-decl_pos` of the record of `S` and carries `0-linkage`
and `otherOffset` of `D`. For a variable: the tree is the old one with one record
under the key of `S`; it keeps `0-decl_pos`, gets the linkage name of `D` under
`1-linkage`, and has neither `otherOffset` nor `0-linkage`. -/
theorem decl_def_one_record :
    (∀ (env : Env) (compileUnit : CU) (S D : DieRef) (fuelS fuelD : Nat) (out out1 out2 : Json)
        (path : List Str) (specAttr : Attr) (off : Nat) (line : Nat) (name : Str),
      S.die.findAttrByType DW_AT_specification = none →
      (∀ c ∈ S.die.getChildren, IsParamTag c.getTAG) →
      D.die.findAttrByType DW_AT_specification = some specAttr →
      specAttr.getU64 = .ok off →
      env.mDbg.findDIEbyOffset off = .ok (some S) →
      findWhereToStore fuelS env compileUnit S = .ok path →
      path ≠ [] →
      (∀ n, S.die.getName [] = .ok n → startsWith n "__".toList = false) →
      (∀ n, D.die.getName [] = .ok n → startsWith n "__".toList = false) →
      declLineOf S.die = .ok line →
      S.die.getName anonymousName = .ok name →
      hasRecord out path (storeKeyOf line "func" name) = false →
      parseFunction (fuelS + 1) env compileUnit S out = .ok out1 →
      parseFunction (fuelD + 1) env compileUnit D out1 = .ok out2 →
        ∃ record1 r out3 scan,
          funcRecord fuelS env S = .ok (record1, []) ∧
          Res.foldl specChild ([], []) D.die.getChildren = .ok scan ∧
          Json.modifyAt (path ++ [storeKeyOf line "func" name]) (fun _ => .ok r) out = .ok out3 ∧
          Res.foldl (fun o die => parseDIE fuelD env compileUnit (D.child die) o) out3 scan.2 =
            .ok out2 ∧
          r.getKey "0-decl_pos".toList = record1.getKey "0-decl_pos".toList ∧
          r.getKey "otherOffset".toList = some (.uint D.die.getOffset) ∧
          (∀ la l, D.die.findAttrByType DW_AT_linkage_name = some la → la.mValue = .str l →
            r.getKey "0-linkage".toList = some (.str l))) ∧
    (∀ (env : Env) (compileUnit : CU) (S D : DieRef) (fuelS fuelD : Nat) (flagD : Bool) (out out1 out2 : Json)
        (path : List Str) (specAttr : Attr) (off : Nat) (line : Nat) (name : Str),
      S.die.findAttrByType DW_AT_specification = none →
      D.die.findAttrByType DW_AT_specification = some specAttr →
      specAttr.getU64 = .ok off →
      env.mDbg.findDIEbyOffset off = .ok (some S) →
      findWhereToStore fuelS env compileUnit S = .ok path →
      path ≠ [] →
      declLineOf S.die = .ok line →
      S.die.getName unnamedVar = .ok name →
      hasRecord out path (storeKeyOf line (varKind (decide (S.die.getTAG = DW_TAG_member))) name)
          = false →
      parseVariable (fuelS + 1) env compileUnit S (decide (S.die.getTAG = DW_TAG_member)) out =
          .ok out1 →
      parseVariable (fuelD + 1) env compileUnit D flagD out1 = .ok out2 →
        ∃ record1 r,
          varRecord fuelS env S = .ok record1 ∧
          Json.modifyAt
            (path ++ [storeKeyOf line (varKind (decide (S.die.getTAG = DW_TAG_member))) name])
            (fun _ => .ok r) out = .ok out2 ∧
          r.getKey "0-decl_pos".toList = record1.getKey "0-decl_pos".toList ∧
          r.getKey "otherOffset".toList = none ∧
          r.getKey "0-linkage".toList = none ∧
          (∀ front la back l, D.die.getAttrs = front ++ la :: back →
            la.mType = DW_AT_linkage_name → la.mValue = .str l →
            (∀ a ∈ back, a.mType ≠ DW_AT_linkage_name) →
            r.getKey "1-linkage".toList = some (.str l))) := by
  constructor
  · intro env compileUnit S D fuelS fuelD out out1 out2 path specAttr off line name hSdecl hSkids
      hD hoff hfind hpath hne hSname hDname hline hname habsent h1 h2
    -- the declaration
    rw [parseFunction] at h1
    obtain ⟨n0, hn0, h1⟩ := Res.bind_eq_ok.1 h1
    rw [if_neg (by rw [hSname n0 hn0]; decide)] at h1
    simp only [hSdecl, hpath, Res.bind_ok, if_neg hne, hline, hname] at h1
    obtain ⟨built, hbuilt, h1⟩ := Res.bind_eq_ok.1 h1
    obtain ⟨out1a, hstore, h1⟩ := Res.bind_eq_ok.1 h1
    have hl : built.2 = [] := funcRecord_later hSkids hbuilt
    rw [hl] at h1
    simp only [Res.foldl, Res.ok.injEq] at h1
    subst h1
    -- the definition
    rw [parseFunction] at h2
    obtain ⟨d0, hd0, h2⟩ := Res.bind_eq_ok.1 h2
    rw [if_neg (by rw [hDname d0 hd0]; decide)] at h2
    simp only [hD, hoff, hfind, Res.bind_ok] at h2
    obtain ⟨path1, hpath1, h2⟩ := Res.bind_eq_ok.1 h2
    have hp : path1 = path := findWhereToStore_fuel env compileUnit S _ _ _ _ hpath1 hpath
    subst hp
    rw [if_neg hne] at h2
    simp only [hline, hname, Res.bind_ok] at h2
    obtain ⟨scan, hscan, h2⟩ := Res.bind_eq_ok.1 h2
    rw [touch_after_modifyAt _ _ _ _ hstore] at h2
    simp only [Res.bind_ok] at h2
    rw [if_pos (hasRecord_of_emplace hstore)] at h2
    simp only [Res.bind_ok] at h2
    obtain ⟨out3, hov, h2⟩ := Res.bind_eq_ok.1 h2
    rw [modifyAt_emplace_absent _ _ _ _ habsent] at hstore
    have hc := Json.modifyAt_comp (path1 ++ [storeKeyOf line "func" name])
      (fun _ => .ok built.1) (funcOverlay D.die scan.1) out
    rw [hstore] at hc
    simp only [Res.bind_ok] at hc
    rw [hc] at hov
    obtain ⟨r, hr, _⟩ := Json.modifyAt_getAt _ _ _ _ hov
    have hput : Json.modifyAt (path1 ++ [storeKeyOf line "func" name]) (fun _ => .ok r) out =
        .ok out3 := by
      rw [← hov]
      apply Json.modifyAt_congr
      exact hr.symm
    obtain ⟨f1, f2, f3⟩ := funcOverlay_fields hr
    refine ⟨built.1, r, out3, scan, ?_, hscan, hput, h2,
      f3 _ (by decide) (by decide) (by decide), f1, f2⟩
    rw [hbuilt, ← hl]
  · intro env compileUnit S D fuelS fuelD flagD out out1 out2 path specAttr off line name hSdecl
      hD hoff hfind hpath hne hline hname habsent h1 h2
    -- the declaration
    rw [parseVariable] at h1
    simp only [hSdecl, hpath, Res.bind_ok, if_neg hne, hline, hname] at h1
    obtain ⟨record1, hrec, hstore⟩ := Res.bind_eq_ok.1 h1
    -- the definition
    rw [parseVariable] at h2
    simp only [hD, hoff, hfind, Res.bind_ok] at h2
    obtain ⟨path1, hpath1, h2⟩ := Res.bind_eq_ok.1 h2
    have hp : path1 = path := findWhereToStore_fuel env compileUnit S _ _ _ _ hpath1 hpath
    subst hp
    rw [if_neg hne] at h2
    simp only [hline, hname, Res.bind_ok] at h2
    rw [touch_after_modifyAt _ _ _ _ hstore] at h2
    simp only [Res.bind_ok] at h2
    rw [if_pos (hasRecord_of_emplace hstore)] at h2
    simp only [Res.bind_ok] at h2
    rw [modifyAt_emplace_absent _ _ _ _ habsent] at hstore
    have hc := Json.modifyAt_comp
      (path1 ++ [storeKeyOf line (varKind (decide (S.die.getTAG = DW_TAG_member))) name])
      (fun _ => .ok record1) (fun varJson => Res.foldl (varOverlayAttr env) varJson D.die.getAttrs)
      out
    rw [hstore] at hc
    simp only [Res.bind_ok] at hc
    rw [hc] at h2
    obtain ⟨r, hr, _⟩ := Json.modifyAt_getAt _ _ _ _ h2
    have hput : Json.modifyAt
        (path1 ++ [storeKeyOf line (varKind (decide (S.die.getTAG = DW_TAG_member))) name])
        (fun _ => .ok r) out = .ok out2 := by
      rw [← h2]
      apply Json.modifyAt_congr
      exact hr.symm
    have hkeep : ∀ k : Str, k ≠ "1-location".toList → k ≠ "1-linkage".toList →
        r.getKey k = record1.getKey k := by
      intro k hk1 hk2
      exact Res.foldl_invariant (varOverlayAttr env) (fun j => j.getKey k = record1.getKey k)
        (fun b a b1 hb hstep => by show b1.getKey k = record1.getKey k; rw [varOverlayAttr_other hstep hk1 hk2]; exact hb) _ _ _ rfl hr
    refine ⟨record1, r, hrec, hput, hkeep _ (by decide) (by decide), ?_, ?_, ?_⟩
    · rw [hkeep _ (by decide) (by decide)]
      exact varRecord_no_key hrec (Or.inl rfl)
    · rw [hkeep _ (by decide) (by decide)]
      exact varRecord_no_key hrec (Or.inr rfl)
    · intro front la back l hsplit hla hl hback
      exact varOverlay_linkage hr hsplit hla hl hback

/-- Witness for C2: `foo` and `x` of the class `C` of the sample `/src/d.cpp`, parsed into an
empty document. -/
theorem decl_def_one_record_witness :
    (∃ record1 r out3 scan,
      funcRecord 5 Sample.envA Sample.fooDeclRef = .ok (record1, []) ∧
      Res.foldl specChild ([], []) Sample.fooDef.getChildren = .ok scan ∧
      Json.modifyAt (Sample.pathC ++ [storeKeyOf 7 "func" "foo".toList]) (fun _ => .ok r) .null =
        .ok out3 ∧
      Res.foldl
          (fun o die =>
            parseDIE 9 Sample.envA Sample.cuA (DieRef.child ⟨Sample.fooDef, [Sample.cuDieA]⟩ die) o)
          out3 scan.2 = .ok Sample.fooOut2 ∧
      r.getKey "0-decl_pos".toList = record1.getKey "0-decl_pos".toList ∧
      r.getKey "otherOffset".toList = some (.uint 400) ∧
      r.getKey "0-linkage".toList = some (.str "_ZN1n1C3fooEi".toList)) ∧
    (∃ record1 r,
      varRecord 5 Sample.envA Sample.xDeclRef = .ok record1 ∧
      Json.modifyAt (Sample.pathC ++ [storeKeyOf 9 "memb" "x".toList]) (fun _ => .ok r) .null =
        .ok Sample.xOut2 ∧
      r.getKey "0-decl_pos".toList = record1.getKey "0-decl_pos".toList ∧
      r.getKey "otherOffset".toList = none ∧
      r.getKey "0-linkage".toList = none ∧
      r.getKey "1-linkage".toList = some (.str "_ZN1n1C1xE".toList)) :=
  ⟨match decl_def_one_record.1 Sample.envA Sample.cuA Sample.fooDeclRef
      ⟨Sample.fooDef, [Sample.cuDieA]⟩ 5 9 .null Sample.fooOut1 Sample.fooOut2 Sample.pathC
      (Attr.ofU64 401 DW_AT_specification 340) 340 7 "foo".toList (by decide)
      (by unfold IsParamTag; decide) (by decide) (by decide) rfl (by decide) (by decide)
      (fun n h => by
        have e : Sample.fooDeclRef.die.getName [] = .ok "foo".toList := by decide
        rw [e] at h
        cases h
        decide)
      (fun n h => by
        have e : Sample.fooDef.getName [] = .ok [] := by decide
        have h2 : Res.ok [] = Res.ok n := e.symm.trans h
        cases h2
        decide)
      (by decide) (by decide) (by decide) rfl rfl with
    | ⟨record1, r, out3, scan, a, b, c, d, e, f, g⟩ =>
      ⟨record1, r, out3, scan, a, b, c, d, e, f,
        g (Attr.ofStr 402 DW_AT_linkage_name "_ZN1n1C3fooEi") "_ZN1n1C3fooEi".toList
          (by decide) rfl⟩,
   match decl_def_one_record.2 Sample.envA Sample.cuA Sample.xDeclRef
      ⟨Sample.xDef, [Sample.cuDieA]⟩ 5 5 false .null Sample.xOut1 Sample.xOut2 Sample.pathC
      (Attr.ofU64 451 DW_AT_specification 350) 350 9 "x".toList (by decide) (by decide)
      (by decide) rfl (by decide) (by decide) (by decide) (by decide) (by decide) rfl rfl with
    | ⟨record1, r, a, b, c, d, e, f⟩ =>
      ⟨record1, r, a, b, c, d, e,
        f [Attr.ofU64 451 DW_AT_specification 350]
          (Attr.ofStr 452 DW_AT_linkage_name "_ZN1n1C1xE") [] "_ZN1n1C1xE".toList rfl rfl rfl
          (by decide)⟩⟩

/-- C5, as the claim states it, fails: the inheritance entry of `Derived` has no
`decl_file` (and no specification), yet dispatching it stores an entry, because
the scope is resolved from the parent class. -/
theorem parseDIE_no_decl_file_counterexample :
    Sample.inheritance.findAttrByType DW_AT_decl_file = none ∧
    Sample.inheritance.findAttrByType DW_AT_specification = none ∧
    Sample.inheritance.getTAG = DW_TAG_inheritance ∧
    parseDIE 5 Sample.envC Sample.cuC
        ⟨Sample.inheritance, [Sample.derivedClass, Sample.cuDieC]⟩ .null =
      .ok Sample.inheritanceOut ∧
    Sample.inheritanceOut ≠ .null :=
  ⟨by decide, by decide, by decide, rfl, nofun⟩

/-- C5 (amended): a DIE without `decl_file` and without specification that is an
enumeration, union, variable, member or typedef, or a subprogram whose name (if
any) is a string, leaves the output tree unchanged when dispatched through
`parseDIE`. An inheritance or template-parameter DIE is resolved through its
parent: the tree is unchanged when the parent has no `decl_file`. -/
theorem parseDIE_no_decl_file (fuel : Nat) (env : Env) (compileUnit : CU) (D : DieRef)
    (out : Json) (hfile : D.die.findAttrByType DW_AT_decl_file = none)
    (hspec : D.die.findAttrByType DW_AT_specification = none) :
    ((D.die.getTAG = DW_TAG_enumeration_type ∨ D.die.getTAG = DW_TAG_union_type ∨
        D.die.getTAG = DW_TAG_variable ∨ D.die.getTAG = DW_TAG_member ∨
        D.die.getTAG = DW_TAG_typedef) →
      parseDIE (fuel + 2) env compileUnit D out = .ok out) ∧
    (D.die.getTAG = DW_TAG_subprogram → (D.die.getName []).isOk = true →
      parseDIE (fuel + 2) env compileUnit D out = .ok out) ∧
    ((D.die.getTAG = DW_TAG_inheritance ∨ D.die.getTAG = DW_TAG_template_type_param ∨
        D.die.getTAG = DW_TAG_template_value_param ∨
        D.die.getTAG = DW_TAG_GNU_template_parameter_pack) →
      ∀ P, D.getParentDIE = some P → P.die.findAttrByType DW_AT_decl_file = none →
      parseDIE (fuel + 2) env compileUnit D out = .ok out) := by
  have hskip : ∀ f, findWhereToStore f env compileUnit D = .ok [] := by
    intro f
    simp [findWhereToStore, hfile]
  refine ⟨?_, ?_, ?_⟩
  · rintro (h | h | h | h | h)
    · simp [parseDIE, h, parseEnum, hskip]
    · simp [parseDIE, h, parseUnion, hskip]
    · simp [parseDIE, h, parseVariable, hspec, hskip]
    · simp [parseDIE, h, parseVariable, hspec, hskip]
    · simp [parseDIE, h, parseTypedef, hskip]
  · intro h hname
    obtain ⟨nm, hnm⟩ : ∃ nm, D.die.getName [] = .ok nm := by
      revert hname
      cases D.die.getName [] <;> simp [Res.isOk]
    simp only [parseDIE, h, parseFunction, hnm, hspec, hskip, Res.bind_ok]
    simp
  · intro h P hP hPfile
    have hskipP : ∀ f, findWhereToStore f env compileUnit P = .ok [] := by
      intro f
      simp [findWhereToStore, hPfile]
    rcases h with h | h | h | h
    · simp [parseDIE, h, parseInheritance, hP, hskipP]
    · simp [parseDIE, h, parseClassTemplateParams, hP, hskipP]
    · simp [parseDIE, h, parseClassTemplateParams, hP, hskipP]
    · simp [parseDIE, h, parseClassTemplateParams, hP, hskipP]

/-- Witness for C5: a typedef, a subprogram and an inheritance entry under a namespace, all
without `decl_file`. -/
theorem parseDIE_no_decl_file_witness :
    parseDIE (0 + 2) Sample.envC Sample.cuC ⟨Sample.typedefNoFile, [Sample.cuDieC]⟩
        Sample.inheritanceOut = .ok Sample.inheritanceOut ∧
    parseDIE (0 + 2) Sample.envC Sample.cuC ⟨Sample.funcNoFile, [Sample.cuDieC]⟩
        Sample.inheritanceOut = .ok Sample.inheritanceOut ∧
    parseDIE (0 + 2) Sample.envC Sample.cuC
        ⟨Sample.strayInheritance, [Sample.plainNamespace, Sample.cuDieC]⟩
        Sample.inheritanceOut = .ok Sample.inheritanceOut :=
  ⟨(parseDIE_no_decl_file 0 Sample.envC Sample.cuC ⟨Sample.typedefNoFile, [Sample.cuDieC]⟩
      Sample.inheritanceOut (by decide) (by decide)).1 (by decide),
   (parseDIE_no_decl_file 0 Sample.envC Sample.cuC ⟨Sample.funcNoFile, [Sample.cuDieC]⟩
      Sample.inheritanceOut (by decide) (by decide)).2.1 (by decide) (by decide),
   (parseDIE_no_decl_file 0 Sample.envC Sample.cuC
      ⟨Sample.strayInheritance, [Sample.plainNamespace, Sample.cuDieC]⟩
      Sample.inheritanceOut (by decide) (by decide)).2.2 (by decide)
      ⟨Sample.plainNamespace, [Sample.cuDieC]⟩ rfl (by decide)⟩

/-! ## Claims: type reconstructor -/

/-- C20: absence of a type is encoded as `void`. A DIE without `type` attribute gives `void `
followed by the placeholder; an unnamed DIE that ends the chain without `type` attribute and is
not an aggregate puts `void ` in front of the accumulated declarator (a pointer without target
gives `void *` and the placeholder); the final string is the optional `volatile `, the optional
`const `, then the accumulated string (const over a named type `T` gives `const T ` and the
placeholder). -/
theorem getTypeInfo_void (fuel : Nat) (env : Env) (die : DieRef) (v : Str) :
    (die.die.findAttrByType DW_AT_type = none →
      getTypeInfo (fuel + 1) env die v = .ok ("void ".toList ++ v, 0)) ∧
    (∀ (m : DieRef) (st st1 : TypeState) (noVoidType : Bool),
      m.die.findAttrByType DW_AT_name = none → m.die.findAttrByType DW_AT_type = none →
      ¬ IsAggregateTag m.die.getTAG →
      typeStep env m st (parseSubroutineType fuel env m) = .ok (st1, noVoidType) →
      getTypeInfoLoop (fuel + 1) env (some m) st =
        .ok { st1 with typeName := "void ".toList ++ st1.typeName }) ∧
    (∀ (t : DieRef) (st : TypeState), TypeLink env die.die t →
      getTypeInfoLoop fuel env (some t) ⟨v, 1, false, false⟩ = .ok st →
      getTypeInfo (fuel + 1) env die v =
        .ok ((if st.isVolatile then "volatile ".toList else []) ++
             ((if st.isConst then "const ".toList else []) ++ st.typeName),
             (if st.isVolatile then 2 else 0) + (if st.isConst then 1 else 0))) ∧
    (∀ (p : DieRef), TypeLink env die.die p → IsPtrLike p.die "*".toList →
      p.die.findAttrByType DW_AT_type = none →
      getTypeInfo (fuel + 2) env die v = .ok ("void *".toList ++ v, 0)) ∧
    (∀ (c t : DieRef) (T : Str), TypeLink env die.die c → Modifier env c DW_TAG_const_type t →
      NamedType t T →
      getTypeInfo (fuel + 3) env die v = .ok ("const ".toList ++ (T ++ " ".toList ++ v), 1)) := by
  refine ⟨?_, ?_, ?_, ?_, ?_⟩
  · intro h
    rw [getTypeInfo]
    simp only [h]
  · intro m st st1 noVoidType hname htype hagg hstep
    have hnv := typeStep_noVoid hstep hagg
    subst hnv
    rw [getTypeInfoLoop_last fuel hname hstep htype]
    simp
  · intro t st hlink hloop
    exact getTypeInfo_of_loop fuel v hlink hloop
  · intro p hlink hp htype
    have hstep := @typeStep_ptrLike env p _ ⟨v, 1, false, false⟩ (parseSubroutineType fuel env p) hp
    have hloop := getTypeInfoLoop_last fuel hp.1 hstep htype
    rw [getTypeInfo_of_loop (fuel + 1) v hlink hloop]
    simp
  · intro c t T hlink hc hT
    obtain ⟨hname, htag, hnext⟩ := hc
    have hstep := @typeStep_const env c ⟨v, 1, false, false⟩
      (parseSubroutineType (fuel + 1) env c) htag
    have hloop := getTypeInfoLoop_step (fuel + 1) hname hstep hnext
    rw [getTypeInfoLoop_named hT] at hloop
    rw [getTypeInfo_of_loop (fuel + 2) v hlink hloop]
    simp

/-- C20, instance: in the type samples the variable without `type` attribute gives `void x`, the
pointer without target `void *x` and const over `int` gives `const int x`. -/
theorem getTypeInfo_void_witness :
    getTypeInfo 1 Sample.envT ⟨Sample.tInt, [Sample.cuDieT]⟩ "x".toList =
      .ok ("void x".toList, 0) ∧
    getTypeInfo 2 Sample.envT (Sample.varRef 1280 1170) "x".toList = .ok ("void *x".toList, 0) ∧
    getTypeInfo 3 Sample.envT (Sample.varRef 1200 1020) "x".toList =
      .ok ("const int x".toList, 1) :=
  ⟨(getTypeInfo_void 0 Sample.envT ⟨Sample.tInt, [Sample.cuDieT]⟩ "x".toList).1 rfl,
   (getTypeInfo_void 0 Sample.envT (Sample.varRef 1280 1170) "x".toList).2.2.2.1
     ⟨Sample.modifier 1170 DW_TAG_pointer_type none [], [Sample.cuDieT]⟩
     ⟨_, 1170, rfl, rfl, rfl⟩ ⟨rfl, Or.inl ⟨rfl, rfl⟩⟩ rfl,
   (getTypeInfo_void 0 Sample.envT (Sample.varRef 1200 1020) "x".toList).2.2.2.2
     ⟨Sample.modifier 1020 DW_TAG_const_type (some 1010) [], [Sample.cuDieT]⟩
     ⟨Sample.tInt, [Sample.cuDieT]⟩ "int".toList
     ⟨_, 1020, rfl, rfl, rfl⟩ ⟨rfl, rfl, ⟨_, 1010, rfl, rfl, rfl⟩⟩
     ⟨by decide, ⟨_, rfl, rfl⟩, ⟨_, rfl, rfl, rfl⟩⟩⟩

/-- C15, counterexample: in the type samples the chain const → pointer → `int` gives
`const int *x`, not `int *const x`, which is also the string of pointer → const → `int`. -/
theorem getTypeInfo_const_pointer_counterexample :
    getTypeInfo 4 Sample.envT (Sample.varRef 1220 1050) "x".toList =
      .ok ("const int *x".toList, 1) ∧
    getTypeInfo 4 Sample.envT (Sample.varRef 1210 1030) "x".toList =
      .ok ("const int *x".toList, 1) := by
  decide

/-- C15, amended: the type reconstructor does not distinguish a const pointer from a pointer to
const. For every type `T` named directly under a compile unit and every placeholder, the chain
const → pointer → `T` and the chain pointer → const → `T` both give `const T *` followed by the
placeholder, with the const flag set. -/
theorem getTypeInfo_const_pointer (fuel : Nat) (env : Env) (T x : Str)
    (d1 c1 p1 t1 d2 p2 c2 t2 : DieRef)
    (hd1 : TypeLink env d1.die c1) (hc1 : Modifier env c1 DW_TAG_const_type p1)
    (hp1 : Modifier env p1 DW_TAG_pointer_type t1) (ht1 : NamedType t1 T)
    (hd2 : TypeLink env d2.die p2) (hp2 : Modifier env p2 DW_TAG_pointer_type c2)
    (hc2 : Modifier env c2 DW_TAG_const_type t2) (ht2 : NamedType t2 T) :
    getTypeInfo (fuel + 4) env d1 x = .ok ("const ".toList ++ (T ++ " *".toList ++ x), 1) ∧
    getTypeInfo (fuel + 4) env d2 x = .ok ("const ".toList ++ (T ++ " *".toList ++ x), 1) := by
  obtain ⟨hc1n, hc1t, hc1l⟩ := hc1
  obtain ⟨hp1n, hp1t, hp1l⟩ := hp1
  obtain ⟨hp2n, hp2t, hp2l⟩ := hp2
  obtain ⟨hc2n, hc2t, hc2l⟩ := hc2
  constructor
  · have s1 := @typeStep_const env c1 ⟨x, 1, false, false⟩
      (parseSubroutineType (fuel + 2) env c1) hc1t
    have l1 := getTypeInfoLoop_step (fuel + 2) hc1n s1 hc1l
    have s2 := @typeStep_ptrLike env p1 "*".toList ⟨x, 1, true, false⟩
      (parseSubroutineType (fuel + 1) env p1) ⟨hp1n, Or.inl ⟨hp1t, rfl⟩⟩
    have l2 := getTypeInfoLoop_step (fuel + 1) hp1n s2 hp1l
    rw [getTypeInfoLoop_named ht1] at l2
    rw [getTypeInfo_of_loop (fuel + 3) x hd1 (l1.trans l2)]
    simp
  · have s1 := @typeStep_ptrLike env p2 "*".toList ⟨x, 1, false, false⟩
      (parseSubroutineType (fuel + 2) env p2) ⟨hp2n, Or.inl ⟨hp2t, rfl⟩⟩
    have l1 := getTypeInfoLoop_step (fuel + 2) hp2n s1 hp2l
    have s2 := @typeStep_const env c2 ⟨"*".toList ++ x, -1, false, false⟩
      (parseSubroutineType (fuel + 1) env c2) hc2t
    have l2 := getTypeInfoLoop_step (fuel + 1) hc2n s2 hc2l
    rw [getTypeInfoLoop_named ht2] at l2
    rw [getTypeInfo_of_loop (fuel + 3) x hd2 (l1.trans l2)]
    simp

/-- C15, instance of the amended claim on the type samples. -/
theorem getTypeInfo_const_pointer_witness :
    getTypeInfo 4 Sample.envT (Sample.varRef 1220 1050) "y".toList =
      .ok ("const int *y".toList, 1) ∧
    getTypeInfo 4 Sample.envT (Sample.varRef 1210 1030) "y".toList =
      .ok ("const int *y".toList, 1) :=
  getTypeInfo_const_pointer 0 Sample.envT "int".toList "y".toList
    (Sample.varRef 1220 1050)
    ⟨Sample.modifier 1050 DW_TAG_const_type (some 1040) [], [Sample.cuDieT]⟩
    ⟨Sample.modifier 1040 DW_TAG_pointer_type (some 1010) [], [Sample.cuDieT]⟩
    ⟨Sample.tInt, [Sample.cuDieT]⟩
    (Sample.varRef 1210 1030)
    ⟨Sample.modifier 1030 DW_TAG_pointer_type (some 1020) [], [Sample.cuDieT]⟩
    ⟨Sample.modifier 1020 DW_TAG_const_type (some 1010) [], [Sample.cuDieT]⟩
    ⟨Sample.tInt, [Sample.cuDieT]⟩
    ⟨_, 1050, rfl, rfl, rfl⟩ ⟨rfl, rfl, ⟨_, 1040, rfl, rfl, rfl⟩⟩
    ⟨rfl, rfl, ⟨_, 1010, rfl, rfl, rfl⟩⟩ ⟨by decide, ⟨_, rfl, rfl⟩, ⟨_, rfl, rfl, rfl⟩⟩
    ⟨_, 1030, rfl, rfl, rfl⟩ ⟨rfl, rfl, ⟨_, 1020, rfl, rfl, rfl⟩⟩
    ⟨rfl, rfl, ⟨_, 1010, rfl, rfl, rfl⟩⟩ ⟨by decide, ⟨_, rfl, rfl⟩, ⟨_, rfl, rfl, rfl⟩⟩

/-- C18: parentheses are inserted exactly when an array follows a pointer or reference. A chain
of at least one pointer, reference or rvalue-reference modifier followed by an array with one
subrange of count `n` over a named type `T` gives `T (`, the modifier symbols and the
placeholder, then `)[n]`; an array of count `n` over a pointer to `T` gives `T *`, the
placeholder and `[n]` without parentheses. -/
theorem getTypeInfo_array_parentheses (fuel : Nat) (env : Env) (die : DieRef) (T x : Str)
    (n : Nat) :
    (∀ (ms : List (DieRef × Str)) (arr t : DieRef), ms ≠ [] →
      TypeLink env die.die (chainHead ms arr) → PtrChain env ms arr → ArrayOf env arr n t →
      NamedType t T →
      getTypeInfo (fuel + ms.length + 3) env die x =
        .ok (T ++ " (".toList ++ chainDeclarator ms x ++ ")[".toList ++ fmtU n ++ "]".toList, 0)) ∧
    (∀ (arr p t : DieRef), TypeLink env die.die arr → ArrayOf env arr n p →
      Modifier env p DW_TAG_pointer_type t → NamedType t T →
      getTypeInfo (fuel + 4) env die x =
        .ok (T ++ " *".toList ++ x ++ "[".toList ++ fmtU n ++ "]".toList, 0)) := by
  constructor
  · intro ms arr t hms hlink hchain harr hT
    have l1 := getTypeInfoLoop_chain env arr ms hchain (fuel + 2) ⟨x, 1, false, false⟩
    have l2 := getTypeInfoLoop_array (fuel + 1)
      ⟨chainDeclarator ms x, if ms.isEmpty then 1 else -1, false, false⟩ harr
    rw [getTypeInfoLoop_named hT] at l2
    have hloop := l1.trans l2
    have hfuel : fuel + ms.length + 3 = fuel + 2 + ms.length + 1 := by omega
    rw [hfuel, getTypeInfo_of_loop (fuel + 2 + ms.length) x hlink hloop]
    have hne : ms.isEmpty = false := by
      cases ms with
      | nil => exact absurd rfl hms
      | cons _ _ => rfl
    simp [hne]
  · intro arr p t hlink harr hp hT
    obtain ⟨hpn, hpt, hpl⟩ := hp
    have l1 := getTypeInfoLoop_array (fuel + 2) ⟨x, 1, false, false⟩ harr
    have s2 := @typeStep_ptrLike env p "*".toList
      ⟨x ++ "[".toList ++ fmtU n ++ "]".toList, 1, false, false⟩
      (parseSubroutineType (fuel + 1) env p) ⟨hpn, Or.inl ⟨hpt, rfl⟩⟩
    have l2 := getTypeInfoLoop_step (fuel + 1) hpn s2 hpl
    rw [getTypeInfoLoop_named hT] at l2
    have l1b : getTypeInfoLoop (fuel + 2 + 1) env (some arr) ⟨x, 1, false, false⟩ =
        getTypeInfoLoop (fuel + 2) env (some p)
          ⟨x ++ "[".toList ++ fmtU n ++ "]".toList, 1, false, false⟩ := by
      rw [l1]; simp
    rw [getTypeInfo_of_loop (fuel + 3) x hlink (l1b.trans l2)]
    simp

/-- C18, instance: in the type samples pointer → array[10] → `int` gives `int (*x)[10]`,
reference → pointer → array[10] → `int` gives `int (*&x)[10]`, and array[10] → pointer → `int`
gives `int *x[10]`. -/
theorem getTypeInfo_array_parentheses_witness :
    getTypeInfo 4 Sample.envT (Sample.varRef 1240 1080) "x".toList =
      .ok ("int (*x)[10]".toList, 0) ∧
    getTypeInfo 5 Sample.envT (Sample.varRef 1300 1190) "x".toList =
      .ok ("int (*&x)[10]".toList, 0) ∧
    getTypeInfo 4 Sample.envT (Sample.varRef 1230 1060) "x".toList =
      .ok ("int *x[10]".toList, 0) :=
  ⟨(getTypeInfo_array_parentheses 0 Sample.envT (Sample.varRef 1240 1080) "int".toList
      "x".toList 10).1
      [(⟨Sample.modifier 1080 DW_TAG_pointer_type (some 1070) [], [Sample.cuDieT]⟩, "*".toList)]
      ⟨Sample.modifier 1070 DW_TAG_array_type (some 1010) [Sample.subrange 1075 10],
        [Sample.cuDieT]⟩
      ⟨Sample.tInt, [Sample.cuDieT]⟩ (List.cons_ne_nil _ _) ⟨_, 1080, rfl, rfl, rfl⟩
      ⟨⟨rfl, Or.inl ⟨rfl, rfl⟩⟩, ⟨_, 1070, rfl, rfl, rfl⟩, trivial⟩
      ⟨⟨rfl, rfl, ⟨_, 1010, rfl, rfl, rfl⟩⟩, _, _, rfl, rfl, rfl, rfl⟩
      ⟨by decide, ⟨_, rfl, rfl⟩, ⟨_, rfl, rfl, rfl⟩⟩,
   (getTypeInfo_array_parentheses 0 Sample.envT (Sample.varRef 1300 1190) "int".toList
      "x".toList 10).1
      [(⟨Sample.modifier 1190 DW_TAG_reference_type (some 1080) [], [Sample.cuDieT]⟩, "&".toList),
       (⟨Sample.modifier 1080 DW_TAG_pointer_type (some 1070) [], [Sample.cuDieT]⟩, "*".toList)]
      ⟨Sample.modifier 1070 DW_TAG_array_type (some 1010) [Sample.subrange 1075 10],
        [Sample.cuDieT]⟩
      ⟨Sample.tInt, [Sample.cuDieT]⟩ (List.cons_ne_nil _ _) ⟨_, 1190, rfl, rfl, rfl⟩
      ⟨⟨rfl, Or.inr (Or.inl ⟨rfl, rfl⟩)⟩, ⟨_, 1080, rfl, rfl, rfl⟩,
       ⟨rfl, Or.inl ⟨rfl, rfl⟩⟩, ⟨_, 1070, rfl, rfl, rfl⟩, trivial⟩
      ⟨⟨rfl, rfl, ⟨_, 1010, rfl, rfl, rfl⟩⟩, _, _, rfl, rfl, rfl, rfl⟩
      ⟨by decide, ⟨_, rfl, rfl⟩, ⟨_, rfl, rfl, rfl⟩⟩,
   (getTypeInfo_array_parentheses 0 Sample.envT (Sample.varRef 1230 1060) "int".toList
      "x".toList 10).2
      ⟨Sample.modifier 1060 DW_TAG_array_type (some 1040) [Sample.subrange 1065 10],
        [Sample.cuDieT]⟩
      ⟨Sample.modifier 1040 DW_TAG_pointer_type (some 1010) [], [Sample.cuDieT]⟩
      ⟨Sample.tInt, [Sample.cuDieT]⟩ ⟨_, 1060, rfl, rfl, rfl⟩
      ⟨⟨rfl, rfl, ⟨_, 1040, rfl, rfl, rfl⟩⟩, _, _, rfl, rfl, rfl, rfl⟩
      ⟨rfl, rfl, ⟨_, 1010, rfl, rfl, rfl⟩⟩
      ⟨by decide, ⟨_, rfl, rfl⟩, ⟨_, rfl, rfl, rfl⟩⟩⟩

/-- C16: evaluation on the type samples. For pointer → subroutine returning `int` with two
parameters of type `int` the code gives `int (*x)(int , int )`: every parameter type carries
the blank that the named-type case puts before the (empty) placeholder. -/
theorem getTypeInfo_subroutine_params_eval :
    getTypeInfo 10 Sample.envT (Sample.varRef 1250 1100) "x".toList =
      .ok ("int (*x)(int , int )".toList, 0) := by
  decide

/-- C17: evaluation on the type samples. For pointer-to-member of `A` → subroutine without
return type whose first parameter is the artificial `const A *` and whose second is `int`, the
code gives `void (A::*x)(const A *, int )`: the artificial parameter is looked up by attribute
offset, is not recognised, and is listed; no ` const` is appended. -/
theorem getTypeInfo_artificial_this_eval :
    (Sample.thisParam 1143 1130).findAttrByType DW_AT_artificial ≠ none ∧
    (Sample.thisParam 1143 1130).findAttrByOffset DW_AT_artificial = none ∧
    getTypeInfo 10 Sample.envT (Sample.varRef 1260 1150) "x".toList =
      .ok ("void (A::*x)(const A *, int )".toList, 0) := by
  decide

/-- C19: evaluation on the type samples. For a subroutine type without parameter children the
two erased characters are the opening parenthesis and the last character of the placeholder:
placeholder `x` gives `void )`, the default placeholder gives `void {)`, and the empty
placeholder makes the erase throw. -/
theorem getTypeInfo_placeholder_lost_eval :
    getTypeInfo 3 Sample.envT (Sample.varRef 1270 1160) "x".toList = .ok ("void )".toList, 0) ∧
    getTypeInfo 3 Sample.envT (Sample.varRef 1270 1160) ['{', '}'] =
      .ok (['v', 'o', 'i', 'd', ' ', '{', ')'], 0) ∧
    getTypeInfo 3 Sample.envT (Sample.varRef 1270 1160) [] = .fault := by
  decide

/-! ## Claims: dispatcher and function keys -/

/-- C14: dispatching a namespace whose name equals `std` or begins with `__` leaves the output
unchanged whatever lies below it; a namespace with any other name, a namespace without name, a
class, a structure and a lexical block are descended: the result is that of dispatching the
children in order, each on the output of the one before. -/
theorem parseDIE_descends (fuel : Nat) (env : Env) (compileUnit : CU) (DIE : DieRef)
    (out : Json) :
    (∀ name, DIE.die.getTAG = DW_TAG_namespace → DIE.die.getName [] = .ok name →
      (name = "std".toList ∨ startsWith name "__".toList = true) →
      parseDIE (fuel + 1) env compileUnit DIE out = .ok out) ∧
    (∀ name, DIE.die.getTAG = DW_TAG_namespace → DIE.die.getName [] = .ok name →
      name ≠ "std".toList → startsWith name "__".toList = false →
      parseDIE (fuel + 1) env compileUnit DIE out =
        Res.foldl (fun o childDIE => parseDIE fuel env compileUnit (DIE.child childDIE) o) out
          DIE.die.getChildren) ∧
    (DIE.die.getTAG = DW_TAG_namespace → DIE.die.findAttrByType DW_AT_name = none →
      parseDIE (fuel + 1) env compileUnit DIE out =
        Res.foldl (fun o childDIE => parseDIE fuel env compileUnit (DIE.child childDIE) o) out
          DIE.die.getChildren) ∧
    ((DIE.die.getTAG = DW_TAG_class_type ∨ DIE.die.getTAG = DW_TAG_structure_type ∨
        DIE.die.getTAG = DW_TAG_lexical_block) →
      parseDIE (fuel + 1) env compileUnit DIE out =
        Res.foldl (fun o childDIE => parseDIE fuel env compileUnit (DIE.child childDIE) o) out
          DIE.die.getChildren) := by
  refine ⟨?_, ?_, ?_, ?_⟩
  · intro name htag hname hfilter
    rw [parseDIE]
    simp only [htag, if_true, hname, Res.bind_ok]
    rw [if_pos hfilter]
  · intro name htag hname hstd hpre
    rw [parseDIE]
    simp only [htag, if_true, hname, Res.bind_ok]
    rw [if_neg]
    rintro (h | h)
    · exact hstd h
    · rw [hpre] at h
      exact absurd h (by decide)
  · intro htag hname
    rw [parseDIE]
    simp only [htag, if_true, getName_of_unnamed [] hname, Res.bind_ok]
    rw [if_neg]
    decide
  · intro htag
    rw [parseDIE]
    have hns : DIE.die.getTAG ≠ DW_TAG_namespace := by
      rcases htag with h | h | h <;> rw [h] <;> decide
    simp only [hns, if_false, htag, if_true]

/-- C14, instance: the namespaces `std` and `__gnu_cxx` with a variable inside leave the empty
document empty; the namespace without name and the class `K` with the same variable inside are
descended. -/
theorem parseDIE_descends_witness :
    parseDIE 8 (Sample.envS Sample.stdNamespace) (Sample.cuS Sample.stdNamespace)
      ⟨Sample.stdNamespace, [Sample.cuDieS Sample.stdNamespace]⟩ .null = .ok .null ∧
    parseDIE 8 (Sample.envS Sample.reservedNamespace) (Sample.cuS Sample.reservedNamespace)
      ⟨Sample.reservedNamespace, [Sample.cuDieS Sample.reservedNamespace]⟩ .null = .ok .null ∧
    parseDIE 8 (Sample.envS Sample.anonNamespace) (Sample.cuS Sample.anonNamespace)
      ⟨Sample.anonNamespace, [Sample.cuDieS Sample.anonNamespace]⟩ .null =
      parseDIE 7 (Sample.envS Sample.anonNamespace) (Sample.cuS Sample.anonNamespace)
        ⟨Sample.globalV, [Sample.anonNamespace, Sample.cuDieS Sample.anonNamespace]⟩ .null ∧
    parseDIE 8 (Sample.envS Sample.classK) (Sample.cuS Sample.classK)
      ⟨Sample.classK, [Sample.cuDieS Sample.classK]⟩ .null =
      parseDIE 7 (Sample.envS Sample.classK) (Sample.cuS Sample.classK)
        ⟨Sample.globalV, [Sample.classK, Sample.cuDieS Sample.classK]⟩ .null :=
  ⟨(parseDIE_descends 7 _ _ _ _).1 "std".toList rfl rfl (Or.inl rfl),
   (parseDIE_descends 7 _ _ _ _).1 "__gnu_cxx".toList rfl rfl (Or.inr rfl),
   (parseDIE_descends 7 _ _ _ _).2.2.1 rfl rfl,
   (parseDIE_descends 7 _ _ _ _).2.2.2 (Or.inl rfl)⟩

/-- C13: evaluation on a subprogram without name that holds a local variable. The scope
resolver names the function `00007-func: ` (empty default name), `parseFunction` stores its
record under the key with the default name in backquotes, and after the compile unit has been
parsed the local variable sits under the first key, outside the record of its function. -/
theorem findWhereToStore_anonymous_function_eval :
    findWhereToStore 5 (Sample.envS Sample.anonFunc) (Sample.cuS Sample.anonFunc)
        ⟨Sample.localV, [Sample.anonFunc, Sample.cuDieS Sample.anonFunc]⟩ =
      .ok ["/src/s.cpp".toList, "00007-func: ".toList, "local_info".toList] ∧
    (Res.bind (parseCU 8 (Sample.envS Sample.anonFunc) (Sample.cuS Sample.anonFunc) .null)
      fun out => .ok
        (hasRecord out ["/src/s.cpp".toList] "00007-func: \x60anonymous\x60".toList,
         hasRecord out ["/src/s.cpp".toList, "00007-func: ".toList, "local_info".toList]
           "00008-var: v".toList,
         hasRecord out
           ["/src/s.cpp".toList, "00007-func: \x60anonymous\x60".toList, "local_info".toList]
           "00008-var: v".toList)) = .ok (true, true, false) := by
  decide

/-! ## Claims: definitions with a specification -/

/-- C12, counterexample: the local variable of the definition of `m` passes the filter and the
specification `mDecl` of its enclosing subprogram has the `decl_file` `/src/a.cpp`, but `mDecl`
sits in a class local to the definition of `g`, whose specification is declared in
`/inc/h.h`: the file element of the path is `/inc/h.h`. -/
theorem findWhereToStore_specification_counterexample :
    findWhereToStore 8 Sample.envN Sample.cuN ⟨Sample.localV, [Sample.mDefLocal, Sample.cuDieN]⟩ =
      .ok ["/inc/h.h".toList, "00003-func: g".toList, "local_info".toList, "class: L".toList,
        "00005-func: m".toList, "local_info".toList] ∧
    Sample.envN.mDbg.findDIEbyOffset 50 =
      .ok (some ⟨Sample.mDecl, [Sample.localClass, Sample.gDef, Sample.cuDieN]⟩) ∧
    Sample.mDecl.findAttrByType DW_AT_decl_file = some (Attr.ofU64 52 DW_AT_decl_file 1) ∧
    Res.bind (srcfileAt Sample.cuN.mSrcfiles 1) (fun f => .ok (simplifyPath f)) =
      .ok "/src/a.cpp".toList :=
  ⟨by decide, rfl, by decide, by decide⟩

/-- C12, amended: for every DIE that passes the filter and whose nearest enclosing subprogram
`F` has a specification attribute resolving to a DIE `S` with a `decl_file`, where no ancestor
of `S` is a subprogram with a specification, the path returned by `findWhereToStore` is the
result `pS` of the ancestor walk started from `S` with the file of `S`, then the key of the
function `S` and `local_info`, then the keys of the ancestors between the DIE and `F`; the file
element is the normalized `decl_file` of `S`; the ancestors `up` of `F` do not matter; and `pS`
is the path of `S` itself when `S` passes the filter. -/
theorem findWhereToStore_specification (env : Env) (compileUnit : CU) (d F : Die)
    (pre up : List Die) (S : DieRef) (attr specAttr sfileAttr : Attr) (file fileS sName : Str)
    (off line n m : Nat) (q pS : List Str)
    (hfile : d.findAttrByType DW_AT_decl_file = some attr)
    (hidx : attr.getValueAsU64 ≤ compileUnit.mSrcfiles.length)
    (hsrc : srcfileAt compileUnit.mSrcfiles attr.getValueAsU64 = .ok file)
    (hfilter : startsWith (simplifyPath file) env.mDeclFileFilter = true)
    (hpre : NoSubprogram pre)
    (hq : findWhereToStoreLoop env compileUnit.mSrcfiles n pre attr.getValueAsU64
      (simplifyPath file) [] = .ok q)
    (hF : F.getTAG = DW_TAG_subprogram) (hFn : (F.getName anonymousName).isOk = true)
    (hspec : F.findAttrByType DW_AT_specification = some specAttr)
    (hoff : specAttr.getU64 = .ok off) (hS : env.mDbg.findDIEbyOffset off = .ok (some S))
    (hSfile : S.die.findAttrByType DW_AT_decl_file = some sfileAttr)
    (hSsrc : srcfileAt compileUnit.mSrcfiles sfileAttr.getValueAsU64 = .ok fileS)
    (hline : declLineOf S.die = .ok line) (hname : S.die.getName [] = .ok sName)
    (hno : NoSpecAncestor S.parents)
    (hpS : findWhereToStoreLoop env compileUnit.mSrcfiles m S.parents sfileAttr.getValueAsU64
      (simplifyPath fileS) [] = .ok pS) :
    findWhereToStore (n + (m + 1)) env compileUnit ⟨d, pre ++ F :: up⟩ =
      .ok (pS ++ [fmt05 line ++ "-func: ".toList ++ sName, "local_info".toList] ++ q.tail) ∧
    pS.head? = some (simplifyPath fileS) ∧
    (sfileAttr.getValueAsU64 ≤ compileUnit.mSrcfiles.length →
      startsWith (simplifyPath fileS) env.mDeclFileFilter = true →
      findWhereToStore m env compileUnit S = .ok pS) := by
  obtain ⟨fname, hFn⟩ : ∃ fname, F.getName "\x60anonymous\x60".toList = .ok fname := by
    revert hFn
    cases F.getName anonymousName <;> simp [Res.isOk]
  refine ⟨?_, findWhereToStoreLoop_head env _ _ _ _ _ _ _ hpS hno, ?_⟩
  · have hstep : findWhereToStoreLoop env compileUnit.mSrcfiles (m + 1) (F :: up)
        attr.getValueAsU64 (simplifyPath file) [] =
        .ok (pS ++ [fmt05 line ++ "-func: ".toList ++ sName, "local_info".toList]) := by
      rw [findWhereToStoreLoop]
      simp only [hFn, Res.bind_ok]
      rw [if_neg (by rw [hF]; decide), if_neg (by rw [hF]; decide), if_neg (by rw [hF]; decide),
        if_neg (by rw [hF]; decide), if_pos hF]
      simp only [hspec, hoff, hS, Res.bind_ok, hline, hname, hSfile, hSsrc]
      rw [findWhereToStoreLoop_acc, hpS]
      rfl
    have hgt : ¬ attr.getValueAsU64 > compileUnit.mSrcfiles.length := by omega
    unfold findWhereToStore
    simp only [hfile, hgt, if_false, hsrc, Res.bind_ok, hfilter, Bool.not_true]
    have h := findWhereToStoreLoop_prefix env compileUnit.mSrcfiles pre hpre n _ _ [] q hq
      (F :: up) (m + 1) attr.getValueAsU64 (simplifyPath file) _ hstep
    simpa using h
  · intro hidxS hfilterS
    have hgt : ¬ sfileAttr.getValueAsU64 > compileUnit.mSrcfiles.length := by omega
    unfold findWhereToStore
    simp only [hSfile, hgt, if_false, hSsrc, Res.bind_ok, hfilterS, Bool.not_true]
    simpa using hpS

/-- C12, instance of the amended claim: the local variable of the definition of `foo`, whose
declaration sits in class `C` of namespace `n` in `/inc/d.h`. -/
theorem findWhereToStore_specification_witness :
    findWhereToStore 5 Sample.envA Sample.cuA ⟨Sample.localVar, [Sample.fooDef, Sample.cuDieA]⟩ =
      .ok ["/inc/d.h".toList, "namespace: n".toList, "class: C".toList, "00007-func: foo".toList,
        "local_info".toList] :=
  (findWhereToStore_specification Sample.envA Sample.cuA Sample.localVar Sample.fooDef []
    [Sample.cuDieA] Sample.fooDeclRef (Attr.ofU64 422 DW_AT_decl_file 1)
    (Attr.ofU64 401 DW_AT_specification 340) (Attr.ofU64 342 DW_AT_decl_file 2)
    "/src/d.cpp".toList "/inc/./d.h".toList "foo".toList 340 7 1 3
    ["/src/d.cpp".toList] ["/inc/d.h".toList, "namespace: n".toList, "class: C".toList]
    (by decide) (by decide) (by decide) (by decide) (by intro x hx; cases hx) (by decide)
    (by decide) (by decide) (by decide) (by decide) rfl (by decide) (by decide) (by decide)
    (by decide) (by unfold NoSpecAncestor; decide) (by decide)).1

/-- C11, counterexample: the definition at offset 460 has the declaration `foo` of class `C`
in namespace `n` of `/inc/a.h` as its specification, but carries the name `__foo_impl`
itself. The name filter of `parseFunction` looks at the definition: the run returns every
document as it is, and no record of `foo` is left in the empty document. -/
theorem parseFunction_definition_lands_at_declaration_counterexample :
    Sample.fooDefReserved.findAttrByType DW_AT_specification =
        some (Attr.ofU64 462 DW_AT_specification 340) ∧
      Sample.envR.mDbg.findDIEbyOffset 340 =
        .ok (some ⟨Sample.fooDecl, [Sample.classC, Sample.namespaceN, Sample.cuDieR]⟩) ∧
      findWhereToStore 5 Sample.envR Sample.cuR
          ⟨Sample.fooDecl, [Sample.classC, Sample.namespaceN, Sample.cuDieR]⟩ =
        .ok ["/inc/a.h".toList, "namespace: n".toList, "class: C".toList] ∧
      Sample.fooDefReserved.getName [] = .ok "__foo_impl".toList ∧
      (∀ (fuel : Nat) (out : Json),
        parseFunction (fuel + 1) Sample.envR Sample.cuR
          ⟨Sample.fooDefReserved, [Sample.cuDieR]⟩ out = .ok out) ∧
      parseFunction 8 Sample.envR Sample.cuR ⟨Sample.fooDefReserved, [Sample.cuDieR]⟩ .null =
        .ok .null ∧
      hasRecord .null ["/inc/a.h".toList, "namespace: n".toList, "class: C".toList]
        (fmt05 7 ++ "-func: foo".toList) = false := by
  refine ⟨by decide, rfl, by decide, by decide, ?_, rfl, rfl⟩
  intro fuel out
  rw [parseFunction]
  rfl

/-- C11, amended: for an out-of-line subprogram definition whose own name does not begin with
`__` and whose specification is the declaration `foo` with `decl_line` `L` and a `decl_file`
resolving to `/inc/a.h` (the filter being a prefix of it), inside class `C` inside namespace
`n` under a compile unit. The scope resolver returns the path `/inc/a.h`, `namespace: n`,
`class: C` for the declaration. Every run of `parseFunction` on the definition that
completes, from any document, leaves an entry at that path under the key
`<L as 5 digits>-func: foo`, and the entry holds the field `otherOffset` of a definition;
when the document held no entry under the key and the specification has no specification of
its own, the entry is the record of the function: the declaration form builds a record from
the declaration, with the offset of the declaration in the field `offset`, and every field of
that record other than `2-param_name` and `0-linkage`, which the definition lays over it, is
in the entry. And the run on the empty document completes when the specification has no
specification of its own, the definition has only parameter children whose names can be
read, its linkage name (if any) is a string and the record of the declaration can be built,
with no child of the declaration left for later dispatch. Nothing is assumed about the file
of the definition itself. -/
theorem parseFunction_definition_lands_at_declaration (fuel : Nat) (env : Env)
    (compileUnit : CU) (D S : DieRef) (C N cuDie : Die)
    (specAttr nameAttr lineAttr fileAttr cAttr nAttr : Attr) (ownName file : Str) (off L : Nat)
    (hown : D.die.getName [] = .ok ownName) (hown2 : startsWith ownName "__".toList = false)
    (hspec : D.die.findAttrByType DW_AT_specification = some specAttr)
    (hoff : specAttr.getU64 = .ok off) (hS : env.mDbg.findDIEbyOffset off = .ok (some S))
    (hname : S.die.findAttrByType DW_AT_name = some nameAttr)
    (hnameV : nameAttr.mValue = .str "foo".toList)
    (hline : S.die.findAttrByType DW_AT_decl_line = some lineAttr)
    (hlineV : lineAttr.getU64 = .ok L)
    (hfile : S.die.findAttrByType DW_AT_decl_file = some fileAttr)
    (hidx : fileAttr.getValueAsU64 ≤ compileUnit.mSrcfiles.length)
    (hsrc : srcfileAt compileUnit.mSrcfiles fileAttr.getValueAsU64 = .ok file)
    (hnorm : simplifyPath file = "/inc/a.h".toList)
    (hfilter : startsWith "/inc/a.h".toList env.mDeclFileFilter = true)
    (hparents : S.parents = [C, N, cuDie])
    (hC : C.getTAG = DW_TAG_class_type) (hCn : C.findAttrByType DW_AT_name = some cAttr)
    (hCv : cAttr.mValue = .str "C".toList)
    (hN : N.getTAG = DW_TAG_namespace) (hNn : N.findAttrByType DW_AT_name = some nAttr)
    (hNv : nAttr.mValue = .str "n".toList)
    (hcu : cuDie.getTAG = DW_TAG_compile_unit)
    (hcun : (cuDie.getName anonymousName).isOk = true) :
    findWhereToStore (fuel + 3) env compileUnit S =
      .ok ["/inc/a.h".toList, "namespace: n".toList, "class: C".toList] ∧
    (∀ (n : Nat) (out out1 : Json), parseFunction (n + 1) env compileUnit D out = .ok out1 →
      hasRecord out1 ["/inc/a.h".toList, "namespace: n".toList, "class: C".toList]
        (fmt05 L ++ "-func: foo".toList) = true ∧
      hasRecord out1
        ["/inc/a.h".toList, "namespace: n".toList, "class: C".toList,
          fmt05 L ++ "-func: foo".toList] "otherOffset".toList = true ∧
      (S.die.findAttrByType DW_AT_specification = none →
        hasRecord out ["/inc/a.h".toList, "namespace: n".toList, "class: C".toList]
          (fmt05 L ++ "-func: foo".toList) = false →
        ∃ (m : Nat) (built : Json × List Die), funcRecord m env S = .ok built ∧
          built.1.getKey "offset".toList = some (.uint S.die.getOffset) ∧
          ∀ (field : Str) (v : Json), built.1.getKey field = some v →
            field ≠ "2-param_name".toList → field ≠ "0-linkage".toList →
            Json.getAt
              ["/inc/a.h".toList, "namespace: n".toList, "class: C".toList,
                fmt05 L ++ "-func: foo".toList, field] out1 = some v)) ∧
    (∀ (m : Nat) (names : List Str) (built : Json),
      S.die.findAttrByType DW_AT_specification = none →
      Res.foldl specChild ([], []) D.die.getChildren = .ok (names, []) →
      (∀ la, D.die.findAttrByType DW_AT_linkage_name = some la → ∃ l, la.getStr = .ok l) →
      funcRecord (m + 3) env S = .ok (built, []) →
      ∃ out1, parseFunction (m + 5) env compileUnit D .null = .ok out1) := by
  have hkey : storeKeyOf L "func" "foo".toList = fmt05 L ++ "-func: foo".toList := by
    simp [storeKeyOf]
  have hpath : ∀ fuel, findWhereToStore (fuel + 3) env compileUnit S =
      .ok ["/inc/a.h".toList, "namespace: n".toList, "class: C".toList] := by
    intro fuel
    have hnC : C.getName "\x60anonymous\x60".toList = .ok "C".toList := by
      simp [Die.getName, hCn, Attr.getStr, hCv]
    have hnN : N.getName "\x60anonymous\x60".toList = .ok "n".toList := by
      simp [Die.getName, hNn, Attr.getStr, hNv]
    obtain ⟨cn, hcn⟩ : ∃ cn, cuDie.getName "\x60anonymous\x60".toList = .ok cn := by
      revert hcun
      cases cuDie.getName anonymousName <;> simp [Res.isOk]
    have hgt : ¬ fileAttr.getValueAsU64 > compileUnit.mSrcfiles.length := by omega
    simp at hnC hnN hcn hfilter
    simp [findWhereToStore, hfile, hgt, hsrc, hnorm, hfilter, hparents, findWhereToStoreLoop, hC,
      hN, hcu, hnC, hnN, hcn]
  have hlineS : declLineOf S.die = .ok L := by simp [declLineOf, hline, hlineV]
  have hnameS : ∀ whenNull, S.die.getName whenNull = .ok "foo".toList := by
    intro w; simp [Die.getName, hname, Attr.getStr, hnameV]
  have hfoo : startsWith "foo".toList "__".toList = false := by decide
  refine ⟨hpath fuel, ?_, ?_⟩
  · intro n out out1 hparse
    have hpathn : findWhereToStore n env compileUnit S =
        .ok ["/inc/a.h".toList, "namespace: n".toList, "class: C".toList] := by
      have hp := hparse
      rw [parseFunction] at hp
      simp only [hown, Res.bind_ok, hown2, Bool.false_eq_true, if_false, hspec, hoff, hS] at hp
      obtain ⟨path, hpath1, _⟩ := Res.bind_eq_ok.1 hp
      rw [hpath1, findWhereToStore_fuel env compileUnit S _ _ _ _ hpath1 (hpath 0)]
    have h := parseFunction_definition_record n env compileUnit D S specAttr ownName off L
      ["/inc/a.h".toList, "namespace: n".toList, "class: C".toList] "foo".toList out out1
      hown hown2 hspec hoff hS hpathn (List.cons_ne_nil _ _) hlineS (hnameS _) hparse
    rw [hkey] at h
    refine ⟨h.1, h.2.1, fun hSspec habs => ?_⟩
    obtain ⟨m, built, hbuilt, hall⟩ := h.2.2 "foo".toList (hnameS _) hfoo hSspec habs
    exact ⟨m, built, hbuilt, funcRecord_offset hbuilt, hall⟩
  · intro m names built hSspec hscan hlink hbuilt
    have h := parseFunction_definition_completes (m + 3) env compileUnit D S specAttr ownName
      "foo".toList off L ["/inc/a.h".toList, "namespace: n".toList, "class: C".toList]
      "foo".toList names built hown hown2 hspec hoff hS (hpath (m + 1)) (hpath m)
      (List.cons_ne_nil _ _) hlineS (hnameS _) (hnameS _) hfoo hSspec hscan hlink hbuilt
    exact h

/-- C11, instance: the definition of `foo` in `/src/d.cpp`, whose declaration at line 7 of
`/inc/a.h` sits in class `C` of namespace `n`, parsed into the empty document: the entry is
there, it holds `otherOffset`, and its `offset` and `1-type` are those of the declaration.
And the run on the definition that has the parameter `a` as its only child completes. -/
theorem parseFunction_definition_lands_at_declaration_witness :
    (hasRecord Sample.fooOutH ["/inc/a.h".toList, "namespace: n".toList, "class: C".toList]
        (fmt05 7 ++ "-func: foo".toList) = true ∧
      hasRecord Sample.fooOutH
        ["/inc/a.h".toList, "namespace: n".toList, "class: C".toList,
          fmt05 7 ++ "-func: foo".toList] "otherOffset".toList = true ∧
      Json.getAt
        ["/inc/a.h".toList, "namespace: n".toList, "class: C".toList,
          fmt05 7 ++ "-func: foo".toList, "offset".toList] Sample.fooOutH =
        some (.uint 340)) ∧
    ∃ out1, parseFunction 5 Sample.envPlain Sample.cuPlain
      ⟨Sample.fooDefPlain, [Sample.cuDiePlain]⟩ .null = .ok out1 := by
  have h := (parseFunction_definition_lands_at_declaration 0 Sample.envH Sample.cuH
    ⟨Sample.fooDef, [Sample.cuDieA]⟩ Sample.fooDeclRef Sample.classC Sample.namespaceN
    Sample.cuDieA (Attr.ofU64 401 DW_AT_specification 340) (Attr.ofStr 341 DW_AT_name "foo")
    (Attr.ofU64 343 DW_AT_decl_line 7) (Attr.ofU64 342 DW_AT_decl_file 2)
    (Attr.ofStr 331 DW_AT_name "C") (Attr.ofStr 321 DW_AT_name "n") [] "/inc/./a.h".toList
    340 7 (by decide) (by decide) (by decide) (by decide) rfl
    (by decide) (by decide) (by decide) (by decide) (by decide) (by decide) (by decide)
    (by decide) (by decide) rfl (by decide) (by decide) (by decide) (by decide) (by decide)
    (by decide) (by decide) (by decide)).2.1 8 .null Sample.fooOutH rfl
  have hP := (parseFunction_definition_lands_at_declaration 0 Sample.envPlain Sample.cuPlain
    ⟨Sample.fooDefPlain, [Sample.cuDiePlain]⟩
    ⟨Sample.fooDecl, [Sample.classC, Sample.namespaceN, Sample.cuDiePlain]⟩ Sample.classC
    Sample.namespaceN Sample.cuDiePlain (Attr.ofU64 401 DW_AT_specification 340)
    (Attr.ofStr 341 DW_AT_name "foo") (Attr.ofU64 343 DW_AT_decl_line 7)
    (Attr.ofU64 342 DW_AT_decl_file 2) (Attr.ofStr 331 DW_AT_name "C")
    (Attr.ofStr 321 DW_AT_name "n") [] "/inc/./a.h".toList 340 7 (by decide) (by decide)
    (by decide) (by decide) rfl
    (by decide) (by decide) (by decide) (by decide) (by decide) (by decide) (by decide)
    (by decide) (by decide) rfl (by decide) (by decide) (by decide) (by decide) (by decide)
    (by decide) (by decide) (by decide)).2.2 0 ["a".toList] Sample.fooRecord (by decide) rfl
    (fun la hla => by
      have e : some (Attr.ofStr 402 DW_AT_linkage_name "_ZN1n1C3fooEi") = some la := hla
      cases e
      exact ⟨_, rfl⟩) rfl
  obtain ⟨m, built, hbuilt, hoffs, hall⟩ := h.2.2 (by decide) rfl
  exact ⟨⟨h.1, h.2.1, hall _ _ hoffs (by decide) (by decide)⟩, hP⟩
/-! ## Claims: anonymous types, dangling references, qualified names -/

/-- C21: evaluation on an enumeration without name. Without `type` attribute the chain ends at
the enumeration and gives the placeholder followed by the declarator; with a `type` attribute
(the underlying type `int`) the loop goes on to that type and puts its name in front of the
placeholder, also behind a pointer. -/
theorem getTypeInfo_anonymous_enum_eval :
    getTypeInfo 3 Sample.envU (Sample.varRefU 2110 2030) "x".toList =
      .ok ("\x60anony_enum_2030\x60 x".toList, 0) ∧
    Sample.anonEnumTyped.findAttrByType DW_AT_name = none ∧
    getTypeInfo 3 Sample.envU (Sample.varRefU 2100 2020) "x".toList =
      .ok ("int \x60anony_enum_2020\x60 x".toList, 0) ∧
    getTypeInfo 4 Sample.envU (Sample.varRefU 2120 2040) "x".toList =
      .ok ("int \x60anony_enum_2020\x60 *x".toList, 0) := by
  decide

/-- C22: evaluation on type references to offsets at which no DIE starts (behind the last DIE,
between two DIEs, before the first compile unit, and one step further down a chain). The
lookup steps in front of the first element of a child vector and no string is returned; and
where the loop of `getTypeInfo` is entered with the null pointer, it leaves the declarator as
it is, without any placeholder. -/
theorem getTypeInfo_dangling_eval :
    Sample.envU.mDbg.findDIEbyOffset 9999 = .fault ∧
    getTypeInfo 10 Sample.envU (Sample.varRefU 2130 9999) "x".toList = .fault ∧
    getTypeInfo 10 Sample.envU (Sample.varRefU 2140 2015) "x".toList = .fault ∧
    getTypeInfo 10 Sample.envU (Sample.varRefU 2150 5) "x".toList = .fault ∧
    getTypeInfo 10 Sample.envU (Sample.varRefU 2160 2050) "x".toList = .fault ∧
    Res.bind (getTypeInfoLoop 10 Sample.envU none ⟨"x".toList, 1, false, false⟩)
      (fun st => .ok st.typeName) = .ok "x".toList :=
  ⟨rfl, by decide, by decide, by decide, by decide, by decide⟩

/-- C25: evaluation on two structures `Foo` in two namespaces without name. The segment of the
anonymous namespace is empty and both structures get the qualified name `::Foo`; the
placeholder is used only when the name accumulated so far is empty, and an empty segment
follows it even then. -/
theorem completeNameScope_anonymous_eval :
    completeNameScope ⟨Sample.structFoo 4020, [Sample.anonNs1, Sample.cuDieQ]⟩ =
      .ok "::Foo".toList ∧
    completeNameScope ⟨Sample.structFoo 4040, [Sample.anonNs2, Sample.cuDieQ]⟩ =
      .ok "::Foo".toList ∧
    completeNameScope ⟨.mk 4025 DW_TAG_structure_type [] [], [Sample.anonNs1, Sample.cuDieQ]⟩ =
      .ok "::\x60anon_nmsp_4010\x60::".toList := by
  decide

/-- C26: evaluation on the function `__foo`. Dispatched in declaration form it leaves the
document as it is; when its out-of-line definition is dispatched, the recursive call on the
declaration returns at once, the record is then created by the access under its key, and the
overlay is stored there. -/
theorem parseFunction_reserved_name_eval :
    parseFunction 8 Sample.envP Sample.cuP ⟨Sample.hiddenDecl, [Sample.cuDieP]⟩ .null =
      .ok .null ∧
    parseFunction 8 Sample.envP Sample.cuP ⟨Sample.hiddenDef, [Sample.cuDieP]⟩ .null =
      .ok Sample.hiddenOut ∧
    parseCU 8 Sample.envP Sample.cuP .null = .ok Sample.hiddenOut ∧
    hasRecord Sample.hiddenOut ["/src/p.cpp".toList] "00007-func: __foo".toList = true :=
  ⟨rfl, rfl, rfl, by decide⟩

/-- C28: evaluation on an enumerator `A`. A `const_value` held as `uint64_t` (index 1) is
stored unsigned and one held as `int64_t` (index 3) signed; one held as `uint32_t` (index 2)
or as `int32_t` (index 4) is read with `get<int64_t>`, which terminates the program. -/
theorem parseEnum_const_value_eval :
    Res.bind (parseEnum 5 (Sample.envS (Sample.enumOf (.u64 5))) (Sample.cuS (Sample.enumOf (.u64 5)))
        (Sample.enumRef (.u64 5)) .null) (fun out => .ok (Json.getAt Sample.enumeratorPath out)) =
      .ok (some (.uint 5)) ∧
    Res.bind (parseEnum 5 (Sample.envS (Sample.enumOf (.i64 (-1))))
        (Sample.cuS (Sample.enumOf (.i64 (-1)))) (Sample.enumRef (.i64 (-1))) .null)
        (fun out => .ok (Json.getAt Sample.enumeratorPath out)) =
      .ok (some (.int (-1))) ∧
    (AttrValue.u32 5).index = 2 ∧
    parseEnum 5 (Sample.envS (Sample.enumOf (.u32 5))) (Sample.cuS (Sample.enumOf (.u32 5)))
      (Sample.enumRef (.u32 5)) .null = .fault ∧
    parseEnum 5 (Sample.envS (Sample.enumOf (.i32 (-1)))) (Sample.cuS (Sample.enumOf (.i32 (-1))))
      (Sample.enumRef (.i32 (-1))) .null = .fault :=
  ⟨rfl, rfl, rfl, rfl, rfl⟩

/-- C30: evaluation on three inputs that pass the scope resolver. An enumerator without
`const_value` makes `parseEnum` dereference a null pointer, a `decl_line` held as a signed
integer makes `parseFunction` call `get<uint64_t>` on the wrong alternative, and an empty
location list makes `parseVariable` index an empty vector: no parser returns. -/
theorem parsers_fail_eval :
    findWhereToStore 5 (Sample.envS Sample.enumNoValue) (Sample.cuS Sample.enumNoValue)
      ⟨Sample.enumNoValue, [Sample.cuDieS Sample.enumNoValue]⟩ = .ok ["/src/s.cpp".toList] ∧
    parseEnum 5 (Sample.envS Sample.enumNoValue) (Sample.cuS Sample.enumNoValue)
      ⟨Sample.enumNoValue, [Sample.cuDieS Sample.enumNoValue]⟩ .null = .fault ∧
    parseFunction 5 (Sample.envS Sample.funcSignedLine) (Sample.cuS Sample.funcSignedLine)
      ⟨Sample.funcSignedLine, [Sample.cuDieS Sample.funcSignedLine]⟩ .null = .fault ∧
    parseVariable 5 (Sample.envS Sample.varEmptyLoc) (Sample.cuS Sample.varEmptyLoc)
      ⟨Sample.varEmptyLoc, [Sample.cuDieS Sample.varEmptyLoc]⟩ false .null = .fault ∧
    parseDIE 6 (Sample.envS Sample.enumNoValue) (Sample.cuS Sample.enumNoValue)
      ⟨Sample.enumNoValue, [Sample.cuDieS Sample.enumNoValue]⟩ .null = .fault :=
  ⟨by decide, rfl, rfl, rfl, rfl⟩

/-- C24: for a DIE with a non-empty name whose ancestors up to the compile unit are scopes
(namespace, class, structure, union, enumeration) with the names `a1` (outermost) to `an`
(innermost), `completeNameScope` returns `a1::...::an::name`; the walk stops at the compile
unit, whose name and whose own ancestors `rest` do not matter, and directly under the compile
unit the result is the name alone. The scopes are given innermost first. -/
theorem completeNameScope_qualified (d : Die) (nameAttr : Attr) (name : Str)
    (scopes : List (Die × Str)) (cuDie : Die) (rest : List Die)
    (hname : d.findAttrByType DW_AT_name = some nameAttr) (hv : nameAttr.mValue = .str name)
    (hne : name ≠ []) (hscopes : ∀ s ∈ scopes, NamedScope s.1 s.2)
    (hcu : cuDie.getTAG = DW_TAG_compile_unit) (hcun : (cuDie.getName []).isOk = true) :
    completeNameScope ⟨d, scopes.map Prod.fst ++ cuDie :: rest⟩ =
      .ok (qualifiedName (scopes.map Prod.snd) name) ∧
    completeNameScope ⟨d, cuDie :: rest⟩ = .ok name := by
  have hn : d.getName [] = .ok name := by simp [Die.getName, hname, Attr.getStr, hv]
  have hs : ∀ s ∈ scopes, s.1.getTAG ≠ DW_TAG_compile_unit ∧ s.1.getName [] = .ok s.2 := by
    intro s hmem
    obtain ⟨htag, a, ha, hav⟩ := hscopes s hmem
    refine ⟨?_, by simp [Die.getName, ha, Attr.getStr, hav]⟩
    rcases htag with h | h | h | h | h <;> rw [h] <;> decide
  constructor
  · unfold completeNameScope
    simp only [hn, Res.bind_ok]
    rw [completeNameScopeLoop_named name cuDie rest hcu hcun scopes name hne hs,
      foldl_scope_eq_qualifiedName]
  · have h := completeNameScopeLoop_named name cuDie rest hcu hcun [] name hne
      (fun s hmem => by cases hmem)
    unfold completeNameScope
    simp only [hn, Res.bind_ok]
    simpa using h

/-- C24, instance: the enumeration `E` in class `B` in namespace `a` is named `a::B::E`, the
class `shared_ptr<int>` in namespace `std` is named `std::shared_ptr<int>`, and the namespace
`a` directly under the compile unit is named `a`. -/
theorem completeNameScope_qualified_witness :
    completeNameScope ⟨Sample.enumE, [Sample.classB, Sample.nsA, Sample.cuDieQ]⟩ =
      .ok "a::B::E".toList ∧
    completeNameScope ⟨Sample.sharedPtr, [Sample.nsStd, Sample.cuDieQ]⟩ =
      .ok "std::shared_ptr<int>".toList ∧
    completeNameScope ⟨Sample.nsA, [Sample.cuDieQ]⟩ = .ok "a".toList :=
  ⟨(completeNameScope_qualified Sample.enumE (Attr.ofStr 4091 DW_AT_name "E") "E".toList
      [(Sample.classB, "B".toList), (Sample.nsA, "a".toList)] Sample.cuDieQ [] rfl rfl
      (by decide)
      (by
        intro s hmem
        simp only [List.mem_cons, List.mem_singleton, List.not_mem_nil, or_false] at hmem
        rcases hmem with h | h <;> subst h
        · exact ⟨Or.inr (Or.inl rfl), _, rfl, rfl⟩
        · exact ⟨Or.inl rfl, _, rfl, rfl⟩)
      rfl rfl).1,
   (completeNameScope_qualified Sample.sharedPtr (Attr.ofStr 4061 DW_AT_name "shared_ptr<int>")
      "shared_ptr<int>".toList [(Sample.nsStd, "std".toList)] Sample.cuDieQ [] rfl rfl
      (by decide)
      (by
        intro s hmem
        simp only [List.mem_singleton] at hmem
        subst hmem
        exact ⟨Or.inl rfl, _, rfl, rfl⟩)
      rfl rfl).1,
   (completeNameScope_qualified Sample.nsA (Attr.ofStr 4071 DW_AT_name "a") "a".toList []
      Sample.cuDieQ [] rfl rfl (by decide) (fun s hmem => by cases hmem) rfl rfl).2⟩

/-! ## Claims: the const flag -/

/-- C23, counterexample: the object pointer of the member function `m` has the type
const → pointer → `A` (`A *const`, the pointee `A` is not const), yet `getTypeInfo` reports
the const flag for it and the record of `m` gets `const_decorate`. -/
theorem const_flag_counterexample :
    Sample.envM.mDbg.findDIEbyOffset 3110 =
      .ok (some ⟨Sample.modifier 3110 DW_TAG_const_type (some 3100) [], [Sample.cuDieM]⟩) ∧
    Sample.envM.mDbg.findDIEbyOffset 3100 =
      .ok (some ⟨Sample.modifier 3100 DW_TAG_pointer_type (some 3010) [], [Sample.cuDieM]⟩) ∧
    Sample.envM.mDbg.findDIEbyOffset 3010 = .ok (some ⟨Sample.classWithMethods, [Sample.cuDieM]⟩) ∧
    getTypeInfo 4 Sample.envM
        ((Sample.methodRef 3020 "m" 4 3110).child (Sample.thisParam 3030 3110))
        "{obj_ptr}".toList = .ok ("const A *{obj_ptr}".toList, 1) ∧
    funcRecord 5 Sample.envM (Sample.methodRef 3020 "m" 4 3110) = .ok (Sample.methodRecord, []) ∧
    Sample.methodRecord.getKey "const_decorate".toList = some Json.one :=
  ⟨rfl, rfl, rfl, by decide, rfl, rfl⟩

/-- C23, amended: the const flag that `getTypeInfo` reports is set if and only if a const DIE
is among the DIEs without name of the type chain, whether it qualifies the terminal pointee
or the pointer itself; and the record that `parseFunction` builds for a function carries
`const_decorate` = 1 if and only if one of its children is an artificial formal parameter
for whose type chain the flag is reported. -/
theorem const_flag :
    (∀ (env : Env) (die : DieRef) (ms : List DieRef) (terminal : Option DieRef) (fuel : Nat)
        (varName : Str) (r : Str × Nat),
      (∀ t, terminal = some t → HasName t) →
      NextType env die.die (chainStart ms terminal) → UnnamedChain env ms terminal →
      getTypeInfo fuel env die varName = .ok r →
      (r.2 % 2 = 1 ↔ ∃ m ∈ ms, m.die.getTAG = DW_TAG_const_type)) ∧
    (∀ (fuel : Nat) (env : Env) (F : DieRef) (built : Json × List Die),
      funcRecord fuel env F = .ok built →
      (built.1.getKey "const_decorate".toList = some Json.one ↔
        ∃ c ∈ F.die.getChildren, ConstThis fuel env F c)) :=
  ⟨fun _ _ _ _ _ _ _ hterm hstart hchain h => getTypeInfo_const_flag hterm hstart hchain h,
   fun _ _ _ _ h => funcRecord_const_decorate h⟩

/-- C23, instance of the amended claim: the object pointer `A *const` of the member function
`m` has a const DIE on its chain, so the flag is reported and the record of `m` carries
`const_decorate`. -/
theorem const_flag_witness :
    ("const A *{obj_ptr}".toList, 1).2 % 2 = 1 ∧
    Sample.methodRecord.getKey "const_decorate".toList = some Json.one :=
  ⟨(const_flag.1 Sample.envM
      ((Sample.methodRef 3020 "m" 4 3110).child (Sample.thisParam 3030 3110))
      [⟨Sample.modifier 3110 DW_TAG_const_type (some 3100) [], [Sample.cuDieM]⟩,
       ⟨Sample.modifier 3100 DW_TAG_pointer_type (some 3010) [], [Sample.cuDieM]⟩]
      (some ⟨Sample.classWithMethods, [Sample.cuDieM]⟩) 4 "{obj_ptr}".toList
      ("const A *{obj_ptr}".toList, 1)
      (fun t ht => by
        cases ht
        exact ⟨"A".toList, by decide, rfl⟩)
      ⟨_, 3110, rfl, rfl, rfl⟩
      ⟨rfl, ⟨_, 3100, rfl, rfl, rfl⟩, rfl, ⟨_, 3010, rfl, rfl, rfl⟩, trivial⟩
      (by decide)).2 ⟨_, List.mem_cons_self _ _, rfl⟩,
   (const_flag.2 5 Sample.envM (Sample.methodRef 3020 "m" 4 3110) (Sample.methodRecord, [])
      rfl).2
      ⟨Sample.thisParam 3030 3110, List.mem_cons_self _ _, rfl, rfl,
        ("const A *{obj_ptr}".toList, 1), by decide, rfl⟩⟩

/-! ## Claims: template parameters -/

/-- C29: `parseClassTemplateParams` writes the list `0-template_param` of the parent
aggregate on first encounter only. After a successful call for a template-parameter DIE,
(1) a call for any DIE with the same parent returns the document unchanged; (2) unless the
call was skipped, the slot holds a value that is not empty: a list of one string when the
slot was absent or empty before, the old value otherwise; (3) a non-empty list reached through
no overlay key is left as it is by every later dispatch. -/
theorem parseClassTemplateParams_first_wins (fuel : Nat) (env : Env) (compileUnit : CU)
    (d1 : DieRef) (out out1 : Json) (htag : IsTemplateParamTag d1.die.getTAG)
    (h1 : parseClassTemplateParams fuel env compileUnit d1 out = .ok out1) :
    (∀ d2 : DieRef, d2.parents = d1.parents →
      parseClassTemplateParams fuel env compileUnit d2 out1 = .ok out1) ∧
    (∀ (parent : DieRef) (path : List Str) (pname : Str), d1.getParentDIE = some parent →
      findWhereToStore fuel env compileUnit parent = .ok path → path ≠ [] →
      parent.die.getName anonymousName = .ok pname →
      ∃ v, Json.getAt (path ++ [aggregateKey parent.die pname] ++ ["0-template_param".toList])
          out1 = some v ∧ v.empty = false ∧
        (((Json.getAt (path ++ [aggregateKey parent.die pname] ++ ["0-template_param".toList])
            out).getD .null).empty = true → ∃ s, v = Json.ofStrs [s]) ∧
        (((Json.getAt (path ++ [aggregateKey parent.die pname] ++ ["0-template_param".toList])
            out).getD .null).empty = false →
          Json.getAt (path ++ [aggregateKey parent.die pname] ++ ["0-template_param".toList])
            out = some v)) ∧
    (∀ (slot : List Str) (l : List Json), l ≠ [] → (∀ k ∈ slot, k ∉ overlayKeys) →
      Json.getAt slot out1 = some (.arr l) →
      ∀ (n : Nat) (env2 : Env) (cu2 : CU) (DIE : DieRef) (out2 : Json),
        parseDIE n env2 cu2 DIE out1 = .ok out2 → Json.getAt slot out2 = some (.arr l)) := by
  refine ⟨?_, ?_, ?_⟩
  · intro d2 hpar
    have hp2 : d2.getParentDIE = d1.getParentDIE := by simp [DieRef.getParentDIE, hpar]
    unfold parseClassTemplateParams at h1 ⊢
    rw [hp2]
    cases hp : d1.getParentDIE with
    | none => rw [hp] at h1; cases h1
    | some parent =>
      rw [hp] at h1
      simp only at h1 ⊢
      obtain ⟨path, hpath, h1⟩ := Res.bind_eq_ok.1 h1
      simp only [hpath, Res.bind_ok]
      by_cases hne : path = []
      · rw [if_pos hne] at h1 ⊢
      · rw [if_neg hne] at h1 ⊢
        obtain ⟨pname, hpn, h1⟩ := Res.bind_eq_ok.1 h1
        simp only [hpn, Res.bind_ok]
        obtain ⟨v, hv, hget⟩ := Json.modifyAt_getAt _ _ _ _ h1
        have hval := templateSlot_value htag hv
        have htouch := touch_after_modifyAt _ _ _ _ h1
        unfold Json.touch at htouch
        rw [← htouch]
        apply Json.modifyAt_congr
        rw [hget]
        simp only [Option.getD_some, hval.1, Bool.false_eq_true, if_false]
  · intro parent path pname hp hpath hne hpn
    unfold parseClassTemplateParams at h1
    rw [hp] at h1
    simp only [hpath, Res.bind_ok, if_neg hne, hpn] at h1
    obtain ⟨v, hv, hget⟩ := Json.modifyAt_getAt _ _ _ _ h1
    obtain ⟨hne1, hnew, hold⟩ := templateSlot_value htag hv
    refine ⟨v, hget, hne1, hnew, ?_⟩
    intro hfull
    have hv2 := hold hfull
    cases hg : Json.getAt (path ++ [aggregateKey parent.die pname] ++
        ["0-template_param".toList]) out with
    | none =>
      rw [hg] at hfull
      cases hfull
    | some w =>
      rw [hg] at hv2
      simp only [Option.getD_some] at hv2
      rw [hv2]
  · intro slot l hl hslot hget n env2 cu2 DIE out2 hparse
    exact (parse_keepsValues frameOk_nonEmptyList n).1 env2 cu2 DIE
      (Or.inl overlayKeys_holds_funcOverlayKeys) slot (.arr l) out1 out2 hslot ⟨l, hl, rfl⟩
      hparse hget

/-- C29, instance: the first template parameter `T` of `Box<int, char>` writes the list, the
second parameter `U` leaves the document as it is, and so does a later dispatch of the class. -/
theorem parseClassTemplateParams_first_wins_witness :
    parseClassTemplateParams 3 (Sample.envS Sample.classBox) (Sample.cuS Sample.classBox)
      (Sample.boxParam 530 "U") Sample.boxOut = .ok Sample.boxOut ∧
    Json.getAt ["/src/s.cpp".toList, "class: Box<int, char>".toList, "0-template_param".toList]
      Sample.boxOut = some (.arr [.str "T".toList]) :=
  have h := parseClassTemplateParams_first_wins 3 (Sample.envS Sample.classBox)
    (Sample.cuS Sample.classBox) (Sample.boxParam 520 "T") .null Sample.boxOut
    (Or.inr (Or.inl rfl)) rfl
  ⟨h.1 (Sample.boxParam 530 "U") rfl,
   h.2.2 ["/src/s.cpp".toList, "class: Box<int, char>".toList, "0-template_param".toList]
     [.str "T".toList] (List.cons_ne_nil _ _) (by decide) rfl 5 (Sample.envS Sample.classBox)
     (Sample.cuS Sample.classBox) ⟨Sample.classBox, [Sample.cuDieS Sample.classBox]⟩
     Sample.boxOut rfl⟩

/-! ## Claims: the overlay of an out-of-line definition -/

/-- C27, counterexample: the definition at offset 400 of `foo` has the parameter `a` and,
as its other child, a second definition at offset 415 with the same specification and the
parameter `b`. The nested definition is dispatched after the overlay of the outer one and
lays its own names over the record: after `parseFunction` on the outer definition,
`2-param_name` is the list with `b`, not the list with `a` of the parameter names of the
definition. And the definition at offset 460 of `foo`, with the parameter `a`, carries the
name `__foo_impl`: `parseFunction` returns at its name filter and leaves no record, hence no
`2-param_name`, in the empty document. -/
theorem parseFunction_overlay_record_counterexample :
    Sample.fooDefOuter.findAttrByType DW_AT_specification =
        some (Attr.ofU64 401 DW_AT_specification 340) ∧
      Sample.envJ.mDbg.findDIEbyOffset 340 =
        .ok (some ⟨Sample.fooDecl, [Sample.classC, Sample.namespaceN, Sample.cuDieJ]⟩) ∧
      (Sample.fooDefOuter.getChildren.filter IsNameChild).map paramNameOf =
        [Res.ok "a".toList] ∧
      Die.quietAll (Sample.fooDefOuter.getChildren.filter (fun c => !IsNameChild c)) = false ∧
      parseFunction 8 Sample.envJ Sample.cuJ ⟨Sample.fooDefOuter, [Sample.cuDieJ]⟩ .null =
        .ok Sample.fooOutJ ∧
      Json.getAt (Sample.pathC ++ ["00007-func: foo".toList, "2-param_name".toList])
        Sample.fooOutJ = some (Json.ofStrs ["b".toList]) ∧
      Json.getAt (Sample.pathC ++ ["00007-func: foo".toList, "2-param_name".toList])
        Sample.fooOutJ ≠ some (Json.ofStrs ["a".toList]) ∧
      Sample.fooDefReserved.findAttrByType DW_AT_specification =
        some (Attr.ofU64 462 DW_AT_specification 340) ∧
      (Sample.fooDefReserved.getChildren.filter IsNameChild).map paramNameOf =
        [Res.ok "a".toList] ∧
      parseFunction 8 Sample.envR Sample.cuR ⟨Sample.fooDefReserved, [Sample.cuDieR]⟩ .null =
        .ok .null ∧
      Json.getAt
        ["/inc/a.h".toList, "namespace: n".toList, "class: C".toList,
          "00007-func: foo".toList, "2-param_name".toList] .null = none := by
  refine ⟨by decide, rfl, by decide, by decide, rfl, rfl, ?_, by decide, by decide, rfl, rfl⟩
  intro h
  have h1 : Json.ofStrs ["b".toList] = Json.ofStrs ["a".toList] := Option.some.inj h
  simp only [Json.ofStrs, List.map_cons, List.map_nil] at h1
  injection h1 with h2
  injection h2 with h3 _
  injection h3 with h4
  exact absurd h4 (by decide)

/-- C27, amended: after a run of `parseFunction` that completes, on an out-of-line definition
`D` whose own name does not begin with `__` and whose specification `S` is stored at `path`
under `key`. Let `o2` be the document once the record of `S` is there (the document as it
was when the record existed already, otherwise after `S` has been parsed as a declaration),
and `names` the parameter names of the formal parameter, unspecified parameters and formal
parameter pack children of `D` in child order (`...args` for a pack). If `names` is not empty
and no DIE at or below the other children of `D` is a subprogram with a specification,
`2-param_name` of the record is `names`; if `names` is empty and no DIE at or below the other
children of `D` is a subprogram with a specification, the number, string or array that is
`2-param_name` in `o2` is left unchanged; every field that the declaration form writes from
`S`, other than `2-param_name` and `0-linkage` (it never writes `otherOffset`), is left as it
is in `o2`; and so is every number, string or array of the record under a key other than
`2-param_name`, `0-linkage`, `otherOffset`, `1-linkage` and `0-template_param`. -/
theorem parseFunction_overlay_record (n : Nat) (env : Env) (compileUnit : CU) (D S : DieRef)
    (specAttr : Attr) (ownName : Str) (off line : Nat) (path : List Str) (nm : Str)
    (out outF : Json)
    (hown : D.die.getName [] = .ok ownName) (hown2 : startsWith ownName "__".toList = false)
    (hspec : D.die.findAttrByType DW_AT_specification = some specAttr)
    (hoff : specAttr.getU64 = .ok off) (hS : env.mDbg.findDIEbyOffset off = .ok (some S))
    (hpath : findWhereToStore n env compileUnit S = .ok path) (hne : path ≠ [])
    (hline : declLineOf S.die = .ok line) (hnm : S.die.getName anonymousName = .ok nm)
    (hparse : parseFunction (n + 1) env compileUnit D out = .ok outF) :
    ∃ (names : List Str) (o1 o2 : Json),
      (D.die.getChildren.filter IsNameChild).map paramNameOf = names.map Res.ok ∧
      Json.touch path out = .ok o1 ∧
      (if hasRecord o1 path (storeKeyOf line "func" nm) = true then o2 = o1
        else parseFunction n env compileUnit S o1 = .ok o2) ∧
      (names ≠ [] →
        Die.quietAll (D.die.getChildren.filter (fun c => !IsNameChild c)) = true →
        Json.getAt (path ++ [storeKeyOf line "func" nm, "2-param_name".toList]) outF =
          some (Json.ofStrs names)) ∧
      (names = [] →
        Die.quietAll (D.die.getChildren.filter (fun c => !IsNameChild c)) = true →
        ∀ v, IsScalar v →
          Json.getAt (path ++ [storeKeyOf line "func" nm, "2-param_name".toList]) o2 = some v →
          Json.getAt (path ++ [storeKeyOf line "func" nm, "2-param_name".toList]) outF =
            some v) ∧
      (∀ (m : Nat) (built : Json × List Die) (field : Str) (v : Json),
        funcRecord m env S = .ok built → built.1.getKey field = some v →
        field ≠ "2-param_name".toList → field ≠ "0-linkage".toList →
        Json.getAt (path ++ [storeKeyOf line "func" nm, field]) o2 = some v →
        Json.getAt (path ++ [storeKeyOf line "func" nm, field]) outF = some v) ∧
      (∀ (field : Str) (v : Json), field ∉ overwrittenKeys → IsScalar v →
        Json.getAt (path ++ [storeKeyOf line "func" nm, field]) o2 = some v →
        Json.getAt (path ++ [storeKeyOf line "func" nm, field]) outF = some v) := by
  have hpath0 := hpath
  rw [parseFunction] at hparse
  simp only [hown, Res.bind_ok, hown2, Bool.false_eq_true, if_false, hspec, hoff, hS, hpath,
    if_neg hne, hline, hnm] at hparse
  obtain ⟨scan, hscan, hparse⟩ := Res.bind_eq_ok.1 hparse
  obtain ⟨o1, h1, hparse⟩ := Res.bind_eq_ok.1 hparse
  obtain ⟨o2, h2, hparse⟩ := Res.bind_eq_ok.1 hparse
  obtain ⟨o3, h3, hparse⟩ := Res.bind_eq_ok.1 hparse
  obtain ⟨hnames, _, hlater⟩ := specChild_foldl_spec _ _ _ hscan
  simp only [List.length_nil, List.drop_zero, List.nil_append] at hnames hlater
  have hsplit : ∀ (field : Str), path ++ [storeKeyOf line "func" nm, field] =
      (path ++ [storeKeyOf line "func" nm]) ++ [field] := by
    intro field; simp
  obtain ⟨w, hw, hgetw⟩ := Json.modifyAt_getAt _ _ _ _ h3
  have hfield : ∀ (field : Str) (o : Json),
      Json.getAt (path ++ [storeKeyOf line "func" nm, field]) o =
        (Json.getAt (path ++ [storeKeyOf line "func" nm]) o).bind (fun r => r.getKey field) := by
    intro field o
    rw [hsplit, Json.getAt_append]
    cases Json.getAt (path ++ [storeKeyOf line "func" nm]) o with
    | none => rfl
    | some r => exact Json.getAt_singleton field r
  have hkeysV : ∀ (field : Str), field ∉ variableOverlayKeys →
      ∀ k ∈ (path ++ [storeKeyOf line "func" nm, field]).tail, k ∉ variableOverlayKeys :=
    fun field hf => fieldPath_tail_keys variableOverlayKeys_sub hpath0 hne line nm field hf
  have hkeysO : ∀ (field : Str), field ∉ overwrittenKeys →
      ∀ k ∈ (path ++ [storeKeyOf line "func" nm, field]).tail, k ∉ overwrittenKeys :=
    fun field hf => fieldPath_tail_keys (fun _ hk => hk) hpath0 hne line nm field hf
  have hquietLater : Die.quietAll (D.die.getChildren.filter (fun c => !IsNameChild c)) = true →
      ∀ v, IsScalar v →
        Json.getAt (path ++ [storeKeyOf line "func" nm, "2-param_name".toList]) o3 = some v →
        Json.getAt (path ++ [storeKeyOf line "func" nm, "2-param_name".toList]) outF =
          some v := by
    intro hq v hv hget
    rw [← hlater] at hq
    exact parseDIE_foldl_keepsBelow frameOk_variableOverlay n env compileUnit D scan.2
      (Or.inr hq) _ v o3 outF (hkeysV _ (by decide)) hv hparse hget
  have hother : ∀ (field : Str) (v : Json), field ∉ overwrittenKeys → IsScalar v →
      Json.getAt (path ++ [storeKeyOf line "func" nm, field]) o2 = some v →
      Json.getAt (path ++ [storeKeyOf line "func" nm, field]) outF = some v := by
    intro field v hf hv hget
    have h3k := keepsBelow_modifyAt frameOk_overwritten.1
      (funcOverlay_keepsValues frameOk_overwritten.1 (by decide) D.die scan.1)
      (path ++ [storeKeyOf line "func" nm]) (by simp) _ v o2 o3 (hkeysO field hf) hv h3 hget
    exact parseDIE_foldl_keepsBelow frameOk_overwritten n env compileUnit D scan.2
      (Or.inl (by decide)) _ v o3 outF (hkeysO field hf) hv hparse h3k
  refine ⟨scan.1, o1, o2, hnames, h1, ?_, ?_, ?_, ?_, hother⟩
  · by_cases hh : hasRecord o1 path (storeKeyOf line "func" nm) = true
    · rw [if_pos hh] at h2 ⊢
      exact (Res.ok.inj h2).symm
    · rw [if_neg hh] at h2 ⊢
      exact h2
  · intro hnn hq
    apply hquietLater hq (Json.ofStrs scan.1) (rfl : (Json.ofStrs scan.1).isScalar = true)
    rw [hfield, hgetw]
    exact (funcOverlay_param_name hw).1 hnn
  · intro hnil hq v hv hget
    apply hquietLater hq v hv
    rw [hfield] at hget ⊢
    rw [hgetw]
    cases hold : Json.getAt (path ++ [storeKeyOf line "func" nm]) o2 with
    | none => rw [hold] at hget; cases hget
    | some old =>
      rw [hold] at hget hw
      simp only [Option.getD_some] at hw
      change old.getKey "2-param_name".toList = some v at hget
      show w.getKey "2-param_name".toList = some v
      rw [(funcOverlay_param_name hw).2 hnil]
      exact hget
  · intro m built field v hbuilt hg hf1 hf2 hget
    obtain ⟨hf, hv⟩ := funcRecord_field hbuilt hg hf1 hf2
    exact hother field v hf hv hget

/-- C27, instance: the definition of `foo` with the parameter `a` and a local variable,
parsed into the empty document. The record of the declaration is built first; afterwards
`2-param_name` holds the name `a` of the definition and `1-type` is as the declaration
gave it. -/
theorem parseFunction_overlay_record_witness :
    Json.getAt (Sample.pathC ++ ["00007-func: foo".toList, "2-param_name".toList])
      Sample.fooOut2 = some (Json.ofStrs ["a".toList]) ∧
    Json.getAt (Sample.pathC ++ ["00007-func: foo".toList, "1-type".toList])
      Sample.fooOut2 = some (.str "int ".toList) := by
  obtain ⟨names, o1, o2, hn, ht, ho2, hp1, _, hf, _⟩ :=
    parseFunction_overlay_record 7 Sample.envA Sample.cuA ⟨Sample.fooDef, [Sample.cuDieA]⟩
      Sample.fooDeclRef (Attr.ofU64 401 DW_AT_specification 340) [] 340 7 Sample.pathC
      "foo".toList .null Sample.fooOut2 (by decide) (by decide) (by decide) (by decide) rfl
      (by decide) (by decide) (by decide) (by decide) rfl
  have hl : (Sample.fooDef.getChildren.filter IsNameChild).map paramNameOf =
      [Res.ok "a".toList] := by decide
  have hnames : names = ["a".toList] := by
    rw [show (⟨Sample.fooDef, [Sample.cuDieA]⟩ : DieRef).die = Sample.fooDef from rfl, hl] at hn
    cases names with
    | nil => cases hn
    | cons x xs =>
      cases xs with
      | nil =>
        simp only [List.map_cons, List.map_nil, List.cons.injEq, Res.ok.injEq, and_true] at hn
        rw [hn]
      | cons y ys => simp at hn
  subst hnames
  have e1 : o1 = Sample.inClassC0 := (Res.ok.inj ht).symm
  subst e1
  rw [if_neg (by decide)] at ho2
  have e2 : o2 = Sample.fooOut1 := (Res.ok.inj ho2).symm
  subst e2
  exact ⟨hp1 (List.cons_ne_nil _ _) (by decide),
    hf 3 (Sample.fooRecord, []) "1-type".toList (.str "int ".toList) rfl rfl (by decide)
      (by decide) rfl⟩

/-! ## Claims: failed lookups, template parameter packs, empty parameter lists -/

/-- C31: evaluation on definitions whose specification is skipped or missing. When the scope
resolver skips the declaration (no `decl_file`), `parseFunction` and `parseVariable` return
the document as it is and the sibling `g` is stored. When the specification refers to an
offset where no DIE is, the lookup steps in front of the first element of a child vector:
neither parser returns, and the sibling is not parsed. -/
theorem parse_missing_specification_eval :
    parseFunction 8 (Sample.envL Sample.skippedKids) (Sample.cuL Sample.skippedKids)
      ⟨Sample.defOfNoFileFunc, [Sample.cuDieL Sample.skippedKids]⟩ .null = .ok .null ∧
    parseVariable 8 (Sample.envL Sample.skippedKids) (Sample.cuL Sample.skippedKids)
      ⟨Sample.defOfNoFileVar, [Sample.cuDieL Sample.skippedKids]⟩ false .null = .ok .null ∧
    parseCU 8 (Sample.envL Sample.skippedKids) (Sample.cuL Sample.skippedKids) .null =
      .ok Sample.lastGOut ∧
    parseFunction 8 (Sample.envL [Sample.danglingFunc, Sample.lastG])
      (Sample.cuL [Sample.danglingFunc, Sample.lastG])
      ⟨Sample.danglingFunc, [Sample.cuDieL [Sample.danglingFunc, Sample.lastG]]⟩ .null =
      .fault ∧
    parseVariable 8 (Sample.envL [Sample.danglingVar, Sample.lastG])
      (Sample.cuL [Sample.danglingVar, Sample.lastG])
      ⟨Sample.danglingVar, [Sample.cuDieL [Sample.danglingVar, Sample.lastG]]⟩ false .null =
      .fault ∧
    parseCU 8 (Sample.envL [Sample.danglingFunc, Sample.lastG])
      (Sample.cuL [Sample.danglingFunc, Sample.lastG]) .null = .fault ∧
    parseCU 8 (Sample.envL [Sample.danglingVar, Sample.lastG])
      (Sample.cuL [Sample.danglingVar, Sample.lastG]) .null = .fault ∧
    parseCU 8 (Sample.envL [Sample.lastG]) (Sample.cuL [Sample.lastG]) .null =
      .ok Sample.lastGOut :=
  ⟨rfl, rfl, rfl, rfl, rfl, rfl, rfl, rfl⟩

/-- C32: the lookup `findDIEbyOffset` never returns the null pointer, for no forest and no
offset: whenever it returns, it returns a DIE that has the offset asked for. On the type
samples an offset before the first compile unit, an offset inside a DIE, an offset inside a
child of a DIE and an offset behind the last leaf all end in the decrement of `begin()`,
while the offset of a DIE is found. -/
theorem findDIEbyOffset_never_null :
    (∀ (f : File) (off : Nat), f.findDIEbyOffset off ≠ .ok none) ∧
    (∀ (f : File) (off : Nat) (x : DieRef), f.findDIEbyOffset off = .ok (some x) →
      x.die.getOffset = off) ∧
    Sample.envT.mDbg.findDIEbyOffset 5 = .fault ∧
    Sample.envT.mDbg.findDIEbyOffset 1011 = .fault ∧
    Sample.envT.mDbg.findDIEbyOffset 1066 = .fault ∧
    Sample.envT.mDbg.findDIEbyOffset 99999 = .fault ∧
    Sample.envT.mDbg.findDIEbyOffset 1065 =
      .ok (some ⟨Sample.subrange 1065 10,
        [Sample.modifier 1060 DW_TAG_array_type (some 1040) [Sample.subrange 1065 10],
          Sample.cuDieT]⟩) := by
  refine ⟨?_, ?_, rfl, rfl, rfl, rfl, rfl⟩
  · intro f off h
    obtain ⟨x, hx, _⟩ := findDIEbyOffset_found f off none h
    cases hx
  · intro f off x h
    obtain ⟨y, hy, hoff⟩ := findDIEbyOffset_found f off (some x) h
    cases hy
    exact hoff

/-- C33: evaluation on the first template parameter of the class `V`. A type parameter `T`
gives the entry `T` and a value parameter `N` of type `int` the entry `int N`, but a
parameter pack `Ts` gives the entry `...` without its name, while the same pack on a
function gives `...Ts`. -/
theorem parseClassTemplateParams_pack_eval :
    Res.bind (parseClassTemplateParams 5 (Sample.envV (Sample.classV Sample.typeT))
        (Sample.cuV (Sample.classV Sample.typeT)) (Sample.paramOfV Sample.typeT) .null)
        (fun out => .ok (Json.getAt Sample.slotV out)) =
      .ok (some (Json.ofStrs ["T".toList])) ∧
    Res.bind (parseClassTemplateParams 5 (Sample.envV (Sample.classV Sample.valueN))
        (Sample.cuV (Sample.classV Sample.valueN)) (Sample.paramOfV Sample.valueN) .null)
        (fun out => .ok (Json.getAt Sample.slotV out)) =
      .ok (some (Json.ofStrs ["int N".toList])) ∧
    Res.bind (parseClassTemplateParams 5 (Sample.envV (Sample.classV Sample.packTs))
        (Sample.cuV (Sample.classV Sample.packTs)) (Sample.paramOfV Sample.packTs) .null)
        (fun out => .ok (Json.getAt Sample.slotV out)) =
      .ok (some (Json.ofStrs ["...".toList])) ∧
    Res.bind (parseCU 5 (Sample.envV (Sample.classV Sample.packTs))
        (Sample.cuV (Sample.classV Sample.packTs)) .null)
        (fun out => .ok (Json.getAt Sample.slotV out)) =
      .ok (some (Json.ofStrs ["...".toList])) ∧
    Res.bind (parseFunction 5 (Sample.envV (Sample.funcV Sample.packTs))
        (Sample.cuV (Sample.funcV Sample.packTs))
        ⟨Sample.funcV Sample.packTs, [Sample.cuDieV (Sample.funcV Sample.packTs)]⟩ .null)
        (fun out => .ok (Json.getAt Sample.slotF out)) =
      .ok (some (Json.ofStrs ["...Ts".toList])) :=
  ⟨rfl, rfl, rfl, rfl, rfl⟩

/-- C34: evaluation on a function type without parameters and without return type. Behind a
pointer the erasure takes the closing parenthesis of the declarator and the opening one of
the parameter list, so the result is `void (*x)` and not `void (*x)()`; reached directly
with the empty placeholder the erasure starts before the string and throws. -/
theorem parseSubroutineType_no_parameters_eval :
    getTypeInfo 5 Sample.envF (Sample.varRefF 7100 7020) "x".toList =
      .ok ("void (*x)".toList, 0) ∧
    getTypeInfo 5 Sample.envF (Sample.varRefF 7100 7020) [] = .ok ("void (*)".toList, 0) ∧
    parseSubroutineType 5 Sample.envF
      ⟨Sample.modifier 7010 DW_TAG_subroutine_type none [], [Sample.cuDieF]⟩ "(*x)".toList =
      .ok "(*x)".toList ∧
    getTypeInfo 5 Sample.envF (Sample.varRefF 7110 7010) [] = .fault ∧
    parseSubroutineType 5 Sample.envF
      ⟨Sample.modifier 7010 DW_TAG_subroutine_type none [], [Sample.cuDieF]⟩ [] = .fault := by
  decide

/-- C35: evaluation on a structure `L` local to a block of the function `f`. The function
contributes the segment `f` and the block an empty segment: the qualified name is `f::::L`,
`f::L` directly in the function and `::L` directly in a block. -/
theorem completeNameScope_other_ancestors_eval :
    completeNameScope ⟨Sample.localL, [Sample.blockOfL, Sample.funcOfL, Sample.cuDieO]⟩ =
      .ok "f::::L".toList ∧
    completeNameScope ⟨Sample.localL, [Sample.funcOfL, Sample.cuDieO]⟩ = .ok "f::L".toList ∧
    completeNameScope ⟨Sample.localL, [Sample.blockOfL, Sample.cuDieO]⟩ = .ok "::L".toList ∧
    completeNameScope ⟨Sample.localL, [Sample.cuDieO]⟩ = .ok "L".toList := by
  decide

/-- C38: evaluation of the accesses to the source-file table, which has one entry. The index
1 is read in range and the index 2 is rejected by the test against the size of the table,
but the index 0 passes that test and element `0 - 1` is read; and the index that the walk
takes over from the specification of an enclosing function is not tested at all, so the
indices 2 and 0 are both used there. -/
theorem findWhereToStore_table_access_eval :
    findWhereToStore 5 (Sample.envS (Sample.varInFile 1)) (Sample.cuS (Sample.varInFile 1))
      ⟨Sample.varInFile 1, [Sample.cuDieS (Sample.varInFile 1)]⟩ = .ok ["/src/s.cpp".toList] ∧
    findWhereToStore 5 (Sample.envS (Sample.varInFile 2)) (Sample.cuS (Sample.varInFile 2))
      ⟨Sample.varInFile 2, [Sample.cuDieS (Sample.varInFile 2)]⟩ = .ok [] ∧
    findWhereToStore 5 (Sample.envS (Sample.varInFile 0)) (Sample.cuS (Sample.varInFile 0))
      ⟨Sample.varInFile 0, [Sample.cuDieS (Sample.varInFile 0)]⟩ = .fault ∧
    srcfileAt (Sample.cuS (Sample.varInFile 0)).mSrcfiles 0 = .fault ∧
    parseCU 8 (Sample.envS (Sample.varInFile 0)) (Sample.cuS (Sample.varInFile 0)) .null =
      .fault ∧
    findWhereToStore 5 (Sample.envK 1) (Sample.cuK 1)
      ⟨Sample.localOfK, [Sample.defOfK, Sample.cuDieK 1]⟩ =
      .ok ["/src/k.cpp".toList, "00007-func: k".toList, "local_info".toList] ∧
    findWhereToStore 5 (Sample.envK 2) (Sample.cuK 2)
      ⟨Sample.localOfK, [Sample.defOfK, Sample.cuDieK 2]⟩ = .fault ∧
    findWhereToStore 5 (Sample.envK 0) (Sample.cuK 0)
      ⟨Sample.localOfK, [Sample.defOfK, Sample.cuDieK 0]⟩ = .fault :=
  ⟨by decide, by decide, by decide, by decide, rfl, by decide, by decide, by decide⟩

/-! ## Claims: the lookup in an ordered forest -/

/-- C39: in a forest in which the compile units and every child list are in strictly
increasing offset order, and in which the DIEs below each DIE have offsets greater than its
own and smaller than that of its next sibling, the lookup of the offset of a DIE of the
forest returns exactly that DIE, with its chain of parents. -/
theorem findDIEbyOffset_finds (f : File) (r : DieRef) (hord : f.ordered = true)
    (hr : r ∈ f.refs) : f.findDIEbyOffset r.die.getOffset = .ok (some r) :=
  findDIEbyOffset_of_ordered f r hord hr

/-- C39, instance: the forest of the type samples is ordered, and the lookup of the offset
1065 returns the subrange below the array type at 1060. -/
theorem findDIEbyOffset_finds_witness :
    Sample.envT.mDbg.ordered = true ∧
    Sample.envT.mDbg.findDIEbyOffset 1065 =
      .ok (some ⟨Sample.subrange 1065 10,
        [Sample.modifier 1060 DW_TAG_array_type (some 1040) [Sample.subrange 1065 10],
          Sample.cuDieT]⟩) :=
  ⟨by decide,
   findDIEbyOffset_finds Sample.envT.mDbg
     ⟨Sample.subrange 1065 10,
       [Sample.modifier 1060 DW_TAG_array_type (some 1040) [Sample.subrange 1065 10],
         Sample.cuDieT]⟩
     (by decide) (List.mem_iff_get?.2 ⟨7, rfl⟩)⟩

/-! ## Claims: termination of the type reconstructor -/

/-- C40, counterexample: a function type without name whose formal parameter is a pointer to
the function type itself. Following `type` attributes never comes back to a DIE (the rank
`rankX` falls along every `type` attribute: parameter → pointer → function type, which has
no `type` attribute), yet `getTypeInfo` on a variable of that type runs out of every fuel:
the call for the parameter reaches the function type again. -/
theorem getTypeInfo_self_parameter_counterexample :
    typeAttrsRanked Sample.envX.mDbg Sample.rankX = true ∧
    typeOffsetOf Sample.selfFuncType = none ∧
    ∀ fuel, getTypeInfo fuel Sample.envX ⟨Sample.typedVar 7540 7510, [Sample.cuDieX]⟩
      "x".toList = .timeout := by
  refine ⟨by decide, rfl, ?_⟩
  intro fuel
  cases fuel with
  | zero => rfl
  | succ f =>
    rw [getTypeInfo]
    show Res.bind (getTypeInfoLoop f Sample.envX
      (some ⟨Sample.selfFuncType, [Sample.cuDieX]⟩) _) _ = _
    rw [selfType_loop]
    rfl

/-- C40, amended: in a forest in which every step of the type reconstructor lowers a rank
(the step along a `type` attribute, and the step from a subroutine type to the type of one of
its formal parameters), `getTypeInfo` terminates: with any fuel of at least three times the
rank of the first DIE of the chain plus four it does not run out of fuel, whatever DIEs the
chain passes; and so does the call of `parseSubroutineType` for a subroutine type of the
forest, which makes the calls for the parameters. -/
theorem getTypeInfo_terminates (env : Env) (rank : Nat → Nat)
    (hrank : typesRanked env.mDbg rank = true) :
    (∀ (die : DieRef) (varName : Str) (fuel : Nat), 1 ≤ fuel →
      (∀ o, typeOffsetOf die.die = some o → 3 * rank o + 4 ≤ fuel) →
      getTypeInfo fuel env die varName ≠ .timeout) ∧
    (∀ (x : DieRef) (typeName : Str) (fuel : Nat), x ∈ env.mDbg.refs →
      x.die.getTAG = DW_TAG_subroutine_type → 3 * rank x.die.getOffset + 2 ≤ fuel →
      parseSubroutineType fuel env x typeName ≠ .timeout) :=
  ⟨fun die varName fuel h1 hfuel => getTypeInfo_ne_timeout env rank hrank die varName fuel h1 hfuel,
   fun x typeName fuel hx htag hfuel =>
     parseSubroutineType_ne_timeout env rank hrank x hx htag fuel hfuel typeName⟩

/-- C40, instance of the amended claim: in the type samples and in the samples with
anonymous types every step leads to a smaller rank; the run for a pointer to a function
with two parameters and the run through an enumeration without name that has a `type`
attribute of its own do not run out of fuel, and they return. -/
theorem getTypeInfo_terminates_witness :
    typesRanked Sample.envT.mDbg Sample.rankT = true ∧
    getTypeInfo 304 Sample.envT (Sample.varRef 1250 1100) "x".toList ≠ .timeout ∧
    getTypeInfo 304 Sample.envT (Sample.varRef 1250 1100) "x".toList =
      .ok ("int (*x)(int , int )".toList, 0) ∧
    typesRanked Sample.envU.mDbg Sample.rankU = true ∧
    getTypeInfo 67 Sample.envU (Sample.varRefU 2100 2020) "x".toList ≠ .timeout ∧
    getTypeInfo 67 Sample.envU (Sample.varRefU 2100 2020) "x".toList =
      .ok ("int \x60anony_enum_2020\x60 x".toList, 0) :=
  ⟨by decide,
   (getTypeInfo_terminates Sample.envT Sample.rankT (by decide)).1 (Sample.varRef 1250 1100)
     "x".toList 304 (by decide) (by
       intro o ho
       have : o = 1100 := by
         have h : typeOffsetOf (Sample.varRef 1250 1100).die = some 1100 := rfl
         rw [h] at ho
         exact (Option.some.inj ho).symm
       subst this
       decide),
   by decide,
   by decide,
   (getTypeInfo_terminates Sample.envU Sample.rankU (by decide)).1 (Sample.varRefU 2100 2020)
     "x".toList 67 (by decide) (by
       intro o ho
       have : o = 2020 := by
         have h : typeOffsetOf (Sample.varRefU 2100 2020).die = some 2020 := rfl
         rw [h] at ho
         exact (Option.some.inj ho).symm
       subst this
       decide),
   by decide⟩

/-! ## Claims: the order of a declaration and its definition -/

/-- C37: let `S` be a declaration (a subprogram with only parameter children, or a variable
or member) and `D` a definition whose specification is `S`, and let the document `T` hold no
record under the key of `S`. Then dispatching `S` and then `D` completes with the document
`R` if and only if dispatching `D` and then `S` completes with `R`. The declaration is
dispatched with the fuel that the definition passes on to it. -/
theorem declaration_definition_order :
    (∀ (m : Nat) (env : Env) (compileUnit : CU) (S D : DieRef) (specAttr : Attr) (off : Nat)
        (path : List Str) (line : Nat) (nm : Str) (T R : Json),
      S.die.getTAG = DW_TAG_subprogram → D.die.getTAG = DW_TAG_subprogram →
      S.die.findAttrByType DW_AT_specification = none →
      (∀ c ∈ S.die.getChildren, IsParamTag c.getTAG) →
      D.die.findAttrByType DW_AT_specification = some specAttr → specAttr.getU64 = .ok off →
      env.mDbg.findDIEbyOffset off = .ok (some S) →
      findWhereToStore m env compileUnit S = .ok path → declLineOf S.die = .ok line →
      S.die.getName anonymousName = .ok nm →
      hasRecord T path (storeKeyOf line "func" nm) = false →
      (Res.bind (parseDIE (m + 1) env compileUnit S T) (parseDIE (m + 2) env compileUnit D) =
          .ok R ↔
        Res.bind (parseDIE (m + 2) env compileUnit D T) (parseDIE (m + 1) env compileUnit S) =
          .ok R)) ∧
    (∀ (m : Nat) (env : Env) (compileUnit : CU) (S D : DieRef) (specAttr : Attr) (off : Nat)
        (path : List Str) (line : Nat) (nm : Str) (T R : Json),
      (S.die.getTAG = DW_TAG_variable ∨ S.die.getTAG = DW_TAG_member) →
      (D.die.getTAG = DW_TAG_variable ∨ D.die.getTAG = DW_TAG_member) →
      S.die.findAttrByType DW_AT_specification = none →
      D.die.findAttrByType DW_AT_specification = some specAttr → specAttr.getU64 = .ok off →
      env.mDbg.findDIEbyOffset off = .ok (some S) →
      findWhereToStore m env compileUnit S = .ok path → declLineOf S.die = .ok line →
      S.die.getName unnamedVar = .ok nm →
      hasRecord T path
        (storeKeyOf line (varKind (decide (S.die.getTAG = DW_TAG_member))) nm) = false →
      (Res.bind (parseDIE (m + 1) env compileUnit S T) (parseDIE (m + 2) env compileUnit D) =
          .ok R ↔
        Res.bind (parseDIE (m + 2) env compileUnit D T) (parseDIE (m + 1) env compileUnit S) =
          .ok R)) := by
  constructor
  · intro m env compileUnit S D specAttr off path line nm T R htS htD hspecS hchildren hspec
      hoff hS hpath hline hnm habs
    have e1 : parseDIE (m + 1) env compileUnit S = parseFunction m env compileUnit S :=
      funext fun x => parseDIE_subprogram m env compileUnit S x htS
    have e2 : parseDIE (m + 2) env compileUnit D = parseFunction (m + 1) env compileUnit D :=
      funext fun x => parseDIE_subprogram (m + 1) env compileUnit D x htD
    rw [e1, e2]
    exact parseFunction_order m env compileUnit S D specAttr off path line nm T R hspecS
      hchildren hspec hoff hS hpath hline hnm habs
  · intro m env compileUnit S D specAttr off path line nm T R htS htD hspecS hspec hoff hS
      hpath hline hnm habs
    have e1 : parseDIE (m + 1) env compileUnit S =
        parseVariable m env compileUnit S (decide (S.die.getTAG = DW_TAG_member)) := by
      funext x
      rcases htS with h | h
      · rw [parseDIE_variable m env compileUnit S x h, h]; rfl
      · rw [parseDIE_member m env compileUnit S x h, h]; rfl
    have e2 : ∃ b, parseDIE (m + 2) env compileUnit D =
        parseVariable (m + 1) env compileUnit D b := by
      rcases htD with h | h
      · exact ⟨false, funext fun x => parseDIE_variable (m + 1) env compileUnit D x h⟩
      · exact ⟨true, funext fun x => parseDIE_member (m + 1) env compileUnit D x h⟩
    obtain ⟨b, e2⟩ := e2
    rw [e1, e2]
    exact parseVariable_order m env compileUnit S D b specAttr off path line nm T R hspecS
      hspec hoff hS hpath hline hnm habs

/-- C37, instance: the declaration of `foo` and its definition, and the declaration of the
member `x` and its definition, parsed into the empty document. The definition first and the
declaration second give the document that the other order gives. -/
theorem declaration_definition_order_witness :
    Res.bind (parseDIE 9 Sample.envA Sample.cuA ⟨Sample.fooDef, [Sample.cuDieA]⟩ .null)
        (parseDIE 8 Sample.envA Sample.cuA Sample.fooDeclRef) = .ok Sample.fooOut2 ∧
    Res.bind (parseDIE 9 Sample.envA Sample.cuA ⟨Sample.xDef, [Sample.cuDieA]⟩ .null)
        (parseDIE 8 Sample.envA Sample.cuA Sample.xDeclRef) = .ok Sample.xOut2 :=
  ⟨(declaration_definition_order.1 7 Sample.envA Sample.cuA Sample.fooDeclRef
      ⟨Sample.fooDef, [Sample.cuDieA]⟩ (Attr.ofU64 401 DW_AT_specification 340) 340
      Sample.pathC 7 "foo".toList .null Sample.fooOut2 rfl rfl rfl
      (by
        intro c hc
        have hc1 : c = .mk 345 DW_TAG_formal_parameter [Attr.ofU64 346 DW_AT_type 390] [] :=
          List.mem_singleton.1 hc
        rw [hc1]
        exact Or.inl rfl)
      rfl rfl rfl (by decide) rfl rfl rfl).1 rfl,
   (declaration_definition_order.2 7 Sample.envA Sample.cuA Sample.xDeclRef
      ⟨Sample.xDef, [Sample.cuDieA]⟩ (Attr.ofU64 451 DW_AT_specification 350) 350
      Sample.pathC 9 "x".toList .null Sample.xOut2 (Or.inr rfl) (Or.inl rfl) rfl rfl rfl rfl
      (by decide) rfl rfl rfl).1 rfl⟩


/-! ## Claims: a second dispatch of the same DIE -/

/-- C36, counterexample: the definition at offset 10040 of the function `f` has a child that
defines `g`, and the declaration of `g` has a child, at offset 10030, that defines `f` again.
The first dispatch of the outer definition into the empty document stores the declaration of
`g` and dispatches its child, so the record of `f` ends with the overlay of the inner
definition. The second dispatch finds the record of `g`, leaves the declaration of `g` and
its child alone, and the record of `f` ends with the overlay of the outer definition: the
document is not the one that the first dispatch left. -/
theorem parseDIE_twice_counterexample :
    parseDIE 10 Sample.envI Sample.cuI Sample.outerDefRef .null =
        .ok (Sample.nestedOut "inner" 10030) ∧
      parseDIE 10 Sample.envI Sample.cuI Sample.outerDefRef (Sample.nestedOut "inner" 10030) =
        .ok (Sample.nestedOut "outer" 10040) ∧
      parseDIE 10 Sample.envI Sample.cuI Sample.outerDefRef (Sample.nestedOut "inner" 10030) ≠
        .ok (Sample.nestedOut "inner" 10030) ∧
      specsAreDeclarations Sample.envI Sample.outerDefF = false := by
  refine ⟨rfl, rfl, ?_, by decide⟩
  intro h
  have h2 : parseDIE 10 Sample.envI Sample.cuI Sample.outerDefRef
      (Sample.nestedOut "inner" 10030) = .ok (Sample.nestedOut "outer" 10040) := rfl
  rw [h2] at h
  have h3 := congrArg (Json.getAt ["/src/i.cpp".toList, "00007-func: f".toList,
    "otherOffset".toList]) (Res.ok.inj h)
  have h4 : Json.getAt ["/src/i.cpp".toList, "00007-func: f".toList, "otherOffset".toList]
      (Sample.nestedOut "outer" 10040) = some (.uint 10040) := rfl
  have h5 : Json.getAt ["/src/i.cpp".toList, "00007-func: f".toList, "otherOffset".toList]
      (Sample.nestedOut "inner" 10030) = some (.uint 10030) := rfl
  rw [h4, h5] at h3
  injection h3 with h3
  injection h3 with h3
  exact absurd h3 (by decide)

/-- C36, amended: dispatch is idempotent on the output tree when every specification named
at or below the DIE is a declaration, that is, a DIE without a specification attribute of its
own whose children, when it is the specification of a subprogram, are all parameters. For
every output tree `T` and every such DIE `d` on which `parseDIE` completes with the tree
`T1`, `parseDIE` applied a second time to `d` completes and leaves `T1` exactly as it is. -/
theorem parseDIE_idempotent (fuel : Nat) (env : Env) (compileUnit : CU) (d : DieRef)
    (T T1 : Json) (hspec : specsAreDeclarations env d.die = true)
    (h : parseDIE fuel env compileUnit d T = .ok T1) :
    parseDIE fuel env compileUnit d T1 = .ok T1 :=
  good_idempotent ((parse_good T1 fuel).1 env compileUnit d ((specsOk_iff env d.die).1 hspec)) h

/-- C36, instance: the definition of `foo`, whose specification is a declaration with one
parameter, dispatched twice from the empty document. -/
theorem parseDIE_idempotent_witness :
    specsAreDeclarations Sample.envA Sample.fooDef = true ∧
      parseDIE 9 Sample.envA Sample.cuA ⟨Sample.fooDef, [Sample.cuDieA]⟩ .null =
        .ok Sample.fooOut2 ∧
      parseDIE 9 Sample.envA Sample.cuA ⟨Sample.fooDef, [Sample.cuDieA]⟩ Sample.fooOut2 =
        .ok Sample.fooOut2 :=
  ⟨by decide, rfl,
    parseDIE_idempotent 9 Sample.envA Sample.cuA ⟨Sample.fooDef, [Sample.cuDieA]⟩ .null
      Sample.fooOut2 (by decide) rfl⟩
end DwarfSymbols
